import Mathlib

/-!
# Transmission: blocklist and torrent creator

A shallow embedding of `libtransmission/blocklist.c` and
`libtransmission/makemeta.c`, with the properties of the design
specification that concern them.

Conventions of the embedding.

* C unsigned integers are natural numbers.  Where the source does
  arithmetic that can leave the range of the type, the wrap-around is written
  out with `% 2 ^ w`; where it only copies and compares values the natural
  number is used as it is.
* A C array together with its element count is a `List`.
* Functions of the C library that the source calls (`qsort`, `bsearch`,
  `sscanf`, ...) are not part of the repository.  `qsort` is taken as a
  parameter constrained by its contract, the others are modelled by small
  executable definitions.
-/

set_option autoImplicit false

/-! ## blocklist.c : data model -/

/-- The `struct tr_ipv4_range` of blocklist.c: two `uint32_t` in host order.
The field `end` of the source is spelled `end_`. -/
structure tr_ipv4_range where
  begin : Nat
  end_ : Nat
deriving DecidableEq, Repr

/-- The comparator `compareAddressRangesByFirstAddress` (blocklist.c:307). -/
def compareAddressRangesByFirstAddress (a b : tr_ipv4_range) : Int :=
  if a.begin ≠ b.begin then
    (if a.begin < b.begin then -1 else 1)
  else 0

/-- The comparator `compareAddressToRange` (blocklist.c:127). -/
def compareAddressToRange (a : Nat) (b : tr_ipv4_range) : Int :=
  if a < b.begin then -1
  else if a > b.end_ then 1
  else 0

/-- The contract of the C library's `qsort` for a comparator `cmp`: the array
is rearranged in place (the result is a permutation of the input) into
ascending order according to `cmp`. -/
def QsortContract {α : Type} (qsort : (α → α → Int) → List α → List α)
    (cmp : α → α → Int) : Prop :=
  ∀ l : List α, (qsort cmp l).Perm l ∧ (qsort cmp l).Pairwise (fun a b => cmp a b ≤ 0)

/-- One sorting procedure that fulfils the contract: insertion sort driven by
the C comparator. -/
def insertionQsort {α : Type} (cmp : α → α → Int) (l : List α) : List α :=
  l.insertionSort (fun a b => cmp a b ≤ 0)

/-- The merge loop of `tr_blocklistFileSetContent` (blocklist.c:391-396).
`keep` is the entry `*keep`, the second argument is the unread part
`[r, end)` of the sorted array.  The entries of the array below `keep` are
never written again, so they are emitted as soon as `keep` advances; the
result is the array `ranges[0 .. keep]` of line 398. -/
def mergeLoop (keep : tr_ipv4_range) : List tr_ipv4_range → List tr_ipv4_range
  | [] => [keep]
  | r :: rest =>
    if keep.end_ < r.begin then
      keep :: mergeLoop r rest
    else if keep.end_ < r.end_ then
      mergeLoop { keep with end_ := r.end_ } rest
    else
      mergeLoop keep rest

/-- The "sort and merge" block of `tr_blocklistFileSetContent`
(blocklist.c:380-398) applied to the parsed ranges: the value of
`ranges[0 .. ranges_count)` that line 415 writes to the blocklist file. -/
def tr_blocklistFileSetContent
    (qsort : (tr_ipv4_range → tr_ipv4_range → Int) → List tr_ipv4_range → List tr_ipv4_range)
    (ranges : List tr_ipv4_range) : List tr_ipv4_range :=
  match ranges with
  | [] => []
  | _ :: _ =>
    match qsort compareAddressRangesByFirstAddress ranges with
    | [] => []
    | first :: rest => mergeLoop first rest

/-- The sanity checks of blocklist.c:400-412, compiled in unless `NDEBUG` is
defined: `true` when neither `assert` fires. -/
def sanityChecks (ranges : List tr_ipv4_range) : Bool :=
  ranges.all (fun r => decide (r.begin ≤ r.end_)) &&
  (List.range (ranges.length - 1)).all (fun i =>
    match ranges.get? i, ranges.get? (i + 1) with
    | some a, some b => decide (a.end_ < b.begin)
    | _, _ => true)

/-- Address `x` lies in the closed range `r`. -/
def inRange (x : Nat) (r : tr_ipv4_range) : Prop :=
  r.begin ≤ x ∧ x ≤ r.end_

instance (x : Nat) (r : tr_ipv4_range) : Decidable (inRange x r) := by
  unfold inRange; infer_instance

/-- Address `x` lies in some range of the list. -/
def covered (x : Nat) (l : List tr_ipv4_range) : Prop :=
  ∃ r ∈ l, inRange x r


/-! ## blocklist.c : lookup -/

/-- The address family tag of a `tr_address` (net.h). -/
inductive tr_address_type where
  | TR_AF_INET
  | TR_AF_INET6
deriving DecidableEq, Repr

/-- A `tr_address`: the family tag and the bytes of the union `addr` as they
lie in memory, that is in network byte order.  For `TR_AF_INET` the first four
bytes are `addr.addr4.s_addr`. -/
structure tr_address where
  type : tr_address_type
  addr : List Nat
deriving DecidableEq, Repr

/-- The value `ntohl (addr->addr.addr4.s_addr)`: the four bytes of the IPv4
address read most significant first. -/
def ntohl_addr4 (a : tr_address) : Nat :=
  a.addr.getD 0 0 * 2 ^ 24 + a.addr.getD 1 0 * 2 ^ 16 + a.addr.getD 2 0 * 2 ^ 8 + a.addr.getD 3 0

/-- The `struct tr_blocklistFile`, as far as the lookup reads it.  `rules` is
`none` for the `NULL` pointer and otherwise the mapped array; `ruleCount` is
the length of that array (both are set together by `blocklistLoad` and
`blocklistClose`). -/
structure tr_blocklistFile where
  isEnabled : Bool
  rules : Option (List tr_ipv4_range)
deriving DecidableEq, Repr

/-- The function `blocklistLoad` (blocklist.c:81).  `disk` is the content of the
file `b->filename` read as an array of ranges, or `none` when the file
cannot be stat-ed or opened. -/
def blocklistLoad (disk : Option (List tr_ipv4_range)) (b : tr_blocklistFile) :
    tr_blocklistFile :=
  match disk with
  | none => { b with rules := none }
  | some mapped => { b with rules := some mapped }

/-- The function `blocklistEnsureLoaded` (blocklist.c:120). -/
def blocklistEnsureLoaded (disk : Option (List tr_ipv4_range)) (b : tr_blocklistFile) :
    tr_blocklistFile :=
  if b.rules = none then blocklistLoad disk b else b

/-- The loop of the C library's `bsearch` over the index interval `[l, u)`:
probe the middle entry, continue left or right according to the sign of the
comparator, stop on `0`.  The first argument bounds the number of iterations;
every iteration shrinks `u - l`, so `nmemb` iterations are never exceeded. -/
def bsearchLoop {α β : Type} (cmp : α → β → Int) (key : α) (base : List β) :
    Nat → Nat → Nat → Option β
  | 0, _, _ => none
  | fuel + 1, l, u =>
    if l < u then
      let idx := (l + u) / 2
      match base[idx]? with
      | none => none
      | some p =>
        if cmp key p < 0 then bsearchLoop cmp key base fuel l idx
        else if cmp key p > 0 then bsearchLoop cmp key base fuel (idx + 1) u
        else some p
    else none

/-- The C library's `bsearch (key, base, nmemb, size, compar)`: the entry
found, or `none` for `NULL`.  The lookup only tests the result for `NULL`. -/
def bsearch {α β : Type} (cmp : α → β → Int) (key : α) (base : List β) : Option β :=
  bsearchLoop cmp key base base.length 0 base.length

/-- The function `tr_blocklistFileHasAddress` (blocklist.c:204): the returned
`int` and the blocklist after the call (the call may load the rules).  The
`assert (tr_address_is_valid (addr))` asks for one of the two family tags and
holds for every value of `tr_address`. -/
def tr_blocklistFileHasAddress (disk : Option (List tr_ipv4_range))
    (b : tr_blocklistFile) (addr : tr_address) : Int × tr_blocklistFile :=
  if !b.isEnabled || addr.type = tr_address_type.TR_AF_INET6 then
    (0, b)
  else
    let b1 := blocklistEnsureLoaded disk b
    match b1.rules with
    | none => (0, b1)
    | some rules =>
      if rules.length = 0 then (0, b1)
      else
        let needle := ntohl_addr4 addr
        let range := bsearch compareAddressToRange needle rules
        (if range ≠ none then 1 else 0, b1)

/-! ## blocklist.c : parsing -/

/-- A conversion directive of a `scanf` format, as far as the formats of
blocklist.c use them: `%d` with an optional maximum field width, a literal
character, and white space. -/
inductive ScanItem where
  | int (width : Option Nat)
  | lit (c : Char)
  | space
deriving DecidableEq, Repr

/-- The C `isspace` in the "C" locale. -/
def isspace (c : Char) : Bool :=
  c = ' ' || c = '\t' || c = '\n' || c = '\x0b' || c = '\x0c' || c = '\r'

/-- The C `isdigit`. -/
def isdigit (c : Char) : Bool :=
  '0'.toNat ≤ c.toNat && c.toNat ≤ '9'.toNat

/-- The value of a string of decimal digits. -/
def digitsValue (ds : List Char) : Nat :=
  ds.foldl (fun acc c => 10 * acc + (c.toNat - '0'.toNat)) 0

/-- Conversion of an integer to `int` (32 bits, two's complement), as the
cast `(int)` does on the supported compilers. -/
def toInt32 (n : Int) : Int :=
  (n + 2 ^ 31) % 2 ^ 32 - 2 ^ 31

/-- The conversion `%d` of `scanf`: skip white space, then read an optional
sign and decimal digits, at most `width` characters when a width is given.
Returns the number stored and the rest of the input, or `none` on a matching
failure.  A number outside the range of `int` is undefined behaviour in C;
the model does what the GNU C library does: the digits are converted as by
`strtol`, which stops at the ends of the range of `long` (64 bits), and the
`long` is stored in the `int`. -/
def scanInt (width : Option Nat) (s : List Char) : Option (Int × List Char) :=
  let s1 := s.dropWhile isspace
  let w := width.getD s1.length
  let field := s1.take w
  let (neg, signLen) :=
    match field with
    | '-' :: _ => (true, 1)
    | '+' :: _ => (false, 1)
    | _ => (false, 0)
  let ds := (field.drop signLen).takeWhile isdigit
  if ds = [] then none
  else
    let v : Int := digitsValue ds
    let num : Int := max (-(2 ^ 63)) (min (2 ^ 63 - 1) (if neg then -v else v))
    some (toInt32 num, s1.drop (signLen + ds.length))

/-- The C library's `sscanf` for a format made of `ScanItem`s: the values
converted before the first failure (the return value of `sscanf` is their
number). -/
def sscanf : List ScanItem → List Char → List Int
  | [], _ => []
  | ScanItem.int w :: fmt, s =>
    match scanInt w s with
    | none => []
    | some (v, rest) => v :: sscanf fmt rest
  | ScanItem.lit c :: fmt, s =>
    match s with
    | [] => []
    | d :: rest => if d = c then sscanf fmt rest else []
  | ScanItem.space :: fmt, s => sscanf fmt (s.dropWhile isspace)

/-- The format "%d.%d.%d.%d-%d.%d.%d.%d" of `parseLine1`. -/
def formatP2P : List ScanItem :=
  [.int none, .lit '.', .int none, .lit '.', .int none, .lit '.', .int none, .lit '-',
   .int none, .lit '.', .int none, .lit '.', .int none, .lit '.', .int none]

/-- The format "%3d.%3d.%3d.%3d - %3d.%3d.%3d.%3d , %3d , " of `parseLine2`. -/
def formatDAT : List ScanItem :=
  [.int (some 3), .lit '.', .int (some 3), .lit '.', .int (some 3), .lit '.', .int (some 3),
   .space, .lit '-', .space,
   .int (some 3), .lit '.', .int (some 3), .lit '.', .int (some 3), .lit '.', .int (some 3),
   .space, .lit ',', .space, .int (some 3), .space, .lit ',', .space]

/-- The steps `tr_snprintf (str, ..., "%d.%d.%d.%d", ...)`,
`tr_address_from_string (&addr, str)` and `ntohl (addr.addr.addr4.s_addr)` of
the two line parsers: a dotted quad printed from four `int`s is accepted as
an address exactly when each of them is in `0 .. 255` (a minus sign or a
number above 255 is rejected by `inet_pton` for both address families), and
its host-order value has the first number in the most significant byte. -/
def hostOrderOfQuad (q0 q1 q2 q3 : Int) : Option Nat :=
  if 0 ≤ q0 ∧ q0 ≤ 255 ∧ 0 ≤ q1 ∧ q1 ≤ 255 ∧ 0 ≤ q2 ∧ q2 ≤ 255 ∧ 0 ≤ q3 ∧ q3 ≤ 255 then
    some (q0.toNat * 2 ^ 24 + q1.toNat * 2 ^ 16 + q2.toNat * 2 ^ 8 + q3.toNat)
  else none

/-- The C `strrchr (line, ':')` followed by `++walk`: the text after the last
colon, or `none` when the line has no colon. -/
def afterLastColon (line : List Char) : Option (List Char) :=
  match line with
  | [] => none
  | c :: rest =>
    match afterLastColon rest with
    | some tail => some tail
    | none => if c = ':' then some rest else none

/-- The function `parseLine1` (blocklist.c:236), P2P plaintext format. -/
def parseLine1 (line : List Char) : Option tr_ipv4_range :=
  match afterLastColon line with
  | none => none
  | some walk =>
    match sscanf formatP2P walk with
    | [b0, b1, b2, b3, e0, e1, e2, e3] =>
      match hostOrderOfQuad b0 b1 b2 b3 with
      | none => none
      | some begin =>
        match hostOrderOfQuad e0 e1 e2 e3 with
        | none => none
        | some end_ => some ⟨begin, end_⟩
    | _ => none

/-- The function `parseLine2` (blocklist.c:272), DAT format. -/
def parseLine2 (line : List Char) : Option tr_ipv4_range :=
  match sscanf formatDAT line with
  | [a0, a1, a2, a3, b0, b1, b2, b3, _] =>
    match hostOrderOfQuad a0 a1 a2 a3 with
    | none => none
    | some begin =>
      match hostOrderOfQuad b0 b1 b2 b3 with
      | none => none
      | some end_ => some ⟨begin, end_⟩
  | _ => none

/-- The function `parseLine` (blocklist.c:300). -/
def parseLine (line : List Char) : Option tr_ipv4_range :=
  match parseLine1 line with
  | some range => some range
  | none => parseLine2 line

/-- The steps "zap the linefeed" of blocklist.c:361-362: cut the line at the
first carriage return, then at the first line feed. -/
def zapLinefeed (line : List Char) : List Char :=
  (line.takeWhile (fun c => c ≠ '\r')).takeWhile (fun c => c ≠ '\n')

/-- The reading loop of `tr_blocklistFileSetContent` (blocklist.c:353-378):
`lines` are the chunks returned by `fgets`; the lines that do not parse are
skipped, the others are appended to `ranges`. -/
def readRanges (lines : List (List Char)) : List tr_ipv4_range :=
  lines.filterMap (fun line => parseLine (zapLinefeed line))

/-- The whole of `tr_blocklistFileSetContent` from the input lines to the
array written to the blocklist file, in a build with `NDEBUG` (no
assertions). -/
def tr_blocklistFileSetContent_lines
    (qsort : (tr_ipv4_range → tr_ipv4_range → Int) → List tr_ipv4_range → List tr_ipv4_range)
    (lines : List (List Char)) : List tr_ipv4_range :=
  tr_blocklistFileSetContent qsort (readRanges lines)

/-! ## makemeta.c : data model -/

/-- Reduction of a natural number to the range of `uint32_t`. -/
def u32 (n : Nat) : Nat := n % 2 ^ 32

/-- Reduction of a natural number to the range of `uint64_t`. -/
def u64 (n : Nat) : Nat := n % 2 ^ 64

/-- A C string: the values of its `char`s up to the terminating NUL, which is
not part of the list. -/
abbrev CString := List Int

/-- The `char` values of an ASCII text. -/
def cstr (s : String) : CString :=
  s.toList.map (fun c => (c.toNat : Int))

/-- The `struct tr_metainfo_builder_file` of makemeta.h. -/
structure tr_metainfo_builder_file where
  filename : CString
  size : Nat
deriving DecidableEq, Repr

/-- The `enum tr_metainfo_builder_err` of makemeta.h. -/
inductive tr_metainfo_builder_err where
  | TR_MAKEMETA_OK
  | TR_MAKEMETA_URL
  | TR_MAKEMETA_CANCELLED
  | TR_MAKEMETA_IO_READ
  | TR_MAKEMETA_IO_WRITE
deriving DecidableEq, Repr

/-- The `struct tr_tracker_info` as far as the torrent creator uses it. -/
structure tr_tracker_info where
  tier : Int
  announce : CString
deriving DecidableEq, Repr

/-- The function `tr_strlcpy (dst, src, siz)` (utils.c:689), as the content of
`dst` afterwards: the first `siz - 1` characters of `src`, and `dst` as it was
when `siz` is 0. -/
def tr_strlcpy (dst src : CString) (siz : Nat) : CString :=
  if siz = 0 then dst else src.take (siz - 1)

/-- The `struct tr_metainfo_builder` of makemeta.h.  The array `files` carries
its own length, which is the field `fileCount` (`uint32_t`) of the source; in
the same way `trackers` carries `trackerCount`.  `totalSize` is a `uint64_t`,
`pieceSize`, `pieceCount` and `pieceIndex` are `uint32_t`.  `errfileSize` is
`sizeof (errfile)`: the array `errfile` is declared in makemeta.h, which is
not under src/, so its size is carried along with the builder (2048 unless
said otherwise). -/
structure tr_metainfo_builder where
  top : CString := []
  files : List tr_metainfo_builder_file := []
  totalSize : Nat := 0
  pieceSize : Nat := 0
  pieceCount : Nat := 0
  isSingleFile : Bool := false
  trackers : List tr_tracker_info := []
  comment : Option CString := none
  outputFile : Option CString := none
  isPrivate : Bool := false
  pieceIndex : Nat := 0
  abortFlag : Bool := false
  isDone : Bool := false
  result : tr_metainfo_builder_err := tr_metainfo_builder_err.TR_MAKEMETA_OK
  errfile : CString := []
  errfileSize : Nat := 2048
  my_errno : Int := 0
deriving DecidableEq, Repr

/-- The function `bestPieceSize` (makemeta.c:91).  The constants are
`uint32_t`, so the products are formed in 32-bit unsigned arithmetic before
they are compared with the 64-bit `totalSize`. -/
def bestPieceSize (totalSize : Nat) : Nat :=
  let KiB : Nat := 1024
  let MiB : Nat := 1048576
  let GiB : Nat := 1073741824
  if totalSize ≥ u32 (2 * GiB) then u32 (2 * MiB)
  else if totalSize ≥ u32 (1 * GiB) then u32 (1 * MiB)
  else if totalSize ≥ u32 (512 * MiB) then u32 (512 * KiB)
  else if totalSize ≥ u32 (350 * MiB) then u32 (256 * KiB)
  else if totalSize ≥ u32 (150 * MiB) then u32 (128 * KiB)
  else if totalSize ≥ u32 (50 * MiB) then u32 (64 * KiB)
  else u32 (32 * KiB)

/-- The function `tr_metaInfoBuilderSetPieceSize` (makemeta.c:171).  `none`
stands for the division by zero when `bytes` is 0.  The quotient is a
`uint64_t`, cast to `int` and stored in the `uint32_t` field `pieceCount`,
which is then incremented when the division leaves a remainder. -/
def tr_metaInfoBuilderSetPieceSize (b : tr_metainfo_builder) (bytes : Nat) :
    Option tr_metainfo_builder :=
  if bytes = 0 then none
  else
    let b1 := { b with pieceSize := bytes }
    let b2 := { b1 with
      pieceCount := (toInt32 ((b1.totalSize / b1.pieceSize : Nat) : Int) % 2 ^ 32).toNat }
    if b2.totalSize % b2.pieceSize ≠ 0 then
      some { b2 with pieceCount := u32 (b2.pieceCount + 1) }
    else some b2

/-- The macro `EVUTIL_TOLOWER_` of libevent on a `char` value: the ASCII
capital letters are mapped to the small ones, every other value is kept. -/
def EVUTIL_TOLOWER (c : Int) : Int :=
  if 65 ≤ c ∧ c ≤ 90 then c + 32 else c

/-- The `char` at the start of a C string, after `EVUTIL_TOLOWER`; at the end
of the string that is the terminating NUL. -/
def lowerHead (s : CString) : Int :=
  EVUTIL_TOLOWER (s.headD 0)

/-- The function `evutil_ascii_strcasecmp` of libevent: walk both strings,
compare the lower-cased `char`s, return -1 or 1 at the first difference and 0
when both strings end together. -/
def evutil_ascii_strcasecmp : CString → CString → Int
  | [], s2 =>
    if 0 < lowerHead s2 then -1
    else if 0 > lowerHead s2 then 1
    else 0
  | c :: s1, s2 =>
    if EVUTIL_TOLOWER c < lowerHead s2 then -1
    else if EVUTIL_TOLOWER c > lowerHead s2 then 1
    else if EVUTIL_TOLOWER c = 0 then 0
    else evutil_ascii_strcasecmp s1 s2.tail

/-- The comparator `builderFileCompare` (makemeta.c:107). -/
def builderFileCompare (a b : tr_metainfo_builder_file) : Int :=
  evutil_ascii_strcasecmp a.filename b.filename

mutual
/-- What `stat` and `opendir`/`readdir` report for a path: nothing (`stat`
fails), a regular file of a given size, a directory with its entries in
`readdir` order (`canOpen` tells whether `opendir` succeeds), or some other
kind of file. -/
inductive FsEntry where
  | missing
  | regular (size : Nat)
  | directory (canOpen : Bool) (entries : DirEntries)
  | other
/-- The entries of a directory, in the order in which `readdir` returns them. -/
inductive DirEntries where
  | nil
  | cons (name : CString) (entry : FsEntry) (rest : DirEntries)
end

/-- The function `tr_buildPath (dir, base, NULL)` (utils.c:372): the two
elements joined by `TR_PATH_DELIMITER`, the slash. -/
def tr_buildPath (dir base : CString) : CString :=
  dir ++ [47] ++ base

mutual
/-- The function `getFiles` (makemeta.c:48).  `entry` is what the file system
holds at `dir/base`; the result is the linked list that the C function
returns, newest node first. -/
def getFiles (dir base : CString) (entry : FsEntry)
    (list : List tr_metainfo_builder_file) : List tr_metainfo_builder_file :=
  match entry with
  | FsEntry.missing => list
  | FsEntry.directory true entries => getFilesDir (tr_buildPath dir base) entries list
  | FsEntry.directory false _ => list
  | FsEntry.regular size =>
    if size > 0 then ⟨tr_buildPath dir base, size⟩ :: list else list
  | FsEntry.other => list
/-- The `readdir` loop of `getFiles` (makemeta.c:73-75): entries whose name
starts with a dot are skipped. -/
def getFilesDir (buf : CString) (entries : DirEntries)
    (list : List tr_metainfo_builder_file) : List tr_metainfo_builder_file :=
  match entries with
  | DirEntries.nil => list
  | DirEntries.cons name entry rest =>
    if name.headD 0 ≠ 46 then
      getFilesDir buf rest (getFiles buf name entry list)
    else
      getFilesDir buf rest list
end

/-- The function `tr_metaInfoBuilderCreate` (makemeta.c:116).  `topFile` is
the resolved path that `tr_realpath` stores, `dir` and `base` are
`tr_dirname (topFile)` and `tr_basename (topFile)`, and `entry` is what the
file system holds there (when `stat` fails the source tests an uninitialised
`struct stat` for `isSingleFile`; the model takes `true` there).  The result
is `none` only if `tr_metaInfoBuilderSetPieceSize` divides by zero. -/
def tr_metaInfoBuilderCreate
    (qsort : (tr_metainfo_builder_file → tr_metainfo_builder_file → Int) →
      List tr_metainfo_builder_file → List tr_metainfo_builder_file)
    (topFile dir base : CString) (entry : FsEntry) : Option tr_metainfo_builder :=
  let isSingleFile : Bool :=
    match entry with
    | FsEntry.directory _ _ => false
    | _ => true
  let files := getFiles dir base entry []
  let totalSize := files.foldl (fun acc f => u64 (acc + f.size)) 0
  let ret : tr_metainfo_builder :=
    { top := topFile
      isSingleFile := isSingleFile
      files := qsort builderFileCompare files
      totalSize := totalSize }
  tr_metaInfoBuilderSetPieceSize ret (bestPieceSize ret.totalSize)

/-- Lexicographic "less than or equal" on the `char` values of two strings,
the order of `strcmp`. -/
def lexLe : CString → CString → Bool
  | [], _ => true
  | _ :: _, [] => false
  | a :: s1, b :: s2 => a < b || (a = b && lexLe s1 s2)

/-! ## makemeta.c : hashing the pieces -/

/-- The constant `SHA_DIGEST_LENGTH`: the size of a SHA-1 digest in bytes. -/
def SHA_DIGEST_LENGTH : Nat := 20

/-- How a run of a C function ends: it returns, an `assert` fires (the
argument is the line of the source), it runs into undefined behaviour (an
index past the end of an array, a write past the end of a buffer), or it
never ends. -/
inductive Outcome (α : Type) where
  | returned (a : α)
  | assertFailed (line : Nat)
  | fault
  | hang
deriving DecidableEq, Repr

/-- How the loop `while (leftInPiece)` of `getHashInfo` ends: the piece is in
the buffer (with the values of `fileIndex`, `off`, `fd` and the bytes
`buf[0 .. bufptr)` at that moment), or the next file could not be opened.
An open descriptor is modelled by the content of the file it reads; `none` is
the descriptor -1. -/
inductive PieceRead where
  | filled (fileIndex off : Nat) (fd : Option (List Nat)) (buf : List Nat)
  | openFailed (fileIndex : Nat)
deriving DecidableEq, Repr

/-- The loop `while (leftInPiece)` of `getHashInfo` (makemeta.c:246-274).
`disk` gives the content of the file of a given name, or `none` when it
cannot be opened.  `read` delivers the bytes of the file from the position
`off` on, at most `n_this_pass` of them; when it delivers fewer, the end of
the file is reached, every further `read` delivers nothing and the loop never
ends.  In the states reached from `getHashInfo`, `off` never exceeds the size
of the current file and a descriptor is open whenever `fileIndex` is below
`fileCount`, so the subtractions do not wrap.  The first argument bounds the
number of iterations: every iteration but the last moves on to the next
file. -/
def readPiece (disk : CString → Option (List Nat)) (files : List tr_metainfo_builder_file) :
    Nat → Nat → Nat → Option (List Nat) → Nat → List Nat → Outcome PieceRead
  | 0, fileIndex, off, fd, leftInPiece, buf =>
    if leftInPiece = 0 then Outcome.returned (PieceRead.filled fileIndex off fd buf)
    else Outcome.hang
  | fuel + 1, fileIndex, off, fd, leftInPiece, buf =>
    if leftInPiece = 0 then Outcome.returned (PieceRead.filled fileIndex off fd buf)
    else
      match files[fileIndex]?, fd with
      | none, _ => Outcome.fault
      | some _, none => Outcome.fault
      | some file, some content =>
        let n_this_pass := min (file.size - off) leftInPiece
        let data := (content.drop off).take n_this_pass
        let n_read := data.length
        if n_read < n_this_pass then Outcome.hang
        else if off + n_read = file.size then
          if fileIndex + 1 < files.length then
            match disk ((files[fileIndex + 1]?.map (fun f => f.filename)).getD []) with
            | none => Outcome.returned (PieceRead.openFailed (fileIndex + 1))
            | some next =>
              readPiece disk files fuel (fileIndex + 1) 0 (some next) (leftInPiece - n_read)
                (buf ++ data)
          else
            readPiece disk files fuel (fileIndex + 1) 0 none (leftInPiece - n_read) (buf ++ data)
        else
          readPiece disk files fuel fileIndex (off + n_read) fd (leftInPiece - n_read)
            (buf ++ data)

/-- How the loop `while (totalRemain)` of `getHashInfo` is left: by
`return NULL`, or through its end or the `break`, with the values of the
builder, `totalRemain` and the digests written so far. -/
inductive HashLoopExit where
  | returnedNull (b : tr_metainfo_builder)
  | left (b : tr_metainfo_builder) (totalRemain : Nat) (walk : List (List Nat))
deriving DecidableEq, Repr

/-- The loop `while (totalRemain)` of `getHashInfo` (makemeta.c:238-289).
`ndebug` tells whether the `assert`s are compiled out, `sha1` is `tr_sha1`,
`errno` the value of `errno` after a failed open, `slots` the number of
digests that fit into the buffer `ret`, `walk` the digests written so far.
The `assert (leftInPiece == 0)` of line 277 follows the loop
`while (leftInPiece)` and cannot fire.  The first argument bounds the number
of iterations: every iteration takes at least one byte off `totalRemain`
unless the piece size is 0. -/
def hashPieces (ndebug : Bool) (sha1 : List Nat → List Nat)
    (disk : CString → Option (List Nat)) (errno : Int) (slots : Nat) :
    Nat → tr_metainfo_builder → Nat → Nat → Option (List Nat) → Nat → List (List Nat) →
      Outcome HashLoopExit
  | 0, b, _, _, _, totalRemain, walk =>
    if totalRemain = 0 then Outcome.returned (HashLoopExit.left b totalRemain walk)
    else Outcome.hang
  | fuel + 1, b, fileIndex, off, fd, totalRemain, walk =>
    if totalRemain = 0 then Outcome.returned (HashLoopExit.left b totalRemain walk)
    else
      let thisPieceSize := u32 (min b.pieceSize totalRemain)
      if !ndebug && !decide (b.pieceIndex < b.pieceCount) then Outcome.assertFailed 244
      else
        match readPiece disk b.files (b.files.length - fileIndex + 1) fileIndex off fd
            thisPieceSize [] with
        | Outcome.assertFailed line => Outcome.assertFailed line
        | Outcome.fault => Outcome.fault
        | Outcome.hang => Outcome.hang
        | Outcome.returned (PieceRead.openFailed i) =>
          Outcome.returned (HashLoopExit.returnedNull
            { b with my_errno := errno
                     errfile := tr_strlcpy b.errfile
                       ((b.files[i]?.map (fun f => f.filename)).getD []) b.errfileSize
                     result := tr_metainfo_builder_err.TR_MAKEMETA_IO_READ })
        | Outcome.returned (PieceRead.filled fileIndex1 off1 fd1 buf) =>
          if !ndebug && !decide ((buf.length : Int) = toInt32 thisPieceSize) then
            Outcome.assertFailed 276
          else if slots ≤ walk.length then Outcome.fault
          else
            let walk1 := walk ++ [sha1 buf]
            if b.abortFlag then
              Outcome.returned (HashLoopExit.left
                { b with result := tr_metainfo_builder_err.TR_MAKEMETA_CANCELLED }
                totalRemain walk1)
            else
              hashPieces ndebug sha1 disk errno slots fuel
                { b with pieceIndex := u32 (b.pieceIndex + 1) }
                fileIndex1 off1 fd1 (totalRemain - thisPieceSize) walk1

/-- What `getHashInfo` hands back: the pointer `ret` (`none` for `NULL`,
otherwise the buffer as a list of 20-byte slots) and the builder after the
call. -/
structure HashInfo where
  ret : Option (List (List Nat))
  b : tr_metainfo_builder
deriving DecidableEq, Repr

/-- The function `getHashInfo` (makemeta.c:208).  The buffer `ret` has
`SHA_DIGEST_LENGTH * b->pieceCount` bytes, a product formed in 32-bit unsigned
arithmetic, and is zero-filled; a digest is written to it for every piece
hashed.  The differences of pointers in the two `assert`s are exact, the
right-hand sides are cast to `int`. -/
def getHashInfo (ndebug : Bool) (sha1 : List Nat → List Nat)
    (disk : CString → Option (List Nat)) (errno : Int) (b : tr_metainfo_builder) :
    Outcome HashInfo :=
  let retBytes := u32 (SHA_DIGEST_LENGTH * b.pieceCount)
  let slots := retBytes / SHA_DIGEST_LENGTH
  let zeroSlot := List.replicate SHA_DIGEST_LENGTH 0
  if b.totalSize = 0 then
    Outcome.returned ⟨some (List.replicate slots zeroSlot), b⟩
  else
    let b0 := { b with pieceIndex := 0 }
    match b0.files[0]? with
    | none => Outcome.fault
    | some first =>
      match disk first.filename with
      | none =>
        Outcome.returned ⟨none,
          { b0 with my_errno := errno
                    errfile := tr_strlcpy b0.errfile first.filename b0.errfileSize
                    result := tr_metainfo_builder_err.TR_MAKEMETA_IO_READ }⟩
      | some content =>
        match hashPieces ndebug sha1 disk errno slots b0.totalSize b0 0 0 (some content)
            b0.totalSize [] with
        | Outcome.assertFailed line => Outcome.assertFailed line
        | Outcome.fault => Outcome.fault
        | Outcome.hang => Outcome.hang
        | Outcome.returned (HashLoopExit.returnedNull b1) => Outcome.returned ⟨none, b1⟩
        | Outcome.returned (HashLoopExit.left b1 totalRemain walk) =>
          if !ndebug && !(b1.abortFlag ||
              decide ((SHA_DIGEST_LENGTH * walk.length : Nat) =
                toInt32 (u32 (SHA_DIGEST_LENGTH * b1.pieceCount)))) then
            Outcome.assertFailed 291
          else if !ndebug && !(b1.abortFlag || decide (totalRemain = 0)) then
            Outcome.assertFailed 293
          else
            Outcome.returned
              ⟨some (walk ++ List.replicate (slots - walk.length) zeroSlot), b1⟩

/-- The bytes `[from, to)` of a byte string. -/
def byteRange (bytes : List Nat) (start stop : Nat) : List Nat :=
  (bytes.drop start).take (stop - start)

/-- The concatenation of the contents of the builder's files, in the order of
the builder. -/
def concatenatedFiles (disk : CString → Option (List Nat)) (b : tr_metainfo_builder) :
    List Nat :=
  (b.files.map (fun f => (disk f.filename).getD [])).flatten

/-- The digests that the specification expects for a builder: the `k`-th is the
SHA-1 of the bytes `[k * pieceSize, min ((k+1) * pieceSize, totalSize))` of the
concatenated files. -/
def expectedDigests (sha1 : List Nat → List Nat) (disk : CString → Option (List Nat))
    (b : tr_metainfo_builder) : List (List Nat) :=
  (List.range b.pieceCount).map (fun k =>
    sha1 (byteRange (concatenatedFiles disk b) (k * b.pieceSize)
      (min ((k + 1) * b.pieceSize) b.totalSize)))

/-- The concatenation of the contents of a list of files. -/
def contentsOf (disk : CString → Option (List Nat)) (files : List tr_metainfo_builder_file) :
    List Nat :=
  (files.map (fun f => (disk f.filename).getD [])).flatten

/-- Every file of the list has a positive size and can be opened, and its
content has exactly the recorded size (so that every `read` delivers the
number of bytes asked for). -/
def FilesReadable (disk : CString → Option (List Nat))
    (files : List tr_metainfo_builder_file) : Prop :=
  ∀ f ∈ files, 0 < f.size ∧ ∃ d, disk f.filename = some d ∧ d.length = f.size

/-- The reading position `(fileIndex, off, fd)` stands in front of the bytes
`rest` of the concatenated files: either inside the file `fileIndex`, whose
descriptor is open, or behind the last file with nothing left. -/
def ReadingAt (disk : CString → Option (List Nat)) (files : List tr_metainfo_builder_file)
    (fileIndex off : Nat) (fd : Option (List Nat)) (rest : List Nat) : Prop :=
  (∃ pre cur post c, files = pre ++ cur :: post ∧ fileIndex = pre.length ∧ fd = some c ∧
      c.length = cur.size ∧ off < cur.size ∧ rest = c.drop off ++ contentsOf disk post) ∨
  (fileIndex = files.length ∧ rest = [])

/-- The first `k` digests expected for the byte string `bytes` cut into pieces
of `p` bytes, `total` being the length of the string. -/
def digestsUpTo (sha1 : List Nat → List Nat) (bytes : List Nat) (p total k : Nat) :
    List (List Nat) :=
  (List.range k).map (fun j => sha1 (byteRange bytes (j * p) (min ((j + 1) * p) total)))

/-- A small file system for examples: the files "a", "b" and "c" with 3, 4
and 1 bytes. -/
def exampleDisk (name : CString) : Option (List Nat) :=
  if name = [97] then some [1, 2, 3]
  else if name = [98] then some [4, 5, 6, 7]
  else if name = [99] then some [8]
  else none

/-- A builder over the three files of `exampleDisk`, with pieces of 3 bytes. -/
def exampleBuilder : tr_metainfo_builder :=
  { files := [⟨[97], 3⟩, ⟨[98], 4⟩, ⟨[99], 1⟩]
    totalSize := 8
    pieceSize := 3
    pieceCount := 3 }

/-! ## verify.c and list.c : the queue of torrents to verify -/

/-- The `struct verify_node` of verify.c.  `torrent` identifies the
`tr_torrent` the node points to; the callback and its data play no part in
the order of the queue. -/
structure verify_node where
  torrent : Nat
  current_size : Nat
deriving DecidableEq, Repr

/-- The comparator `compareVerifyByPriorityAndSize` (verify.c:239).
`priority` stands for `tr_torrentGetPriority`, read from the torrent each
time two nodes are compared. -/
def compareVerifyByPriorityAndSize (priority : Nat → Int) (a b : verify_node) : Int :=
  let pa := priority a.torrent
  let pb := priority b.torrent
  if pa ≠ pb then
    (if pa > pb then -1 else 1)
  else if a.current_size < b.current_size then -1
  else if a.current_size > b.current_size then 1
  else 0

/-- The function `tr_list_insert_sorted` (list.c:174) on the list of the
`data` pointers: the new element goes in front of the first node `l` with
`compare (data, l->data) <= 0`; the three branches of the source (append when
there is no such node, prepend when it is the head, link in between
otherwise) all give this list. -/
def tr_list_insert_sorted {α : Type} (list : List α) (data : α) (compare : α → α → Int) :
    List α :=
  match list with
  | [] => [data]
  | x :: rest =>
    if compare data x ≤ 0 then data :: x :: rest
    else x :: tr_list_insert_sorted rest data compare

/-- The function `tr_verifyAdd` (verify.c:259) on the pending list:
`current_size` is the value of `tr_torrentGetCurrentSizeOnDisk (tor)` at the
time of the call. -/
def tr_verifyAdd (priority : Nat → Int) (verifyList : List verify_node)
    (tor : Nat) (current_size : Nat) : List verify_node :=
  tr_list_insert_sorted verifyList ⟨tor, current_size⟩
    (compareVerifyByPriorityAndSize priority)

/-- The step of `verifyThreadFunc` (verify.c:207-219) that takes the next
job: the node at the head of the list, if any, and the list without it. -/
def verifyThreadTakeNext (verifyList : List verify_node) :
    Option verify_node × List verify_node :=
  match verifyList with
  | [] => (none, [])
  | node :: rest => (some node, rest)

/-- A call that changes the pending list: `tr_verifyAdd`, or the worker
taking the next job. -/
inductive VerifyCall where
  | add (tor : Nat) (current_size : Nat)
  | takeNext
deriving DecidableEq, Repr

/-- The pending list after a sequence of calls. -/
def runVerifyCalls (priority : Nat → Int) (verifyList : List verify_node) :
    List VerifyCall → List verify_node
  | [] => verifyList
  | VerifyCall.add tor size :: calls =>
    runVerifyCalls priority (tr_verifyAdd priority verifyList tor size) calls
  | VerifyCall.takeNext :: calls =>
    runVerifyCalls priority (verifyThreadTakeNext verifyList).2 calls

/-! ## utils.c : tr_parseNumberRange -/

/-- The largest `int` (32 bits). -/
def INT_MAX : Int := 2 ^ 31 - 1

/-- The smallest `int` (32 bits). -/
def INT_MIN : Int := -(2 ^ 31)

/-- The largest `long` where `long` has 64 bits (Linux and macOS on 64-bit
processors). -/
def LONG_MAX : Int := 2 ^ 63 - 1

/-- The smallest `long` where `long` has 64 bits. -/
def LONG_MIN : Int := -(2 ^ 63)

/-- The result of an arithmetic operation on `int`s: the exact value when it
is in the range of `int`, and `none` when the operation overflows, which is
undefined behaviour in C. -/
def intResult (x : Int) : Option Int :=
  if INT_MIN ≤ x ∧ x ≤ INT_MAX then some x else none

/-- The `struct number_range` of utils.c:1246. -/
structure number_range where
  low : Int
  high : Int
deriving DecidableEq, Repr

/-- What a call of the C `strtol` leaves behind: the value returned, the text
at `*end`, whether a number was converted (`end != nptr`), and whether
`errno` was set to `ERANGE`. -/
structure StrtolResult where
  value : Int
  rest : List Char
  converted : Bool
  erange : Bool
deriving DecidableEq, Repr

/-- The C `strtol (nptr, &end, 10)`: skip white space, read an optional sign
and the longest run of decimal digits.  Without a digit nothing is converted,
the value is 0 and `end` is `nptr`.  A value outside the range of `long` is
replaced by `LONG_MAX` or `LONG_MIN` and `errno` becomes `ERANGE`. -/
def strtol (nptr : List Char) : StrtolResult :=
  let s1 := nptr.dropWhile isspace
  let neg := s1.head? = some '-'
  let s2 := if s1.head? = some '-' ∨ s1.head? = some '+' then s1.tail else s1
  let ds := s2.takeWhile isdigit
  let rest := s2.dropWhile isdigit
  if ds = [] then ⟨0, nptr, false, false⟩
  else
    let v : Int := if neg then -((digitsValue ds : Nat) : Int) else ((digitsValue ds : Nat) : Int)
    if v > LONG_MAX then ⟨LONG_MAX, rest, true, true⟩
    else if v < LONG_MIN then ⟨LONG_MIN, rest, true, true⟩
    else ⟨v, rest, true, false⟩

/-- The C string made by `tr_strndup (in, len)` (utils.c:476): the whole of
`in` when `len` is negative, otherwise its first `len` characters. -/
def tr_strndup (str : List Char) (len : Int) : List Char :=
  if len < 0 then str else str.take len.toNat

/-- The function `parseNumberSection` (utils.c:1256): the success flag and the
range stored in `*setme`.  `a` and `b` are `long`; the assignments to the
`int` fields `low` and `high` convert them to `int`. -/
def parseNumberSection (str : List Char) (len : Int) : Bool × number_range :=
  let tmp := tr_strndup str len
  let r1 := strtol tmp
  let a := r1.value
  if r1.erange || !r1.converted then
    (false, ⟨toInt32 (min a a), toInt32 (max a a)⟩)
  else if r1.rest.head? ≠ some '-' then
    (true, ⟨toInt32 (min a a), toInt32 (max a a)⟩)
  else
    let pch := r1.rest.tail
    let r2 := strtol pch
    let b := r2.value
    let success :=
      if r2.erange || !r2.converted then false
      else if r2.rest ≠ [] then false
      else true
    (success, ⟨toInt32 (min a b), toInt32 (max a b)⟩)

/-- The comparator `compareInt` (utils.c:1289) on two `int`s.  The difference
`a - b` is computed in `int`; where it overflows it is taken to wrap around,
as it does on two's complement hardware. -/
def compareInt (a b : Int) : Int :=
  toInt32 (a - b)

/-- The C `strchr (s, c)` for a character `c` other than NUL: the offset of
the first `c` in `s`, or `none` for the null pointer. -/
def strchr (s : List Char) (c : Char) : Option Nat :=
  match s with
  | [] => none
  | x :: t => if x = c then some 0 else (strchr t c).map (fun k => k + 1)

/-- The loop `while (walk && *walk && success)` of `tr_parseNumberRange`
(utils.c:1322-1337).  `ranges` is the list built so far.  The result is the
final `success` and the list; `none` when `fuel` iterations do not end the
loop. -/
def parseSections : Nat → List Char → List number_range → Option (Bool × List number_range)
  | 0, _, _ => none
  | fuel + 1, walk, ranges =>
    if walk = [] then some (true, ranges)
    else
      match strchr walk ',' with
      | some pch =>
        let r := parseNumberSection walk (pch : Int)
        if r.1 then parseSections fuel (walk.drop (pch + 1)) (ranges ++ [r.2])
        else some (false, ranges)
      | none =>
        let r := parseNumberSection walk (walk.length : Int)
        if r.1 then parseSections fuel (walk.drop walk.length) (ranges ++ [r.2])
        else some (false, ranges)

/-- The loop that adds up `n += r->high + 1 - r->low` (utils.c:1351-1355),
each operation on `int`; `none` when one of them overflows. -/
def countNumbers : Int → List number_range → Option Int
  | n, [] => some n
  | n, r :: rest =>
    match intResult (r.high + 1) with
    | none => none
    | some h1 =>
      match intResult (h1 - r.low) with
      | none => none
      | some d =>
        match intResult (n + d) with
        | none => none
        | some n1 => countNumbers n1 rest

/-- The numbers `low, low + 1, ..., high` written by the inner loop
`for (i=r->low; i<=r->high; ++i)` (utils.c:1368); `high < INT_MAX` where the
loop is reached, so `++i` does not overflow. -/
def numbersOf (r : number_range) : List Int :=
  (List.range (r.high + 1 - r.low).toNat).map (fun (k : Nat) => r.low + (k : Int))

/-- The loop that removes duplicates (utils.c:1386-1388): `uniq` holds the
entries written so far, in order. -/
def removeDuplicates : List Int → List Int → List Int
  | uniq, [] => uniq
  | uniq, x :: rest =>
    if uniq = [] ∨ uniq.getLast? ≠ some x then removeDuplicates (uniq ++ [x]) rest
    else removeDuplicates uniq rest

/-- The function `tr_parseNumberRange` (utils.c:1312): the array returned
(`none` for NULL) and the value stored in `*setmeCount`.

`qsort` stands for the C library's sort.  `tr_new (int, n)` is
`tr_malloc (sizeof (int) * (size_t) n)`: NULL for `n = 0` (utils.c:93) and for
a negative `n`, whose size is close to `SIZE_MAX`; an allocation of any other
size is taken to succeed.  Writing `sorted[n2++]` past the `n` entries of
`sorted` is a fault. -/
def tr_parseNumberRange (ndebug : Bool) (qsort : (Int → Int → Int) → List Int → List Int)
    (str_in : List Char) (len : Int) : Outcome (Option (List Int) × Int) :=
  let str := tr_strndup str_in len
  match parseSections (str.length + 1) str [] with
  | none => Outcome.hang
  | some (false, _) => Outcome.returned (none, 0)
  | some (true, ranges) =>
    match countNumbers 0 ranges with
    | none => Outcome.fault
    | some n =>
      if n ≤ 0 then Outcome.returned (none, 0)
      else
        let written := (ranges.map numbersOf).flatten
        if (written.length : Int) > n then Outcome.fault
        else if (written.length : Int) ≠ n then
          (if ndebug then Outcome.fault else Outcome.assertFailed 1376)
        else
          let sorted := qsort compareInt written
          let uniq := removeDuplicates [] sorted
          Outcome.returned (some uniq, (uniq.length : Int))

/-- The contract of the C library's `qsort` for a comparator that is a
consistent order on the values that satisfy `P`: an array of such values is
returned rearranged in ascending order. -/
def QsortContractOn {α : Type} (P : α → Prop) (qsort : (α → α → Int) → List α → List α)
    (cmp : α → α → Int) : Prop :=
  ∀ l : List α, (∀ x ∈ l, P x) →
    (qsort cmp l).Perm l ∧ (qsort cmp l).Pairwise (fun a b => cmp a b ≤ 0)

/-- One section of the text given to `tr_parseNumberRange`, as its
documentation describes it: a single number, or two numbers joined by `-`,
each number written as a string of decimal digits. -/
structure NumberSection where
  first : List Char
  second : Option (List Char)
deriving DecidableEq, Repr

/-- A string of decimal digits with at least one digit. -/
def IsNumber (ds : List Char) : Prop :=
  ds ≠ [] ∧ ∀ c ∈ ds, isdigit c = true

instance (ds : List Char) : Decidable (IsNumber ds) := by
  unfold IsNumber; exact inferInstance

/-- The text `*end` points to after a number: the end of the string, or a
character that is not a digit. -/
def EndsNumber (rest : List Char) : Prop :=
  ∀ c, rest.head? = some c → isdigit c = false

/-- Both numbers of a section are strings of decimal digits. -/
def NumberSection.WellFormed (s : NumberSection) : Prop :=
  IsNumber s.first ∧ ∀ b, s.second = some b → IsNumber b

instance (s : NumberSection) : Decidable s.WellFormed :=
  match h : s.second with
  | none => decidable_of_iff (IsNumber s.first)
      (by unfold NumberSection.WellFormed; simp [h])
  | some b => decidable_of_iff (IsNumber s.first ∧ IsNumber b)
      (by unfold NumberSection.WellFormed; simp [h])

/-- The text of a section: `a` or `a-b`. -/
def NumberSection.text (s : NumberSection) : List Char :=
  match s.second with
  | none => s.first
  | some b => s.first ++ '-' :: b

/-- The smaller of the numbers of a section. -/
def NumberSection.lo (s : NumberSection) : Int :=
  match s.second with
  | none => (digitsValue s.first : Nat)
  | some b => min ((digitsValue s.first : Nat) : Int) ((digitsValue b : Nat) : Int)

/-- The larger of the numbers of a section. -/
def NumberSection.hi (s : NumberSection) : Int :=
  match s.second with
  | none => (digitsValue s.first : Nat)
  | some b => max ((digitsValue s.first : Nat) : Int) ((digitsValue b : Nat) : Int)

/-- The range of a section, as `parseNumberSection` stores it. -/
def NumberSection.range (s : NumberSection) : number_range :=
  ⟨s.lo, s.hi⟩

/-- The sections joined by commas. -/
def sectionsText : List NumberSection → List Char
  | [] => []
  | [s] => s.text
  | s :: t :: rest => s.text ++ ',' :: sectionsText (t :: rest)

/-- How many numbers the sections cover, counted with repetition. -/
def sectionsSize (secs : List NumberSection) : Int :=
  (secs.map (fun s => s.hi + 1 - s.lo)).sum

/-! ## torrent-magnet.c : fetching the metadata of a magnet link -/

/-- Modelled from the spec: the constant `METADATA_PIECE_SIZE` of
torrent-magnet.h, a header that is not under src/.  The spec has the receive
buffer "split into 16-KiB metadata pieces". -/
def METADATA_PIECE_SIZE : Int := 16384

/-- The constant `MIN_REPEAT_INTERVAL_SECS` (torrent-magnet.c:45). -/
def MIN_REPEAT_INTERVAL_SECS : Int := 3

/-- The `struct metadata_node` (torrent-magnet.c:48).  `requestedAt` is a
`time_t`, taken as an unbounded integer; `piece` is an `int`. -/
structure metadata_node where
  requestedAt : Int
  piece : Int
deriving DecidableEq, Repr

/-- The `struct tr_incomplete_metadata` (torrent-magnet.c:54).  `metadata` is
the buffer (empty for the null pointer).  `piecesNeeded` holds the entries
`0 .. piecesNeededCount - 1` of the array, the ones in use; the array is the
null pointer, and the list empty, when the count is not positive. -/
structure tr_incomplete_metadata where
  metadata : List Nat
  metadata_size : Int
  pieceCount : Int
  piecesNeeded : List metadata_node
  piecesNeededCount : Int
deriving DecidableEq, Repr

/-- One entry of `tr_info.files`: the length of the file in bytes. -/
structure tr_file where
  length : Nat
deriving DecidableEq, Repr

/-- Modelled from the spec: the `tr_info` of transmission.h, a header that is
not under src/, with the fields that torrent-magnet.c and verify.c read:
the infohash `hash`, the files (`fileCount` is the length of the list), the
hashes of the pieces (`pieceCount` is the length of the list), the piece size
and the total size.  The spec lists them as the content of the Metainfo:
infohash, files, piece table, piece length. -/
structure tr_info where
  hash : List Nat := []
  files : List tr_file := []
  pieces : List (List Nat) := []
  pieceSize : Nat := 0
  totalSize : Nat := 0
deriving DecidableEq, Repr

/-- Modelled from the spec: the fields of `tr_torrent` (torrent.h, not under
src/) that torrent-magnet.c and verify.c use.  `completion` has one entry per
piece, the spec's "one bit per piece"; `lastPieceSize` is the length of the
last piece. -/
structure tr_torrent where
  info : tr_info := {}
  infoDictLength : Int := 0
  incompleteMetadata : Option tr_incomplete_metadata := none
  lastPieceSize : Nat := 0
  completion : List Bool := []
deriving DecidableEq, Repr

/-- Modelled from the spec: `tr_torrentHasMetadata` of torrent.h (not under
src/).  The spec's magnet start produces "a partial Metainfo with only
infohash, name, and trackers; piece table and files are filled in later": a
torrent has its metadata when its file list is filled in. -/
def tr_torrentHasMetadata (tor : tr_torrent) : Bool :=
  decide (tor.info.files.length > 0)

/-- The entries written by the loops `for (i=0; i<n; ++i)` of
torrent-magnet.c:92 and :309: piece `i`, never requested. -/
def allPiecesNeeded (n : Int) : List metadata_node :=
  (List.range n.toNat).map (fun (i : Nat) => (⟨0, (i : Int)⟩ : metadata_node))

/-- The function `tr_torrentSetMetadataSizeHint` (torrent-magnet.c:73).

`size` is an `int`.  The sum `size + (METADATA_PIECE_SIZE - 1)` is computed in
`int`; its overflow is undefined behaviour and ends the run as a fault.  The
division of C truncates towards zero.  `tr_new (uint8_t, size)` returns a block
of `size` bytes that is not initialised: `uninit i` is the value that byte `i`
happens to hold.  For a `size` that is not positive `tr_new` returns the null
pointer (utils.c:93), as it does for a count of entries that is not
positive. -/
def tr_torrentSetMetadataSizeHint (uninit : Nat → Nat) (tor : tr_torrent) (size : Int) :
    Outcome tr_torrent :=
  if !tr_torrentHasMetadata tor then
    match tor.incompleteMetadata with
    | none =>
      match intResult (size + (METADATA_PIECE_SIZE - 1)) with
      | none => Outcome.fault
      | some s =>
        let n := Int.tdiv s METADATA_PIECE_SIZE
        let m : tr_incomplete_metadata :=
          { pieceCount := n
            metadata := (List.range size.toNat).map uninit
            metadata_size := size
            piecesNeededCount := n
            piecesNeeded := allPiecesNeeded n }
        Outcome.returned { tor with incompleteMetadata := some m }
    | some _ => Outcome.returned tor
  else Outcome.returned tor

/-- The C `memcpy (dst + offset, src, len)` into a buffer that has room for
it, `len` being the length of `src`. -/
def memcpyAt (dst : List Nat) (offset : Nat) (src : List Nat) : List Nat :=
  dst.take offset ++ src ++ dst.drop (offset + src.length)

/-- The function `tr_torrentSetMetadataPiece` (torrent-magnet.c:200).

`data` is the block received and `len` its length.  `sha1` stands for
`tr_sha1`.  `parse tor metadata` stands for lines 250-279, which use parts of
the library that are not under src/ (`tr_variantFromBenc`,
`tr_variantFromFile`, `tr_metainfoParse`, `tr_getBlockSize`): it is
`some (info, infoDictLength)` when the metadata parses, the .torrent file
loads, the merged metainfo parses and its block size is not zero, and `none`
otherwise.

The products and sums of `int`s that overflow, a `memcpy` that does not fit
the buffer, an index outside the entries in use, and a `tr_sha1` over more
bytes than the buffer has, end the run as a fault. -/
def tr_torrentSetMetadataPiece (sha1 : List Nat → List Nat)
    (parse : tr_torrent → List Nat → Option (tr_info × Int))
    (tor : tr_torrent) (piece : Int) (data : List Nat) : Outcome tr_torrent :=
  match intResult (piece * METADATA_PIECE_SIZE) with
  | none => Outcome.fault
  | some offset =>
    -- are we set up to download metadata?
    match tor.incompleteMetadata with
    | none => Outcome.returned tor
    | some m =>
      -- does this data pass the smell test?
      match intResult (offset + (data.length : Int)) with
      | none => Outcome.fault
      | some e =>
        if e > m.metadata_size then Outcome.returned tor
        else
          -- do we need this piece?
          let i := m.piecesNeeded.findIdx (fun nd => decide (nd.piece = piece))
          if (i : Int) = m.piecesNeededCount then Outcome.returned tor
          else if m.piecesNeeded.length ≤ i then Outcome.fault
          else if offset < 0 ∨ (m.metadata.length : Int) < e then Outcome.fault
          else
            let metadata := memcpyAt m.metadata offset.toNat data
            let piecesNeeded := m.piecesNeeded.eraseIdx i
            let piecesNeededCount := m.piecesNeededCount - 1
            -- are we done?
            if piecesNeededCount = 0 then
              if (metadata.length : Int) ≠ m.metadata_size then Outcome.fault
              else
                let checksumPassed := decide (sha1 metadata = tor.info.hash)
                match (if checksumPassed then parse tor metadata else none) with
                | some (info, infoDictLength) =>
                  Outcome.returned
                    { tor with
                      info := info
                      infoDictLength := infoDictLength
                      incompleteMetadata := none }
                | none =>
                  Outcome.returned
                    { tor with
                      incompleteMetadata := some
                        { m with
                          metadata := metadata
                          piecesNeeded := allPiecesNeeded m.pieceCount
                          piecesNeededCount := m.pieceCount } }
            else
              Outcome.returned
                { tor with
                  incompleteMetadata := some
                    { m with
                      metadata := metadata
                      piecesNeeded := piecesNeeded
                      piecesNeededCount := piecesNeededCount } }

/-- The function `tr_torrentGetNextMetadataRequest` (torrent-magnet.c:323):
the torrent afterwards and `some piece` when the function returns true with
`*setme_piece = piece`.  A positive count over an array without entries ends
the run as a fault. -/
def tr_torrentGetNextMetadataRequest (tor : tr_torrent) (now : Int) :
    Outcome (tr_torrent × Option Int) :=
  match tor.incompleteMetadata with
  | none => Outcome.returned (tor, none)
  | some m =>
    if m.piecesNeededCount > 0 then
      match m.piecesNeeded with
      | [] => Outcome.fault
      | node :: rest =>
        if node.requestedAt + MIN_REPEAT_INTERVAL_SECS < now then
          let piece := node.piece
          Outcome.returned
            ({ tor with
               incompleteMetadata := some
                 { m with piecesNeeded := rest ++ [⟨now, piece⟩] } },
             some piece)
        else Outcome.returned (tor, none)
    else Outcome.returned (tor, none)

/-- One call of the three functions above. -/
inductive MagnetCall where
  | sizeHint (size : Int)
  | nextRequest (now : Int)
  | setPiece (piece : Int) (data : List Nat)
deriving DecidableEq, Repr

/-- The call `tr_torrentSetMetadataPiece (tor, piece, data, len)` delivers
the last piece that is still needed: the torrent awaits metadata, exactly one
piece is needed, it is `piece`, and the data passes the size test
`offset + len <= metadata_size`. -/
def deliversLastPiece (tor : tr_torrent) (piece : Int) (data : List Nat) : Bool :=
  match tor.incompleteMetadata with
  | none => false
  | some m =>
    match m.piecesNeeded with
    | [nd] => decide (nd.piece = piece ∧
        piece * METADATA_PIECE_SIZE + (data.length : Int) ≤ m.metadata_size)
    | _ => false

/-- What a call did, as seen from outside: for `nextRequest` the time and the
piece returned, for `setPiece` whether it delivered the last needed piece. -/
inductive MagnetEvent where
  | hinted
  | requested (now : Int) (piece : Option Int)
  | received (last : Bool)
deriving DecidableEq, Repr

/-- A sequence of calls on one torrent, each on the state the one before
left: the final torrent and what each call did.  A call that does not return
ends the sequence. -/
def magnetRun (uninit : Nat → Nat) (sha1 : List Nat → List Nat)
    (parse : tr_torrent → List Nat → Option (tr_info × Int)) :
    tr_torrent → List MagnetCall → Outcome (tr_torrent × List MagnetEvent)
  | tor, [] => Outcome.returned (tor, [])
  | tor, MagnetCall.sizeHint size :: rest =>
    match tr_torrentSetMetadataSizeHint uninit tor size with
    | Outcome.returned tor1 =>
      match magnetRun uninit sha1 parse tor1 rest with
      | Outcome.returned (tor2, log) => Outcome.returned (tor2, MagnetEvent.hinted :: log)
      | other => other
    | Outcome.assertFailed line => Outcome.assertFailed line
    | Outcome.fault => Outcome.fault
    | Outcome.hang => Outcome.hang
  | tor, MagnetCall.nextRequest now :: rest =>
    match tr_torrentGetNextMetadataRequest tor now with
    | Outcome.returned (tor1, piece) =>
      match magnetRun uninit sha1 parse tor1 rest with
      | Outcome.returned (tor2, log) =>
        Outcome.returned (tor2, MagnetEvent.requested now piece :: log)
      | other => other
    | Outcome.assertFailed line => Outcome.assertFailed line
    | Outcome.fault => Outcome.fault
    | Outcome.hang => Outcome.hang
  | tor, MagnetCall.setPiece piece data :: rest =>
    match tr_torrentSetMetadataPiece sha1 parse tor piece data with
    | Outcome.returned tor1 =>
      match magnetRun uninit sha1 parse tor1 rest with
      | Outcome.returned (tor2, log) =>
        Outcome.returned (tor2, MagnetEvent.received (deliversLastPiece tor piece data) :: log)
      | other => other
    | Outcome.assertFailed line => Outcome.assertFailed line
    | Outcome.fault => Outcome.fault
    | Outcome.hang => Outcome.hang

/-- The array of needed pieces is as the three functions keep it: no piece
is listed twice, and the entries in use are as many as the count says (none
for a count that is not positive). -/
def NeededWellFormed (tor : tr_torrent) : Prop :=
  ∀ m, tor.incompleteMetadata = some m →
    (m.piecesNeeded.map (fun nd => nd.piece)).Nodup ∧
      m.piecesNeeded.length = m.piecesNeededCount.toNat

/-- The torrent awaits metadata and every entry for piece `p` in the array of
needed pieces carries a request time of `t` or later. -/
def RequestedSince (p : Int) (t : Int) (tor : tr_torrent) : Prop :=
  ∃ m, tor.incompleteMetadata = some m ∧
    ∀ nd ∈ m.piecesNeeded, nd.piece = p → t ≤ nd.requestedAt

/-! ## verify.c : verifyTorrent -/

/-- Modelled from the spec: `tr_cpPieceIsComplete` of completion.c, which is
not under src/.  The spec has the completion bitfield with "one bit per
piece; true iff that piece has passed verification"; a piece without a bit is
not complete. -/
def tr_cpPieceIsComplete (completion : List Bool) (piece : Nat) : Bool :=
  completion.getD piece false

/-- Modelled from the spec: `tr_torrentSetHasPiece (tor, piece, has)` of
torrent.c, which is not under src/, on the completion bitfield of the torrent:
the spec's "flip the completion bit accordingly".  The bit of `piece` becomes
`has`, the other bits stay. -/
def tr_torrentSetHasPiece : List Bool → Nat → Bool → List Bool
  | [], 0, has => [has]
  | [], i + 1, has => false :: tr_torrentSetHasPiece [] i has
  | _ :: c, 0, has => has :: c
  | b :: c, i + 1, has => b :: tr_torrentSetHasPiece c i has

/-- Modelled from the spec: `tr_torPieceCountBytes` of torrent.h, which is not
under src/: the number of bytes of a piece.  The spec has "the last piece may
be short" and `sum(files.length) == piece_length * (pieces.len - 1) +
last_piece_len`. -/
def tr_torPieceCountBytes (tor : tr_torrent) (index : Nat) : Nat :=
  if index + 1 = tor.info.pieces.length then tor.lastPieceSize else tor.info.pieceSize

/-- The difference `a - b` of two `uint32_t`, which wraps around. -/
def subU32 (a b : Nat) : Nat := (a + (2 ^ 32 - b % 2 ^ 32)) % 2 ^ 32

/-- The difference `a - b` of two `uint64_t`, which wraps around. -/
def subU64 (a b : Nat) : Nat := (a + (2 ^ 64 - b % 2 ^ 64)) % 2 ^ 64

/-- The size of the read buffer of `verifyTorrent` (verify.c:57), 128 KiB. -/
def buflen : Nat := 1024 * 128

/-- The files of the torrent as `verifyTorrent` finds them on disk.
`canOpen i` tells whether `tr_torrentFindFile` finds file `i` and
`tr_open_file_for_scanning` opens it.  `pread i count offset` is the result of
`tr_pread` on that file: `none` for an error, otherwise the bytes delivered,
of which only the first `count` are taken. -/
structure VerifyDisk where
  canOpen : Nat → Bool
  pread : Nat → Nat → Nat → Option (List Nat)

/-- The bytes that `tr_pread (fd, buffer, count, offset)` puts into the
buffer; their number is `numRead` when that is positive, and there are none
when `tr_pread` fails or is at the end of the file. -/
def tr_pread (disk : VerifyDisk) (fd : Nat) (count : Nat) (offset : Nat) : List Nat :=
  match disk.pread fd count offset with
  | some bytes => bytes.take count
  | none => []

/-- The local variables of `verifyTorrent` (verify.c:45-57) and what it
changes in the torrent.  `fd` is the index of the file that is open, `none`
for -1.  `sha` holds the bytes given to `SHA1_Update` since the last
`SHA1_Init`, so that `SHA1_Final` yields their SHA-1.  `completion` is
`tor->completion`.  `hashed` and `checked` are not in the C code: `hashed`
records, for each piece finished, the bytes that were hashed for it, and
`checked` the arguments of the calls `tr_torrentSetPieceChecked (tor,
pieceIndex)`, in the order of the calls. -/
structure VerifyState where
  fd : Option Nat := none
  filePos : Nat := 0
  changed : Bool := false
  hadPiece : Bool := false
  piecePos : Nat := 0
  fileIndex : Nat := 0
  prevFileIndex : Nat := 1
  pieceIndex : Nat := 0
  sha : List Nat := []
  completion : List Bool := []
  hashed : List (List Nat) := []
  checked : List Nat := []
deriving DecidableEq, Repr

/-- The descriptor after the block "if we're starting a new file"
(verify.c:76-82). -/
def fdAfterOpen (disk : VerifyDisk) (s : VerifyState) : Option Nat :=
  if s.filePos = 0 ∧ s.fd = none ∧ s.fileIndex ≠ s.prevFileIndex then
    (if disk.canOpen s.fileIndex then some s.fileIndex else none)
  else s.fd

/-- The value of `leftInPiece` at verify.c:85. -/
def leftInPiece (tor : tr_torrent) (s : VerifyState) : Nat :=
  subU32 (tr_torPieceCountBytes tor s.pieceIndex) s.piecePos

/-- The value of `leftInFile` at verify.c:86. -/
def leftInFile (file : tr_file) (s : VerifyState) : Nat :=
  subU64 file.length s.filePos

/-- The value of `bytesThisPass` before the read (verify.c:87-88). -/
def bytesWanted (tor : tr_torrent) (file : tr_file) (s : VerifyState) : Nat :=
  u32 (min (u32 (min (leftInFile file s) (leftInPiece tor s))) buflen)

/-- The bytes read in this pass (verify.c:91-102): none when no file is
open. -/
def bytesRead (disk : VerifyDisk) (tor : tr_torrent) (file : tr_file) (s : VerifyState) :
    List Nat :=
  match fdAfterOpen disk s with
  | some fd => tr_pread disk fd (bytesWanted tor file s) s.filePos
  | none => []

/-- The value of `bytesThisPass` after the read: `numRead` when that is
positive, and the number of bytes wanted otherwise. -/
def bytesThisPass (disk : VerifyDisk) (tor : tr_torrent) (file : tr_file) (s : VerifyState) :
    Nat :=
  if (bytesRead disk tor file s).length > 0 then u32 (bytesRead disk tor file s).length
  else bytesWanted tor file s

/-- The block "if we're finishing a piece" (verify.c:111-141), `pieceHash`
being `tor->info.pieces[pieceIndex].hash`. -/
def finishPiece (sha1 : List Nat → List Nat) (pieceHash : List Nat) (s : VerifyState) :
    VerifyState :=
  let hasPiece := decide (sha1 s.sha = pieceHash)
  { s with
    completion :=
      if hasPiece || s.hadPiece then tr_torrentSetHasPiece s.completion s.pieceIndex hasPiece
      else s.completion
    changed := if hasPiece || s.hadPiece then (s.changed || (hasPiece != s.hadPiece)) else s.changed
    hashed := s.hashed ++ [s.sha]
    checked := s.checked ++ [s.pieceIndex]
    sha := []
    pieceIndex := s.pieceIndex + 1
    piecePos := 0 }

/-- The block "if we're finishing a file" (verify.c:144-153). -/
def finishFile (s : VerifyState) : VerifyState :=
  { s with fd := none, fileIndex := s.fileIndex + 1, filePos := 0 }

/-- One pass of the loop of `verifyTorrent` (verify.c:65-154); `none` when
`tor->info.files[fileIndex]` or `tor->info.pieces[pieceIndex]` lies outside
the array. -/
def verifyPass (sha1 : List Nat → List Nat) (disk : VerifyDisk) (tor : tr_torrent)
    (s : VerifyState) : Option VerifyState :=
  match tor.info.files[s.fileIndex]?, tor.info.pieces[s.pieceIndex]? with
  | some file, some pieceHash =>
    let n := bytesThisPass disk tor file s
    -- start of a piece, start of a file, the read, and the offsets moved
    let s1 : VerifyState :=
      { s with
        hadPiece :=
          if s.piecePos = 0 then tr_cpPieceIsComplete s.completion s.pieceIndex else s.hadPiece
        fd := fdAfterOpen disk s
        prevFileIndex :=
          if s.filePos = 0 ∧ s.fd = none ∧ s.fileIndex ≠ s.prevFileIndex then s.fileIndex
          else s.prevFileIndex
        sha := s.sha ++ bytesRead disk tor file s
        piecePos := u32 (s.piecePos + n)
        filePos := s.filePos + n }
    let s2 := if subU32 (leftInPiece tor s) n = 0 then finishPiece sha1 pieceHash s1 else s1
    let s3 := if subU64 (leftInFile file s) n = 0 then finishFile s2 else s2
    some s3
  | _, _ => none

/-- The loop `while (!*stopFlag && (pieceIndex < tor->info.pieceCount))` of
`verifyTorrent`.  `stopFlag k` is the value of `*stopFlag` when the condition
is tested for the `k`-th time (another thread sets it).  The loop hangs when
`fuel` passes do not end it. -/
def verifyLoop (sha1 : List Nat → List Nat) (disk : VerifyDisk) (stopFlag : Nat → Bool)
    (tor : tr_torrent) : Nat → Nat → VerifyState → Outcome VerifyState
  | 0, _, _ => Outcome.hang
  | fuel + 1, k, s =>
    if stopFlag k = false ∧ s.pieceIndex < tor.info.pieces.length then
      match verifyPass sha1 disk tor s with
      | some s1 => verifyLoop sha1 disk stopFlag tor fuel (k + 1) s1
      | none => Outcome.fault
    else Outcome.returned s

/-- The sum of the lengths of the files. -/
def totalLength (files : List tr_file) : Nat :=
  (files.map (fun f => f.length)).sum

/-- The function `verifyTorrent` (verify.c:42): the value returned (`changed`),
the torrent afterwards, and the bytes hashed for each piece that was
finished.  Every pass finishes a piece or a file or moves on in the file by
at least one byte, so the fuel given covers every run that stays inside the
arrays. -/
def verifyTorrent (sha1 : List Nat → List Nat) (disk : VerifyDisk) (stopFlag : Nat → Bool)
    (tor : tr_torrent) : Outcome (Bool × tr_torrent × List (List Nat)) :=
  match verifyLoop sha1 disk stopFlag tor
      (totalLength tor.info.files + tor.info.files.length + tor.info.pieces.length + 1) 0
      { completion := tor.completion } with
  | Outcome.returned s =>
    Outcome.returned (s.changed, { tor with completion := s.completion }, s.hashed)
  | Outcome.assertFailed line => Outcome.assertFailed line
  | Outcome.fault => Outcome.fault
  | Outcome.hang => Outcome.hang

/-- The calls `tr_torrentSetPieceChecked (tor, pieceIndex)` that a run of
`verifyTorrent` makes: the piece indices, in the order of the calls. -/
def verifyTorrentChecked (sha1 : List Nat → List Nat) (disk : VerifyDisk)
    (stopFlag : Nat → Bool) (tor : tr_torrent) : Outcome (List Nat) :=
  match verifyLoop sha1 disk stopFlag tor
      (totalLength tor.info.files + tor.info.files.length + tor.info.pieces.length + 1) 0
      { completion := tor.completion } with
  | Outcome.returned s => Outcome.returned s.checked
  | Outcome.assertFailed line => Outcome.assertFailed line
  | Outcome.fault => Outcome.fault
  | Outcome.hang => Outcome.hang

/-- The invariants of the metainfo that the spec lists, with the ranges of
the C types: `sum(files.length) == piece_length * (pieces.len - 1) +
last_piece_len`, `0 < last_piece_len <= piece_length`, `pieces.len >= 1`; the
piece size is a `uint32_t` and the length of a file fits `int64_t`. -/
def VerifyWellFormed (tor : tr_torrent) : Prop :=
  1 ≤ tor.info.pieces.length ∧
  0 < tor.lastPieceSize ∧ tor.lastPieceSize ≤ tor.info.pieceSize ∧
  tor.info.pieceSize < 2 ^ 32 ∧
  (∀ f ∈ tor.info.files, f.length < 2 ^ 63) ∧
  totalLength tor.info.files =
    tor.info.pieceSize * (tor.info.pieces.length - 1) + tor.lastPieceSize

instance (tor : tr_torrent) : Decidable (VerifyWellFormed tor) := by
  unfold VerifyWellFormed; exact inferInstance

/-- The offset of the first byte of file `k` in the torrent. -/
def fileStart (tor : tr_torrent) (k : Nat) : Nat :=
  totalLength (tor.info.files.take k)

/-- The offset of the first byte of piece `k` in the torrent. -/
def pieceStart (tor : tr_torrent) (k : Nat) : Nat :=
  ((List.range k).map (tr_torPieceCountBytes tor)).sum

/-- What holds of the variables of `verifyTorrent` each time the condition of
the loop is tested: the position in the files and the position in the pieces
are the same byte of the torrent, no more bytes were hashed for a piece than
the piece has, and each piece finished has its bit set exactly when the SHA-1
of the bytes hashed for it is its hash. -/
structure VerifyInvariant (sha1 : List Nat → List Nat) (tor : tr_torrent) (s : VerifyState) :
    Prop where
  pieceIndex_le : s.pieceIndex ≤ tor.info.pieces.length
  fileIndex_le : s.fileIndex ≤ tor.info.files.length
  same_byte : fileStart tor s.fileIndex + s.filePos = pieceStart tor s.pieceIndex + s.piecePos
  piecePos_lt : s.pieceIndex < tor.info.pieces.length →
    s.piecePos < tr_torPieceCountBytes tor s.pieceIndex
  filePos_le : ∀ file, tor.info.files[s.fileIndex]? = some file → s.filePos ≤ file.length
  within : fileStart tor s.fileIndex + s.filePos ≤ totalLength tor.info.files
  hadPiece_eq : s.piecePos ≠ 0 →
    s.hadPiece = tr_cpPieceIsComplete s.completion s.pieceIndex
  hashed_length : s.hashed.length = s.pieceIndex
  sha_length : s.sha.length ≤ s.piecePos
  hashed_bound : ∀ i bs, s.hashed[i]? = some bs → bs.length ≤ tr_torPieceCountBytes tor i
  bits : ∀ i h bs, tor.info.pieces[i]? = some h → s.hashed[i]? = some bs →
    (tr_cpPieceIsComplete s.completion i = true ↔ sha1 bs = h)

/-! ## makemeta.c : writing the metainfo, and the URL test of utils.c -/

/-- Whether the C string `s` starts with the characters of `p`. -/
def startsWith : CString → CString → Bool
  | _, [] => true
  | [], _ :: _ => false
  | c :: s, d :: p => decide (c = d) && startsWith s p

/-- The C `strstr (haystack, needle)`: the offset of the first occurrence, or
`none` for the null pointer. -/
def strstr : CString → CString → Option Nat
  | [], needle => if needle = [] then some 0 else none
  | c :: hay, needle =>
    if startsWith (c :: hay) needle then some 0
    else (strstr hay needle).map (fun k => k + 1)

/-- The C `strcspn (s, reject)`: the length of the longest initial part of `s`
without a character of `reject`. -/
def strcspn (s reject : CString) : Nat :=
  (s.takeWhile (fun c => !reject.contains c)).length

/-- The characters that `isValidURLChars` accepts (utils.c:782-789). -/
def rfc2396_valid_chars : CString :=
  cstr "abcdefghijklmnopqrstuvwxyz" ++ cstr "ABCDEFGHIJKLMNOPQRSTUVWXYZ" ++
  cstr "0123456789" ++ cstr "-_.!~*'()" ++ cstr ";/?:@&=+$," ++ cstr "<>#%<\"" ++
  cstr "\x7b\x7d|\\^[]`"

/-- The function `isValidURLChars (url, url_len)` (utils.c:777) for a `url`
that is not NULL and `url_len = strlen (url)`. -/
def isValidURLChars (url : CString) : Bool :=
  url.all (fun c => rfc2396_valid_chars.contains c)

/-- The value returned by `tr_urlParse (url, len, NULL, NULL, NULL, NULL)`
(utils.c:853) for `len = strlen (url)`: `err`, which is false exactly when
the URL has a "://" that is followed by a host of at least one character
other than ':' and '/'. -/
def tr_urlParse (url : CString) : Bool :=
  match strstr url (cstr "://") with
  | none => true
  | some pch => decide (strcspn (url.drop (pch + 3)) (cstr ":/") = 0)

/-- The function `tr_urlIsValidTracker` (utils.c:802) for a URL that is not
NULL. -/
def tr_urlIsValidTracker (url : CString) : Bool :=
  isValidURLChars url && !tr_urlParse url &&
    (startsWith url (cstr "http://") || startsWith url (cstr "https://") ||
      startsWith url (cstr "udp://"))

/-- The keys of the dictionaries that the torrent creator writes (quark.h,
not under src/). -/
inductive tr_quark where
  | TR_KEY_announce
  | TR_KEY_announce_list
  | TR_KEY_comment
  | TR_KEY_created_by
  | TR_KEY_creation_date
  | TR_KEY_encoding
  | TR_KEY_files
  | TR_KEY_info
  | TR_KEY_length
  | TR_KEY_name
  | TR_KEY_path
  | TR_KEY_piece_length
  | TR_KEY_pieces
  | TR_KEY_private
deriving DecidableEq, Repr

/-- Modelled from the spec: the `tr_variant` of variant.h, which is not under
src/: a bencoded value, that is an integer, a string, raw bytes, a list, or
a dictionary.  A dictionary holds its entries in the order in which they were
added. -/
inductive tr_variant where
  | int (v : Int)
  | str (s : CString)
  | raw (bytes : List Nat)
  | list (items : List tr_variant)
  | dict (entries : List (tr_quark × tr_variant))

/-- Modelled from the spec: `tr_variantDictFind` of variant.c, which is not
under src/: the value stored in a dictionary under a key. -/
def tr_variantDictFind (v : tr_variant) (key : tr_quark) : Option tr_variant :=
  match v with
  | tr_variant.dict entries => (entries.find? (fun e => decide (e.1 = key))).map (fun e => e.2)
  | _ => none

/-- The C `tr_strsep (&walk, "/")` called until it returns NULL
(makemeta.c:324): the parts of `s` between the delimiters, empty ones
included.  The second argument is the token being read. -/
def pathTokens : CString → CString → List CString
  | [], token => [token]
  | c :: s, token => if c = 47 then token :: pathTokens s [] else pathTokens s (token ++ [c])

/-- The function `getFileInfo` (makemeta.c:302): the values stored in
`*uninitialized_length` and `*uninitialized_path`.  47 is the path delimiter
'/'. -/
def getFileInfo (topFile : CString) (file : tr_metainfo_builder_file) :
    tr_variant × tr_variant :=
  let offset := topFile.length
  let offset := if offset > 0 ∧ topFile.getLast? ≠ some 47 then offset + 1 else offset
  let path :=
    if file.filename.length > offset then
      (pathTokens (file.filename.drop offset) []).map tr_variant.str
    else []
  (tr_variant.int (file.size : Int), tr_variant.list path)

/-- What the torrent creator takes from outside makemeta.c.  `ndebug`, `sha1`,
`disk` and `errno` are the arguments of `getHashInfo`.  `basename` is the C
library's function, `createdBy` the string `TR_NAME "/" LONG_VERSION_STRING`
(version.h is not under src/), `now` the value of `time (NULL)`.
`tr_variantToFile top path` is the result of writing the file: `none` for
success, otherwise the value of `errno`. -/
structure MakeMetaEnv where
  ndebug : Bool
  sha1 : List Nat → List Nat
  disk : CString → Option (List Nat)
  errno : Int
  basename : CString → CString
  createdBy : CString
  now : Int
  tr_variantToFile : tr_variant → CString → Option Int

/-- The function `makeInfoDict` (makemeta.c:331): the entries of the
dictionary, in the order in which they are added, and the builder after the
call of `getHashInfo`.  The raw value of `pieces` takes
`SHA_DIGEST_LENGTH * builder->pieceCount` bytes, a 32-bit product, from the
buffer that `getHashInfo` returns. -/
def makeInfoDict (env : MakeMetaEnv) (builder : tr_metainfo_builder) :
    Outcome (tr_variant × tr_metainfo_builder) :=
  let filesPart : Option (List (tr_quark × tr_variant)) :=
    if builder.isSingleFile then
      builder.files[0]?.map (fun f => [(tr_quark.TR_KEY_length, tr_variant.int (f.size : Int))])
    else
      some [(tr_quark.TR_KEY_files,
        tr_variant.list (builder.files.map (fun f =>
          tr_variant.dict
            [(tr_quark.TR_KEY_length, (getFileInfo builder.top f).1),
             (tr_quark.TR_KEY_path, (getFileInfo builder.top f).2)])))]
  match filesPart with
  | none => Outcome.fault
  | some part1 =>
    let part2 :=
      [(tr_quark.TR_KEY_name, tr_variant.str (env.basename builder.top)),
       (tr_quark.TR_KEY_piece_length, tr_variant.int (builder.pieceSize : Int))]
    match getHashInfo env.ndebug env.sha1 env.disk env.errno builder with
    | Outcome.assertFailed line => Outcome.assertFailed line
    | Outcome.fault => Outcome.fault
    | Outcome.hang => Outcome.hang
    | Outcome.returned hi =>
      let part3 :=
        match hi.ret with
        | some pch =>
          [(tr_quark.TR_KEY_pieces,
            tr_variant.raw (pch.flatten.take (u32 (SHA_DIGEST_LENGTH * hi.b.pieceCount))))]
        | none => []
      let part4 :=
        [(tr_quark.TR_KEY_private, tr_variant.int (if hi.b.isPrivate then 1 else 0))]
      Outcome.returned (tr_variant.dict (part1 ++ part2 ++ part3 ++ part4), hi.b)

/-- The loop over the trackers at makemeta.c:382-390, from tracker `i` on:
the builder afterwards. -/
def checkTrackers (b : tr_metainfo_builder) : List tr_tracker_info → tr_metainfo_builder
  | [] => b
  | t :: rest =>
    if b.result ≠ tr_metainfo_builder_err.TR_MAKEMETA_OK then b
    else if !tr_urlIsValidTracker t.announce then
      checkTrackers
        { b with
          errfile := tr_strlcpy b.errfile t.announce b.errfileSize
          result := tr_metainfo_builder_err.TR_MAKEMETA_URL } rest
    else checkTrackers b rest

/-- The loop that fills the announce list (makemeta.c:409-417): the tiers
made so far, the last one being the list `tier` points to, and `prevTier`.
A tracker whose tier is the initial `prevTier` of -1 is added to the null
pointer `tier`: `none`. -/
def announceTiers : List tr_tracker_info → Int → List (List tr_variant) →
    Option (List (List tr_variant))
  | [], _, tiers => some tiers
  | t :: rest, prevTier, tiers =>
    if prevTier ≠ t.tier then
      announceTiers rest t.tier (tiers ++ [[tr_variant.str t.announce]])
    else
      match tiers.getLast? with
      | none => none
      | some last =>
        announceTiers rest prevTier (tiers.dropLast ++ [last ++ [tr_variant.str t.announce]])

/-- The function `tr_realMakeMetaInfo` (makemeta.c:375): the builder
afterwards and the call of `tr_variantToFile` that was made, if any, as the
dictionary `top` and the path given to it.  The abort flag, which another
thread may set, keeps its value during the run. -/
def tr_realMakeMetaInfo (env : MakeMetaEnv) (builder : tr_metainfo_builder) :
    Outcome (tr_metainfo_builder × Option (tr_variant × CString)) :=
  let ok := tr_metainfo_builder_err.TR_MAKEMETA_OK
  -- allow an empty set, but if URLs *are* listed, verify them
  let b1 := checkTrackers builder builder.trackers
  let b2 : tr_metainfo_builder :=
    if b1.files.length = 0 ∨ b1.totalSize = 0 ∨ b1.pieceSize = 0 ∨ b1.pieceCount = 0 then
      { b1 with
        errfile := []
        my_errno := 2
        result := tr_metainfo_builder_err.TR_MAKEMETA_IO_READ
        isDone := true }
    else b1
  let top1 : Option (List (tr_quark × tr_variant)) :=
    match b2.trackers with
    | [] => some []
    | first :: others =>
      if b2.result = ok then
        (if others.length > 0 then
          (announceTiers b2.trackers (-1) []).map (fun tiers =>
            [(tr_quark.TR_KEY_announce_list, tr_variant.list (tiers.map tr_variant.list))])
        else some []).map
          (fun l => l ++ [(tr_quark.TR_KEY_announce, tr_variant.str first.announce)])
      else some []
  match top1 with
  | none => Outcome.fault
  | some top1 =>
    let finish (b : tr_metainfo_builder) (written : Option (tr_variant × CString)) :
        Outcome (tr_metainfo_builder × Option (tr_variant × CString)) :=
      Outcome.returned
        ({ b with
           result :=
             if b.abortFlag then tr_metainfo_builder_err.TR_MAKEMETA_CANCELLED else b.result
           isDone := true }, written)
    if b2.result = ok ∧ b2.abortFlag = false then
      let top2 :=
        top1 ++
        (match b2.comment with
         | some (c :: cs) => [(tr_quark.TR_KEY_comment, tr_variant.str (c :: cs))]
         | _ => []) ++
        [(tr_quark.TR_KEY_created_by, tr_variant.str env.createdBy),
         (tr_quark.TR_KEY_creation_date, tr_variant.int env.now),
         (tr_quark.TR_KEY_encoding, tr_variant.str (cstr "UTF-8"))]
      match makeInfoDict env b2 with
      | Outcome.assertFailed line => Outcome.assertFailed line
      | Outcome.fault => Outcome.fault
      | Outcome.hang => Outcome.hang
      | Outcome.returned (info, b3) =>
        let top := tr_variant.dict (top2 ++ [(tr_quark.TR_KEY_info, info)])
        -- save the file
        if b3.result = ok ∧ b3.abortFlag = false then
          match b3.outputFile with
          | none => Outcome.fault
          | some path =>
            match env.tr_variantToFile top path with
            | some e =>
              finish
                { b3 with
                  my_errno := e
                  errfile := tr_strlcpy b3.errfile path b3.errfileSize
                  result := tr_metainfo_builder_err.TR_MAKEMETA_IO_WRITE }
                (some (top, path))
            | none => finish b3 (some (top, path))
        else finish b3 none
    else finish b2 none

/-- The function `tr_makeMetaInfo` (makemeta.c:503), as the builder that it
puts into the queue of the worker thread, which runs `tr_realMakeMetaInfo` on
it.  `outputFile` and `comment` may be NULL (`none`); 46, 116, ... spell
".torrent". -/
def tr_makeMetaInfo (builder : tr_metainfo_builder) (outputFile : Option CString)
    (trackers : List tr_tracker_info) (comment : Option CString) (isPrivate : Bool) :
    tr_metainfo_builder :=
  { builder with
    abortFlag := false
    result := tr_metainfo_builder_err.TR_MAKEMETA_OK
    isDone := false
    pieceIndex := 0
    trackers := trackers
    comment := comment
    isPrivate := isPrivate
    outputFile :=
      match outputFile with
      | some (c :: cs) => some (c :: cs)
      | _ => some (builder.top ++ cstr ".torrent") }

/-- The first announce URL of the list that `tr_urlIsValidTracker`
refuses. -/
def firstInvalidTracker : List tr_tracker_info → Option CString
  | [] => none
  | t :: rest => if !tr_urlIsValidTracker t.announce then some t.announce
                 else firstInvalidTracker rest

/-- The builder `b1` differs from `b` at most in the fields that
`getHashInfo` writes: `pieceIndex`, `result`, `errfile` and `my_errno`. -/
def SameButHashFields (b b1 : tr_metainfo_builder) : Prop :=
  b1.top = b.top ∧ b1.files = b.files ∧ b1.totalSize = b.totalSize ∧
  b1.pieceSize = b.pieceSize ∧ b1.pieceCount = b.pieceCount ∧
  b1.isSingleFile = b.isSingleFile ∧ b1.trackers = b.trackers ∧ b1.comment = b.comment ∧
  b1.outputFile = b.outputFile ∧ b1.isPrivate = b.isPrivate ∧ b1.abortFlag = b.abortFlag ∧
  b1.isDone = b.isDone ∧ b1.errfileSize = b.errfileSize

/-- An environment for examples: the files of `exampleDisk`, a stand-in for
SHA-1 that gives 20 bytes, each the length of the input, the program name "x",
the time 0, and a `tr_variantToFile` that succeeds. -/
def exampleEnv : MakeMetaEnv :=
  { ndebug := false
    sha1 := fun bs => List.replicate 20 bs.length
    disk := exampleDisk
    errno := 0
    basename := fun s => s
    createdBy := [120]
    now := 0
    tr_variantToFile := fun _ _ => none }

/-- Two trackers for examples, "http://a" in tier 0 and "udp://b" in
tier 1. -/
def exampleTrackers : List tr_tracker_info :=
  [⟨0, cstr "http://a"⟩, ⟨1, cstr "udp://b"⟩]

/-- The top dictionary of the torrent made from `exampleBuilder` with
`exampleTrackers` and the comment "c" in `exampleEnv`. -/
def exampleTop : tr_variant :=
  tr_variant.dict
    [(tr_quark.TR_KEY_announce_list,
        tr_variant.list
          [tr_variant.list [tr_variant.str (cstr "http://a")],
           tr_variant.list [tr_variant.str (cstr "udp://b")]]),
     (tr_quark.TR_KEY_announce, tr_variant.str (cstr "http://a")),
     (tr_quark.TR_KEY_comment, tr_variant.str [99]),
     (tr_quark.TR_KEY_created_by, tr_variant.str [120]),
     (tr_quark.TR_KEY_creation_date, tr_variant.int 0),
     (tr_quark.TR_KEY_encoding, tr_variant.str (cstr "UTF-8")),
     (tr_quark.TR_KEY_info,
        tr_variant.dict
          [(tr_quark.TR_KEY_files,
              tr_variant.list
                [tr_variant.dict
                   [(tr_quark.TR_KEY_length, tr_variant.int 3),
                    (tr_quark.TR_KEY_path, tr_variant.list [tr_variant.str [97]])],
                 tr_variant.dict
                   [(tr_quark.TR_KEY_length, tr_variant.int 4),
                    (tr_quark.TR_KEY_path, tr_variant.list [tr_variant.str [98]])],
                 tr_variant.dict
                   [(tr_quark.TR_KEY_length, tr_variant.int 1),
                    (tr_quark.TR_KEY_path, tr_variant.list [tr_variant.str [99]])]]),
           (tr_quark.TR_KEY_name, tr_variant.str []),
           (tr_quark.TR_KEY_piece_length, tr_variant.int 3),
           (tr_quark.TR_KEY_pieces,
              tr_variant.raw (List.replicate 20 3 ++ List.replicate 20 3 ++ List.replicate 20 2)),
           (tr_quark.TR_KEY_private, tr_variant.int 0)])]

/-! ## net.c : tr_address_compare -/

/-- The table `sizes` of `tr_address_compare` (net.c:135), read at the index
`a->type`: `sizeof (struct in_addr)` is 4 and `sizeof (struct in6_addr)` is
16.  `TR_AF_INET` is the first value of the enum of net.h and `TR_AF_INET6`
the second. -/
def sizes (type : tr_address_type) : Nat :=
  match type with
  | tr_address_type.TR_AF_INET => 4
  | tr_address_type.TR_AF_INET6 => 16

/-- The C `memcmp (a, b, n)` over two blocks that hold at least `n` bytes: 0
when the first `n` bytes agree, otherwise the difference of the first two
bytes that differ, whose sign is what the C standard fixes. -/
def memcmp : List Nat → List Nat → Nat → Int
  | x :: a, y :: b, n + 1 => if x = y then memcmp a b n else (x : Int) - (y : Int)
  | _, _, _ => 0

/-- The function `tr_address_compare` (net.c:132). -/
def tr_address_compare (a b : tr_address) : Int :=
  -- IPv6 addresses are always "greater than" IPv4
  if a.type ≠ b.type then
    (if a.type = tr_address_type.TR_AF_INET then 1 else -1)
  else memcmp a.addr b.addr (sizes a.type)

/-! ## utils.c : the fallback of tr_strlcpy -/

/-- The loop `while (--n != 0) { if ((*d++ = *s++) == '\0') break; }` of
`tr_strlcpy` (utils.c:705-709).  `src` and `dst` are the blocks of memory that
the two pointers of the call point into, `s` and `d` the offsets of the
running pointers, `n` a `size_t`.  The result is `n`, `d`, `s` and the
destination when the loop is left.  A read or a write outside a block is a
fault. -/
def strlcpyCopy (src : List Int) :
    Nat → Nat → Nat → Nat → List Int → Outcome (Nat × Nat × Nat × List Int)
  | 0, _, _, _, _ => Outcome.hang
  | fuel + 1, n, d, s, dst =>
    let n1 := subU64 n 1
    if n1 ≠ 0 then
      match src[s]? with
      | none => Outcome.fault
      | some c =>
        if d < dst.length then
          if c = 0 then Outcome.returned (n1, d + 1, s + 1, dst.set d c)
          else strlcpyCopy src fuel n1 (d + 1) (s + 1) (dst.set d c)
        else Outcome.fault
    else Outcome.returned (n1, d, s, dst)

/-- The loop `while (*s++) ;` of `tr_strlcpy` (utils.c:717): the offset of `s`
afterwards, one past the NUL that ended the loop. -/
def strlcpySkip (src : List Int) : Nat → Nat → Outcome Nat
  | 0, _ => Outcome.hang
  | fuel + 1, s =>
    match src[s]? with
    | none => Outcome.fault
    | some c => if c ≠ 0 then strlcpySkip src fuel (s + 1) else Outcome.returned (s + 1)

/-- The second part of `tr_strlcpy` (utils.c:712-720), entered with the values
of `n`, `d`, `s` and the destination that the first part left: the value
returned and the destination. -/
def strlcpyFinish (src : List Int) (siz : Nat) (n d s : Nat) (dst : List Int) :
    Outcome (Nat × List Int) :=
  if n = 0 then
    -- not enough room in dst, add NUL and traverse rest of src
    if siz ≠ 0 ∧ dst.length ≤ d then Outcome.fault
    else
      let dst1 := if siz ≠ 0 then dst.set d 0 else dst
      match strlcpySkip src (src.length + 1) s with
      | Outcome.returned s1 => Outcome.returned (s1 - 1, dst1)
      | Outcome.assertFailed line => Outcome.assertFailed line
      | Outcome.fault => Outcome.fault
      | Outcome.hang => Outcome.hang
  else Outcome.returned (s - 1, dst)

/-- The fallback of `tr_strlcpy (dst, src, siz)` (utils.c:689, the branch
without `HAVE_STRLCPY`), for pointers that are not NULL: the value returned
and the block `dst` afterwards.  `src` is the block of memory that holds the
string and `dst` the block that the destination points to. -/
def tr_strlcpy_fallback (dst src : List Int) (siz : Nat) : Outcome (Nat × List Int) :=
  -- copy as many bytes as will fit
  if siz ≠ 0 then
    match strlcpyCopy src siz siz 0 0 dst with
    | Outcome.returned (n, d, s, dst1) => strlcpyFinish src siz n d s dst1
    | Outcome.assertFailed line => Outcome.assertFailed line
    | Outcome.fault => Outcome.fault
    | Outcome.hang => Outcome.hang
  else strlcpyFinish src siz siz 0 0 dst

/-- The C string that a block of memory holds: the bytes before the first
NUL. -/
def cstringAt (mem : List Int) : CString :=
  mem.takeWhile (fun c => decide (c ≠ 0))

/-! ## utils.c : tr_urlIsValidTracker on a pointer -/

/-- The function `tr_urlIsValidTracker (url)` (utils.c:802) for a pointer
that may be NULL, which is `none`: the test `url == NULL` of line 806 and
otherwise the value that `tr_urlIsValidTracker` gives for the string. -/
def tr_urlIsValidTracker_ptr (url : Option CString) : Bool :=
  match url with
  | none => false
  | some u => tr_urlIsValidTracker u

/-! ## utils.c : tr_lowerBound -/

/-- The loop `while (nmemb != 0)` of `tr_lowerBound` (utils.c:1032-1049),
entered with the values of `first`, `nmemb` and `exact`: the values of
`first` and `exact` when it is left.  `base i` is element `i` of the array and
`none` outside the array, where a read is a fault.  `first`, `nmemb`, `half`
and `middle` are `size_t`; none of the sums exceeds the number of elements of
the array. -/
def lowerBoundLoop {κ α : Type} (compar : κ → α → Int) (key : κ) (base : Nat → Option α) :
    Nat → Nat → Nat → Bool → Outcome (Nat × Bool)
  | 0, _, _, _ => Outcome.hang
  | fuel + 1, first, nmemb, exact =>
    if nmemb ≠ 0 then
      let half := nmemb / 2
      let middle := first + half
      match base middle with
      | none => Outcome.fault
      | some x =>
        let c := compar key x
        if c ≤ 0 then
          lowerBoundLoop compar key base fuel first half (if c = 0 then true else exact)
        else
          lowerBoundLoop compar key base fuel (middle + 1) (nmemb - half - 1) exact
    else Outcome.returned (first, exact)

/-- The function `tr_lowerBound` (utils.c:1020): the value returned and the
value stored in `*exact_match`.  The function returns the `size_t` `first` as
an `int`.  Each pass of the loop at least halves `nmemb`, so the fuel given
covers every run. -/
def tr_lowerBound {κ α : Type} (compar : κ → α → Int) (key : κ) (base : Nat → Option α)
    (nmemb : Nat) : Outcome (Int × Bool) :=
  match lowerBoundLoop compar key base (nmemb + 1) 0 nmemb false with
  | Outcome.returned (first, exact) => Outcome.returned (toInt32 (first : Int), exact)
  | Outcome.assertFailed line => Outcome.assertFailed line
  | Outcome.fault => Outcome.fault
  | Outcome.hang => Outcome.hang

/-- An array in memory: element `i` of the list, and `none` outside. -/
def arrayOf {α : Type} (l : List α) (i : Nat) : Option α := l[i]?

/-! ## torrent-magnet.c : the order of the needed pieces -/

/-- The values of `now` in the calls of `tr_torrentGetNextMetadataRequest`,
in the order of the calls. -/
def clockOf : List MagnetCall → List Int
  | [] => []
  | MagnetCall.nextRequest now :: rest => now :: clockOf rest
  | _ :: rest => clockOf rest

/-- The entries in use of `piecesNeeded` are sorted from least to most
recently requested, and none was requested after the time `t`. -/
def NeededSortedUntil (t : Int) (tor : tr_torrent) : Prop :=
  ∀ m, tor.incompleteMetadata = some m →
    m.piecesNeeded.Pairwise (fun a b => a.requestedAt ≤ b.requestedAt) ∧
      ∀ nd ∈ m.piecesNeeded, nd.requestedAt ≤ t

/-! ## utils.c : tr_quickfindFirstK -/

/-- The macro `SWAP (a, b, size)` (utils.c:1062) on the elements `a` and `b`
of the array `base`, whose elements have `size > 0` bytes: the bytes of the
two elements are exchanged, and nothing is done when both are the same
element.  An element outside the array is a fault. -/
def SWAP {α : Type} (base : List α) (a b : Nat) : Outcome (List α) :=
  match base[a]?, base[b]? with
  | some x, some y =>
    if a ≠ b then Outcome.returned ((base.set a y).set b x) else Outcome.returned base
  | _, _ => Outcome.fault

/-- The loop `for (i=left; i<=right-1; ++i)` of `quickfindPartition`
(utils.c:1086-1093) with `n` passes to go: the values of `storeIndex` and of
the array afterwards. -/
def partitionLoop {α : Type} (compar : α → α → Int) (right : Nat) :
    Nat → Nat → Nat → List α → Outcome (Nat × List α)
  | 0, _, storeIndex, base => Outcome.returned (storeIndex, base)
  | n + 1, i, storeIndex, base =>
    match base[i]?, base[right]? with
    | some x, some pivot =>
      if compar x pivot ≤ 0 then
        match SWAP base storeIndex i with
        | Outcome.returned base1 => partitionLoop compar right n (i + 1) (storeIndex + 1) base1
        | Outcome.assertFailed line => Outcome.assertFailed line
        | Outcome.fault => Outcome.fault
        | Outcome.hang => Outcome.hang
      else partitionLoop compar right n (i + 1) storeIndex base
    | _, _ => Outcome.fault

/-- A loop `for (...) assert (compar (base[i], base[j]) ...)` over the pairs
of indices given, `cond` being the test on the value of `compar` and `line`
the line of the `assert`. -/
def assertLoop {α : Type} (compar : α → α → Int) (base : List α) (line : Nat)
    (cond : Int → Bool) : List (Nat × Nat) → Outcome Unit
  | [] => Outcome.returned ()
  | (i, j) :: rest =>
    match base[i]?, base[j]? with
    | some x, some y =>
      if cond (compar x y) then assertLoop compar base line cond rest
      else Outcome.assertFailed line
    | _, _ => Outcome.fault

/-- The function `quickfindPartition` (utils.c:1074): the value returned and
the array afterwards.  The indices are `size_t`: `right - 1` wraps around for
`right = 0`, so that the loop then has `2 ^ 64 - left` passes to go.  The
checks of lines 1098-1105 are made unless `NDEBUG` is defined. -/
def quickfindPartition {α : Type} (ndebug : Bool) (compar : α → α → Int) (base : List α)
    (left right pivotIndex : Nat) : Outcome (Nat × List α) :=
  -- move pivot to the end
  match SWAP base pivotIndex right with
  | Outcome.returned base1 =>
    match partitionLoop compar right (subU64 right 1 + 1 - left) left left base1 with
    | Outcome.returned (storeIndex, base2) =>
      -- move pivot to its final place
      match SWAP base2 right storeIndex with
      | Outcome.returned base3 =>
        -- sanity check the partition
        if ndebug then Outcome.returned (storeIndex, base3)
        else if ¬ (storeIndex ≥ left) then Outcome.assertFailed 1099
        else if ¬ (storeIndex ≤ right) then Outcome.assertFailed 1100
        else
          match assertLoop compar base3 1103 (fun c => decide (c ≤ 0))
              ((List.range' left (storeIndex - left)).map (fun i => (i, storeIndex))) with
          | Outcome.returned _ =>
            match assertLoop compar base3 1105 (fun c => decide (c ≥ 0))
                ((List.range' (storeIndex + 1) (right - storeIndex)).map
                  (fun i => (i, storeIndex))) with
            | Outcome.returned _ => Outcome.returned (storeIndex, base3)
            | Outcome.assertFailed line => Outcome.assertFailed line
            | Outcome.fault => Outcome.fault
            | Outcome.hang => Outcome.hang
          | Outcome.assertFailed line => Outcome.assertFailed line
          | Outcome.fault => Outcome.fault
          | Outcome.hang => Outcome.hang
      | Outcome.assertFailed line => Outcome.assertFailed line
      | Outcome.fault => Outcome.fault
      | Outcome.hang => Outcome.hang
    | Outcome.assertFailed line => Outcome.assertFailed line
    | Outcome.fault => Outcome.fault
    | Outcome.hang => Outcome.hang
  | Outcome.assertFailed line => Outcome.assertFailed line
  | Outcome.fault => Outcome.fault
  | Outcome.hang => Outcome.hang

/-- The function `quickfindFirstK` (utils.c:1111): the array afterwards.
`fuel` bounds the depth of the recursion; each call works on a shorter range
than the one before. -/
def quickfindFirstK {α : Type} (ndebug : Bool) (compar : α → α → Int) :
    Nat → List α → Nat → Nat → Nat → Outcome (List α)
  | 0, _, _, _, _ => Outcome.hang
  | fuel + 1, base, left, right, k =>
    if right > left then
      let pivotIndex := left + (right - left) / 2
      match quickfindPartition ndebug compar base left right pivotIndex with
      | Outcome.returned (pivotNewIndex, base1) =>
        if pivotNewIndex > left + k then
          quickfindFirstK ndebug compar fuel base1 left (pivotNewIndex - 1) k
        else if pivotNewIndex < left + k then
          quickfindFirstK ndebug compar fuel base1 (pivotNewIndex + 1) right
            (k + left - pivotNewIndex - 1)
        else Outcome.returned base1
      | Outcome.assertFailed line => Outcome.assertFailed line
      | Outcome.fault => Outcome.fault
      | Outcome.hang => Outcome.hang
    else Outcome.returned base

/-- The loop `for (i=1; i<k; ++i)` of `checkBestScoresComeFirst`
(utils.c:1137-1139) over the indices given: the value of `worstFirstPos`
afterwards. -/
def worstFirstLoop {α : Type} (compar : α → α → Int) (base : List α) :
    List Nat → Nat → Outcome Nat
  | [], worstFirstPos => Outcome.returned worstFirstPos
  | i :: rest, worstFirstPos =>
    match base[worstFirstPos]?, base[i]? with
    | some x, some y =>
      if compar x y < 0 then worstFirstLoop compar base rest i
      else worstFirstLoop compar base rest worstFirstPos
    | _, _ => Outcome.fault

/-- The function `checkBestScoresComeFirst` (utils.c:1129). -/
def checkBestScoresComeFirst {α : Type} (compar : α → α → Int) (base : List α)
    (nmemb k : Nat) : Outcome Unit :=
  match worstFirstLoop compar base (List.range' 1 (k - 1)) 0 with
  | Outcome.returned worstFirstPos =>
    match assertLoop compar base 1141 (fun c => decide (c ≤ 0))
        ((List.range' 0 k).map (fun i => (i, worstFirstPos))) with
    | Outcome.returned _ =>
      assertLoop compar base 1143 (fun c => decide (c ≥ 0))
        ((List.range' k (nmemb - k)).map (fun i => (i, worstFirstPos)))
    | other => other
  | Outcome.assertFailed line => Outcome.assertFailed line
  | Outcome.fault => Outcome.fault
  | Outcome.hang => Outcome.hang

/-- The function `tr_quickfindFirstK` (utils.c:1147) on an array `base` of
`nmemb` elements: the array afterwards.  The check of line 1156 is made
unless `NDEBUG` is defined. -/
def tr_quickfindFirstK {α : Type} (ndebug : Bool) (compar : α → α → Int) (base : List α)
    (nmemb k : Nat) : Outcome (List α) :=
  if k < nmemb then
    match quickfindFirstK ndebug compar nmemb base 0 (nmemb - 1) k with
    | Outcome.returned base1 =>
      if ndebug then Outcome.returned base1
      else
        match checkBestScoresComeFirst compar base1 nmemb k with
        | Outcome.returned _ => Outcome.returned base1
        | Outcome.assertFailed line => Outcome.assertFailed line
        | Outcome.fault => Outcome.fault
        | Outcome.hang => Outcome.hang
    | other => other
  else Outcome.returned base

/-- The comparator stands for a total preorder: `compar (a, b) <= 0` says that
`a` is not above `b`, this relation is transitive, and `compar (a, b) >= 0`
says the same of `b` and `a`, so that of two elements one is not above the
other. -/
def ComparTotalPreorder {α : Type} (compar : α → α → Int) : Prop :=
  (∀ a b c, compar a b ≤ 0 → compar b c ≤ 0 → compar a c ≤ 0) ∧
  (∀ a b, 0 ≤ compar a b ↔ compar b a ≤ 0)

/-- The array `base1` is the array `base` with the elements at the indices
`l .. r` rearranged among themselves. -/
def Rearranged {α : Type} (l r : Nat) (base base1 : List α) : Prop :=
  base1.Perm base ∧
  (∀ i, i < l ∨ r < i → base1[i]? = base[i]?) ∧
  (∀ i, l ≤ i → i ≤ r → ∃ j, l ≤ j ∧ j ≤ r ∧ base1[i]? = base[j]?)

/-! # Properties -/

/-! ## blocklist.c : lemmas on the merge loop -/

theorem compareByFirst_le_iff (a b : tr_ipv4_range) :
    compareAddressRangesByFirstAddress a b ≤ 0 ↔ a.begin ≤ b.begin := by
  unfold compareAddressRangesByFirstAddress
  split_ifs with h1 h2 <;> simp at * <;> omega

theorem mergeLoop_ne_nil (keep : tr_ipv4_range) (rs : List tr_ipv4_range) :
    mergeLoop keep rs ≠ [] := by
  induction rs generalizing keep with
  | nil => simp [mergeLoop]
  | cons r rest ih =>
    unfold mergeLoop
    split_ifs
    · simp
    · exact ih _
    · exact ih _

theorem mergeLoop_head_begin (keep : tr_ipv4_range) (rs : List tr_ipv4_range) :
    ∀ h ∈ (mergeLoop keep rs).head?, h.begin = keep.begin := by
  induction rs generalizing keep with
  | nil => simp [mergeLoop]
  | cons r rest ih =>
    unfold mergeLoop
    split_ifs
    · simp
    · exact ih _
    · exact ih _

theorem mergeLoop_chain (keep : tr_ipv4_range) (rs : List tr_ipv4_range) :
    List.Chain' (fun a b : tr_ipv4_range => a.end_ < b.begin) (mergeLoop keep rs) := by
  induction rs generalizing keep with
  | nil => simp [mergeLoop]
  | cons r rest ih =>
    unfold mergeLoop
    split_ifs with h1 h2
    · rw [List.chain'_cons']
      refine ⟨?_, ih r⟩
      intro y hy
      rw [mergeLoop_head_begin r rest y hy]
      exact h1
    · exact ih _
    · exact ih _

theorem setContent_chain
    (qsort : (tr_ipv4_range → tr_ipv4_range → Int) → List tr_ipv4_range → List tr_ipv4_range)
    (ranges : List tr_ipv4_range) :
    List.Chain' (fun a b : tr_ipv4_range => a.end_ < b.begin)
      (tr_blocklistFileSetContent qsort ranges) := by
  unfold tr_blocklistFileSetContent
  cases ranges with
  | nil => simp
  | cons a as =>
    simp only
    cases qsort compareAddressRangesByFirstAddress (a :: as) with
    | nil => simp
    | cons f rest => exact mergeLoop_chain f rest

theorem mergeLoop_covered (x : Nat) (keep : tr_ipv4_range) (rs : List tr_ipv4_range)
    (hk : keep.begin ≤ keep.end_)
    (hrs : ∀ r ∈ rs, r.begin ≤ r.end_)
    (hle : ∀ r ∈ rs, keep.begin ≤ r.begin)
    (hsorted : rs.Pairwise (fun a b => a.begin ≤ b.begin)) :
    covered x (mergeLoop keep rs) ↔ (inRange x keep ∨ covered x rs) := by
  induction rs generalizing keep with
  | nil => simp [mergeLoop, covered]
  | cons r rest ih =>
    have hr : r.begin ≤ r.end_ := hrs r (List.mem_cons_self _ _)
    have hkr : keep.begin ≤ r.begin := hle r (List.mem_cons_self _ _)
    have hrest : ∀ q ∈ rest, q.begin ≤ q.end_ := fun q hq => hrs q (List.mem_cons_of_mem _ hq)
    have hsr : rest.Pairwise (fun a b => a.begin ≤ b.begin) := (List.pairwise_cons.mp hsorted).2
    have hrle : ∀ q ∈ rest, r.begin ≤ q.begin := (List.pairwise_cons.mp hsorted).1
    have hkrest : ∀ q ∈ rest, keep.begin ≤ q.begin :=
      fun q hq => hle q (List.mem_cons_of_mem _ hq)
    unfold mergeLoop
    split_ifs with h1 h2
    · have := ih r hr hrest hrle hsr
      simp only [covered, List.mem_cons, exists_eq_or_imp] at this ⊢
      rw [this]
    · have := ih { keep with end_ := r.end_ } (by simp; omega) hrest (by simpa using hkrest) hsr
      simp only [covered, List.mem_cons, exists_eq_or_imp] at this ⊢
      rw [this]
      simp only [inRange]
      constructor
      · rintro (⟨ha, hb⟩ | h)
        · by_cases hx : x ≤ keep.end_
          · exact Or.inl ⟨ha, hx⟩
          · exact Or.inr (Or.inl ⟨by omega, hb⟩)
        · exact Or.inr (Or.inr h)
      · rintro (⟨ha, hb⟩ | ⟨ha, hb⟩ | h)
        · exact Or.inl ⟨ha, by omega⟩
        · exact Or.inl ⟨by omega, hb⟩
        · exact Or.inr h
    · have := ih keep hk hrest hkrest hsr
      simp only [covered, List.mem_cons, exists_eq_or_imp] at this ⊢
      rw [this]
      simp only [inRange]
      constructor
      · rintro (h | h)
        · exact Or.inl h
        · exact Or.inr (Or.inr h)
      · rintro (h | ⟨ha, hb⟩ | h)
        · exact Or.inl h
        · exact Or.inl ⟨by omega, by omega⟩
        · exact Or.inr h

theorem setContent_covered
    (qsort : (tr_ipv4_range → tr_ipv4_range → Int) → List tr_ipv4_range → List tr_ipv4_range)
    (hq : QsortContract qsort compareAddressRangesByFirstAddress)
    (ranges : List tr_ipv4_range) (hwf : ∀ r ∈ ranges, r.begin ≤ r.end_) (x : Nat) :
    covered x (tr_blocklistFileSetContent qsort ranges) ↔ covered x ranges := by
  obtain ⟨hperm, hsorted⟩ := hq ranges
  have hsorted2 : (qsort compareAddressRangesByFirstAddress ranges).Pairwise
      (fun a b => a.begin ≤ b.begin) :=
    hsorted.imp (fun h => (compareByFirst_le_iff _ _).mp h)
  have hcov : covered x (qsort compareAddressRangesByFirstAddress ranges) ↔ covered x ranges := by
    unfold covered
    constructor
    · rintro ⟨r, hr, hx⟩; exact ⟨r, hperm.mem_iff.mp hr, hx⟩
    · rintro ⟨r, hr, hx⟩; exact ⟨r, hperm.mem_iff.mpr hr, hx⟩
  have hwf2 : ∀ r ∈ qsort compareAddressRangesByFirstAddress ranges, r.begin ≤ r.end_ :=
    fun r hr => hwf r (hperm.mem_iff.mp hr)
  unfold tr_blocklistFileSetContent
  cases hranges : ranges with
  | nil => simp
  | cons a as =>
    simp only
    rw [← hranges, ← hcov]
    cases hs : qsort compareAddressRangesByFirstAddress ranges with
    | nil => simp
    | cons f rest =>
      simp only
      rw [hs] at hsorted2 hwf2
      rw [mergeLoop_covered x f rest (hwf2 f (List.mem_cons_self _ _))
        (fun r hr => hwf2 r (List.mem_cons_of_mem _ hr))
        (List.pairwise_cons.mp hsorted2).1 (List.pairwise_cons.mp hsorted2).2]
      simp [covered]

/-- The comparator by first address is a total preorder, so insertion sort
driven by it fulfils the `qsort` contract. -/
theorem insertionQsort_contract_ranges :
    QsortContract insertionQsort compareAddressRangesByFirstAddress := by
  intro l
  haveI : IsTotal tr_ipv4_range (fun a b => compareAddressRangesByFirstAddress a b ≤ 0) :=
    ⟨fun a b => by simp only [compareByFirst_le_iff]; omega⟩
  haveI : IsTrans tr_ipv4_range (fun a b => compareAddressRangesByFirstAddress a b ≤ 0) :=
    ⟨fun a b c => by simp only [compareByFirst_le_iff]; omega⟩
  exact ⟨List.perm_insertionSort _ l, List.sorted_insertionSort _ l⟩

/-- A strictly ascending array has only one arrangement that `qsort` can
return: itself. -/
theorem qsort_eq_of_strictly_sorted
    (qsort : (tr_ipv4_range → tr_ipv4_range → Int) → List tr_ipv4_range → List tr_ipv4_range)
    (hq : QsortContract qsort compareAddressRangesByFirstAddress)
    (ranges s : List tr_ipv4_range) (hperm : ranges.Perm s)
    (hs : s.Pairwise (fun a b => a.begin < b.begin)) :
    qsort compareAddressRangesByFirstAddress ranges = s := by
  obtain ⟨hp, hsorted⟩ := hq ranges
  have hp2 : (qsort compareAddressRangesByFirstAddress ranges).Perm s := hp.trans hperm
  have hnodup : s.Nodup := hs.imp (fun h heq => by subst heq; omega)
  -- the order "ascending by begin, and equal begin only for equal entries"
  let R : tr_ipv4_range → tr_ipv4_range → Prop :=
    fun a b => a.begin ≤ b.begin ∧ (a.begin = b.begin → a = b)
  haveI : IsAntisymm tr_ipv4_range R := ⟨fun a b h1 h2 => h1.2 (by omega)⟩
  have key : ∀ a ∈ s, ∀ b ∈ s, a.begin = b.begin → a = b := by
    intro a ha b hb hab
    by_contra hne
    have hsym : Symmetric (fun a b : tr_ipv4_range => a.begin < b.begin ∨ b.begin < a.begin) :=
      fun x y h => h.symm
    rcases List.Pairwise.forall hsym (hs.imp (fun h => Or.inl h)) ha hb hne with h | h <;> omega
  have h1 : (qsort compareAddressRangesByFirstAddress ranges).Sorted R :=
    hsorted.imp_of_mem (fun {a b} ha hb h =>
      ⟨(compareByFirst_le_iff _ _).mp h, key a (hp2.mem_iff.mp ha) b (hp2.mem_iff.mp hb)⟩)
  have h2 : s.Sorted R := hs.imp_of_mem (fun {a b} _ _ h => ⟨by omega, fun h' => by omega⟩)
  exact List.eq_of_perm_of_sorted hp2 h1 h2

theorem perm_pair_cases {α : Type} [DecidableEq α] (l : List α) (x y : α)
    (h : l.Perm [x, y]) : l = [x, y] ∨ l = [y, x] := by
  cases l with
  | nil => simpa using h.length_eq
  | cons p l' =>
    rw [List.cons_perm_iff_perm_erase] at h
    obtain ⟨hp, hl⟩ := h
    simp only [List.mem_cons, List.mem_singleton, List.not_mem_nil, or_false] at hp
    rcases hp with rfl | rfl
    · simp at hl
      simp [hl]
    · by_cases hxy : x = p
      · subst hxy
        simp at hl
        simp [hl]
      · have : [x, p].erase p = [x] := by
          simp [List.erase_cons, hxy]
        rw [this] at hl
        simp at hl
        simp [hl]

/-- A `qsort` result on two entries is one of the two arrangements, and it
is in ascending order of `begin`. -/
theorem qsort_pair
    (qsort : (tr_ipv4_range → tr_ipv4_range → Int) → List tr_ipv4_range → List tr_ipv4_range)
    (hq : QsortContract qsort compareAddressRangesByFirstAddress)
    (x y : tr_ipv4_range) (hxy : x.begin ≤ y.begin) :
    qsort compareAddressRangesByFirstAddress [x, y] = [x, y] ∨
    (qsort compareAddressRangesByFirstAddress [x, y] = [y, x] ∧ x.begin = y.begin) := by
  obtain ⟨hp, hs⟩ := hq [x, y]
  rcases perm_pair_cases _ x y hp with h | h
  · exact Or.inl h
  · refine Or.inr ⟨h, ?_⟩
    rw [h] at hs
    have := (List.pairwise_cons.mp hs).1 x (by simp)
    rw [compareByFirst_le_iff] at this
    omega

/-! ## blocklist.c : the stored array -/

/-- C1: whatever ranges were parsed (any order, overlapping, duplicated, even
ill-formed ones) and whatever arrangement the sort produced, the array left by
the sort-and-merge pass of `tr_blocklistFileSetContent` has
`ranges[i].end < ranges[i+1].begin` for every pair of consecutive entries. -/
theorem C1_stored_ranges_ascending_disjoint
    (qsort : (tr_ipv4_range → tr_ipv4_range → Int) → List tr_ipv4_range → List tr_ipv4_range)
    (ranges : List tr_ipv4_range) :
    List.Chain' (fun a b : tr_ipv4_range => a.end_ < b.begin)
      (tr_blocklistFileSetContent qsort ranges) :=
  setContent_chain qsort ranges

/-- C2: when every parsed range has `begin ≤ end`, an address lies in a range
of the stored array exactly when it lies in one of the parsed ranges; and the
parsed ranges [100,200], [150,250], [400,500] are stored as [100,250],
[400,500]. -/
theorem C2_merge_keeps_blocked_set
    (qsort : (tr_ipv4_range → tr_ipv4_range → Int) → List tr_ipv4_range → List tr_ipv4_range)
    (hq : QsortContract qsort compareAddressRangesByFirstAddress) :
    (∀ (ranges : List tr_ipv4_range), (∀ r ∈ ranges, r.begin ≤ r.end_) → ∀ x : Nat,
      ((∃ r ∈ tr_blocklistFileSetContent qsort ranges, r.begin ≤ x ∧ x ≤ r.end_) ↔
        (∃ r ∈ ranges, r.begin ≤ x ∧ x ≤ r.end_))) ∧
    tr_blocklistFileSetContent qsort [⟨100, 200⟩, ⟨150, 250⟩, ⟨400, 500⟩] =
      [⟨100, 250⟩, ⟨400, 500⟩] := by
  constructor
  · intro ranges hwf x
    exact setContent_covered qsort hq ranges hwf x
  · have hs := qsort_eq_of_strictly_sorted qsort hq
      [⟨100, 200⟩, ⟨150, 250⟩, ⟨400, 500⟩] [⟨100, 200⟩, ⟨150, 250⟩, ⟨400, 500⟩]
      (List.Perm.refl _) (by simp)
    simp [tr_blocklistFileSetContent, hs, mergeLoop]

/-- Witness for C2 with insertion sort as the sorting procedure: address 150
is blocked by the stored array of the scenario, and the stored array is the
expected one. -/
theorem C2_merge_keeps_blocked_set_witness :
    ((∃ r ∈ tr_blocklistFileSetContent insertionQsort [⟨100, 200⟩, ⟨150, 250⟩, ⟨400, 500⟩],
        r.begin ≤ 150 ∧ 150 ≤ r.end_) ↔
      (∃ r ∈ [(⟨100, 200⟩ : tr_ipv4_range), ⟨150, 250⟩, ⟨400, 500⟩],
        r.begin ≤ 150 ∧ 150 ≤ r.end_)) ∧
    tr_blocklistFileSetContent insertionQsort [⟨100, 200⟩, ⟨150, 250⟩, ⟨400, 500⟩] =
      [⟨100, 250⟩, ⟨400, 500⟩] :=
  ⟨(C2_merge_keeps_blocked_set insertionQsort insertionQsort_contract_ranges).1
      [⟨100, 200⟩, ⟨150, 250⟩, ⟨400, 500⟩] (by decide) 150,
    (C2_merge_keeps_blocked_set insertionQsort insertionQsort_contract_ranges).2⟩

/-- C4 as stated fails: the adjacent ranges [1,2] and [3,4] are stored as two
ranges, not as the single range [1,4]. -/
theorem C4_adjacent_ranges_counterexample :
    tr_blocklistFileSetContent insertionQsort [⟨1, 2⟩, ⟨3, 4⟩] = [⟨1, 2⟩, ⟨3, 4⟩] ∧
    tr_blocklistFileSetContent insertionQsort [⟨1, 2⟩, ⟨3, 4⟩] ≠ [⟨1, 4⟩] := by
  decide

/-- C4 amended: in the merge pass a range is absorbed into the previously kept
range exactly when its `begin ≤ previous.end` (the kept range's end becomes the
larger of the two ends), and is kept as a new entry when
`previous.end < begin`.  So overlapping ranges are merged and ranges that are
only adjacent are not: for `a ≤ b < c` the inputs [a,b], [b+1,c] are stored as
the two ranges [a,b], [b+1,c], while the inputs [a,b], [b,c] are stored as the
single range [a,c]. -/
theorem C4_merge_absorbs_overlapping_only
    (qsort : (tr_ipv4_range → tr_ipv4_range → Int) → List tr_ipv4_range → List tr_ipv4_range)
    (hq : QsortContract qsort compareAddressRangesByFirstAddress) :
    (∀ (keep r : tr_ipv4_range) (rest : List tr_ipv4_range), r.begin ≤ keep.end_ →
      mergeLoop keep (r :: rest) = mergeLoop ⟨keep.begin, max keep.end_ r.end_⟩ rest) ∧
    (∀ (keep r : tr_ipv4_range) (rest : List tr_ipv4_range), keep.end_ < r.begin →
      mergeLoop keep (r :: rest) = keep :: mergeLoop r rest) ∧
    (∀ a b c : Nat, a ≤ b → b < c →
      tr_blocklistFileSetContent qsort [⟨a, b⟩, ⟨b + 1, c⟩] = [⟨a, b⟩, ⟨b + 1, c⟩] ∧
      tr_blocklistFileSetContent qsort [⟨b + 1, c⟩, ⟨a, b⟩] = [⟨a, b⟩, ⟨b + 1, c⟩] ∧
      tr_blocklistFileSetContent qsort [⟨a, b⟩, ⟨b, c⟩] = [⟨a, c⟩] ∧
      tr_blocklistFileSetContent qsort [⟨b, c⟩, ⟨a, b⟩] = [⟨a, c⟩]) := by
  refine ⟨?_, ?_, ?_⟩
  · intro keep r rest h
    rw [mergeLoop]
    rw [if_neg (by omega)]
    split_ifs with h2
    · rw [max_eq_right (by omega)]
    · rw [max_eq_left (by omega)]
  · intro keep r rest h
    rw [mergeLoop, if_pos h]
  · intro a b c hab hbc
    have hadj : ∀ l : List tr_ipv4_range, l.Perm [⟨a, b⟩, ⟨b + 1, c⟩] →
        tr_blocklistFileSetContent qsort l = [⟨a, b⟩, ⟨b + 1, c⟩] := by
      intro l hl
      have hs := qsort_eq_of_strictly_sorted qsort hq l [⟨a, b⟩, ⟨b + 1, c⟩] hl
        (by simp; omega)
      have hne : l ≠ [] := by
        intro h; rw [h] at hl; simpa using hl.length_eq
      obtain ⟨p, l', rfl⟩ := List.exists_cons_of_ne_nil hne
      simp [tr_blocklistFileSetContent, hs, mergeLoop]
    have hov : ∀ l : List tr_ipv4_range, l.Perm [⟨a, b⟩, ⟨b, c⟩] →
        tr_blocklistFileSetContent qsort l = [⟨a, c⟩] := by
      intro l hl
      obtain ⟨hp, hsrt⟩ := hq l
      have hne : l ≠ [] := by
        intro h; rw [h] at hl; simpa using hl.length_eq
      obtain ⟨p, l', rfl⟩ := List.exists_cons_of_ne_nil hne
      rcases perm_pair_cases _ _ _ (hp.trans hl) with h | h
      · simp [tr_blocklistFileSetContent, h, mergeLoop, hbc]
      · rw [h] at hsrt
        have h1 := (List.pairwise_cons.mp hsrt).1 ⟨a, b⟩ (by simp)
        rw [compareByFirst_le_iff] at h1
        simp only at h1
        have hab' : a = b := by omega
        subst hab'
        have hca : ¬ c < a := by omega
        simp [tr_blocklistFileSetContent, h, mergeLoop, hca]
    exact ⟨hadj _ (List.Perm.refl _), hadj _ (List.Perm.swap _ _ _),
      hov _ (List.Perm.refl _), hov _ (List.Perm.swap _ _ _)⟩

/-- Witness for C4 amended with insertion sort as the sorting procedure and
`a = 1`, `b = 2`, `c = 4`. -/
theorem C4_merge_absorbs_overlapping_only_witness :
    tr_blocklistFileSetContent insertionQsort [⟨1, 2⟩, ⟨2 + 1, 4⟩] = [⟨1, 2⟩, ⟨2 + 1, 4⟩] ∧
    tr_blocklistFileSetContent insertionQsort [⟨2 + 1, 4⟩, ⟨1, 2⟩] = [⟨1, 2⟩, ⟨2 + 1, 4⟩] ∧
    tr_blocklistFileSetContent insertionQsort [⟨1, 2⟩, ⟨2, 4⟩] = [⟨1, 4⟩] ∧
    tr_blocklistFileSetContent insertionQsort [⟨2, 4⟩, ⟨1, 2⟩] = [⟨1, 4⟩] :=
  (C4_merge_absorbs_overlapping_only insertionQsort insertionQsort_contract_ranges).2.2
    1 2 4 (by decide) (by decide)

/-! ## blocklist.c : lemmas on the lookup -/

theorem compareAddressToRange_eq_zero (x : Nat) (r : tr_ipv4_range) :
    (¬ compareAddressToRange x r < 0 ∧ ¬ compareAddressToRange x r > 0) ↔ inRange x r := by
  unfold compareAddressToRange inRange
  split_ifs with h1 h2 <;> simp <;> omega

theorem compareAddressToRange_neg (x : Nat) (r : tr_ipv4_range) :
    compareAddressToRange x r < 0 ↔ x < r.begin := by
  unfold compareAddressToRange
  split_ifs with h1 h2 <;> simp <;> omega

theorem compareAddressToRange_pos (x : Nat) (r : tr_ipv4_range) :
    compareAddressToRange x r > 0 ↔ (r.begin ≤ x ∧ r.end_ < x) := by
  unfold compareAddressToRange
  split_ifs with h1 h2 <;> simp <;> omega

/-- In a list of well-formed ranges whose neighbours are disjoint and
ascending, every earlier range ends before every later one begins. -/
theorem pairwise_of_chain_wf (l : List tr_ipv4_range)
    (hwf : ∀ r ∈ l, r.begin ≤ r.end_)
    (hc : List.Chain' (fun a b : tr_ipv4_range => a.end_ < b.begin) l) :
    l.Pairwise (fun a b => a.end_ < b.begin) := by
  induction l with
  | nil => exact List.Pairwise.nil
  | cons a rest ih =>
    rw [List.chain'_cons'] at hc
    have hrest := ih (fun r hr => hwf r (List.mem_cons_of_mem _ hr)) hc.2
    refine List.Pairwise.cons ?_ hrest
    intro b hb
    cases rest with
    | nil => simp at hb
    | cons y rest' =>
      have hay : a.end_ < y.begin := hc.1 y (by simp)
      rcases List.mem_cons.mp hb with rfl | hb'
      · exact hay
      · have hyb := (List.pairwise_cons.mp hrest).1 b hb'
        have hy := hwf y (by simp)
        omega

theorem pairwise_index (l : List tr_ipv4_range)
    (hp : l.Pairwise (fun a b => a.end_ < b.begin))
    (i j : Nat) (a b : tr_ipv4_range) (hij : i < j)
    (hi : l[i]? = some a) (hj : l[j]? = some b) : a.end_ < b.begin := by
  rw [List.getElem?_eq_some_iff] at hi hj
  obtain ⟨hi1, rfl⟩ := hi
  obtain ⟨hj1, rfl⟩ := hj
  exact List.pairwise_iff_getElem.mp hp i j hi1 hj1 hij

/-- The binary search over `[l, u)` finds a range exactly when one contains
the address, provided every range that contains it has its index in `[l, u)`. -/
theorem bsearchLoop_spec (x : Nat) (base : List tr_ipv4_range)
    (hwf : ∀ r ∈ base, r.begin ≤ r.end_)
    (hp : base.Pairwise (fun a b => a.end_ < b.begin)) :
    ∀ (fuel l u : Nat), u ≤ base.length → u - l ≤ fuel →
      (∀ i r, base[i]? = some r → inRange x r → l ≤ i ∧ i < u) →
      (bsearchLoop compareAddressToRange x base fuel l u ≠ none ↔ ∃ r ∈ base, inRange x r) := by
  intro fuel
  induction fuel with
  | zero =>
    intro l u _ hfuel hinv
    simp only [bsearchLoop, ne_eq, not_true_eq_false, false_iff]
    rintro ⟨r, hr, hx⟩
    obtain ⟨i, hi⟩ := List.mem_iff_getElem?.mp hr
    have := hinv i r hi hx
    omega
  | succ fuel ih =>
    intro l u hu hfuel hinv
    unfold bsearchLoop
    by_cases hlu : l < u
    · rw [if_pos hlu]
      have hidx : (l + u) / 2 < base.length := by omega
      have hget : base[(l + u) / 2]? = some base[(l + u) / 2] := List.getElem?_eq_getElem hidx
      simp only [hget]
      have hpw := hwf base[(l + u) / 2] (List.getElem_mem _)
      by_cases hneg : compareAddressToRange x base[(l + u) / 2] < 0
      · rw [if_pos hneg]
        apply ih l ((l + u) / 2) (by omega) (by omega)
        intro i r hi hx
        have h1 := hinv i r hi hx
        refine ⟨h1.1, ?_⟩
        by_contra hge
        rw [compareAddressToRange_neg] at hneg
        rcases Nat.lt_or_ge ((l + u) / 2) i with hlt | hle
        · have := pairwise_index base hp _ _ _ _ hlt hget hi
          unfold inRange at hx
          omega
        · have hieq : i = (l + u) / 2 := by omega
          subst hieq
          rw [hget] at hi
          cases hi
          unfold inRange at hx
          omega
      · rw [if_neg hneg]
        by_cases hpos : compareAddressToRange x base[(l + u) / 2] > 0
        · rw [if_pos hpos]
          apply ih ((l + u) / 2 + 1) u hu (by omega)
          intro i r hi hx
          have h1 := hinv i r hi hx
          refine ⟨?_, h1.2⟩
          by_contra hlt
          rw [compareAddressToRange_pos] at hpos
          rcases Nat.lt_or_ge i ((l + u) / 2) with hlt2 | hge
          · have := pairwise_index base hp _ _ _ _ hlt2 hi hget
            have hr := hwf r (List.mem_iff_getElem?.mpr ⟨i, hi⟩)
            unfold inRange at hx
            omega
          · have hieq : i = (l + u) / 2 := by omega
            subst hieq
            rw [hget] at hi
            cases hi
            unfold inRange at hx
            omega
        · rw [if_neg hpos]
          simp only [ne_eq, reduceCtorEq, not_false_eq_true, true_iff]
          exact ⟨_, List.getElem_mem _, (compareAddressToRange_eq_zero _ _).mp ⟨hneg, hpos⟩⟩
    · rw [if_neg hlu]
      simp only [ne_eq, not_true_eq_false, false_iff]
      rintro ⟨r, hr, hx⟩
      obtain ⟨i, hi⟩ := List.mem_iff_getElem?.mp hr
      have := hinv i r hi hx
      omega

theorem bsearch_spec (x : Nat) (base : List tr_ipv4_range)
    (hwf : ∀ r ∈ base, r.begin ≤ r.end_)
    (hc : List.Chain' (fun a b : tr_ipv4_range => a.end_ < b.begin) base) :
    bsearch compareAddressToRange x base ≠ none ↔ ∃ r ∈ base, inRange x r := by
  unfold bsearch
  apply bsearchLoop_spec x base hwf (pairwise_of_chain_wf base hwf hc) base.length 0 base.length
    (le_refl _) (by omega)
  intro i r hi _
  rw [List.getElem?_eq_some_iff] at hi
  obtain ⟨h, _⟩ := hi
  exact ⟨Nat.zero_le _, h⟩

/-! ## blocklist.c : lookup and parsing -/

/-- C3: for an enabled blocklist whose loaded rules are well formed
(`begin ≤ end`), ascending and disjoint (`ranges[i].end < ranges[i+1].begin`),
and for every IPv4 address, `tr_blocklistFileHasAddress` returns non-zero
exactly when the host-order address lies in `[begin, end]` of some rule; with
zero rules it returns 0. -/
theorem C3_lookup_blocks_exactly_covered_addresses
    (disk : Option (List tr_ipv4_range)) (b : tr_blocklistFile) (addr : tr_address)
    (rules : List tr_ipv4_range)
    (henabled : b.isEnabled = true)
    (hv4 : addr.type = tr_address_type.TR_AF_INET)
    (hloaded : (blocklistEnsureLoaded disk b).rules = some rules)
    (hwf : ∀ r ∈ rules, r.begin ≤ r.end_)
    (hsorted : List.Chain' (fun a b : tr_ipv4_range => a.end_ < b.begin) rules) :
    ((tr_blocklistFileHasAddress disk b addr).1 ≠ 0 ↔
      ∃ r ∈ rules, r.begin ≤ ntohl_addr4 addr ∧ ntohl_addr4 addr ≤ r.end_) ∧
    (rules = [] → (tr_blocklistFileHasAddress disk b addr).1 = 0) := by
  have hres : (tr_blocklistFileHasAddress disk b addr).1 =
      if rules.length = 0 then 0
      else if bsearch compareAddressToRange (ntohl_addr4 addr) rules ≠ none then 1 else 0 := by
    unfold tr_blocklistFileHasAddress
    simp only [henabled, hv4, hloaded]
    simp only [Bool.not_true, Bool.false_or, reduceCtorEq, decide_False, Bool.false_eq_true,
      if_false]
    split_ifs <;> rfl
  have hspec := bsearch_spec (ntohl_addr4 addr) rules hwf hsorted
  constructor
  · rw [hres]
    by_cases hlen : rules.length = 0
    · have hnil : rules = [] := List.length_eq_zero.mp hlen
      subst hnil
      simp
    · rw [if_neg hlen]
      by_cases hfound : bsearch compareAddressToRange (ntohl_addr4 addr) rules ≠ none
      · rw [if_pos hfound]
        simp only [ne_eq, one_ne_zero, not_false_eq_true, true_iff]
        exact hspec.mp hfound
      · rw [if_neg hfound]
        simp only [ne_eq, not_true_eq_false, false_iff]
        exact fun h => hfound (hspec.mpr h)
  · intro hnil
    rw [hres, hnil]
    simp

/-- Witness for C3, the scenario of the specification: with the rules
[100,250], [400,500] the address 0.0.0.150 is blocked and the address
0.0.1.44 (300 in host order) is not. -/
theorem C3_lookup_blocks_exactly_covered_addresses_witness :
    (tr_blocklistFileHasAddress none ⟨true, some [⟨100, 250⟩, ⟨400, 500⟩]⟩
        ⟨tr_address_type.TR_AF_INET, [0, 0, 0, 150]⟩).1 ≠ 0 ∧
    ¬ (tr_blocklistFileHasAddress none ⟨true, some [⟨100, 250⟩, ⟨400, 500⟩]⟩
        ⟨tr_address_type.TR_AF_INET, [0, 0, 1, 44]⟩).1 ≠ 0 :=
  ⟨(C3_lookup_blocks_exactly_covered_addresses none ⟨true, some [⟨100, 250⟩, ⟨400, 500⟩]⟩
      ⟨tr_address_type.TR_AF_INET, [0, 0, 0, 150]⟩ [⟨100, 250⟩, ⟨400, 500⟩]
      rfl rfl rfl (by decide) (by simp)).1.mpr ⟨⟨100, 250⟩, by decide, by decide⟩,
   fun h => absurd
    ((C3_lookup_blocks_exactly_covered_addresses none ⟨true, some [⟨100, 250⟩, ⟨400, 500⟩]⟩
      ⟨tr_address_type.TR_AF_INET, [0, 0, 1, 44]⟩ [⟨100, 250⟩, ⟨400, 500⟩]
      rfl rfl rfl (by decide) (by simp)).1.mp h) (by decide)⟩

theorem mergeLoop_wellformed (keep : tr_ipv4_range) (rs : List tr_ipv4_range)
    (hk : keep.begin ≤ keep.end_) (hrs : ∀ r ∈ rs, r.begin ≤ r.end_) :
    ∀ r ∈ mergeLoop keep rs, r.begin ≤ r.end_ := by
  induction rs generalizing keep with
  | nil =>
    intro r hr
    simp only [mergeLoop, List.mem_singleton] at hr
    rw [hr]; exact hk
  | cons q rest ih =>
    have hq := hrs q (List.mem_cons_self _ _)
    have hrest : ∀ r ∈ rest, r.begin ≤ r.end_ := fun r hr => hrs r (List.mem_cons_of_mem _ hr)
    unfold mergeLoop
    split_ifs with h1 h2
    · intro r hr
      rcases List.mem_cons.mp hr with rfl | hr1
      · exact hk
      · exact ih q hq hrest r hr1
    · exact ih { keep with end_ := q.end_ } (by simp only; omega) hrest
    · exact ih keep hk hrest

/-- The merge pass does not repair and does not break the order of the two
ends: when every parsed range has `begin ≤ end`, so has every stored range.
Ranges with `begin > end` can only come from the parser. -/
theorem setContent_wellformed
    (qsort : (tr_ipv4_range → tr_ipv4_range → Int) → List tr_ipv4_range → List tr_ipv4_range)
    (hq : QsortContract qsort compareAddressRangesByFirstAddress)
    (ranges : List tr_ipv4_range) (hwf : ∀ r ∈ ranges, r.begin ≤ r.end_) :
    ∀ r ∈ tr_blocklistFileSetContent qsort ranges, r.begin ≤ r.end_ := by
  obtain ⟨hperm, _⟩ := hq ranges
  have hwf2 : ∀ r ∈ qsort compareAddressRangesByFirstAddress ranges, r.begin ≤ r.end_ :=
    fun r hr => hwf r (hperm.mem_iff.mp hr)
  unfold tr_blocklistFileSetContent
  cases ranges with
  | nil => simp
  | cons a as =>
    simp only
    cases hs : qsort compareAddressRangesByFirstAddress (a :: as) with
    | nil => simp
    | cons f rest =>
      rw [hs] at hwf2
      exact mergeLoop_wellformed f rest (hwf2 f (List.mem_cons_self _ _))
        (fun r hr => hwf2 r (List.mem_cons_of_mem _ hr))

/-- C5, the failing input: the line "x:10.0.0.5-10.0.0.1" is accepted by
`parseLine1` as the range with `begin` 10.0.0.5 and `end` 10.0.0.1, the sort
and merge pass leaves it as it is, so the array to be written holds a range
with `begin > end`, and the `assert` of blocklist.c:407 does not hold for
it. -/
theorem C5_reversed_line_is_stored_reversed :
    parseLine1 (zapLinefeed "x:10.0.0.5-10.0.0.1\n".toList) =
      some ⟨167772165, 167772161⟩ ∧
    tr_blocklistFileSetContent_lines insertionQsort ["x:10.0.0.5-10.0.0.1\n".toList] =
      [⟨167772165, 167772161⟩] ∧
    (∃ r ∈ tr_blocklistFileSetContent_lines insertionQsort ["x:10.0.0.5-10.0.0.1\n".toList],
      r.end_ < r.begin) ∧
    sanityChecks
      (tr_blocklistFileSetContent_lines insertionQsort ["x:10.0.0.5-10.0.0.1\n".toList]) =
      false := by
  refine ⟨by decide, by decide, ⟨⟨167772165, 167772161⟩, by decide, by decide⟩, by decide⟩

/-- C6: whatever the state of the blocklist (enabled or not, rules loaded or
not, any rules, any file on disk), `tr_blocklistFileHasAddress` returns 0 for
an IPv6 address, and leaves the blocklist as it was. -/
theorem C6_ipv6_never_blocked
    (disk : Option (List tr_ipv4_range)) (b : tr_blocklistFile) (addr : tr_address)
    (hv6 : addr.type = tr_address_type.TR_AF_INET6) :
    tr_blocklistFileHasAddress disk b addr = (0, b) := by
  unfold tr_blocklistFileHasAddress
  simp [hv6]

/-- Witness for C6: an enabled blocklist whose only rule covers every 32-bit
value does not block the IPv6 loopback address. -/
theorem C6_ipv6_never_blocked_witness :
    tr_blocklistFileHasAddress none ⟨true, some [⟨0, 4294967295⟩]⟩
      ⟨tr_address_type.TR_AF_INET6, [0, 0, 0, 0, 0, 0, 0, 0, 0, 0, 0, 0, 0, 0, 0, 1]⟩ =
      (0, ⟨true, some [⟨0, 4294967295⟩]⟩) :=
  C6_ipv6_never_blocked none ⟨true, some [⟨0, 4294967295⟩]⟩
    ⟨tr_address_type.TR_AF_INET6, [0, 0, 0, 0, 0, 0, 0, 0, 0, 0, 0, 0, 0, 0, 0, 1]⟩ rfl

/-- A field of a P2P line beyond the range of `int` is stored as the `int`
that the conversion leaves: 4294967297 becomes 1 and the line is accepted as
the range from 1.0.0.1 to 1.0.0.2. -/
theorem parseLine1_field_beyond_int_example :
    parseLine1 (zapLinefeed "x:4294967297.0.0.1-1.0.0.2\n".toList) =
      some ⟨16777217, 16777218⟩ := by
  decide

/-! ## makemeta.c : piece size and piece count -/

/-- C7: `bestPieceSize` follows the table of the specification for every total
size: the 32-bit products that form the thresholds and the results do not
wrap.  In particular 100 MiB gives 64 KiB, 1 GiB gives 1 MiB and 4 GiB gives
2 MiB. -/
theorem C7_bestPieceSize_table (s : Nat) :
    bestPieceSize s =
      (if s ≥ 2 * 2 ^ 30 then 2 * 2 ^ 20
       else if s ≥ 1 * 2 ^ 30 then 1 * 2 ^ 20
       else if s ≥ 512 * 2 ^ 20 then 512 * 2 ^ 10
       else if s ≥ 350 * 2 ^ 20 then 256 * 2 ^ 10
       else if s ≥ 150 * 2 ^ 20 then 128 * 2 ^ 10
       else if s ≥ 50 * 2 ^ 20 then 64 * 2 ^ 10
       else 32 * 2 ^ 10) ∧
    bestPieceSize (100 * 2 ^ 20) = 64 * 2 ^ 10 ∧
    bestPieceSize (1 * 2 ^ 30) = 1 * 2 ^ 20 ∧
    bestPieceSize (4 * 2 ^ 30) = 2 * 2 ^ 20 := by
  refine ⟨?_, by decide, by decide, by decide⟩
  simp only [bestPieceSize, u32]
  norm_num

theorem toInt32_of_lt (q : Nat) (hq : q < 2 ^ 31) :
    (toInt32 (q : Int) % 2 ^ 32).toNat = q := by
  unfold toInt32
  norm_num at hq ⊢
  omega

/-- C8: for a builder with `totalSize > 0` and a piece size `p > 0` with
`totalSize / p < 2^31`, `tr_metaInfoBuilderSetPieceSize` stores `p` and a
`pieceCount ≥ 1` with `totalSize = p * (pieceCount - 1) + last` for exactly one
`last` in `(0, p]`; that is `pieceCount = ceil (totalSize / p)`. -/
theorem C8_pieceCount_is_ceiling (b : tr_metainfo_builder) (p : Nat)
    (htotal : 0 < b.totalSize) (hp : 0 < p) (hq : b.totalSize / p < 2 ^ 31) :
    ∃ b1, tr_metaInfoBuilderSetPieceSize b p = some b1 ∧
      b1.pieceSize = p ∧ b1.totalSize = b.totalSize ∧ b1.files = b.files ∧
      1 ≤ b1.pieceCount ∧
      (∃! last, 0 < last ∧ last ≤ p ∧ b.totalSize = p * (b1.pieceCount - 1) + last) ∧
      b1.pieceCount = (b.totalSize + p - 1) / p := by
  have hdm : p * (b.totalSize / p) + b.totalSize % p = b.totalSize := Nat.div_add_mod _ _
  have hr : b.totalSize % p < p := Nat.mod_lt _ hp
  have hcast := toInt32_of_lt (b.totalSize / p) hq
  have hval : tr_metaInfoBuilderSetPieceSize b p =
      some { b with pieceSize := p,
                    pieceCount := if b.totalSize % p ≠ 0 then b.totalSize / p + 1
                                  else b.totalSize / p } := by
    have hu : u32 (b.totalSize / p + 1) = b.totalSize / p + 1 := by
      unfold u32
      apply Nat.mod_eq_of_lt
      norm_num at hq ⊢
      omega
    unfold tr_metaInfoBuilderSetPieceSize
    rw [if_neg (Nat.ne_of_gt hp)]
    dsimp only
    rw [hcast]
    split_ifs
    · rw [hu]
    · rfl
  by_cases hrem : b.totalSize % p = 0
  · refine ⟨{ b with pieceSize := p, pieceCount := b.totalSize / p }, ?_, rfl, rfl, rfl, ?_, ?_, ?_⟩
    · rw [hval]; simp [hrem]
    · show 1 ≤ b.totalSize / p
      rcases Nat.eq_zero_or_pos (b.totalSize / p) with h0 | h0
      · rw [h0] at hdm; omega
      · exact h0
    · show ∃! last, 0 < last ∧ last ≤ p ∧ b.totalSize = p * (b.totalSize / p - 1) + last
      have hpos : 1 ≤ b.totalSize / p := by
        rcases Nat.eq_zero_or_pos (b.totalSize / p) with h0 | h0
        · rw [h0] at hdm; omega
        · exact h0
      obtain ⟨k, hk⟩ : ∃ k, b.totalSize / p = k + 1 := ⟨b.totalSize / p - 1, by omega⟩
      rw [hk] at hdm ⊢
      have hexp : p * (k + 1) = p * k + p := by ring
      refine ⟨p, ⟨hp, le_refl _, ?_⟩, ?_⟩
      · simp only [Nat.add_sub_cancel]; omega
      · rintro y ⟨_, _, hy⟩
        simp only [Nat.add_sub_cancel] at hy
        omega
    · show b.totalSize / p = (b.totalSize + p - 1) / p
      have h1 : b.totalSize + p - 1 = (p - 1) + p * (b.totalSize / p) := by omega
      have h2 : (p - 1) / p = 0 := Nat.div_eq_of_lt (by omega)
      rw [h1, Nat.add_mul_div_left _ _ hp, h2]
      omega
  · refine ⟨{ b with pieceSize := p, pieceCount := b.totalSize / p + 1 }, ?_, rfl, rfl, rfl,
      ?_, ?_, ?_⟩
    · rw [hval]; simp [hrem]
    · show 1 ≤ b.totalSize / p + 1
      omega
    · show ∃! last, 0 < last ∧ last ≤ p ∧ b.totalSize = p * (b.totalSize / p + 1 - 1) + last
      simp only [Nat.add_sub_cancel]
      refine ⟨b.totalSize % p, ⟨by omega, by omega, by omega⟩, ?_⟩
      rintro y ⟨_, _, hy⟩
      omega
    · show b.totalSize / p + 1 = (b.totalSize + p - 1) / p
      have h1 : b.totalSize + p - 1 = (b.totalSize % p - 1) + p * (b.totalSize / p + 1) := by
        have hexp : p * (b.totalSize / p + 1) = p * (b.totalSize / p) + p := by ring
        omega
      have h2 : (b.totalSize % p - 1) / p = 0 := Nat.div_eq_of_lt (by omega)
      rw [h1, Nat.add_mul_div_left _ _ hp, h2]
      omega

/-- Witness for C8: 100 bytes in pieces of 32 bytes make 4 pieces. -/
theorem C8_pieceCount_is_ceiling_witness :
    ∃ b1, tr_metaInfoBuilderSetPieceSize { totalSize := 100 } 32 = some b1 ∧
      b1.pieceSize = 32 ∧ b1.totalSize = ({ totalSize := 100 } : tr_metainfo_builder).totalSize ∧
      b1.files = ({ totalSize := 100 } : tr_metainfo_builder).files ∧
      1 ≤ b1.pieceCount ∧
      (∃! last, 0 < last ∧ last ≤ 32 ∧
        ({ totalSize := 100 } : tr_metainfo_builder).totalSize = 32 * (b1.pieceCount - 1) + last) ∧
      b1.pieceCount = (({ totalSize := 100 } : tr_metainfo_builder).totalSize + 32 - 1) / 32 :=
  C8_pieceCount_is_ceiling { totalSize := 100 } 32 (by decide) (by decide) (by decide)

/-! ## makemeta.c : the order of the file list -/

theorem lowerHead_nil : lowerHead [] = 0 := by
  decide

theorem lowerHead_cons (c : Int) (s : CString) : lowerHead (c :: s) = EVUTIL_TOLOWER c := rfl

/-- Exchanging the arguments of `evutil_ascii_strcasecmp` changes the sign of
the result. -/
theorem strcasecmp_swap (a b : CString) :
    evutil_ascii_strcasecmp b a = - evutil_ascii_strcasecmp a b := by
  induction a generalizing b with
  | nil =>
    cases b with
    | nil => simp [evutil_ascii_strcasecmp, lowerHead_nil]
    | cons d b1 =>
      simp only [evutil_ascii_strcasecmp, lowerHead_nil, lowerHead_cons]
      split_ifs <;> first | rfl | omega
  | cons c a1 ih =>
    cases b with
    | nil =>
      simp only [evutil_ascii_strcasecmp, lowerHead_nil, lowerHead_cons]
      split_ifs <;> first | rfl | omega
    | cons d b1 =>
      simp only [evutil_ascii_strcasecmp, lowerHead_cons, List.tail_cons]
      have := ih b1
      split_ifs <;> first | rfl | omega

theorem strcasecmp_le_trans (a b c : CString)
    (hab : evutil_ascii_strcasecmp a b ≤ 0) (hbc : evutil_ascii_strcasecmp b c ≤ 0) :
    evutil_ascii_strcasecmp a c ≤ 0 := by
  induction a generalizing b c with
  | nil =>
    cases b with
    | nil => exact hbc
    | cons d b1 =>
      cases c with
      | nil =>
        simp only [evutil_ascii_strcasecmp, lowerHead_nil, lowerHead_cons] at *
        split_ifs at * <;> omega
      | cons e c1 =>
        simp only [evutil_ascii_strcasecmp, lowerHead_nil, lowerHead_cons] at *
        split_ifs at * <;> omega
  | cons x a1 ih =>
    cases b with
    | nil =>
      cases c with
      | nil => exact hab
      | cons e c1 =>
        simp only [evutil_ascii_strcasecmp, lowerHead_nil, lowerHead_cons] at *
        split_ifs at * <;> omega
    | cons d b1 =>
      cases c with
      | nil =>
        simp only [evutil_ascii_strcasecmp, lowerHead_nil, lowerHead_cons, List.tail_cons] at *
        split_ifs at * <;> omega
      | cons e c1 =>
        simp only [evutil_ascii_strcasecmp, lowerHead_cons, List.tail_cons] at *
        have := ih b1 c1
        split_ifs at * <;> omega

theorem setPieceSize_files (b : tr_metainfo_builder) (p : Nat) (hp : p ≠ 0) :
    ∃ b1, tr_metaInfoBuilderSetPieceSize b p = some b1 ∧ b1.files = b.files := by
  unfold tr_metaInfoBuilderSetPieceSize
  rw [if_neg hp]
  dsimp only
  split_ifs
  · exact ⟨_, rfl, rfl⟩
  · exact ⟨_, rfl, rfl⟩

/-- The comparator of the file list is a total preorder, so insertion sort
driven by it fulfils the `qsort` contract. -/
theorem insertionQsort_contract_files :
    QsortContract insertionQsort builderFileCompare := by
  intro l
  haveI : IsTotal tr_metainfo_builder_file (fun a b => builderFileCompare a b ≤ 0) :=
    ⟨fun a b => by
      unfold builderFileCompare
      have := strcasecmp_swap a.filename b.filename
      omega⟩
  haveI : IsTrans tr_metainfo_builder_file (fun a b => builderFileCompare a b ≤ 0) :=
    ⟨fun a b c => strcasecmp_le_trans a.filename b.filename c.filename⟩
  exact ⟨List.perm_insertionSort _ l, List.sorted_insertionSort _ l⟩

/-- C10 as stated fails: for a directory that holds the files "a" and "B" the
builder's file list is "/d/t/a", "/d/t/B", and the first path is not
lexicographically less than or equal to the second. -/
theorem C10_file_order_counterexample :
    (tr_metaInfoBuilderCreate insertionQsort (cstr "/d/t") (cstr "/d") (cstr "t")
        (FsEntry.directory true
          (DirEntries.cons (cstr "a") (FsEntry.regular 1)
            (DirEntries.cons (cstr "B") (FsEntry.regular 2) DirEntries.nil)))).map
      (fun b => b.files) = some [⟨cstr "/d/t/a", 1⟩, ⟨cstr "/d/t/B", 2⟩] ∧
    lexLe (cstr "/d/t/a") (cstr "/d/t/B") = false := by
  decide

/-- C10 amended: for every input tree, the file list of the builder returned
by `tr_metaInfoBuilderCreate` holds the files found by the walk, ordered by
`evutil_ascii_strcasecmp` on the paths, which ignores the case of ASCII
letters: for every pair of consecutive entries the comparison of the earlier
path with the later one is not positive. -/
theorem C10_file_list_sorted_ignoring_case
    (qsort : (tr_metainfo_builder_file → tr_metainfo_builder_file → Int) →
      List tr_metainfo_builder_file → List tr_metainfo_builder_file)
    (hq : QsortContract qsort builderFileCompare)
    (topFile dir base : CString) (entry : FsEntry) :
    ∃ b, tr_metaInfoBuilderCreate qsort topFile dir base entry = some b ∧
      b.files.Perm (getFiles dir base entry []) ∧
      List.Chain' (fun f g : tr_metainfo_builder_file =>
        evutil_ascii_strcasecmp f.filename g.filename ≤ 0) b.files := by
  obtain ⟨hperm, hsorted⟩ := hq (getFiles dir base entry [])
  have hbest : bestPieceSize
      ((getFiles dir base entry []).foldl (fun acc f => u64 (acc + f.size)) 0) ≠ 0 := by
    generalize (getFiles dir base entry []).foldl (fun acc f => u64 (acc + f.size)) 0 = t
    simp only [bestPieceSize, u32]
    split_ifs <;> decide
  have key : ∀ (ret : tr_metainfo_builder) (p : Nat), p ≠ 0 →
      ret.files = qsort builderFileCompare (getFiles dir base entry []) →
      ∃ b, tr_metaInfoBuilderSetPieceSize ret p = some b ∧
        b.files.Perm (getFiles dir base entry []) ∧
        List.Chain' (fun f g : tr_metainfo_builder_file =>
          evutil_ascii_strcasecmp f.filename g.filename ≤ 0) b.files := by
    intro ret p hp hf
    obtain ⟨b1, h1, h2⟩ := setPieceSize_files ret p hp
    refine ⟨b1, h1, ?_, ?_⟩
    · rw [h2, hf]; exact hperm
    · rw [h2, hf]; exact hsorted.chain'
  exact key _ _ hbest rfl

/-- Witness for C10 amended with insertion sort as the sorting procedure, on a
directory that holds the files "a" and "B". -/
theorem C10_file_list_sorted_ignoring_case_witness :
    ∃ b, tr_metaInfoBuilderCreate insertionQsort (cstr "/d/t") (cstr "/d") (cstr "t")
        (FsEntry.directory true
          (DirEntries.cons (cstr "a") (FsEntry.regular 1)
            (DirEntries.cons (cstr "B") (FsEntry.regular 2) DirEntries.nil))) = some b ∧
      b.files.Perm (getFiles (cstr "/d") (cstr "t")
        (FsEntry.directory true
          (DirEntries.cons (cstr "a") (FsEntry.regular 1)
            (DirEntries.cons (cstr "B") (FsEntry.regular 2) DirEntries.nil))) []) ∧
      List.Chain' (fun f g : tr_metainfo_builder_file =>
        evutil_ascii_strcasecmp f.filename g.filename ≤ 0) b.files :=
  C10_file_list_sorted_ignoring_case insertionQsort insertionQsort_contract_files
    (cstr "/d/t") (cstr "/d") (cstr "t")
    (FsEntry.directory true
      (DirEntries.cons (cstr "a") (FsEntry.regular 1)
        (DirEntries.cons (cstr "B") (FsEntry.regular 2) DirEntries.nil)))

/-- The builder keeps the resolved path as `top`: for the file "/vtop", whose
directory is "/", `top` is "/vtop" and the one file has the path that
`tr_buildPath ("/", "vtop")` gives. -/
theorem tr_metaInfoBuilderCreate_top_example :
    (tr_metaInfoBuilderCreate insertionQsort (cstr "/vtop") (cstr "/") (cstr "vtop")
        (FsEntry.regular 5)).map (fun b => (b.top, b.files, b.isSingleFile)) =
      some (cstr "/vtop", [⟨cstr "//vtop", 5⟩], true) := by
  decide

/-! ## makemeta.c : lemmas on the hashing loops -/

theorem readPiece_succ (disk : CString → Option (List Nat))
    (files : List tr_metainfo_builder_file) (fuel fileIndex off : Nat) (fd : Option (List Nat))
    (leftInPiece : Nat) (buf : List Nat) :
    readPiece disk files (fuel + 1) fileIndex off fd leftInPiece buf =
    if leftInPiece = 0 then Outcome.returned (PieceRead.filled fileIndex off fd buf)
    else
      match files[fileIndex]?, fd with
      | none, _ => Outcome.fault
      | some _, none => Outcome.fault
      | some file, some content =>
        let n_this_pass := min (file.size - off) leftInPiece
        let data := (content.drop off).take n_this_pass
        let n_read := data.length
        if n_read < n_this_pass then Outcome.hang
        else if off + n_read = file.size then
          if fileIndex + 1 < files.length then
            match disk ((files[fileIndex + 1]?.map (fun f => f.filename)).getD []) with
            | none => Outcome.returned (PieceRead.openFailed (fileIndex + 1))
            | some next =>
              readPiece disk files fuel (fileIndex + 1) 0 (some next) (leftInPiece - n_read)
                (buf ++ data)
          else
            readPiece disk files fuel (fileIndex + 1) 0 none (leftInPiece - n_read) (buf ++ data)
        else
          readPiece disk files fuel fileIndex (off + n_read) fd (leftInPiece - n_read)
            (buf ++ data) := rfl

theorem readPiece_zero (disk : CString → Option (List Nat))
    (files : List tr_metainfo_builder_file) (fileIndex off : Nat) (fd : Option (List Nat))
    (leftInPiece : Nat) (buf : List Nat) :
    readPiece disk files 0 fileIndex off fd leftInPiece buf =
    if leftInPiece = 0 then Outcome.returned (PieceRead.filled fileIndex off fd buf)
    else Outcome.hang := rfl

theorem readPiece_nothing_left (disk : CString → Option (List Nat))
    (files : List tr_metainfo_builder_file) (fuel i off : Nat) (fd : Option (List Nat))
    (buf : List Nat) :
    readPiece disk files fuel i off fd 0 buf =
      Outcome.returned (PieceRead.filled i off fd buf) := by
  cases fuel with
  | zero => rw [readPiece_zero, if_pos rfl]
  | succ n => rw [readPiece_succ, if_pos rfl]

theorem contentsOf_cons (disk : CString → Option (List Nat)) (f : tr_metainfo_builder_file)
    (post : List tr_metainfo_builder_file) :
    contentsOf disk (f :: post) = (disk f.filename).getD [] ++ contentsOf disk post := by
  simp [contentsOf]

/-- The loop `while (leftInPiece)`, started inside a file with at least
`leftInPiece` bytes ahead, puts exactly the next `leftInPiece` bytes of the
concatenated files into the buffer and stops in front of the bytes that
follow. -/
theorem readPiece_exact (disk : CString → Option (List Nat))
    (post : List tr_metainfo_builder_file) :
    ∀ (pre : List tr_metainfo_builder_file) (cur : tr_metainfo_builder_file) (c : List Nat)
      (off left : Nat) (buf : List Nat) (fuel : Nat),
      c.length = cur.size → FilesReadable disk post → off < cur.size →
      left ≤ (c.drop off ++ contentsOf disk post).length → post.length + 2 ≤ fuel →
      ∃ i off1 fd1,
        readPiece disk (pre ++ cur :: post) fuel pre.length off (some c) left buf =
          Outcome.returned (PieceRead.filled i off1 fd1
            (buf ++ (c.drop off ++ contentsOf disk post).take left)) ∧
        ReadingAt disk (pre ++ cur :: post) i off1 fd1
          ((c.drop off ++ contentsOf disk post).drop left) := by
  induction post with
  | nil =>
    intro pre cur c off left buf fuel hc _ hoff hleft hfuel
    obtain ⟨f, rfl⟩ : ∃ f, fuel = f + 1 := ⟨fuel - 1, by simp at hfuel; omega⟩
    have hnil : contentsOf disk [] = [] := rfl
    simp only [hnil, List.append_nil, List.length_drop] at hleft ⊢
    by_cases hl0 : left = 0
    · subst hl0
      refine ⟨pre.length, off, some c, ?_, ?_⟩
      · rw [readPiece_nothing_left]; simp
      · left
        exact ⟨pre, cur, [], c, rfl, rfl, rfl, hc, hoff, by simp [hnil]⟩
    · have hget : (pre ++ [cur])[pre.length]? = some cur := by simp
      by_cases hA : cur.size - off ≤ left
      · -- the rest of the file is read and the piece is complete
        have hleq : left = cur.size - off := by omega
        refine ⟨pre.length + 1, 0, none, ?_, ?_⟩
        · rw [readPiece_succ, if_neg hl0]
          simp only [hget]
          have hmin : min (cur.size - off) left = cur.size - off := by omega
          have hdata : (c.drop off).take (cur.size - off) = c.drop off :=
            List.take_of_length_le (by simp; omega)
          simp only [hmin, hdata, List.length_drop, hc]
          rw [if_neg (by omega), if_pos (by omega), if_neg (by simp)]
          have h0 : left - (cur.size - off) = 0 := by omega
          rw [h0, readPiece_nothing_left]
          rw [hleq, ← hc, ← List.length_drop, List.take_length]
        · right
          refine ⟨by simp, ?_⟩
          apply List.drop_of_length_le
          simp; omega
      · -- the piece ends inside the file
        refine ⟨pre.length, off + left, some c, ?_, ?_⟩
        · rw [readPiece_succ, if_neg hl0]
          simp only [hget]
          have hmin : min (cur.size - off) left = left := by omega
          have hlen : ((c.drop off).take left).length = left := by
            rw [List.length_take, List.length_drop]; omega
          simp only [hmin, hlen]
          rw [if_neg (by omega), if_neg (by omega), Nat.sub_self, readPiece_nothing_left]
        · left
          refine ⟨pre, cur, [], c, rfl, rfl, rfl, hc, by omega, ?_⟩
          simp [hnil, List.drop_drop, Nat.add_comm]
  | cons cur2 post2 ih =>
    intro pre cur c off left buf fuel hc hpost hoff hleft hfuel
    obtain ⟨f, rfl⟩ : ∃ f, fuel = f + 1 := ⟨fuel - 1, by simp at hfuel; omega⟩
    obtain ⟨hsize2, c2, hdisk2, hc2⟩ := hpost cur2 (List.mem_cons_self _ _)
    have hpost2 : FilesReadable disk post2 := fun g hg => hpost g (List.mem_cons_of_mem _ hg)
    have hcont : contentsOf disk (cur2 :: post2) = c2 ++ contentsOf disk post2 := by
      rw [contentsOf_cons, hdisk2]; rfl
    by_cases hl0 : left = 0
    · subst hl0
      refine ⟨pre.length, off, some c, ?_, ?_⟩
      · rw [readPiece_nothing_left]; simp
      · left
        exact ⟨pre, cur, cur2 :: post2, c, rfl, rfl, rfl, hc, hoff, by simp⟩
    · have hget : (pre ++ cur :: cur2 :: post2)[pre.length]? = some cur := by
        rw [List.getElem?_append_right (le_refl _)]
        simp
      have hget2 : (pre ++ cur :: cur2 :: post2)[pre.length + 1]? = some cur2 := by
        rw [List.getElem?_append_right (by omega)]
        simp
      by_cases hA : cur.size - off ≤ left
      · -- the rest of the file is read, the next file is opened
        have hmin : min (cur.size - off) left = cur.size - off := by omega
        have hdata : (c.drop off).take (cur.size - off) = c.drop off :=
          List.take_of_length_le (by simp; omega)
        have hfiles : pre ++ cur :: cur2 :: post2 = (pre ++ [cur]) ++ cur2 :: post2 := by simp
        have hidx : pre.length + 1 = (pre ++ [cur]).length := by simp
        have hleft2 : left - (cur.size - off) ≤
            (c2.drop 0 ++ contentsOf disk post2).length := by
          rw [hcont] at hleft
          simp only [List.length_append, List.length_drop, List.drop_zero] at hleft ⊢
          omega
        obtain ⟨i, off1, fd1, hrun, hat⟩ := ih (pre ++ [cur]) cur2 c2 0
          (left - (cur.size - off)) (buf ++ c.drop off) f hc2 hpost2 hsize2 hleft2
          (by simp at hfuel ⊢; omega)
        have hfull : (c.drop off).take left = c.drop off :=
          List.take_of_length_le (by simp; omega)
        have hnone : (c.drop off).drop left = [] :=
          List.drop_of_length_le (by simp; omega)
        have htake : (c.drop off ++ (c2 ++ contentsOf disk post2)).take left =
            c.drop off ++ (c2 ++ contentsOf disk post2).take (left - (cur.size - off)) := by
          rw [List.take_append_eq_append_take, hfull, List.length_drop, hc]
        have hdrop : (c.drop off ++ (c2 ++ contentsOf disk post2)).drop left =
            (c2 ++ contentsOf disk post2).drop (left - (cur.size - off)) := by
          rw [List.drop_append_eq_append_drop, hnone, List.length_drop, hc, List.nil_append]
        refine ⟨i, off1, fd1, ?_, ?_⟩
        · rw [readPiece_succ, if_neg hl0]
          simp only [hget]
          simp only [hmin, hdata, List.length_drop, hc]
          rw [if_neg (by omega), if_pos (by omega), if_pos (by simp)]
          simp only [hget2, Option.map_some', Option.getD_some, hdisk2]
          rw [hidx, hfiles, hrun, hcont, htake]
          simp only [List.drop_zero, List.append_assoc]
        · rw [hfiles, hcont, hdrop]
          simpa using hat
      · -- the piece ends inside the file
        refine ⟨pre.length, off + left, some c, ?_, ?_⟩
        · rw [readPiece_succ, if_neg hl0]
          simp only [hget]
          have hmin : min (cur.size - off) left = left := by omega
          have hlen : ((c.drop off).take left).length = left := by
            rw [List.length_take, List.length_drop]; omega
          simp only [hmin, hlen]
          rw [if_neg (by omega), if_neg (by omega), Nat.sub_self, readPiece_nothing_left]
          rw [List.take_append_of_le_length (by simp; omega)]
        · left
          refine ⟨pre, cur, cur2 :: post2, c, rfl, rfl, rfl, hc, by omega, ?_⟩
          rw [List.drop_append_of_le_length (by simp; omega), List.drop_drop, Nat.add_comm]

theorem hashPieces_zero (ndebug : Bool) (sha1 : List Nat → List Nat)
    (disk : CString → Option (List Nat)) (errno : Int) (slots : Nat)
    (b : tr_metainfo_builder) (fileIndex off : Nat) (fd : Option (List Nat))
    (totalRemain : Nat) (walk : List (List Nat)) :
    hashPieces ndebug sha1 disk errno slots 0 b fileIndex off fd totalRemain walk =
    if totalRemain = 0 then Outcome.returned (HashLoopExit.left b totalRemain walk)
    else Outcome.hang := rfl

theorem hashPieces_succ (ndebug : Bool) (sha1 : List Nat → List Nat)
    (disk : CString → Option (List Nat)) (errno : Int) (slots : Nat) (fuel : Nat)
    (b : tr_metainfo_builder) (fileIndex off : Nat) (fd : Option (List Nat))
    (totalRemain : Nat) (walk : List (List Nat)) :
    hashPieces ndebug sha1 disk errno slots (fuel + 1) b fileIndex off fd totalRemain walk =
    if totalRemain = 0 then Outcome.returned (HashLoopExit.left b totalRemain walk)
    else
      if !ndebug && !decide (b.pieceIndex < b.pieceCount) then Outcome.assertFailed 244
      else
        match readPiece disk b.files (b.files.length - fileIndex + 1) fileIndex off fd
            (u32 (min b.pieceSize totalRemain)) [] with
        | Outcome.assertFailed line => Outcome.assertFailed line
        | Outcome.fault => Outcome.fault
        | Outcome.hang => Outcome.hang
        | Outcome.returned (PieceRead.openFailed i) =>
          Outcome.returned (HashLoopExit.returnedNull
            { b with my_errno := errno
                     errfile := tr_strlcpy b.errfile
                       ((b.files[i]?.map (fun f => f.filename)).getD []) b.errfileSize
                     result := tr_metainfo_builder_err.TR_MAKEMETA_IO_READ })
        | Outcome.returned (PieceRead.filled fileIndex1 off1 fd1 buf) =>
          if !ndebug && !decide ((buf.length : Int) =
              toInt32 (u32 (min b.pieceSize totalRemain))) then
            Outcome.assertFailed 276
          else if slots ≤ walk.length then Outcome.fault
          else
            if b.abortFlag then
              Outcome.returned (HashLoopExit.left
                { b with result := tr_metainfo_builder_err.TR_MAKEMETA_CANCELLED }
                totalRemain (walk ++ [sha1 buf]))
            else
              hashPieces ndebug sha1 disk errno slots fuel
                { b with pieceIndex := u32 (b.pieceIndex + 1) }
                fileIndex1 off1 fd1 (totalRemain - u32 (min b.pieceSize totalRemain))
                (walk ++ [sha1 buf]) := rfl

theorem toInt32_small (n : Nat) (h : n < 2 ^ 31) : toInt32 (n : Int) = (n : Int) := by
  unfold toInt32
  norm_num at h ⊢
  omega

/-- The number of pieces `ceil (total / p)` exceeds `k` exactly when `k`
whole pieces do not cover the total. -/
theorem lt_ceil_iff (total p k : Nat) (hp : 0 < p) :
    k < (total + p - 1) / p ↔ k * p < total := by
  rw [Nat.lt_iff_add_one_le, Nat.le_div_iff_mul_le hp, Nat.add_mul, Nat.one_mul]
  omega

theorem digestsUpTo_length (sha1 : List Nat → List Nat) (bytes : List Nat) (p total k : Nat) :
    (digestsUpTo sha1 bytes p total k).length = k := by
  simp [digestsUpTo]

theorem digestsUpTo_succ (sha1 : List Nat → List Nat) (bytes : List Nat) (p k : Nat) :
    digestsUpTo sha1 bytes p bytes.length (k + 1) =
      digestsUpTo sha1 bytes p bytes.length k ++
        [sha1 ((bytes.drop (k * p)).take (min p (bytes.length - k * p)))] := by
  unfold digestsUpTo byteRange
  rw [List.range_succ, List.map_append, List.map_singleton]
  have h : min ((k + 1) * p) bytes.length - k * p = min p (bytes.length - k * p) := by
    rw [Nat.add_mul, Nat.one_mul]
    omega
  rw [h]

/-- The loop `while (totalRemain)`: started in front of the `k`-th piece with
the first `k` digests written, it ends with all digests written and nothing
remaining.  With assertions compiled in this needs a piece size that fits
into an `int`. -/
theorem hashPieces_exact (ndebug : Bool) (sha1 : List Nat → List Nat)
    (disk : CString → Option (List Nat)) (errno : Int)
    (files : List tr_metainfo_builder_file) (bytes : List Nat) (p pc slots : Nat)
    (hread : FilesReadable disk files)
    (hp : 0 < p) (hp32 : p < 2 ^ 32) (hint : ndebug = false → p < 2 ^ 31)
    (hpc : pc = (bytes.length + p - 1) / p) (hslots : pc ≤ slots) (hpc32 : pc < 2 ^ 32) :
    ∀ (fuel k : Nat) (b : tr_metainfo_builder) (i off : Nat) (fd : Option (List Nat)),
      b.files = files → b.pieceSize = p → b.pieceCount = pc → b.abortFlag = false →
      b.pieceIndex = k →
      ReadingAt disk files i off fd (bytes.drop (k * p)) →
      bytes.length - k * p ≤ fuel → k ≤ pc →
      hashPieces ndebug sha1 disk errno slots fuel b i off fd (bytes.length - k * p)
          (digestsUpTo sha1 bytes p bytes.length k) =
        Outcome.returned (HashLoopExit.left { b with pieceIndex := pc } 0
          (digestsUpTo sha1 bytes p bytes.length pc)) := by
  intro fuel
  induction fuel with
  | zero =>
    intro k b i off fd _ _ _ _ hk _ hfuel hkpc
    have hrem : bytes.length - k * p = 0 := by omega
    have hkeq : k = pc := by
      have := (lt_ceil_iff bytes.length p k hp).not
      rw [← hpc] at this
      have h2 : ¬ k * p < bytes.length := by omega
      have := this.mpr h2
      omega
    rw [hashPieces_zero, if_pos hrem, hrem, ← hkeq, ← hk]
  | succ fuel ih =>
    intro k b i off fd hfiles hsize hcount habort hk hat hfuel hkpc
    by_cases hrem : bytes.length - k * p = 0
    · have hkeq : k = pc := by
        have := (lt_ceil_iff bytes.length p k hp).not
        rw [← hpc] at this
        have h2 : ¬ k * p < bytes.length := by omega
        have := this.mpr h2
        omega
      rw [hashPieces_succ, if_pos hrem, hrem, ← hkeq, ← hk]
    · have hklt : k < pc := by
        rw [hpc, lt_ceil_iff bytes.length p k hp]; omega
      -- the state of the reader is inside a file
      rcases hat with ⟨pre, cur, post, c, hsplit, hi, hfd, hc, hoff, hrest⟩ | ⟨_, hnil⟩
      swap
      · exfalso
        have := congrArg List.length hnil
        simp at this
        omega
      have hpost : FilesReadable disk post := by
        intro g hg
        apply hread g
        rw [hsplit]
        simp [hg]
      have hthis : u32 (min b.pieceSize (bytes.length - k * p)) =
          min p (bytes.length - k * p) := by
        rw [hsize]
        unfold u32
        apply Nat.mod_eq_of_lt
        have : min p (bytes.length - k * p) ≤ p := Nat.min_le_left _ _
        omega
      have hlen : (bytes.drop (k * p)).length = bytes.length - k * p := List.length_drop _ _
      have hleft : min p (bytes.length - k * p) ≤
          (c.drop off ++ contentsOf disk post).length := by
        rw [← hrest, hlen]; exact Nat.min_le_right _ _
      obtain ⟨i1, off1, fd1, hrun, hat1⟩ := readPiece_exact disk post pre cur c off
        (min p (bytes.length - k * p)) [] ((pre ++ cur :: post).length - pre.length + 1)
        hc hpost hoff hleft (by simp)
      have hrun1 : readPiece disk b.files (b.files.length - i + 1) i off fd
          (u32 (min b.pieceSize (bytes.length - k * p))) [] =
          Outcome.returned (PieceRead.filled i1 off1 fd1
            ((bytes.drop (k * p)).take (min p (bytes.length - k * p)))) := by
        rw [hthis, hfiles, hsplit, hi, hfd, hrun, List.nil_append, ← hrest]
      rw [hashPieces_succ, if_neg hrem]
      have hassert1 : (!ndebug && !decide (b.pieceIndex < b.pieceCount)) = false := by
        simp [hk, hcount, hklt]
      rw [hassert1]
      simp only [Bool.false_eq_true, if_false]
      rw [hrun1]
      simp only []
      rw [hthis]
      have hbuflen : ((bytes.drop (k * p)).take (min p (bytes.length - k * p))).length =
          min p (bytes.length - k * p) := by
        rw [List.length_take, hlen]; omega
      have hassert2 : (!ndebug && !decide
          ((((bytes.drop (k * p)).take (min p (bytes.length - k * p))).length : Int) =
            toInt32 ((min p (bytes.length - k * p) : Nat) : Int))) = false := by
        cases ndebug with
        | true => rfl
        | false =>
          have hp31 := hint rfl
          rw [hbuflen, toInt32_small _ (by
            have : min p (bytes.length - k * p) ≤ p := Nat.min_le_left _ _
            omega)]
          simp
      rw [hassert2]
      simp only [Bool.false_eq_true, if_false]
      rw [digestsUpTo_length, if_neg (by omega), habort]
      simp only [Bool.false_eq_true, if_false]
      rw [← digestsUpTo_succ]
      have hnext : bytes.length - k * p - min p (bytes.length - k * p) =
          bytes.length - (k + 1) * p := by
        rw [Nat.add_mul, Nat.one_mul]; omega
      rw [hnext]
      have hd : (bytes.drop (k * p)).drop (min p (bytes.length - k * p)) =
          bytes.drop ((k + 1) * p) := by
        rw [List.drop_drop]
        by_cases hfull : p ≤ bytes.length - k * p
        · have e1 : (k + 1) * p = k * p + p := by rw [Nat.add_mul, Nat.one_mul]
          congr 1
          rw [e1]
          omega
        · exact (List.drop_of_length_le (by omega)).trans
            (List.drop_of_length_le (by rw [Nat.add_mul, Nat.one_mul]; omega)).symm
      have hat2 : ReadingAt disk files i1 off1 fd1 (bytes.drop ((k + 1) * p)) := by
        rw [← hrest, hd, ← hsplit] at hat1
        exact hat1
      have hu : u32 (b.pieceIndex + 1) = k + 1 := by
        rw [hk]
        unfold u32
        apply Nat.mod_eq_of_lt
        omega
      have := ih (k + 1) { b with pieceIndex := u32 (b.pieceIndex + 1) } i1 off1 fd1
        hfiles hsize hcount habort hu hat2 (by rw [← hnext]; omega) (by omega)
      rw [habort] at this
      exact this

/-! ## makemeta.c : `getHashInfo` -/

theorem contentsOf_length (disk : CString → Option (List Nat))
    (files : List tr_metainfo_builder_file) (hread : FilesReadable disk files) :
    (contentsOf disk files).length = (files.map (fun f => f.size)).sum := by
  induction files with
  | nil => rfl
  | cons f rest ih =>
    obtain ⟨_, d, hd, hlen⟩ := hread f (List.mem_cons_self _ _)
    rw [contentsOf_cons, hd, List.length_append, List.map_cons, List.sum_cons,
      ih (fun g hg => hread g (List.mem_cons_of_mem _ hg))]
    simp [hlen]

theorem u32_slots (pc : Nat) (h : 20 * pc < 2 ^ 32) :
    u32 (SHA_DIGEST_LENGTH * pc) / SHA_DIGEST_LENGTH = pc := by
  unfold u32 SHA_DIGEST_LENGTH
  rw [Nat.mod_eq_of_lt h]
  omega

/-- The state in which `getHashInfo` enters its loop, for a builder with at
least one file: in front of all the bytes, inside the first file. -/
theorem readingAt_start (disk : CString → Option (List Nat))
    (first : tr_metainfo_builder_file) (rest : List tr_metainfo_builder_file)
    (content : List Nat) (hread : FilesReadable disk (first :: rest))
    (hopen : disk first.filename = some content) :
    ReadingAt disk (first :: rest) 0 0 (some content)
      ((contentsOf disk (first :: rest)).drop (0 * 1)) := by
  obtain ⟨hpos, d, hd, hlen⟩ := hread first (List.mem_cons_self _ _)
  rw [hopen] at hd
  cases hd
  left
  refine ⟨[], first, rest, content, rfl, rfl, rfl, hlen, hpos, ?_⟩
  rw [contentsOf_cons, hopen]
  rfl

/-- The run of `getHashInfo` for a builder that meets the conditions of the
specification (files of positive size that open and read in full, `totalSize`
their sum, `pieceCount` the rounded-up quotient, no abort), as long as the
size of the digest buffer does not wrap and, in a build with assertions, the
piece size and the size of the digest buffer fit into an `int`: the function
returns the expected digests and no `assert` fires. -/
theorem getHashInfo_digests_within_int_range (ndebug : Bool) (sha1 : List Nat → List Nat)
    (disk : CString → Option (List Nat)) (errno : Int) (b : tr_metainfo_builder)
    (hread : FilesReadable disk b.files)
    (htotal : b.totalSize = (b.files.map (fun f => f.size)).sum)
    (hp : 0 < b.pieceSize) (hp32 : b.pieceSize < 2 ^ 32)
    (hcount : b.pieceCount = (b.totalSize + b.pieceSize - 1) / b.pieceSize)
    (halloc : 20 * b.pieceCount < 2 ^ 32)
    (hint : ndebug = false → b.pieceSize < 2 ^ 31 ∧ 20 * b.pieceCount < 2 ^ 31)
    (habort : b.abortFlag = false) :
    ∃ b1, getHashInfo ndebug sha1 disk errno b =
        Outcome.returned ⟨some (expectedDigests sha1 disk b), b1⟩ ∧
      b1.result = b.result ∧ b1.files = b.files ∧
      (b.totalSize ≠ 0 → b1.pieceIndex = b.pieceCount) := by
  have hlen := contentsOf_length disk b.files hread
  have hslots := u32_slots b.pieceCount halloc
  by_cases hzero : b.totalSize = 0
  · -- no files: the zero-filled buffer of no digests is returned at once
    have hpc : b.pieceCount = 0 := by
      rw [hcount, hzero, Nat.zero_add]
      exact Nat.div_eq_of_lt (by omega)
    refine ⟨b, ?_, rfl, rfl, fun h => absurd hzero h⟩
    unfold getHashInfo
    simp only [hzero, if_true, hslots]
    rw [hpc]
    simp [expectedDigests, hpc]
  · -- at least one file
    obtain ⟨first, rest, hfiles⟩ : ∃ first rest, b.files = first :: rest := by
      cases hf : b.files with
      | nil =>
        rw [hf] at htotal
        exact absurd htotal hzero
      | cons first rest => exact ⟨first, rest, rfl⟩
    have hread1 : FilesReadable disk (first :: rest) := hfiles ▸ hread
    obtain ⟨_, content, hopen, _⟩ := hread1 first (List.mem_cons_self _ _)
    have hstart := readingAt_start disk first rest content hread1 hopen
    have hT : b.totalSize = (contentsOf disk (first :: rest)).length := by
      rw [htotal, ← hfiles]; exact hlen.symm
    have hpc : b.pieceCount < 2 ^ 32 := by omega
    have hrun := hashPieces_exact ndebug sha1 disk errno (first :: rest)
      (contentsOf disk (first :: rest)) b.pieceSize b.pieceCount b.pieceCount hread1 hp hp32
      (fun h => (hint h).1) (by rw [← hT]; exact hcount) (le_refl _) hpc
      (contentsOf disk (first :: rest)).length 0 { b with pieceIndex := 0 } 0 0 (some content)
      hfiles rfl rfl habort rfl (by simpa using hstart) (by simp) (Nat.zero_le _)
    simp only [Nat.zero_mul, Nat.sub_zero] at hrun
    have hwalk0 : digestsUpTo sha1 (contentsOf disk (first :: rest)) b.pieceSize
        (contentsOf disk (first :: rest)).length 0 = [] := rfl
    rw [hwalk0] at hrun
    have hexp : digestsUpTo sha1 (contentsOf disk (first :: rest)) b.pieceSize
        (contentsOf disk (first :: rest)).length b.pieceCount = expectedDigests sha1 disk b := by
      unfold expectedDigests digestsUpTo concatenatedFiles
      rw [hfiles, ← hT]
      rfl
    rw [hexp, ← hT] at hrun
    have hget0 : b.files[0]? = some first := by rw [hfiles]; simp
    have hl : (expectedDigests sha1 disk b).length = b.pieceCount := by
      simp [expectedDigests]
    have hassert3 : (!ndebug && !(b.abortFlag ||
        decide (((SHA_DIGEST_LENGTH * (expectedDigests sha1 disk b).length : Nat) : Int) =
          toInt32 ((u32 (SHA_DIGEST_LENGTH * b.pieceCount) : Nat) : Int)))) = false := by
      cases ndebug with
      | true => rfl
      | false =>
        have h31 := (hint rfl).2
        have hu : u32 (SHA_DIGEST_LENGTH * b.pieceCount) = 20 * b.pieceCount := by
          unfold u32 SHA_DIGEST_LENGTH
          exact Nat.mod_eq_of_lt halloc
        rw [hl, hu, toInt32_small _ h31]
        simp [SHA_DIGEST_LENGTH]
    refine ⟨{ b with pieceIndex := b.pieceCount }, ?_, rfl, rfl, fun _ => rfl⟩
    unfold getHashInfo
    simp only [hzero, if_false, hslots, hget0, hopen]
    rw [hrun]
    simp only []
    rw [hassert3]
    simp only [Bool.false_eq_true, if_false, decide_True, Bool.or_true, Bool.not_true,
      Bool.and_false]
    rw [hl, Nat.sub_self]
    simp

theorem toInt32_large (n : Nat) (h1 : 2 ^ 31 ≤ n) (h2 : n < 2 ^ 32) :
    toInt32 (n : Int) = (n : Int) - 2 ^ 32 := by
  unfold toInt32
  norm_num at h1 h2 ⊢
  omega

/-- With assertions compiled in, `getHashInfo` stops at the `assert` of
makemeta.c:276 whenever the first piece has 2^31 bytes or more: the bytes
buffered are compared with `(int) thisPieceSize`, which is negative then. -/
theorem getHashInfo_assert_fires (sha1 : List Nat → List Nat)
    (disk : CString → Option (List Nat)) (errno : Int) (b : tr_metainfo_builder)
    (hread : FilesReadable disk b.files)
    (htotal : b.totalSize = (b.files.map (fun f => f.size)).sum)
    (hp31 : 2 ^ 31 ≤ b.pieceSize) (hp32 : b.pieceSize < 2 ^ 32)
    (hpT : b.pieceSize ≤ b.totalSize) (hpc : 0 < b.pieceCount) :
    getHashInfo false sha1 disk errno b = Outcome.assertFailed 276 := by
  have hlen := contentsOf_length disk b.files hread
  have hzero : ¬ b.totalSize = 0 := by
    have : 0 < 2 ^ 31 := by norm_num
    omega
  obtain ⟨first, rest, hfiles⟩ : ∃ first rest, b.files = first :: rest := by
    cases hf : b.files with
    | nil =>
      rw [hf] at htotal
      exact absurd htotal hzero
    | cons first rest => exact ⟨first, rest, rfl⟩
  have hread1 : FilesReadable disk (first :: rest) := hfiles ▸ hread
  obtain ⟨hpos, content, hopen, hclen⟩ := hread1 first (List.mem_cons_self _ _)
  have hT : b.totalSize = (content ++ contentsOf disk rest).length := by
    rw [htotal, ← hlen, hfiles, contentsOf_cons, hopen]; rfl
  have hthis : u32 (min b.pieceSize b.totalSize) = b.pieceSize := by
    rw [Nat.min_eq_left hpT]
    exact Nat.mod_eq_of_lt hp32
  obtain ⟨i1, off1, fd1, hrun, _⟩ := readPiece_exact disk rest [] first content 0
    b.pieceSize [] ((first :: rest).length - 0 + 1) hclen
    (fun g hg => hread1 g (List.mem_cons_of_mem _ hg)) hpos
    (by rw [List.drop_zero, ← hT]; exact hpT) (by simp)
  have hrun1 : readPiece disk b.files (b.files.length - 0 + 1) 0 0 (some content)
      (u32 (min b.pieceSize b.totalSize)) [] =
      Outcome.returned (PieceRead.filled i1 off1 fd1
        ((content ++ contentsOf disk rest).take b.pieceSize)) := by
    rw [hthis, hfiles]
    simpa using hrun
  have hbuflen : ((content ++ contentsOf disk rest).take b.pieceSize).length = b.pieceSize := by
    rw [List.length_take, ← hT]; omega
  have hget0 : b.files[0]? = some first := by rw [hfiles]; simp
  obtain ⟨fuel, hfuel⟩ : ∃ fuel, b.totalSize = fuel + 1 := ⟨b.totalSize - 1, by omega⟩
  have hloop : hashPieces false sha1 disk errno
      (u32 (SHA_DIGEST_LENGTH * b.pieceCount) / SHA_DIGEST_LENGTH) (fuel + 1)
      { b with pieceIndex := 0 } 0 0 (some content) b.totalSize [] =
      Outcome.assertFailed 276 := by
    rw [hashPieces_succ, if_neg hzero]
    have hassert1 : (!false && !decide ((0 : Nat) < b.pieceCount)) = false := by
      simp [hpc]
    show (if (!false && !decide ((0 : Nat) < b.pieceCount)) = true then Outcome.assertFailed 244
      else _) = _
    rw [hassert1]
    simp only [Bool.false_eq_true, if_false]
    show (match readPiece disk b.files (b.files.length - 0 + 1) 0 0 (some content)
        (u32 (min b.pieceSize b.totalSize)) [] with
      | Outcome.assertFailed line => Outcome.assertFailed line
      | Outcome.fault => Outcome.fault
      | Outcome.hang => Outcome.hang
      | Outcome.returned (PieceRead.openFailed i) => _
      | Outcome.returned (PieceRead.filled fileIndex1 off1 fd1 buf) => _) = _
    rw [hrun1]
    simp only []
    rw [hthis, hbuflen, toInt32_large _ hp31 hp32]
    have hne : ¬ ((b.pieceSize : Int) = (b.pieceSize : Int) - 2 ^ 32) := by
      norm_num
      omega
    have hcond : (!false && !decide ((b.pieceSize : Int) = (b.pieceSize : Int) - 2 ^ 32)) =
        true := by
      rw [decide_eq_false hne]; rfl
    rw [if_pos hcond]
  unfold getHashInfo
  simp only [hzero, if_false, hget0, hopen]
  rw [hfuel] at hloop ⊢
  rw [hloop]

/-- C9, the failing input: two files of 1 GiB each, hashed as one piece of
2 GiB.  The builder meets every condition asked for (sizes positive,
`totalSize` their sum, `pieceCount` the rounded-up quotient, every file opens
and is read in full, no abort).  In a build with assertions `getHashInfo`
does not return: the `assert` of makemeta.c:276 fires, because the 2^31 bytes
buffered are compared with `(int) thisPieceSize`, which is -2^31.  In a build
without assertions the expected digest is returned. -/
theorem C9_assert_fires_on_2GiB_piece (sha1 : List Nat → List Nat) (errno : Int) :
    FilesReadable (fun _ => some (List.replicate 1073741824 0))
      [⟨[97], 1073741824⟩, ⟨[98], 1073741824⟩] ∧
    (2147483648 : Nat) = ([1073741824, 1073741824] : List Nat).sum ∧
    (1 : Nat) = (2147483648 + 2147483648 - 1) / 2147483648 ∧
    getHashInfo false sha1 (fun _ => some (List.replicate 1073741824 0)) errno
      { files := [⟨[97], 1073741824⟩, ⟨[98], 1073741824⟩]
        totalSize := 2147483648
        pieceSize := 2147483648
        pieceCount := 1 } = Outcome.assertFailed 276 ∧
    ∃ b1, getHashInfo true sha1 (fun _ => some (List.replicate 1073741824 0)) errno
      { files := [⟨[97], 1073741824⟩, ⟨[98], 1073741824⟩]
        totalSize := 2147483648
        pieceSize := 2147483648
        pieceCount := 1 } =
      Outcome.returned ⟨some (expectedDigests sha1 (fun _ => some (List.replicate 1073741824 0))
        { files := [⟨[97], 1073741824⟩, ⟨[98], 1073741824⟩]
          totalSize := 2147483648
          pieceSize := 2147483648
          pieceCount := 1 }), b1⟩ := by
  have hread : FilesReadable (fun _ => some (List.replicate 1073741824 0))
      [⟨[97], 1073741824⟩, ⟨[98], 1073741824⟩] := by
    intro f hf
    simp only [List.mem_cons, List.mem_singleton, List.not_mem_nil, or_false] at hf
    rcases hf with rfl | rfl
    · exact ⟨by norm_num, _, rfl, List.length_replicate _ _⟩
    · exact ⟨by norm_num, _, rfl, List.length_replicate _ _⟩
  refine ⟨hread, by norm_num, by norm_num, ?_, ?_⟩
  · exact getHashInfo_assert_fires sha1 _ errno _ hread (by norm_num) (by norm_num)
      (by norm_num) (by norm_num) (by norm_num)
  · obtain ⟨b1, h, _⟩ := getHashInfo_digests_within_int_range true sha1
      (fun _ => some (List.replicate 1073741824 0)) errno
      { files := [⟨[97], 1073741824⟩, ⟨[98], 1073741824⟩]
        totalSize := 2147483648
        pieceSize := 2147483648
        pieceCount := 1 } hread (by norm_num) (by norm_num) (by norm_num) (by norm_num)
      (by norm_num) (fun h => absurd h (by decide)) rfl
    exact ⟨b1, h⟩

/-- An instance of `getHashInfo_digests_within_int_range`: three files of 3, 4
and 1 bytes in pieces of 3 bytes, with the identity in place of SHA-1 so that
the pieces can be read off: the second piece spans the first two files, the
last piece is short. -/
theorem getHashInfo_example :
    getHashInfo false id exampleDisk 0 exampleBuilder =
      Outcome.returned ⟨some [[1, 2, 3], [4, 5, 6], [7, 8]],
        { exampleBuilder with pieceIndex := 3 }⟩ ∧
    expectedDigests id exampleDisk exampleBuilder = [[1, 2, 3], [4, 5, 6], [7, 8]] ∧
    ∃ b1, getHashInfo false id exampleDisk 0 exampleBuilder =
        Outcome.returned ⟨some (expectedDigests id exampleDisk exampleBuilder), b1⟩ ∧
      b1.result = exampleBuilder.result ∧ b1.files = exampleBuilder.files ∧
      (exampleBuilder.totalSize ≠ 0 → b1.pieceIndex = exampleBuilder.pieceCount) := by
  refine ⟨by decide, by decide, ?_⟩
  apply getHashInfo_digests_within_int_range false id exampleDisk 0 exampleBuilder
  · intro f hf
    simp only [exampleBuilder, List.mem_cons, List.mem_singleton, List.not_mem_nil,
      or_false] at hf
    rcases hf with rfl | rfl | rfl
    · exact ⟨by decide, [1, 2, 3], rfl, rfl⟩
    · exact ⟨by decide, [4, 5, 6, 7], rfl, rfl⟩
    · exact ⟨by decide, [8], rfl, rfl⟩
  · rfl
  · decide
  · simp [exampleBuilder]
  · rfl
  · simp [exampleBuilder]
  · intro _; simp [exampleBuilder]
  · rfl

/-! ## verify.c and list.c : the order of the queue -/

theorem compareVerify_le_iff (priority : Nat → Int) (a b : verify_node) :
    compareVerifyByPriorityAndSize priority a b ≤ 0 ↔
      (priority b.torrent < priority a.torrent ∨
        (priority a.torrent = priority b.torrent ∧ a.current_size ≤ b.current_size)) := by
  unfold compareVerifyByPriorityAndSize
  simp only
  split_ifs <;> simp <;> omega

theorem insert_sorted_mem {α : Type} (compare : α → α → Int) (data : α) (list : List α) (x : α) :
    x ∈ tr_list_insert_sorted list data compare ↔ x = data ∨ x ∈ list := by
  induction list with
  | nil => simp [tr_list_insert_sorted]
  | cons y rest ih =>
    unfold tr_list_insert_sorted
    split_ifs
    · simp
    · simp only [List.mem_cons, ih]
      tauto

/-- Inserting into a list that is sorted for a total and transitive
comparison gives a sorted list. -/
theorem insert_sorted_pairwise {α : Type} (compare : α → α → Int)
    (htotal : ∀ a b, compare a b ≤ 0 ∨ compare b a ≤ 0)
    (htrans : ∀ a b c, compare a b ≤ 0 → compare b c ≤ 0 → compare a c ≤ 0)
    (data : α) (list : List α) (hs : list.Pairwise (fun a b => compare a b ≤ 0)) :
    (tr_list_insert_sorted list data compare).Pairwise (fun a b => compare a b ≤ 0) := by
  induction list with
  | nil => simp [tr_list_insert_sorted]
  | cons y rest ih =>
    obtain ⟨hy, hrest⟩ := List.pairwise_cons.mp hs
    unfold tr_list_insert_sorted
    split_ifs with h
    · refine List.Pairwise.cons ?_ hs
      intro z hz
      rcases List.mem_cons.mp hz with rfl | hz1
      · exact h
      · exact htrans _ _ _ h (hy z hz1)
    · refine List.Pairwise.cons ?_ (ih hrest)
      intro z hz
      rcases (insert_sorted_mem compare data rest z).mp hz with rfl | hz1
      · rcases htotal z y with h1 | h1
        · exact absurd h1 h
        · exact h1
      · exact hy z hz1

theorem runVerifyCalls_sorted (priority : Nat → Int) (calls : List VerifyCall) :
    ∀ verifyList : List verify_node,
      verifyList.Pairwise (fun a b => compareVerifyByPriorityAndSize priority a b ≤ 0) →
      (runVerifyCalls priority verifyList calls).Pairwise
        (fun a b => compareVerifyByPriorityAndSize priority a b ≤ 0) := by
  induction calls with
  | nil => intro l hl; exact hl
  | cons c calls ih =>
    intro l hl
    cases c with
    | add tor size =>
      apply ih
      apply insert_sorted_pairwise _ _ _ _ _ hl
      · intro a b
        simp only [compareVerify_le_iff]
        omega
      · intro a b c
        simp only [compareVerify_le_iff]
        omega
    | takeNext =>
      apply ih
      cases l with
      | nil => exact List.Pairwise.nil
      | cons x rest => exact (List.pairwise_cons.mp hl).2

/-- C16: after any sequence of `tr_verifyAdd` calls and of jobs taken by the
worker, with the priorities of the torrents fixed, the pending list is sorted
by priority descending and, for equal priority, by current size ascending; so
the head, which the worker takes next, has the highest priority among the
pending jobs and the smallest current size among those of that priority. -/
theorem C16_verify_queue_sorted (priority : Nat → Int) (calls : List VerifyCall) :
    (runVerifyCalls priority [] calls).Pairwise
      (fun a b => priority b.torrent < priority a.torrent ∨
        (priority a.torrent = priority b.torrent ∧ a.current_size ≤ b.current_size)) ∧
    ∀ head rest, runVerifyCalls priority [] calls = head :: rest →
      (verifyThreadTakeNext (runVerifyCalls priority [] calls)).1 = some head ∧
      ∀ node ∈ rest, priority node.torrent ≤ priority head.torrent ∧
        (priority node.torrent = priority head.torrent →
          head.current_size ≤ node.current_size) := by
  have hs := runVerifyCalls_sorted priority calls [] List.Pairwise.nil
  have hs2 := hs.imp (fun {a b} h => (compareVerify_le_iff priority a b).mp h)
  refine ⟨hs2, ?_⟩
  intro head rest hq
  rw [hq] at hs2 ⊢
  refine ⟨rfl, ?_⟩
  intro node hnode
  have := (List.pairwise_cons.mp hs2).1 node hnode
  omega

/-- Witness for C16: three torrents of priorities 0, 1, 1 and sizes 5, 9, 2
are queued in that order; the torrent of priority 1 and size 2 is at the
head. -/
theorem C16_verify_queue_sorted_witness :
    runVerifyCalls (fun t => if t = 0 then 0 else 1) []
        [VerifyCall.add 0 5, VerifyCall.add 1 9, VerifyCall.add 2 2] =
      [⟨2, 2⟩, ⟨1, 9⟩, ⟨0, 5⟩] ∧
    ∀ node ∈ [(⟨1, 9⟩ : verify_node), ⟨0, 5⟩],
      (fun t => if t = 0 then (0 : Int) else 1) node.torrent ≤
        (fun t => if t = 0 then (0 : Int) else 1) (⟨2, 2⟩ : verify_node).torrent ∧
      ((fun t => if t = 0 then (0 : Int) else 1) node.torrent =
        (fun t => if t = 0 then (0 : Int) else 1) (⟨2, 2⟩ : verify_node).torrent →
        (⟨2, 2⟩ : verify_node).current_size ≤ node.current_size) :=
  ⟨by decide,
    ((C16_verify_queue_sorted (fun t => if t = 0 then 0 else 1)
      [VerifyCall.add 0 5, VerifyCall.add 1 9, VerifyCall.add 2 2]).2
      ⟨2, 2⟩ [⟨1, 9⟩, ⟨0, 5⟩] (by decide)).2⟩

/-! ## tr_parseNumberRange -/

/-- A decimal digit is not white space, a sign or a comma. -/
theorem isdigit_not_other (c : Char) (h : isdigit c = true) :
    isspace c = false ∧ c ≠ '-' ∧ c ≠ '+' ∧ c ≠ ',' := by
  simp only [isdigit, Bool.and_eq_true, decide_eq_true_eq] at h
  have h1 : c.toNat ≠ ' '.toNat ∧ c.toNat ≠ '\t'.toNat ∧ c.toNat ≠ '\n'.toNat ∧
      c.toNat ≠ '\x0b'.toNat ∧ c.toNat ≠ '\x0c'.toNat ∧ c.toNat ≠ '\r'.toNat ∧
      c.toNat ≠ '-'.toNat ∧ c.toNat ≠ '+'.toNat ∧ c.toNat ≠ ','.toNat := by
    have h48 : '0'.toNat = 48 := rfl
    have h57 : '9'.toNat = 57 := rfl
    have e1 : ' '.toNat = 32 := rfl
    have e2 : '\t'.toNat = 9 := rfl
    have e3 : '\n'.toNat = 10 := rfl
    have e4 : '\x0b'.toNat = 11 := rfl
    have e5 : '\x0c'.toNat = 12 := rfl
    have e6 : '\r'.toNat = 13 := rfl
    have e7 : '-'.toNat = 45 := rfl
    have e8 : '+'.toNat = 43 := rfl
    have e9 : ','.toNat = 44 := rfl
    omega
  obtain ⟨a1, a2, a3, a4, a5, a6, a7, a8, a9⟩ := h1
  refine ⟨?_, ?_, ?_, ?_⟩
  · simp only [isspace, Bool.or_eq_false_iff, decide_eq_false_iff_not]
    refine ⟨⟨⟨⟨⟨?_, ?_⟩, ?_⟩, ?_⟩, ?_⟩, ?_⟩ <;> (intro e; subst e; simp at *)
  · intro e; subst e; simp at a7
  · intro e; subst e; simp at a8
  · intro e; subst e; simp at a9

/-- The run of digits that `strtol` reads is the whole number when what
follows is not a digit. -/
theorem takeWhile_dropWhile_digits (ds rest : List Char) (hdig : ∀ c ∈ ds, isdigit c = true)
    (hrest : EndsNumber rest) :
    (ds ++ rest).takeWhile isdigit = ds ∧ (ds ++ rest).dropWhile isdigit = rest := by
  induction ds with
  | nil =>
    cases rest with
    | nil => simp
    | cons c r =>
      have hc := hrest c rfl
      simp [List.takeWhile, List.dropWhile, hc]
  | cons d ds1 ih =>
    have hd := hdig d (by simp)
    have ih1 := ih (fun c hc => hdig c (by simp [hc]))
    simp [List.takeWhile, List.dropWhile, hd, ih1.1, ih1.2]

/-- On a string of digits followed by something that is not a digit,
`strtol` converts the digits and stops behind them. -/
theorem strtol_number (ds rest : List Char) (hds : IsNumber ds) (hrest : EndsNumber rest)
    (hmax : ((digitsValue ds : Nat) : Int) ≤ LONG_MAX) :
    strtol (ds ++ rest) = ⟨((digitsValue ds : Nat) : Int), rest, true, false⟩ := by
  obtain ⟨hne, hdig⟩ := hds
  obtain ⟨htake, hdrop⟩ := takeWhile_dropWhile_digits ds rest hdig hrest
  obtain ⟨d, ds1, rfl⟩ := List.exists_cons_of_ne_nil hne
  have hd := hdig d (by simp)
  obtain ⟨hsp, hm, hp, _⟩ := isdigit_not_other d hd
  have h1 : List.dropWhile isspace (d :: ds1 ++ rest) = d :: ds1 ++ rest := by
    simp [List.dropWhile, hsp]
  have hm2 : ¬ (some d = some '-') := by simpa using hm
  have hp2 : ¬ (some d = some '+') := by simpa using hp
  have hmin : ¬ (((digitsValue (d :: ds1) : Nat) : Int) < LONG_MIN) := by
    have : (0 : Int) ≤ ((digitsValue (d :: ds1) : Nat) : Int) := Int.ofNat_nonneg _
    unfold LONG_MIN
    omega
  unfold strtol
  simp only [h1]
  have hhead : (d :: ds1 ++ rest).head? = some d := rfl
  simp only [hhead, hm2, hp2, or_self, if_false, htake, hdrop, not_lt.mpr hmax, hmin,
    reduceCtorEq, decide_False]

/-- The value of a number that fits in `int` is kept by the conversion to
`int`. -/
theorem toInt32_of_int_range (x : Int) (h0 : 0 ≤ x) (h1 : x ≤ INT_MAX) : toInt32 x = x := by
  unfold toInt32
  unfold INT_MAX at h1
  norm_num at h1 ⊢
  omega

/-- The range that the claim assigns to a section. -/
theorem section_lo_le_hi (s : NumberSection) : 0 ≤ s.lo ∧ s.lo ≤ s.hi := by
  unfold NumberSection.lo NumberSection.hi
  cases s.second with
  | none => simp
  | some b =>
    simp only
    have h1 : (0 : Int) ≤ ((digitsValue s.first : Nat) : Int) := Int.ofNat_nonneg _
    have h2 : (0 : Int) ≤ ((digitsValue b : Nat) : Int) := Int.ofNat_nonneg _
    omega

/-- The text of a well-formed section has no comma and is not empty. -/
theorem section_text_no_comma (s : NumberSection) (hs : s.WellFormed) :
    s.text ≠ [] ∧ ∀ c ∈ s.text, c ≠ ',' := by
  obtain ⟨⟨hne, hd⟩, h2⟩ := hs
  unfold NumberSection.text
  cases hb : s.second with
  | none =>
    exact ⟨hne, fun c hc => (isdigit_not_other c (hd c hc)).2.2.2⟩
  | some b =>
    refine ⟨by simp [hne], ?_⟩
    intro c hc
    simp only [List.mem_append, List.mem_cons] at hc
    rcases hc with hc | hc | hc
    · exact (isdigit_not_other c (hd c hc)).2.2.2
    · subst hc; decide
    · exact (isdigit_not_other c ((h2 b hb).2 c hc)).2.2.2

/-- On the text of a section followed by a comma or by the end of the string,
with the length of the section as `len`, `parseNumberSection` succeeds and
stores the range of the section. -/
theorem parseNumberSection_section (s : NumberSection) (tail : List Char) (hs : s.WellFormed)
    (hhi : s.hi ≤ INT_MAX) :
    parseNumberSection (s.text ++ tail) (s.text.length : Int) = (true, ⟨s.lo, s.hi⟩) := by
  have hlh := section_lo_le_hi s
  have hdup : tr_strndup (s.text ++ tail) (s.text.length : Int) = s.text := by
    unfold tr_strndup
    have : ¬ ((s.text.length : Int) < 0) := by omega
    rw [if_neg this]
    simp
  obtain ⟨hfirst, hsecond⟩ := hs
  have hmaxInt : INT_MAX ≤ LONG_MAX := by unfold INT_MAX LONG_MAX; norm_num
  unfold parseNumberSection
  rw [hdup]
  unfold NumberSection.text NumberSection.lo NumberSection.hi at *
  cases hb : s.second with
  | none =>
    rw [hb] at hhi hlh
    simp only at hhi hlh ⊢
    have h1 := strtol_number s.first [] hfirst (by intro c hc; simp at hc) (by omega)
    rw [List.append_nil] at h1
    rw [h1]
    simp only [Bool.or_false, Bool.not_true, Bool.false_eq_true, if_false, List.head?_nil,
      ne_eq, reduceCtorEq, not_false_eq_true, if_true, min_self, max_self]
    rw [toInt32_of_int_range _ hlh.1 hhi]
  | some b =>
    rw [hb] at hhi hlh
    simp only at hhi hlh ⊢
    have ha0 : (0 : Int) ≤ ((digitsValue s.first : Nat) : Int) := Int.ofNat_nonneg _
    have hb0 : (0 : Int) ≤ ((digitsValue b : Nat) : Int) := Int.ofNat_nonneg _
    have h1 := strtol_number s.first ('-' :: b) hfirst
      (by intro c hc; simp at hc; subst hc; decide) (by omega)
    have h2 := strtol_number b [] (hsecond b hb) (by intro c hc; simp at hc) (by omega)
    rw [List.append_nil] at h2
    rw [h1]
    simp only [Bool.or_false, Bool.not_true, Bool.false_eq_true, if_false, List.head?_cons,
      ne_eq, not_true_eq_false, List.tail_cons]
    simp only [h2, Bool.or_false, Bool.not_true, Bool.false_eq_true, if_false, ne_eq,
      not_true_eq_false]
    rw [toInt32_of_int_range _ hlh.1 (by omega), toInt32_of_int_range _ (by omega) hhi]

/-- In a text without a comma `strchr` finds none. -/
theorem strchr_none (s : List Char) (h : ∀ c ∈ s, c ≠ ',') : strchr s ',' = none := by
  induction s with
  | nil => rfl
  | cons x t ih =>
    have hx := h x (by simp)
    have ht := ih (fun c hc => h c (by simp [hc]))
    simp [strchr, hx, ht]

/-- The first comma behind a text without a comma is found at the length of
that text. -/
theorem strchr_append (s tail : List Char) (h : ∀ c ∈ s, c ≠ ',') :
    strchr (s ++ ',' :: tail) ',' = some s.length := by
  induction s with
  | nil => simp [strchr]
  | cons x t ih =>
    have hx := h x (by simp)
    have ht := ih (fun c hc => h c (by simp [hc]))
    simp [strchr, hx, ht]

/-- One iteration of the loop over the sections. -/
theorem parseSections_succ (fuel : Nat) (walk : List Char) (ranges : List number_range) :
    parseSections (fuel + 1) walk ranges =
      if walk = [] then some (true, ranges)
      else
        match strchr walk ',' with
        | some pch =>
          if (parseNumberSection walk (pch : Int)).1 then
            parseSections fuel (walk.drop (pch + 1))
              (ranges ++ [(parseNumberSection walk (pch : Int)).2])
          else some (false, ranges)
        | none =>
          if (parseNumberSection walk (walk.length : Int)).1 then
            parseSections fuel (walk.drop walk.length)
              (ranges ++ [(parseNumberSection walk (walk.length : Int)).2])
          else some (false, ranges) := rfl

/-- The loop over the sections ends with success and has stored the range of
every section, in order. -/
theorem parseSections_sections (secs : List NumberSection)
    (hwf : ∀ s ∈ secs, s.WellFormed ∧ s.hi ≤ INT_MAX) :
    ∀ (fuel : Nat) (acc : List number_range), (sectionsText secs).length < fuel →
      parseSections fuel (sectionsText secs) acc =
        some (true, acc ++ secs.map NumberSection.range) := by
  induction secs with
  | nil =>
    intro fuel acc hfuel
    obtain ⟨f, rfl⟩ : ∃ f, fuel = f + 1 := ⟨fuel - 1, by omega⟩
    rw [parseSections_succ]
    simp [sectionsText]
  | cons s rest ih =>
    intro fuel acc hfuel
    obtain ⟨hs, hhi⟩ := hwf s (by simp)
    obtain ⟨hne, hnc⟩ := section_text_no_comma s hs
    have hlen : 0 < s.text.length := List.length_pos.mpr hne
    cases rest with
    | nil =>
      simp only [sectionsText] at hfuel ⊢
      obtain ⟨f, rfl⟩ : ∃ f, fuel = f + 1 := ⟨fuel - 1, by omega⟩
      obtain ⟨g, rfl⟩ : ∃ g, f = g + 1 := ⟨f - 1, by omega⟩
      have hp := parseNumberSection_section s [] hs hhi
      rw [List.append_nil] at hp
      rw [parseSections_succ, if_neg hne, strchr_none s.text hnc]
      simp only [hp, if_true, List.drop_length]
      rw [parseSections_succ]
      simp [NumberSection.range]
    | cons t rest1 =>
      have ih1 := ih (fun x hx => hwf x (by simp [hx]))
      simp only [sectionsText] at hfuel ⊢
      simp only [List.length_append, List.length_cons] at hfuel
      obtain ⟨f, rfl⟩ : ∃ f, fuel = f + 1 := ⟨fuel - 1, by omega⟩
      have hp := parseNumberSection_section s (',' :: sectionsText (t :: rest1)) hs hhi
      have hne2 : s.text ++ ',' :: sectionsText (t :: rest1) ≠ [] := by simp
      rw [parseSections_succ, if_neg hne2, strchr_append s.text _ hnc]
      simp only [hp, if_true]
      have hdrop : List.drop (s.text.length + 1) (s.text ++ ',' :: sectionsText (t :: rest1)) =
          sectionsText (t :: rest1) := by
        rw [List.drop_append_eq_append_drop]
        simp
      rw [hdrop, ih1 f _ (by omega)]
      simp [NumberSection.range]

/-- Every section covers at least one number. -/
theorem sectionsSize_nonneg (secs : List NumberSection) : 0 ≤ sectionsSize secs := by
  induction secs with
  | nil => simp [sectionsSize]
  | cons s rest ih =>
    have h := section_lo_le_hi s
    simp only [sectionsSize, List.map_cons, List.sum_cons] at ih ⊢
    omega

/-- A list of sections that is not empty covers at least one number. -/
theorem sectionsSize_pos (secs : List NumberSection) (hne : secs ≠ []) :
    0 < sectionsSize secs := by
  obtain ⟨s, rest, rfl⟩ := List.exists_cons_of_ne_nil hne
  have h := section_lo_le_hi s
  have h2 := sectionsSize_nonneg rest
  simp only [sectionsSize, List.map_cons, List.sum_cons] at h2 ⊢
  omega

/-- The loop that adds up the sizes of the ranges does not overflow when the
numbers lie below `INT_MAX` and the sizes add up to at most `INT_MAX`. -/
theorem countNumbers_sections (secs : List NumberSection)
    (hhi : ∀ s ∈ secs, s.hi < INT_MAX) :
    ∀ n : Int, 0 ≤ n → n + sectionsSize secs ≤ INT_MAX →
      countNumbers n (secs.map NumberSection.range) = some (n + sectionsSize secs) := by
  induction secs with
  | nil => intro n _ _; simp [countNumbers, sectionsSize]
  | cons s rest ih =>
    intro n hn hsum
    have h := section_lo_le_hi s
    have hs := hhi s (by simp)
    have hrest := sectionsSize_nonneg rest
    have hsz : sectionsSize (s :: rest) = (s.hi + 1 - s.lo) + sectionsSize rest := by
      simp [sectionsSize]
    rw [hsz] at hsum
    have hmin : INT_MIN = -(2 ^ 31) := rfl
    have hmax : INT_MAX = 2 ^ 31 - 1 := rfl
    have e1 : intResult (s.hi + 1) = some (s.hi + 1) := by
      unfold intResult; rw [if_pos]; constructor <;> omega
    have e2 : intResult (s.hi + 1 - s.lo) = some (s.hi + 1 - s.lo) := by
      unfold intResult; rw [if_pos]; constructor <;> omega
    have e3 : intResult (n + (s.hi + 1 - s.lo)) = some (n + (s.hi + 1 - s.lo)) := by
      unfold intResult; rw [if_pos]; constructor <;> omega
    simp only [List.map_cons, countNumbers, NumberSection.range, e1, e2, e3]
    have := ih (fun x hx => hhi x (by simp [hx])) (n + (s.hi + 1 - s.lo)) (by omega) (by omega)
    simp only [NumberSection.range] at this
    rw [this, hsz]
    congr 1
    omega

/-- The numbers written for a range are those between its bounds. -/
theorem numbersOf_mem (r : number_range) (x : Int) :
    x ∈ numbersOf r ↔ r.low ≤ x ∧ x ≤ r.high := by
  unfold numbersOf
  simp only [List.mem_map, List.mem_range]
  constructor
  · rintro ⟨k, hk, rfl⟩
    have := Int.lt_toNat.mp hk
    omega
  · rintro ⟨h1, h2⟩
    have h3 : (((x - r.low).toNat : Nat) : Int) = x - r.low := Int.toNat_of_nonneg (by omega)
    refine ⟨(x - r.low).toNat, ?_, by omega⟩
    apply Int.lt_toNat.mpr
    omega

/-- The count of the numbers written for a range. -/
theorem numbersOf_length (r : number_range) (h : r.low ≤ r.high) :
    (((numbersOf r).length : Nat) : Int) = r.high + 1 - r.low := by
  unfold numbersOf
  rw [List.length_map, List.length_range]
  exact Int.toNat_of_nonneg (by omega)

/-- The numbers written for all the sections: their count is the sum of the
sizes, and they are the numbers covered by a section. -/
theorem written_sections (secs : List NumberSection) :
    ((((secs.map NumberSection.range).map numbersOf).flatten.length : Nat) : Int) =
        sectionsSize secs ∧
      ∀ x : Int, x ∈ ((secs.map NumberSection.range).map numbersOf).flatten ↔
        ∃ s ∈ secs, s.lo ≤ x ∧ x ≤ s.hi := by
  constructor
  · induction secs with
    | nil => simp [sectionsSize]
    | cons s rest ih =>
      have h := section_lo_le_hi s
      have hlen := numbersOf_length s.range h.2
      have hsz : sectionsSize (s :: rest) = (s.hi + 1 - s.lo) + sectionsSize rest := by
        simp [sectionsSize]
      rw [List.map_cons, List.map_cons, List.flatten_cons, List.length_append, Nat.cast_add,
        ih, hlen, hsz]
      rfl
  · intro x
    rw [List.mem_flatten]
    constructor
    · rintro ⟨l, hl, hx⟩
      obtain ⟨r, hr, rfl⟩ := List.mem_map.mp hl
      obtain ⟨s, hs, rfl⟩ := List.mem_map.mp hr
      exact ⟨s, hs, (numbersOf_mem _ x).mp hx⟩
    · rintro ⟨s, hs, hx⟩
      exact ⟨numbersOf s.range,
        List.mem_map.mpr ⟨s.range, List.mem_map.mpr ⟨s, hs, rfl⟩, rfl⟩,
        (numbersOf_mem _ x).mpr hx⟩

/-- On `int`s that are not negative `compareInt` does not overflow and
compares as `≤` does. -/
theorem compareInt_le_iff (a b : Int) (ha : 0 ≤ a ∧ a ≤ INT_MAX) (hb : 0 ≤ b ∧ b ≤ INT_MAX) :
    compareInt a b ≤ 0 ↔ a ≤ b := by
  unfold compareInt toInt32
  unfold INT_MAX at ha hb
  norm_num at ha hb ⊢
  omega

/-- The loop that removes duplicates, run on an ascending array, writes each
value once, in strictly ascending order. -/
theorem removeDuplicates_spec : ∀ (l acc : List Int),
    acc.Pairwise (fun a b => a < b) → l.Pairwise (fun a b => a ≤ b) →
    (∀ a ∈ acc, ∀ x ∈ l, a ≤ x) →
    (removeDuplicates acc l).Pairwise (fun a b => a < b) ∧
      ∀ x, x ∈ removeDuplicates acc l ↔ x ∈ acc ∨ x ∈ l := by
  intro l
  induction l with
  | nil => intro acc hacc _ _; simp [removeDuplicates, hacc]
  | cons y rest ih =>
    intro acc hacc hl hle
    have hrest : rest.Pairwise (fun a b => a ≤ b) := (List.pairwise_cons.mp hl).2
    have hy : ∀ x ∈ rest, y ≤ x := (List.pairwise_cons.mp hl).1
    rcases List.eq_nil_or_concat acc with hnil | ⟨L, b, hL⟩
    · subst hnil
      have h1 := ih [y] (by simp) hrest (by simpa using hy)
      simp only [removeDuplicates, true_or, if_true, List.nil_append]
      refine ⟨h1.1, fun x => ?_⟩
      rw [h1.2 x]
      simp
    · rw [List.concat_eq_append] at hL
      subst hL
      have hlast : (L ++ [b]).getLast? = some b := by simp
      have hby : b ≤ y := hle b (by simp) y (by simp)
      have hLb : ∀ a ∈ L, a < b := by
        intro a ha
        have := List.pairwise_append.mp hacc
        exact this.2.2 a ha b (by simp)
      by_cases hb : b = y
      · subst hb
        have hcond : ¬ (L ++ [b] = [] ∨ (L ++ [b]).getLast? ≠ some b) := by
          simp
        have h1 := ih (L ++ [b]) hacc hrest
          (fun a ha x hx => hle a ha x (by simp [hx]))
        simp only [removeDuplicates, hcond, if_false]
        refine ⟨h1.1, fun x => ?_⟩
        rw [h1.2 x]
        simp only [List.mem_append, List.mem_singleton, List.mem_cons]
        tauto
      · have hcond : (L ++ [b] = [] ∨ (L ++ [b]).getLast? ≠ some y) := by
          right; rw [hlast]; simpa using hb
        have hacc2 : (L ++ [b] ++ [y]).Pairwise (fun a b => a < b) := by
          rw [List.pairwise_append]
          refine ⟨hacc, by simp, ?_⟩
          intro a ha x hx
          simp only [List.mem_singleton] at hx
          subst hx
          simp only [List.mem_append, List.mem_singleton] at ha
          rcases ha with ha | ha
          · have := hLb a ha; omega
          · subst ha; omega
        have h1 := ih (L ++ [b] ++ [y]) hacc2 hrest (by
          intro a ha x hx
          simp only [List.mem_append, List.mem_singleton] at ha
          rcases ha with ha | ha
          · exact hle a (by simp only [List.mem_append, List.mem_singleton]; exact ha) x
              (by simp [hx])
          · subst ha; exact hy x hx)
        simp only [removeDuplicates, hcond, if_true]
        refine ⟨h1.1, fun x => ?_⟩
        rw [h1.2 x]
        simp only [List.mem_append, List.mem_singleton, List.mem_cons]
        tauto

/-- Insertion sort does not depend on how the order relates values that are
not in the list. -/
theorem orderedInsert_congr {α : Type} (r s : α → α → Prop) [DecidableRel r] [DecidableRel s]
    (a : α) (l : List α) (h : ∀ b ∈ l, (r a b ↔ s a b)) :
    l.orderedInsert r a = l.orderedInsert s a := by
  induction l with
  | nil => rfl
  | cons b t ih =>
    have hb := h b (by simp)
    have ht := ih (fun x hx => h x (by simp [hx]))
    simp only [List.orderedInsert, hb, ht]

/-- Two orders that agree on the values of a list sort it alike. -/
theorem insertionSort_congr {α : Type} (r s : α → α → Prop) [DecidableRel r] [DecidableRel s]
    (l : List α) (h : ∀ a ∈ l, ∀ b ∈ l, (r a b ↔ s a b)) :
    l.insertionSort r = l.insertionSort s := by
  induction l with
  | nil => rfl
  | cons a t ih =>
    have ht := ih (fun x hx y hy => h x (by simp [hx]) y (by simp [hy]))
    simp only [List.insertionSort, ht]
    apply orderedInsert_congr
    intro b hb
    have hb2 : b ∈ t := (List.perm_insertionSort s t).mem_iff.mp hb
    exact h a (by simp) b (by simp [hb2])

/-- Insertion sort driven by `compareInt` fulfils the contract of `qsort` on
arrays of `int`s that are not negative. -/
theorem insertionQsort_contract_ints :
    QsortContractOn (fun x : Int => 0 ≤ x ∧ x ≤ INT_MAX) insertionQsort compareInt := by
  intro l hl
  have heq : insertionQsort compareInt l = l.insertionSort (fun a b => a ≤ b) := by
    unfold insertionQsort
    apply insertionSort_congr
    intro a ha b hb
    exact compareInt_le_iff a b (hl a ha) (hl b hb)
  rw [heq]
  refine ⟨List.perm_insertionSort _ l, ?_⟩
  have hs : (l.insertionSort (fun a b => a ≤ b)).Pairwise (fun a b => a ≤ b) :=
    List.sorted_insertionSort _ l
  have hmem : ∀ x ∈ l.insertionSort (fun a b => a ≤ b), 0 ≤ x ∧ x ≤ INT_MAX :=
    fun x hx => hl x ((List.perm_insertionSort _ l).mem_iff.mp hx)
  exact hs.imp_of_mem (fun ha hb hab => (compareInt_le_iff _ _ (hmem _ ha) (hmem _ hb)).mpr hab)

/-- The examples of the documentation of `tr_parseNumberRange`, with
insertion sort as the sorting procedure. -/
theorem tr_parseNumberRange_examples :
    tr_parseNumberRange false insertionQsort "5-8".toList (-1) =
        Outcome.returned (some [5, 6, 7, 8], 4) ∧
      tr_parseNumberRange false insertionQsort "1-5,3-7,2-6".toList (-1) =
        Outcome.returned (some [1, 2, 3, 4, 5, 6, 7], 7) ∧
      tr_parseNumberRange false insertionQsort "1-4,6,9,14-16".toList (-1) =
        Outcome.returned (some [1, 2, 3, 4, 6, 9, 14, 15, 16], 9) := by
  decide

/-- C19 as stated fails: the single number 4294967297 is a section of the
form the claim describes, and where `long` has 64 bits `strtol` converts it
without error, but the assignment to the `int` field of the range keeps only
its low 32 bits: the array returned is [1] with count 1, not [4294967297].
A range that ends at the largest `int` makes `r->high + 1` overflow. -/
theorem C19_number_beyond_int_counterexample :
    tr_parseNumberRange false insertionQsort "4294967297".toList (-1) =
        Outcome.returned (some [1], 1) ∧
      tr_parseNumberRange true insertionQsort "4294967297".toList (-1) =
        Outcome.returned (some [1], 1) ∧
      tr_parseNumberRange false insertionQsort "0-2147483647".toList (-1) = Outcome.fault := by
  decide

/-- C19 amended: for every input string made of one or more comma-separated
sections that are each a single number or a range "a-b", every number a
string of decimal digits with a value of at most 2147483646 (`INT_MAX - 1`),
such that the sizes of the sections (larger number minus smaller number plus
one) add up to at most 2147483647 (`INT_MAX`), `tr_parseNumberRange` (called
with the length of the string, or a negative length) returns the strictly
ascending, duplicate-free array of exactly the integers that lie between the
two numbers of some section, and sets the count to the length of that array.
This holds with and without assertions compiled in, for every `qsort` that
sorts arrays of non-negative `int`s. -/
theorem C19_number_range_sorted_union (ndebug : Bool)
    (qsort : (Int → Int → Int) → List Int → List Int)
    (hq : QsortContractOn (fun x : Int => 0 ≤ x ∧ x ≤ INT_MAX) qsort compareInt)
    (secs : List NumberSection) (hne : secs ≠ [])
    (hwf : ∀ s ∈ secs, s.WellFormed ∧ s.hi < INT_MAX)
    (hsize : sectionsSize secs ≤ INT_MAX)
    (len : Int) (hlen : len < 0 ∨ len = ((sectionsText secs).length : Int)) :
    ∃ l : List Int,
      tr_parseNumberRange ndebug qsort (sectionsText secs) len =
          Outcome.returned (some l, (l.length : Int)) ∧
        l.Pairwise (fun a b => a < b) ∧
        ∀ x : Int, x ∈ l ↔ ∃ s ∈ secs, s.lo ≤ x ∧ x ≤ s.hi := by
  have hdup : tr_strndup (sectionsText secs) len = sectionsText secs := by
    unfold tr_strndup
    rcases hlen with h | h
    · rw [if_pos h]
    · have : ¬ (len < 0) := by omega
      rw [if_neg this, h]
      simp
  have hparse := parseSections_sections secs (fun s hs => ⟨(hwf s hs).1, by
    have := (hwf s hs).2; omega⟩) ((sectionsText secs).length + 1) [] (by omega)
  rw [List.nil_append] at hparse
  have hcount := countNumbers_sections secs (fun s hs => (hwf s hs).2) 0 (by omega)
    (by omega)
  rw [Int.zero_add] at hcount
  have hpos := sectionsSize_pos secs hne
  obtain ⟨hwlen, hwmem⟩ := written_sections secs
  -- the numbers written are ints that are not negative
  have hrange : ∀ x ∈ ((secs.map NumberSection.range).map numbersOf).flatten,
      0 ≤ x ∧ x ≤ INT_MAX := by
    intro x hx
    obtain ⟨s, hs, h1, h2⟩ := (hwmem x).mp hx
    have := section_lo_le_hi s
    have := (hwf s hs).2
    omega
  obtain ⟨hperm, hsorted⟩ := hq _ hrange
  have hsorted2 : (qsort compareInt
      ((secs.map NumberSection.range).map numbersOf).flatten).Pairwise (fun a b => a ≤ b) :=
    hsorted.imp_of_mem (fun ha hb hab =>
      (compareInt_le_iff _ _ (hrange _ (hperm.mem_iff.mp ha))
        (hrange _ (hperm.mem_iff.mp hb))).mp hab)
  obtain ⟨huniq, humem⟩ := removeDuplicates_spec _ [] (by simp) hsorted2 (by simp)
  refine ⟨removeDuplicates [] (qsort compareInt
      ((secs.map NumberSection.range).map numbersOf).flatten), ?_, huniq, ?_⟩
  · unfold tr_parseNumberRange
    simp only [hdup, hparse, hcount]
    rw [if_neg (by omega), if_neg (by omega), if_neg (by simp only [ne_eq, not_not]; exact hwlen)]
  · intro x
    rw [humem x, ← hwmem x, hperm.mem_iff]
    simp

/-- Witness for C19: the text "1-5,3-7,2-6", given as three sections. -/
theorem C19_number_range_sorted_union_witness :
    ∃ l : List Int,
      tr_parseNumberRange false insertionQsort "1-5,3-7,2-6".toList (-1) =
          Outcome.returned (some l, (l.length : Int)) ∧
        l.Pairwise (fun a b => a < b) ∧
        ∀ x : Int, x ∈ l ↔
          ∃ s ∈ [(⟨['1'], some ['5']⟩ : NumberSection), ⟨['3'], some ['7']⟩,
            ⟨['2'], some ['6']⟩], s.lo ≤ x ∧ x ≤ s.hi :=
  C19_number_range_sorted_union false insertionQsort insertionQsort_contract_ints
    [⟨['1'], some ['5']⟩, ⟨['3'], some ['7']⟩, ⟨['2'], some ['6']⟩]
    (by decide) (by decide) (by decide) (-1) (by decide)

/-- C20: the text "6x" has a section that is neither a single number nor a
range, yet `tr_parseNumberRange` returns the array [6] with count 1, in
builds with and without assertions: after the number `parseNumberSection`
only tests `*end != '-'` and does not look for trailing data, although its
documentation says that anything but a number or a range is an error.  The
texts "1-Hello" and "1,,2" are refused as the claim says. -/
theorem C20_trailing_text_after_number_accepted :
    tr_parseNumberRange false insertionQsort "6x".toList (-1) =
        Outcome.returned (some [6], 1) ∧
      tr_parseNumberRange true insertionQsort "6x".toList (-1) =
        Outcome.returned (some [6], 1) ∧
      parseNumberSection "6x".toList 2 = (true, ⟨6, 6⟩) ∧
      tr_parseNumberRange false insertionQsort "1-Hello".toList (-1) =
        Outcome.returned (none, 0) ∧
      tr_parseNumberRange false insertionQsort "1,,2".toList (-1) =
        Outcome.returned (none, 0) := by
  decide

/-! ## tr_torrentSetMetadataSizeHint -/

/-- The entries written for `n` pieces: `n` of them, piece `i` at index `i`,
none requested yet. -/
theorem allPiecesNeeded_spec (n : Int) (hn : 0 ≤ n) :
    ((allPiecesNeeded n).length : Int) = n ∧
      ∀ (i : Nat), (i : Int) < n → (allPiecesNeeded n)[i]? = some ⟨0, (i : Int)⟩ := by
  unfold allPiecesNeeded
  constructor
  · rw [List.length_map, List.length_range]
    exact Int.toNat_of_nonneg hn
  · intro i hi
    have hi2 : i < n.toNat := Int.lt_toNat.mpr hi
    rw [List.getElem?_map, List.getElem?_range hi2]
    rfl

/-- Within the range of `int` arithmetic, `tr_torrentSetMetadataSizeHint` on a
torrent without metadata and without an earlier hint creates a buffer of
exactly `size` bytes and `ceil (size / 16384)` pieces, every piece listed as
needed in index order with `requestedAt` 0; a torrent that has its metadata,
or has had a hint before, is left as it is, whatever the size. -/
theorem tr_torrentSetMetadataSizeHint_in_range (uninit : Nat → Nat) (tor : tr_torrent)
    (size : Int) :
    (tr_torrentHasMetadata tor = false → tor.incompleteMetadata = none →
      0 < size → size ≤ INT_MAX - (METADATA_PIECE_SIZE - 1) →
      ∃ m : tr_incomplete_metadata,
        tr_torrentSetMetadataSizeHint uninit tor size =
            Outcome.returned { tor with incompleteMetadata := some m } ∧
          (m.metadata.length : Int) = size ∧ m.metadata_size = size ∧
          m.pieceCount = (size + 16383) / 16384 ∧
          (m.pieceCount - 1) * 16384 < size ∧ size ≤ m.pieceCount * 16384 ∧
          m.piecesNeededCount = m.pieceCount ∧
          (m.piecesNeeded.length : Int) = m.pieceCount ∧
          ∀ (i : Nat), (i : Int) < m.pieceCount → m.piecesNeeded[i]? = some ⟨0, (i : Int)⟩) ∧
    (tr_torrentHasMetadata tor = true →
      tr_torrentSetMetadataSizeHint uninit tor size = Outcome.returned tor) ∧
    (tor.incompleteMetadata ≠ none →
      tr_torrentSetMetadataSizeHint uninit tor size = Outcome.returned tor) := by
  refine ⟨?_, ?_, ?_⟩
  · intro hmeta hnone h0 h1
    have hmax : INT_MAX = 2 ^ 31 - 1 := rfl
    have hmin : INT_MIN = -(2 ^ 31) := rfl
    have hps : METADATA_PIECE_SIZE = 16384 := rfl
    rw [hps, hmax] at h1
    have hsum : intResult (size + (METADATA_PIECE_SIZE - 1)) = some (size + 16383) := by
      unfold intResult
      rw [hps, hmax, hmin, if_pos (by constructor <;> omega)]
      rfl
    have hdiv : Int.tdiv (size + 16383) METADATA_PIECE_SIZE = (size + 16383) / 16384 := by
      rw [hps]
      exact Int.tdiv_eq_ediv (by omega) (by norm_num)
    have hn : 0 ≤ (size + 16383) / 16384 := Int.ediv_nonneg (by omega) (by norm_num)
    obtain ⟨hlen, hget⟩ := allPiecesNeeded_spec _ hn
    refine ⟨{ pieceCount := (size + 16383) / 16384
              metadata := (List.range size.toNat).map uninit
              metadata_size := size
              piecesNeededCount := (size + 16383) / 16384
              piecesNeeded := allPiecesNeeded ((size + 16383) / 16384) }, ?_, ?_, rfl, rfl, ?_, ?_,
      rfl, hlen, hget⟩
    · unfold tr_torrentSetMetadataSizeHint
      simp only [hmeta, hnone, hsum, hdiv, Bool.not_false, if_true]
    · simp only [List.length_map, List.length_range]
      exact Int.toNat_of_nonneg (by omega)
    · show ((size + 16383) / 16384 - 1) * 16384 < size
      omega
    · show size ≤ (size + 16383) / 16384 * 16384
      omega
  · intro hmeta
    unfold tr_torrentSetMetadataSizeHint
    simp [hmeta]
  · intro hsome
    unfold tr_torrentSetMetadataSizeHint
    cases hm : tor.incompleteMetadata with
    | none => exact absurd hm hsome
    | some m => cases tr_torrentHasMetadata tor <;> simp

/-- C15: for a size hint of 2147483647 bytes, the largest `int`, on a torrent
without metadata and without an earlier hint, the computation of the piece
count `(size + (METADATA_PIECE_SIZE - 1)) / METADATA_PIECE_SIZE` overflows
`int`: the run does not create the buffer of 131072 pieces that the claim
describes. -/
theorem C15_size_hint_overflows_near_INT_MAX (uninit : Nat → Nat) :
    tr_torrentSetMetadataSizeHint uninit {} 2147483647 = Outcome.fault ∧
      intResult (2147483647 + (METADATA_PIECE_SIZE - 1)) = none ∧
      Int.tdiv (toInt32 (2147483647 + (METADATA_PIECE_SIZE - 1))) METADATA_PIECE_SIZE =
        -131071 := by
  refine ⟨?_, by decide, by decide⟩
  unfold tr_torrentSetMetadataSizeHint
  have h : intResult (2147483647 + (METADATA_PIECE_SIZE - 1)) = none := by decide
  simp [tr_torrentHasMetadata, h]

/-! ## tr_torrentSetMetadataPiece -/

/-- What a call of `tr_torrentSetMetadataPiece` that returns can have done:
nothing; or stored the piece and kept waiting (the info is as before and the
metadata stays incomplete); or, with the buffer complete and its SHA-1 equal
to the infohash, replaced the info by the parsed metadata. -/
theorem setMetadataPiece_cases (sha1 : List Nat → List Nat)
    (parse : tr_torrent → List Nat → Option (tr_info × Int))
    (tor tor1 : tr_torrent) (piece : Int) (data : List Nat)
    (h : tr_torrentSetMetadataPiece sha1 parse tor piece data = Outcome.returned tor1) :
    tor1 = tor ∨
    (∃ m m1, tor.incompleteMetadata = some m ∧
      tor1 = { tor with incompleteMetadata := some m1 }) ∨
    (∃ m, tor.incompleteMetadata = some m ∧
      ((memcpyAt m.metadata (piece * METADATA_PIECE_SIZE).toNat data).length : Int) =
        m.metadata_size ∧
      sha1 (memcpyAt m.metadata (piece * METADATA_PIECE_SIZE).toNat data) = tor.info.hash ∧
      parse tor (memcpyAt m.metadata (piece * METADATA_PIECE_SIZE).toNat data) =
        some (tor1.info, tor1.infoDictLength) ∧
      tor1.incompleteMetadata = none) := by
  unfold tr_torrentSetMetadataPiece at h
  cases hoff : intResult (piece * METADATA_PIECE_SIZE) with
  | none => simp [hoff] at h
  | some offset =>
    have hoffset : offset = piece * METADATA_PIECE_SIZE := by
      unfold intResult at hoff
      split at hoff
      · exact (Option.some.inj hoff).symm
      · exact absurd hoff (by simp)
    cases hm : tor.incompleteMetadata with
    | none =>
      simp only [hoff, hm] at h
      left; exact (Outcome.returned.inj h).symm
    | some m =>
      simp only [hoff, hm] at h
      cases he : intResult (offset + (data.length : Int)) with
      | none => simp [he] at h
      | some e =>
        simp only [he] at h
        split at h
        · left; exact (Outcome.returned.inj h).symm
        · split at h
          · left; exact (Outcome.returned.inj h).symm
          · split at h
            · exact absurd h (by simp)
            · split at h
              · exact absurd h (by simp)
              · split at h
                · split at h
                  · exact absurd h (by simp)
                  · rename_i hlen
                    split at h
                    · rename_i info infoDictLength hparse
                      right; right
                      have h1 := (Outcome.returned.inj h).symm
                      subst h1
                      refine ⟨m, rfl, ?_, ?_, ?_, rfl⟩
                      · rw [← hoffset]; simpa using hlen
                      · rw [← hoffset]
                        by_contra hne
                        simp [hne] at hparse
                      · rw [← hoffset]
                        by_cases hsha : sha1 (memcpyAt m.metadata offset.toNat data) = tor.info.hash
                        · simpa [hsha] using hparse
                        · simp [hsha] at hparse
                    · right; left
                      exact ⟨m, _, rfl, (Outcome.returned.inj h).symm⟩
                · right; left
                  exact ⟨m, _, rfl, (Outcome.returned.inj h).symm⟩

/-- A size hint leaves the info alone, and a torrent that awaits metadata
as it is. -/
theorem sizeHint_keeps (uninit : Nat → Nat) (tor tor1 : tr_torrent) (size : Int)
    (h : tr_torrentSetMetadataSizeHint uninit tor size = Outcome.returned tor1) :
    tor1.info = tor.info ∧ tor1.infoDictLength = tor.infoDictLength ∧
      (tor.incompleteMetadata ≠ none → tor1 = tor) := by
  unfold tr_torrentSetMetadataSizeHint at h
  split at h
  · cases hm : tor.incompleteMetadata with
    | none =>
      simp only [hm] at h
      split at h
      · exact absurd h (by simp)
      · have h1 := (Outcome.returned.inj h).symm
        subst h1
        exact ⟨rfl, rfl, fun hne => absurd rfl hne⟩
    | some m =>
      simp only [hm] at h
      have h1 := (Outcome.returned.inj h).symm
      exact ⟨by rw [h1], by rw [h1], fun _ => h1⟩
  · have h1 := (Outcome.returned.inj h).symm
    exact ⟨by rw [h1], by rw [h1], fun _ => h1⟩

/-- A request for the next piece leaves the info alone and only moves the
first needed piece to the end of the array, with the time of the request. -/
theorem nextRequest_cases (tor tor1 : tr_torrent) (now : Int) (p : Option Int)
    (h : tr_torrentGetNextMetadataRequest tor now = Outcome.returned (tor1, p)) :
    (tor1 = tor ∧ p = none) ∨
    ∃ m node rest, tor.incompleteMetadata = some m ∧ m.piecesNeeded = node :: rest ∧
      node.requestedAt + MIN_REPEAT_INTERVAL_SECS < now ∧ p = some node.piece ∧
      tor1 = { tor with
               incompleteMetadata := some
                 { m with piecesNeeded := rest ++ [⟨now, node.piece⟩] } } := by
  unfold tr_torrentGetNextMetadataRequest at h
  cases hm : tor.incompleteMetadata with
  | none =>
    simp only [hm] at h
    have h1 := Outcome.returned.inj h
    left; exact ⟨(Prod.mk.inj h1).1.symm, (Prod.mk.inj h1).2.symm⟩
  | some m =>
    simp only [hm] at h
    split at h
    · cases hl : m.piecesNeeded with
      | nil => simp [hl] at h
      | cons node rest =>
        simp only [hl] at h
        split at h
        · rename_i hlt
          have h1 := Outcome.returned.inj h
          right
          exact ⟨m, node, rest, rfl, hl, hlt, (Prod.mk.inj h1).2.symm, (Prod.mk.inj h1).1.symm⟩
        · have h1 := Outcome.returned.inj h
          left; exact ⟨(Prod.mk.inj h1).1.symm, (Prod.mk.inj h1).2.symm⟩
    · have h1 := Outcome.returned.inj h
      left; exact ⟨(Prod.mk.inj h1).1.symm, (Prod.mk.inj h1).2.symm⟩

/-- The run of a sequence that starts with a size hint. -/
theorem magnetRun_sizeHint (uninit : Nat → Nat) (sha1 : List Nat → List Nat)
    (parse : tr_torrent → List Nat → Option (tr_info × Int))
    (tor tor2 : tr_torrent) (size : Int) (rest : List MagnetCall) (log : List MagnetEvent)
    (h : magnetRun uninit sha1 parse tor (MagnetCall.sizeHint size :: rest) =
      Outcome.returned (tor2, log)) :
    ∃ tor1 log1, tr_torrentSetMetadataSizeHint uninit tor size = Outcome.returned tor1 ∧
      magnetRun uninit sha1 parse tor1 rest = Outcome.returned (tor2, log1) ∧
      log = MagnetEvent.hinted :: log1 := by
  simp only [magnetRun] at h
  cases h1 : tr_torrentSetMetadataSizeHint uninit tor size with
  | returned tor1 =>
    simp only [h1] at h
    cases h2 : magnetRun uninit sha1 parse tor1 rest with
    | returned r =>
      obtain ⟨t2, l2⟩ := r
      simp only [h2] at h
      have h3 := Outcome.returned.inj h
      exact ⟨tor1, l2, rfl, by rw [h2, (Prod.mk.inj h3).1], (Prod.mk.inj h3).2.symm⟩
    | assertFailed line => simp [h2] at h
    | fault => simp [h2] at h
    | hang => simp [h2] at h
  | assertFailed line => simp [h1] at h
  | fault => simp [h1] at h
  | hang => simp [h1] at h

/-- The run of a sequence that starts with a request for the next piece. -/
theorem magnetRun_nextRequest (uninit : Nat → Nat) (sha1 : List Nat → List Nat)
    (parse : tr_torrent → List Nat → Option (tr_info × Int))
    (tor tor2 : tr_torrent) (now : Int) (rest : List MagnetCall) (log : List MagnetEvent)
    (h : magnetRun uninit sha1 parse tor (MagnetCall.nextRequest now :: rest) =
      Outcome.returned (tor2, log)) :
    ∃ tor1 p log1, tr_torrentGetNextMetadataRequest tor now = Outcome.returned (tor1, p) ∧
      magnetRun uninit sha1 parse tor1 rest = Outcome.returned (tor2, log1) ∧
      log = MagnetEvent.requested now p :: log1 := by
  simp only [magnetRun] at h
  cases h1 : tr_torrentGetNextMetadataRequest tor now with
  | returned r1 =>
    obtain ⟨tor1, p⟩ := r1
    simp only [h1] at h
    cases h2 : magnetRun uninit sha1 parse tor1 rest with
    | returned r =>
      obtain ⟨t2, l2⟩ := r
      simp only [h2] at h
      have h3 := Outcome.returned.inj h
      exact ⟨tor1, p, l2, rfl, by rw [h2, (Prod.mk.inj h3).1], (Prod.mk.inj h3).2.symm⟩
    | assertFailed line => simp [h2] at h
    | fault => simp [h2] at h
    | hang => simp [h2] at h
  | assertFailed line => simp [h1] at h
  | fault => simp [h1] at h
  | hang => simp [h1] at h

/-- The run of a sequence that starts with the delivery of a piece. -/
theorem magnetRun_setPiece (uninit : Nat → Nat) (sha1 : List Nat → List Nat)
    (parse : tr_torrent → List Nat → Option (tr_info × Int))
    (tor tor2 : tr_torrent) (piece : Int) (data : List Nat) (rest : List MagnetCall)
    (log : List MagnetEvent)
    (h : magnetRun uninit sha1 parse tor (MagnetCall.setPiece piece data :: rest) =
      Outcome.returned (tor2, log)) :
    ∃ tor1 log1, tr_torrentSetMetadataPiece sha1 parse tor piece data = Outcome.returned tor1 ∧
      magnetRun uninit sha1 parse tor1 rest = Outcome.returned (tor2, log1) ∧
      log = MagnetEvent.received (deliversLastPiece tor piece data) :: log1 := by
  simp only [magnetRun] at h
  cases h1 : tr_torrentSetMetadataPiece sha1 parse tor piece data with
  | returned tor1 =>
    simp only [h1] at h
    cases h2 : magnetRun uninit sha1 parse tor1 rest with
    | returned r =>
      obtain ⟨t2, l2⟩ := r
      simp only [h2] at h
      have h3 := Outcome.returned.inj h
      exact ⟨tor1, l2, rfl, by rw [h2, (Prod.mk.inj h3).1], (Prod.mk.inj h3).2.symm⟩
    | assertFailed line => simp [h2] at h
    | fault => simp [h2] at h
    | hang => simp [h2] at h
  | assertFailed line => simp [h1] at h
  | fault => simp [h1] at h
  | hang => simp [h1] at h

/-- A block copied into a buffer that has room for it leaves the length of
the buffer as it is. -/
theorem memcpyAt_length (dst src : List Nat) (offset : Nat)
    (h : offset + src.length ≤ dst.length) :
    (memcpyAt dst offset src).length = dst.length := by
  unfold memcpyAt
  simp only [List.length_append, List.length_take, List.length_drop]
  omega

/-- In a sequence of calls on a torrent that awaits metadata, the info is
replaced or the incomplete metadata released only by a delivery after which
the SHA-1 of the whole buffer equals the infohash. -/
theorem magnetRun_replaces_only_on_match (uninit : Nat → Nat) (sha1 : List Nat → List Nat)
    (parse : tr_torrent → List Nat → Option (tr_info × Int)) :
    ∀ (calls : List MagnetCall) (tor tor2 : tr_torrent) (log : List MagnetEvent),
      tor.incompleteMetadata ≠ none →
      magnetRun uninit sha1 parse tor calls = Outcome.returned (tor2, log) →
      (tor2.info ≠ tor.info ∨ tor2.incompleteMetadata = none) →
      ∃ pre piece data post tork logk m,
        calls = pre ++ MagnetCall.setPiece piece data :: post ∧
        magnetRun uninit sha1 parse tor pre = Outcome.returned (tork, logk) ∧
        tork.info = tor.info ∧ tork.incompleteMetadata = some m ∧
        ((memcpyAt m.metadata (piece * METADATA_PIECE_SIZE).toNat data).length : Int) =
          m.metadata_size ∧
        sha1 (memcpyAt m.metadata (piece * METADATA_PIECE_SIZE).toNat data) =
          tor.info.hash := by
  intro calls
  induction calls with
  | nil =>
    intro tor tor2 log hne h hch
    simp only [magnetRun] at h
    have h1 := Outcome.returned.inj h
    have h2 : tor2 = tor := (Prod.mk.inj h1).1.symm
    subst h2
    rcases hch with hch | hch
    · exact absurd rfl hch
    · exact absurd hch hne
  | cons c rest ih =>
    intro tor tor2 log hne h hch
    cases c with
    | sizeHint size =>
      obtain ⟨tor1, log1, hstep, hrest, _⟩ := magnetRun_sizeHint uninit sha1 parse _ _ _ _ _ h
      have hsame : tor1 = tor := (sizeHint_keeps uninit tor tor1 size hstep).2.2 hne
      subst hsame
      obtain ⟨pre, piece, data, post, tork, logk, m, hc, hrun, hinfo, hm, hlen, hsha⟩ :=
        ih tor1 tor2 log1 hne hrest hch
      refine ⟨MagnetCall.sizeHint size :: pre, piece, data, post, tork,
        MagnetEvent.hinted :: logk, m, by rw [hc]; rfl, ?_, hinfo, hm, hlen, hsha⟩
      simp only [magnetRun, hstep, hrun]
    | nextRequest now =>
      obtain ⟨tor1, p, log1, hstep, hrest, _⟩ :=
        magnetRun_nextRequest uninit sha1 parse _ _ _ _ _ h
      have hkeep : tor1.info = tor.info ∧ tor1.incompleteMetadata ≠ none := by
        rcases nextRequest_cases tor tor1 now p hstep with ⟨h1, _⟩ | ⟨m, node, r, _, _, _, _, h1⟩
        · rw [h1]; exact ⟨rfl, hne⟩
        · rw [h1]; exact ⟨rfl, by simp⟩
      obtain ⟨pre, piece, data, post, tork, logk, m, hc, hrun, hinfo, hm, hlen, hsha⟩ :=
        ih tor1 tor2 log1 hkeep.2 hrest (by rw [hkeep.1]; exact hch)
      refine ⟨MagnetCall.nextRequest now :: pre, piece, data, post, tork,
        MagnetEvent.requested now p :: logk, m, by rw [hc]; rfl, ?_, by rw [hinfo, hkeep.1], hm,
        hlen, by rw [hsha, hkeep.1]⟩
      simp only [magnetRun, hstep, hrun]
    | setPiece piece data =>
      obtain ⟨tor1, log1, hstep, hrest, _⟩ :=
        magnetRun_setPiece uninit sha1 parse _ _ _ _ _ _ h
      have hcases := setMetadataPiece_cases sha1 parse tor tor1 piece data hstep
      have hgo : tor1.info = tor.info ∧ tor1.incompleteMetadata ≠ none →
          ∃ pre piece3 data3 post tork logk m,
            MagnetCall.setPiece piece data :: rest =
              pre ++ MagnetCall.setPiece piece3 data3 :: post ∧
            magnetRun uninit sha1 parse tor pre = Outcome.returned (tork, logk) ∧
            tork.info = tor.info ∧ tork.incompleteMetadata = some m ∧
            ((memcpyAt m.metadata (piece3 * METADATA_PIECE_SIZE).toNat data3).length : Int) =
              m.metadata_size ∧
            sha1 (memcpyAt m.metadata (piece3 * METADATA_PIECE_SIZE).toNat data3) =
              tor.info.hash := by
        intro hkeep
        obtain ⟨pre, piece2, data2, post, tork, logk, m, hc, hrun, hinfo, hm, hlen, hsha⟩ :=
          ih tor1 tor2 log1 hkeep.2 hrest (by rw [hkeep.1]; exact hch)
        refine ⟨MagnetCall.setPiece piece data :: pre, piece2, data2, post, tork,
          MagnetEvent.received (deliversLastPiece tor piece data) :: logk, m, by rw [hc]; rfl,
          ?_, by rw [hinfo, hkeep.1], hm, hlen, by rw [hsha, hkeep.1]⟩
        simp only [magnetRun, hstep, hrun]
      rcases hcases with h1 | ⟨m, m1, _, h1⟩ | ⟨m, hm, hlen, hsha, _, _⟩
      · exact hgo (by rw [h1]; exact ⟨rfl, hne⟩)
      · exact hgo (by rw [h1]; exact ⟨rfl, by simp⟩)
      · exact ⟨[], piece, data, rest, tor, [], m, rfl, rfl, rfl, hm, hlen, hsha⟩

/-- What `deliversLastPiece` says of the torrent. -/
theorem deliversLastPiece_spec (tor : tr_torrent) (piece : Int) (data : List Nat)
    (h : deliversLastPiece tor piece data = true) :
    ∃ m nd, tor.incompleteMetadata = some m ∧ m.piecesNeeded = [nd] ∧ nd.piece = piece ∧
      piece * METADATA_PIECE_SIZE + (data.length : Int) ≤ m.metadata_size := by
  unfold deliversLastPiece at h
  cases hm : tor.incompleteMetadata with
  | none => simp [hm] at h
  | some m =>
    simp only [hm] at h
    cases hl : m.piecesNeeded with
    | nil => simp [hl] at h
    | cons nd rest =>
      cases rest with
      | nil =>
        simp only [hl, decide_eq_true_eq] at h
        exact ⟨m, nd, rfl, hl, h.1, h.2⟩
      | cons x r => simp [hl] at h

/-- When the last needed piece arrives and the SHA-1 of the buffer is not the
infohash, the call returns with the info as before and every piece needed
again. -/
theorem setMetadataPiece_mismatch_resets (sha1 : List Nat → List Nat)
    (parse : tr_torrent → List Nat → Option (tr_info × Int))
    (tor : tr_torrent) (m : tr_incomplete_metadata) (piece : Int) (data : List Nat)
    (hm : tor.incompleteMetadata = some m)
    (hbuf : (m.metadata.length : Int) = m.metadata_size)
    (hsize : m.metadata_size ≤ INT_MAX)
    (hcount : m.piecesNeededCount = 1)
    (hlast : deliversLastPiece tor piece data = true)
    (hpiece : 0 ≤ piece)
    (hsha : sha1 (memcpyAt m.metadata (piece * METADATA_PIECE_SIZE).toNat data) ≠
      tor.info.hash) :
    tr_torrentSetMetadataPiece sha1 parse tor piece data =
      Outcome.returned
        { tor with
          incompleteMetadata := some
            { m with
              metadata := memcpyAt m.metadata (piece * METADATA_PIECE_SIZE).toNat data
              piecesNeeded := allPiecesNeeded m.pieceCount
              piecesNeededCount := m.pieceCount } } := by
  obtain ⟨m2, nd, hm2, hl, hnd, hfit⟩ := deliversLastPiece_spec tor piece data hlast
  have hmm : m2 = m := Option.some.inj (hm2.symm.trans hm)
  subst hmm
  have hps : METADATA_PIECE_SIZE = 16384 := rfl
  have hmax : INT_MAX = 2 ^ 31 - 1 := rfl
  have hmin : INT_MIN = -(2 ^ 31) := rfl
  have hlen0 : (0 : Int) ≤ (data.length : Int) := Int.ofNat_nonneg _
  have hoff0 : 0 ≤ piece * METADATA_PIECE_SIZE := by rw [hps]; omega
  have hoff : intResult (piece * METADATA_PIECE_SIZE) = some (piece * METADATA_PIECE_SIZE) := by
    unfold intResult
    rw [if_pos (by constructor <;> omega)]
  have he : intResult (piece * METADATA_PIECE_SIZE + (data.length : Int)) =
      some (piece * METADATA_PIECE_SIZE + (data.length : Int)) := by
    unfold intResult
    rw [if_pos (by constructor <;> omega)]
  have hidx : List.findIdx (fun nd => decide (nd.piece = piece)) m2.piecesNeeded = 0 := by
    rw [hl]
    simp [List.findIdx_cons, hnd]
  have hnat : ((piece * METADATA_PIECE_SIZE).toNat : Int) = piece * METADATA_PIECE_SIZE :=
    Int.toNat_of_nonneg hoff0
  have hlen : (memcpyAt m2.metadata (piece * METADATA_PIECE_SIZE).toNat data).length =
      m2.metadata.length := by
    apply memcpyAt_length
    omega
  unfold tr_torrentSetMetadataPiece
  simp only [hoff, hm, he, hidx, hcount]
  rw [if_neg (by omega), if_neg (by norm_num), if_neg (by rw [hl]; simp),
    if_neg (by omega), if_pos (by norm_num), if_neg (by rw [hlen]; simp [hbuf])]
  simp only [hsha, decide_False, Bool.false_eq_true, if_false]

/-- C13: for every torrent that awaits metadata and every sequence of calls
of `tr_torrentSetMetadataPiece` (calls of the other two functions may come in
between), the info is replaced or the incomplete metadata released only by a
delivery after which the SHA-1 of the whole `metadata_size`-byte buffer equals
the infohash; and a delivery of the last needed piece after which the SHA-1
is not the infohash returns with the info as before and all `pieceCount`
pieces needed again: `piecesNeededCount == pieceCount`, pieces
`0 .. pieceCount - 1` in order, each with `requestedAt` 0. -/
theorem C13_metadata_replaced_only_on_hash_match (uninit : Nat → Nat)
    (sha1 : List Nat → List Nat) (parse : tr_torrent → List Nat → Option (tr_info × Int))
    (tor : tr_torrent) (m : tr_incomplete_metadata) (hm : tor.incompleteMetadata = some m) :
    (∀ (calls : List MagnetCall) (tor2 : tr_torrent) (log : List MagnetEvent),
      magnetRun uninit sha1 parse tor calls = Outcome.returned (tor2, log) →
      (tor2.info ≠ tor.info ∨ tor2.incompleteMetadata = none) →
      ∃ pre piece data post tork logk mk,
        calls = pre ++ MagnetCall.setPiece piece data :: post ∧
        magnetRun uninit sha1 parse tor pre = Outcome.returned (tork, logk) ∧
        tork.info = tor.info ∧ tork.incompleteMetadata = some mk ∧
        ((memcpyAt mk.metadata (piece * METADATA_PIECE_SIZE).toNat data).length : Int) =
          mk.metadata_size ∧
        sha1 (memcpyAt mk.metadata (piece * METADATA_PIECE_SIZE).toNat data) =
          tor.info.hash) ∧
    (∀ (piece : Int) (data : List Nat),
      (m.metadata.length : Int) = m.metadata_size → m.metadata_size ≤ INT_MAX →
      m.piecesNeededCount = 1 → deliversLastPiece tor piece data = true → 0 ≤ piece →
      sha1 (memcpyAt m.metadata (piece * METADATA_PIECE_SIZE).toNat data) ≠ tor.info.hash →
      ∃ tor1 m1,
        tr_torrentSetMetadataPiece sha1 parse tor piece data = Outcome.returned tor1 ∧
        tor1.info = tor.info ∧ tor1.incompleteMetadata = some m1 ∧
        m1.pieceCount = m.pieceCount ∧ m1.piecesNeededCount = m.pieceCount ∧
        m1.piecesNeeded =
          (List.range m.pieceCount.toNat).map
            (fun (i : Nat) => (⟨0, (i : Int)⟩ : metadata_node))) := by
  constructor
  · intro calls tor2 log hrun hch
    exact magnetRun_replaces_only_on_match uninit sha1 parse calls tor tor2 log
      (by rw [hm]; simp) hrun hch
  · intro piece data hbuf hsize hcount hlast hpiece hsha
    exact ⟨_, _, setMetadataPiece_mismatch_resets sha1 parse tor m piece data hm hbuf hsize
      hcount hlast hpiece hsha, rfl, rfl, rfl, rfl, rfl⟩

/-- Witness for C13.  A torrent waits for the one piece of a 1-byte
metadata.  With a SHA-1 that equals the infohash and a successful parse, the
delivery replaces the info; with a SHA-1 that differs, the delivery leaves
the info as it is and piece 0 is needed again, never requested. -/
theorem C13_metadata_replaced_only_on_hash_match_witness :
    (∃ pre piece data post tork logk mk,
      [MagnetCall.setPiece 0 [7]] = pre ++ MagnetCall.setPiece piece data :: post ∧
      magnetRun (fun _ => 0) (fun _ => [1])
          (fun _ _ => some ({ hash := [1], files := [⟨1⟩] }, 1))
          { info := { hash := [1] },
            incompleteMetadata := some ⟨[0], 1, 1, [⟨5, 0⟩], 1⟩ } pre =
        Outcome.returned (tork, logk) ∧
      tork.info = { hash := [1] } ∧ tork.incompleteMetadata = some mk ∧
      ((memcpyAt mk.metadata (piece * METADATA_PIECE_SIZE).toNat data).length : Int) =
        mk.metadata_size ∧
      (fun _ => [1]) (memcpyAt mk.metadata (piece * METADATA_PIECE_SIZE).toNat data) =
        ([1] : List Nat)) ∧
    (∃ tor1 m1,
      tr_torrentSetMetadataPiece (fun _ => [0]) (fun _ _ => none)
          { info := { hash := [1] },
            incompleteMetadata := some ⟨[0], 1, 1, [⟨5, 0⟩], 1⟩ } 0 [7] =
        Outcome.returned tor1 ∧
      tor1.info = { hash := [1] } ∧ tor1.incompleteMetadata = some m1 ∧
      m1.pieceCount = 1 ∧ m1.piecesNeededCount = 1 ∧
      m1.piecesNeeded =
        (List.range (1 : Int).toNat).map (fun (i : Nat) => (⟨0, (i : Int)⟩ : metadata_node))) :=
  ⟨(C13_metadata_replaced_only_on_hash_match (fun _ => 0) (fun _ => [1])
      (fun _ _ => some ({ hash := [1], files := [⟨1⟩] }, 1))
      { info := { hash := [1] }, incompleteMetadata := some ⟨[0], 1, 1, [⟨5, 0⟩], 1⟩ }
      ⟨[0], 1, 1, [⟨5, 0⟩], 1⟩ rfl).1
      [MagnetCall.setPiece 0 [7]]
      { info := { hash := [1], files := [⟨1⟩] }, infoDictLength := 1 }
      [MagnetEvent.received true] (by decide) (by decide),
    (C13_metadata_replaced_only_on_hash_match (fun _ => 0) (fun _ => [0]) (fun _ _ => none)
      { info := { hash := [1] }, incompleteMetadata := some ⟨[0], 1, 1, [⟨5, 0⟩], 1⟩ }
      ⟨[0], 1, 1, [⟨5, 0⟩], 1⟩ rfl).2
      0 [7] (by decide) (by decide) (by decide) (by decide) (by decide) (by decide)⟩

/-! ## tr_torrentGetNextMetadataRequest -/

/-- The outcomes of a call of `tr_torrentSetMetadataPiece` that returns, in
terms of the array of needed pieces: nothing changes; or one entry is removed
and others remain; or the last entry is removed, and then the metadata is
released or every piece is needed again. -/
theorem setMetadataPiece_detail (sha1 : List Nat → List Nat)
    (parse : tr_torrent → List Nat → Option (tr_info × Int))
    (tor tor1 : tr_torrent) (piece : Int) (data : List Nat)
    (h : tr_torrentSetMetadataPiece sha1 parse tor piece data = Outcome.returned tor1) :
    tor1 = tor ∨
    (∃ m i buf, tor.incompleteMetadata = some m ∧ i < m.piecesNeeded.length ∧
      m.piecesNeededCount - 1 ≠ 0 ∧
      tor1 = { tor with
               incompleteMetadata := some
                 { m with
                   metadata := buf
                   piecesNeeded := m.piecesNeeded.eraseIdx i
                   piecesNeededCount := m.piecesNeededCount - 1 } }) ∨
    (∃ m i buf, tor.incompleteMetadata = some m ∧ i < m.piecesNeeded.length ∧
      m.piecesNeededCount - 1 = 0 ∧
      m.piecesNeeded[i]?.map (fun nd => nd.piece) = some piece ∧
      piece * METADATA_PIECE_SIZE + (data.length : Int) ≤ m.metadata_size ∧
      (tor1.incompleteMetadata = none ∨
        tor1 = { tor with
                 incompleteMetadata := some
                   { m with
                     metadata := buf
                     piecesNeeded := allPiecesNeeded m.pieceCount
                     piecesNeededCount := m.pieceCount } })) := by
  unfold tr_torrentSetMetadataPiece at h
  cases hoff : intResult (piece * METADATA_PIECE_SIZE) with
  | none => simp [hoff] at h
  | some offset =>
    have hoffset : offset = piece * METADATA_PIECE_SIZE := by
      unfold intResult at hoff
      split at hoff
      · exact (Option.some.inj hoff).symm
      · exact absurd hoff (by simp)
    cases hm : tor.incompleteMetadata with
    | none =>
      simp only [hoff, hm] at h
      left; exact (Outcome.returned.inj h).symm
    | some m =>
      simp only [hoff, hm] at h
      cases he : intResult (offset + (data.length : Int)) with
      | none => simp [he] at h
      | some e =>
        have hee : e = offset + (data.length : Int) := by
          unfold intResult at he
          split at he
          · exact (Option.some.inj he).symm
          · exact absurd he (by simp)
        simp only [he] at h
        split at h
        · left; exact (Outcome.returned.inj h).symm
        · rename_i hfit
          split at h
          · left; exact (Outcome.returned.inj h).symm
          · split at h
            · exact absurd h (by simp)
            · rename_i hidx
              have hidx2 : List.findIdx (fun nd => decide (nd.piece = piece)) m.piecesNeeded <
                  m.piecesNeeded.length := by omega
              have hfound : m.piecesNeeded[List.findIdx (fun nd => decide (nd.piece = piece))
                  m.piecesNeeded]?.map (fun nd => nd.piece) = some piece := by
                rw [List.getElem?_eq_getElem hidx2]
                have := List.findIdx_getElem (w := hidx2)
                simpa using this
              split at h
              · exact absurd h (by simp)
              · split at h
                · rename_i hzero
                  split at h
                  · exact absurd h (by simp)
                  · right; right
                    refine ⟨m, _, memcpyAt m.metadata offset.toNat data, rfl, hidx2, hzero,
                      hfound, by omega, ?_⟩
                    split at h
                    · left
                      rw [← Outcome.returned.inj h]
                    · right
                      exact (Outcome.returned.inj h).symm
                · rename_i hnz
                  right; left
                  exact ⟨m, _, _, rfl, hidx2, hnz, (Outcome.returned.inj h).symm⟩

/-- The array written for `n` pieces lists no piece twice. -/
theorem allPiecesNeeded_wellFormed (n : Int) :
    ((allPiecesNeeded n).map (fun nd => nd.piece)).Nodup ∧
      (allPiecesNeeded n).length = n.toNat := by
  unfold allPiecesNeeded
  constructor
  · rw [List.map_map]
    apply List.Nodup.map _ (List.nodup_range _)
    intro a b hab
    simpa using hab
  · simp

/-- A size hint keeps the array of needed pieces well formed. -/
theorem sizeHint_wellFormed (uninit : Nat → Nat) (tor tor1 : tr_torrent) (size : Int)
    (hwf : NeededWellFormed tor)
    (h : tr_torrentSetMetadataSizeHint uninit tor size = Outcome.returned tor1) :
    NeededWellFormed tor1 := by
  unfold tr_torrentSetMetadataSizeHint at h
  split at h
  · cases hm : tor.incompleteMetadata with
    | none =>
      simp only [hm] at h
      split at h
      · exact absurd h (by simp)
      · have h1 := (Outcome.returned.inj h).symm
        subst h1
        intro m1 hm1
        have := Option.some.inj hm1
        subst this
        exact allPiecesNeeded_wellFormed _
    | some m =>
      simp only [hm] at h
      rw [← Outcome.returned.inj h]; exact hwf
  · rw [← Outcome.returned.inj h]; exact hwf

/-- A request for the next piece keeps the array of needed pieces well
formed. -/
theorem nextRequest_wellFormed (tor tor1 : tr_torrent) (now : Int) (p : Option Int)
    (hwf : NeededWellFormed tor)
    (h : tr_torrentGetNextMetadataRequest tor now = Outcome.returned (tor1, p)) :
    NeededWellFormed tor1 := by
  rcases nextRequest_cases tor tor1 now p h with ⟨h1, _⟩ | ⟨m, node, rest, hm, hl, _, _, h1⟩
  · rw [h1]; exact hwf
  · obtain ⟨hnd, hlen⟩ := hwf m hm
    rw [h1]
    intro m1 hm1
    have := Option.some.inj hm1
    subst this
    rw [hl] at hnd hlen
    constructor
    · have hperm : (List.map (fun nd => nd.piece) (rest ++ [⟨now, node.piece⟩])).Perm
          (List.map (fun nd => nd.piece) (node :: rest)) := by
        simp only [List.map_append, List.map_cons, List.map_nil]
        exact List.perm_append_singleton _ _
      exact hperm.nodup_iff.mpr hnd
    · simp only [List.length_append, List.length_cons, List.length_nil] at hlen ⊢
      omega

/-- A delivery keeps the array of needed pieces well formed. -/
theorem setPiece_wellFormed (sha1 : List Nat → List Nat)
    (parse : tr_torrent → List Nat → Option (tr_info × Int))
    (tor tor1 : tr_torrent) (piece : Int) (data : List Nat)
    (hwf : NeededWellFormed tor)
    (h : tr_torrentSetMetadataPiece sha1 parse tor piece data = Outcome.returned tor1) :
    NeededWellFormed tor1 := by
  rcases setMetadataPiece_detail sha1 parse tor tor1 piece data h with
    h1 | ⟨m, i, buf, hm, hi, _, h1⟩ | ⟨m, i, buf, hm, hi, _, _, _, h1 | h1⟩
  · rw [h1]; exact hwf
  · obtain ⟨hnd, hlen⟩ := hwf m hm
    rw [h1]
    intro m1 hm1
    have := Option.some.inj hm1
    subst this
    constructor
    · have hsub : (m.piecesNeeded.eraseIdx i).Sublist m.piecesNeeded :=
        List.eraseIdx_sublist _ _
      exact (hsub.map _).nodup hnd
    · simp only [List.length_eraseIdx, hi, if_true]
      omega
  · intro m1 hm1
    rw [h1] at hm1
    exact absurd hm1 (by simp)
  · rw [h1]
    intro m1 hm1
    have := Option.some.inj hm1
    subst this
    exact allPiecesNeeded_wellFormed _

/-- A sequence of calls keeps the array of needed pieces well formed. -/
theorem magnetRun_wellFormed (uninit : Nat → Nat) (sha1 : List Nat → List Nat)
    (parse : tr_torrent → List Nat → Option (tr_info × Int)) :
    ∀ (calls : List MagnetCall) (tor tor2 : tr_torrent) (log : List MagnetEvent),
      NeededWellFormed tor →
      magnetRun uninit sha1 parse tor calls = Outcome.returned (tor2, log) →
      NeededWellFormed tor2 := by
  intro calls
  induction calls with
  | nil =>
    intro tor tor2 log hwf h
    simp only [magnetRun] at h
    rw [← (Prod.mk.inj (Outcome.returned.inj h)).1]; exact hwf
  | cons c rest ih =>
    intro tor tor2 log hwf h
    cases c with
    | sizeHint size =>
      obtain ⟨tor1, log1, hstep, hrest, _⟩ := magnetRun_sizeHint uninit sha1 parse _ _ _ _ _ h
      exact ih tor1 tor2 log1 (sizeHint_wellFormed uninit tor tor1 size hwf hstep) hrest
    | nextRequest now =>
      obtain ⟨tor1, p, log1, hstep, hrest, _⟩ :=
        magnetRun_nextRequest uninit sha1 parse _ _ _ _ _ h
      exact ih tor1 tor2 log1 (nextRequest_wellFormed tor tor1 now p hwf hstep) hrest
    | setPiece piece data =>
      obtain ⟨tor1, log1, hstep, hrest, _⟩ :=
        magnetRun_setPiece uninit sha1 parse _ _ _ _ _ _ h
      exact ih tor1 tor2 log1 (setPiece_wellFormed sha1 parse tor tor1 piece data hwf hstep) hrest

/-- Right after a request that returned piece `p` at time `t`, the only entry
for `p` carries the time `t`. -/
theorem requestedSince_after_request (tor tor1 : tr_torrent) (t p : Int)
    (hwf : NeededWellFormed tor)
    (h : tr_torrentGetNextMetadataRequest tor t = Outcome.returned (tor1, some p)) :
    RequestedSince p t tor1 := by
  rcases nextRequest_cases tor tor1 t (some p) h with ⟨_, h2⟩ | ⟨m, node, rest, hm, hl, _, hp, h1⟩
  · exact absurd h2 (by simp)
  · have hpp : p = node.piece := Option.some.inj hp
    obtain ⟨hnd, _⟩ := hwf m hm
    rw [hl] at hnd
    simp only [List.map_cons, List.nodup_cons, List.mem_map, not_exists, not_and] at hnd
    rw [h1]
    refine ⟨_, rfl, ?_⟩
    intro nd hmem hnp
    simp only [List.mem_append, List.mem_singleton] at hmem
    rcases hmem with hmem | hmem
    · exact absurd (by rw [hnp, hpp]) (hnd.1 nd hmem)
    · rw [hmem]

/-- A later request keeps the entries for `p` at time `t` or later. -/
theorem requestedSince_nextRequest (tor tor1 : tr_torrent) (t p now : Int) (q : Option Int)
    (hs : RequestedSince p t tor) (hnow : t ≤ now)
    (h : tr_torrentGetNextMetadataRequest tor now = Outcome.returned (tor1, q)) :
    RequestedSince p t tor1 := by
  rcases nextRequest_cases tor tor1 now q h with ⟨h1, _⟩ | ⟨m, node, rest, hm, hl, _, _, h1⟩
  · rw [h1]; exact hs
  · obtain ⟨m0, hm0, hall⟩ := hs
    have hmm : m0 = m := Option.some.inj (hm0.symm.trans hm)
    subst hmm
    rw [h1]
    refine ⟨_, rfl, ?_⟩
    intro nd hmem hnp
    simp only [List.mem_append, List.mem_singleton] at hmem
    rcases hmem with hmem | hmem
    · exact hall nd (by rw [hl]; simp [hmem]) hnp
    · rw [hmem]; exact hnow

/-- A delivery that is not that of the last needed piece keeps the entries
for `p` at time `t` or later. -/
theorem requestedSince_setPiece (sha1 : List Nat → List Nat)
    (parse : tr_torrent → List Nat → Option (tr_info × Int))
    (tor tor1 : tr_torrent) (t p piece : Int) (data : List Nat)
    (hs : RequestedSince p t tor) (hwf : NeededWellFormed tor)
    (hnl : deliversLastPiece tor piece data = false)
    (h : tr_torrentSetMetadataPiece sha1 parse tor piece data = Outcome.returned tor1) :
    RequestedSince p t tor1 := by
  obtain ⟨m0, hm0, hall⟩ := hs
  rcases setMetadataPiece_detail sha1 parse tor tor1 piece data h with
    h1 | ⟨m, i, buf, hm, hi, _, h1⟩ | ⟨m, i, buf, hm, hi, hzero, hfound, hfit, _⟩
  · rw [h1]; exact ⟨m0, hm0, hall⟩
  · have hmm : m0 = m := Option.some.inj (hm0.symm.trans hm)
    subst hmm
    rw [h1]
    refine ⟨_, rfl, ?_⟩
    intro nd hmem hnp
    exact hall nd (List.mem_of_mem_eraseIdx hmem) hnp
  · exfalso
    obtain ⟨_, hlen⟩ := hwf m hm
    have hlen1 : m.piecesNeeded.length = 1 := by
      have : m.piecesNeededCount = 1 := by omega
      rw [hlen, this]; rfl
    obtain ⟨nd, hl⟩ := List.length_eq_one.mp hlen1
    have hi0 : i = 0 := by rw [hl] at hi; simpa using hi
    subst hi0
    rw [hl] at hfound
    simp only [List.getElem?_cons_zero, Option.map_some', Option.some.injEq] at hfound
    have : deliversLastPiece tor piece data = true := by
      unfold deliversLastPiece
      simp only [hm, hl, decide_eq_true_eq]
      exact ⟨hfound, hfit⟩
    rw [this] at hnl
    exact absurd hnl (by simp)

/-- Over a sequence of calls without a delivery of the last needed piece and
with request times from `t` on, the entries for `p` stay at time `t` or
later. -/
theorem requestedSince_run (uninit : Nat → Nat) (sha1 : List Nat → List Nat)
    (parse : tr_torrent → List Nat → Option (tr_info × Int)) (t p : Int) :
    ∀ (calls : List MagnetCall) (tor tor2 : tr_torrent) (log : List MagnetEvent),
      RequestedSince p t tor → NeededWellFormed tor →
      magnetRun uninit sha1 parse tor calls = Outcome.returned (tor2, log) →
      (∀ now, MagnetCall.nextRequest now ∈ calls → t ≤ now) →
      MagnetEvent.received true ∉ log →
      RequestedSince p t tor2 := by
  intro calls
  induction calls with
  | nil =>
    intro tor tor2 log hs _ h _ _
    simp only [magnetRun] at h
    rw [← (Prod.mk.inj (Outcome.returned.inj h)).1]; exact hs
  | cons c rest ih =>
    intro tor tor2 log hs hwf h hclock hnl
    have hclock2 : ∀ now, MagnetCall.nextRequest now ∈ rest → t ≤ now :=
      fun now hmem => hclock now (by simp [hmem])
    cases c with
    | sizeHint size =>
      obtain ⟨tor1, log1, hstep, hrest, hlog⟩ :=
        magnetRun_sizeHint uninit sha1 parse _ _ _ _ _ h
      have hsame : tor1 = tor := by
        obtain ⟨m, hm, _⟩ := hs
        exact (sizeHint_keeps uninit tor tor1 size hstep).2.2 (by rw [hm]; simp)
      subst hsame
      exact ih tor1 tor2 log1 hs hwf hrest hclock2 (by rw [hlog] at hnl; simpa using hnl)
    | nextRequest now =>
      obtain ⟨tor1, q, log1, hstep, hrest, hlog⟩ :=
        magnetRun_nextRequest uninit sha1 parse _ _ _ _ _ h
      exact ih tor1 tor2 log1
        (requestedSince_nextRequest tor tor1 t p now q hs (hclock now (by simp)) hstep)
        (nextRequest_wellFormed tor tor1 now q hwf hstep) hrest hclock2
        (by rw [hlog] at hnl; simpa using hnl)
    | setPiece piece data =>
      obtain ⟨tor1, log1, hstep, hrest, hlog⟩ :=
        magnetRun_setPiece uninit sha1 parse _ _ _ _ _ _ h
      rw [hlog] at hnl
      simp only [List.mem_cons, MagnetEvent.received.injEq, not_or] at hnl
      have hfalse : deliversLastPiece tor piece data = false := by
        cases hd : deliversLastPiece tor piece data with
        | false => rfl
        | true => exact absurd hd.symm hnl.1
      exact ih tor1 tor2 log1
        (requestedSince_setPiece sha1 parse tor tor1 t p piece data hs hwf hfalse hstep)
        (setPiece_wellFormed sha1 parse tor tor1 piece data hwf hstep) hrest hclock2 hnl.2

/-- C14 as stated fails.  A 1-byte metadata has one piece.  It is requested
at time 10; the piece delivered has a SHA-1 that is not the infohash, so
`tr_torrentSetMetadataPiece` makes every piece needed again with
`requestedAt` 0; the request at time 11, one second later, returns the same
piece 0 again. -/
theorem C14_request_repeated_after_failed_check_counterexample :
    ∃ tor log,
      magnetRun (fun _ => 0) (fun _ => [0]) (fun _ _ => none) { info := { hash := [1] } }
          [MagnetCall.sizeHint 1, MagnetCall.nextRequest 10, MagnetCall.setPiece 0 [7],
            MagnetCall.nextRequest 11] = Outcome.returned (tor, log) ∧
        log = [MagnetEvent.hinted, MagnetEvent.requested 10 (some 0),
          MagnetEvent.received true, MagnetEvent.requested 11 (some 0)] ∧
        (11 : Int) - 10 ≤ MIN_REPEAT_INTERVAL_SECS :=
  ⟨{ info := { hash := [1] },
     incompleteMetadata := some ⟨[7], 1, 1, [⟨11, 0⟩], 1⟩ }, _, by decide, rfl, by decide⟩

/-- C14 amended: each metadata piece is requested at most once every 3 s as
long as no delivery of the last needed piece comes in between.  For every
sequence of calls of `tr_torrentSetMetadataSizeHint`,
`tr_torrentGetNextMetadataRequest` and `tr_torrentSetMetadataPiece` on a
torrent that starts without incomplete metadata: if
`tr_torrentGetNextMetadataRequest` returns piece `p` at time `t`, the later
requests are made at times from `t` on, and no call of
`tr_torrentSetMetadataPiece` after it delivers the last needed piece, then a
later call that returns the same piece `p` at time `t2` has `t2 - t > 3`. -/
theorem C14_piece_not_requested_again_within_interval (uninit : Nat → Nat)
    (sha1 : List Nat → List Nat) (parse : tr_torrent → List Nat → Option (tr_info × Int))
    (tor0 tor1 tor2 tor3 tor4 : tr_torrent) (pre mid : List MagnetCall)
    (log1 log2 : List MagnetEvent) (t t2 p : Int)
    (h0 : tor0.incompleteMetadata = none)
    (hpre : magnetRun uninit sha1 parse tor0 pre = Outcome.returned (tor1, log1))
    (hreq : tr_torrentGetNextMetadataRequest tor1 t = Outcome.returned (tor2, some p))
    (hmid : magnetRun uninit sha1 parse tor2 mid = Outcome.returned (tor3, log2))
    (hclock : ∀ now, MagnetCall.nextRequest now ∈ mid → t ≤ now)
    (hnolast : MagnetEvent.received true ∉ log2)
    (hreq2 : tr_torrentGetNextMetadataRequest tor3 t2 = Outcome.returned (tor4, some p)) :
    t2 - t > MIN_REPEAT_INTERVAL_SECS := by
  have hwf0 : NeededWellFormed tor0 := by
    intro m hm
    rw [h0] at hm
    exact absurd hm (by simp)
  have hwf1 := magnetRun_wellFormed uninit sha1 parse pre tor0 tor1 log1 hwf0 hpre
  have hs2 := requestedSince_after_request tor1 tor2 t p hwf1 hreq
  have hwf2 := nextRequest_wellFormed tor1 tor2 t (some p) hwf1 hreq
  obtain ⟨m, hm, hall⟩ :=
    requestedSince_run uninit sha1 parse t p mid tor2 tor3 log2 hs2 hwf2 hmid hclock hnolast
  rcases nextRequest_cases tor3 tor4 t2 (some p) hreq2 with
    ⟨_, h2⟩ | ⟨m3, node, rest, hm3, hl, hlt, hp, _⟩
  · exact absurd h2 (by simp)
  · have hmm : m = m3 := Option.some.inj (hm.symm.trans hm3)
    subst hmm
    have hnode := hall node (by rw [hl]; simp) (Option.some.inj hp).symm
    omega

/-- Witness for C14: a 2-byte metadata has one piece.  Piece 0 is requested at
time 10; the requests at times 11 and 12 return nothing, a second size hint
and a delivery of a piece that is not needed change nothing; the next request
that returns piece 0 is the one at time 14. -/
theorem C14_piece_not_requested_again_within_interval_witness :
    (14 : Int) - 10 > MIN_REPEAT_INTERVAL_SECS :=
  C14_piece_not_requested_again_within_interval (fun _ => 0) (fun _ => [0]) (fun _ _ => none)
    { info := { hash := [1] } }
    { info := { hash := [1] },
      incompleteMetadata := some ⟨[0, 0], 2, 1, [⟨0, 0⟩], 1⟩ }
    { info := { hash := [1] },
      incompleteMetadata := some ⟨[0, 0], 2, 1, [⟨10, 0⟩], 1⟩ }
    { info := { hash := [1] },
      incompleteMetadata := some ⟨[0, 0], 2, 1, [⟨10, 0⟩], 1⟩ }
    { info := { hash := [1] },
      incompleteMetadata := some ⟨[0, 0], 2, 1, [⟨14, 0⟩], 1⟩ }
    [MagnetCall.sizeHint 2]
    [MagnetCall.nextRequest 11, MagnetCall.sizeHint 5, MagnetCall.setPiece 5 [],
      MagnetCall.nextRequest 12]
    [MagnetEvent.hinted]
    [MagnetEvent.requested 11 none, MagnetEvent.hinted, MagnetEvent.received false,
      MagnetEvent.requested 12 none]
    10 14 0 rfl (by decide) (by decide) (by decide)
    (by intro now h; simp at h; rcases h with h | h <;> omega)
    (by decide) (by decide)

/-! ## verifyTorrent -/

/-- The difference of two `uint32_t` does not wrap when the second is not
the larger. -/
theorem subU32_of_le (a b : Nat) (ha : a < 2 ^ 32) (hb : b ≤ a) : subU32 a b = a - b := by
  unfold subU32
  norm_num at ha ⊢
  omega

/-- The difference of two `uint64_t` does not wrap when the second is not
the larger. -/
theorem subU64_of_le (a b : Nat) (ha : a < 2 ^ 64) (hb : b ≤ a) : subU64 a b = a - b := by
  unfold subU64
  norm_num at ha ⊢
  omega

/-- A number below 2^32 is kept by the conversion to `uint32_t`. -/
theorem u32_of_lt (a : Nat) (ha : a < 2 ^ 32) : u32 a = a := by
  unfold u32
  exact Nat.mod_eq_of_lt ha

/-- Setting the bit of a piece changes that bit and no other. -/
theorem isComplete_setHasPiece (c : List Bool) (i j : Nat) (v : Bool) :
    tr_cpPieceIsComplete (tr_torrentSetHasPiece c i v) j =
      if j = i then v else tr_cpPieceIsComplete c j := by
  unfold tr_cpPieceIsComplete
  induction c generalizing i j with
  | nil =>
    induction i generalizing j with
    | zero =>
      cases j with
      | zero => simp [tr_torrentSetHasPiece]
      | succ j => simp [tr_torrentSetHasPiece]
    | succ i ih =>
      cases j with
      | zero => simp [tr_torrentSetHasPiece]
      | succ j =>
        have := ih j
        simp only [tr_torrentSetHasPiece, List.getD_cons_succ, this]
        simp
  | cons b c ih =>
    cases i with
    | zero =>
      cases j with
      | zero => simp [tr_torrentSetHasPiece]
      | succ j => simp [tr_torrentSetHasPiece]
    | succ i =>
      cases j with
      | zero => simp [tr_torrentSetHasPiece]
      | succ j =>
        have := ih i j
        simp only [tr_torrentSetHasPiece, List.getD_cons_succ, this]
        simp

/-- The offset of the file after file `k`. -/
theorem fileStart_succ (tor : tr_torrent) (k : Nat) (file : tr_file)
    (h : tor.info.files[k]? = some file) :
    fileStart tor (k + 1) = fileStart tor k + file.length := by
  unfold fileStart totalLength
  have hk : k < tor.info.files.length := by
    by_contra hn
    rw [List.getElem?_eq_none (by omega)] at h
    exact absurd h (by simp)
  have hget : tor.info.files[k] = file := by
    rw [List.getElem?_eq_getElem hk] at h
    exact Option.some.inj h
  rw [List.take_succ, List.getElem?_eq_getElem hk]
  simp [hget]

/-- No file starts behind the end of the torrent. -/
theorem fileStart_le_total (tor : tr_torrent) (k : Nat) :
    fileStart tor k ≤ totalLength tor.info.files := by
  unfold fileStart totalLength
  have h := List.sum_take_add_sum_drop (tor.info.files.map (fun f => f.length)) k
  rw [← List.map_take] at h
  omega

/-- The files all taken together end at the end of the torrent. -/
theorem fileStart_all (tor : tr_torrent) :
    fileStart tor tor.info.files.length = totalLength tor.info.files := by
  unfold fileStart
  rw [List.take_length]

/-- The offset of the piece after piece `k`. -/
theorem pieceStart_succ (tor : tr_torrent) (k : Nat) :
    pieceStart tor (k + 1) = pieceStart tor k + tr_torPieceCountBytes tor k := by
  unfold pieceStart
  rw [List.range_succ, List.map_append, List.sum_append]
  simp

/-- Later pieces start later. -/
theorem pieceStart_mono (tor : tr_torrent) (j k : Nat) (h : j ≤ k) :
    pieceStart tor j ≤ pieceStart tor k := by
  induction k with
  | zero =>
    have : j = 0 := by omega
    rw [this]
  | succ k ih =>
    rcases Nat.lt_or_ge j (k + 1) with hlt | hge
    · have := ih (by omega)
      rw [pieceStart_succ]
      omega
    · have : j = k + 1 := by omega
      rw [this]

/-- Before the last piece, every piece has the piece size. -/
theorem pieceStart_before_last (tor : tr_torrent) (k : Nat)
    (h : k + 1 ≤ tor.info.pieces.length) :
    pieceStart tor k = tor.info.pieceSize * k := by
  induction k with
  | zero => simp [pieceStart]
  | succ k ih =>
    rw [pieceStart_succ, ih (by omega)]
    have : tr_torPieceCountBytes tor k = tor.info.pieceSize := by
      unfold tr_torPieceCountBytes
      rw [if_neg (by omega)]
    rw [this, Nat.mul_succ]

/-- In a well-formed torrent the pieces all taken together end at the end of
the files. -/
theorem pieceStart_all (tor : tr_torrent) (hwf : VerifyWellFormed tor) :
    pieceStart tor tor.info.pieces.length = totalLength tor.info.files := by
  obtain ⟨h1, _, _, _, _, htotal⟩ := hwf
  obtain ⟨k, hk⟩ : ∃ k, tor.info.pieces.length = k + 1 := ⟨tor.info.pieces.length - 1, by omega⟩
  rw [htotal, hk, pieceStart_succ, pieceStart_before_last tor k (by omega)]
  have : tr_torPieceCountBytes tor k = tor.lastPieceSize := by
    unfold tr_torPieceCountBytes
    rw [if_pos hk.symm]
  rw [this]
  simp

/-- In a well-formed torrent every piece has at least one byte and fewer
than 2^32. -/
theorem pieceBytes_range (tor : tr_torrent) (hwf : VerifyWellFormed tor) (k : Nat) :
    0 < tr_torPieceCountBytes tor k ∧ tr_torPieceCountBytes tor k < 2 ^ 32 := by
  obtain ⟨_, h2, h3, h4, _, _⟩ := hwf
  unfold tr_torPieceCountBytes
  split <;> constructor <;> omega

/-- After the block that finishes a piece, each piece finished so far,
the new one included, has its bit set exactly when the SHA-1 of the bytes
hashed for it is its hash. -/
theorem finishPiece_bits (sha1 : List Nat → List Nat) (tor : tr_torrent) (s : VerifyState)
    (pieceHash : List Nat)
    (hlen : s.hashed.length = s.pieceIndex)
    (hhash : tor.info.pieces[s.pieceIndex]? = some pieceHash)
    (hhad : s.hadPiece = tr_cpPieceIsComplete s.completion s.pieceIndex)
    (hbits : ∀ i h bs, tor.info.pieces[i]? = some h → s.hashed[i]? = some bs →
      (tr_cpPieceIsComplete s.completion i = true ↔ sha1 bs = h)) :
    ∀ i h bs, tor.info.pieces[i]? = some h →
      (finishPiece sha1 pieceHash s).hashed[i]? = some bs →
      (tr_cpPieceIsComplete (finishPiece sha1 pieceHash s).completion i = true ↔
        sha1 bs = h) := by
  intro i h bs hi hbs
  have hhashed : (finishPiece sha1 pieceHash s).hashed = s.hashed ++ [s.sha] := rfl
  rw [hhashed] at hbs
  have hcompl : (finishPiece sha1 pieceHash s).completion =
      if (decide (sha1 s.sha = pieceHash) || s.hadPiece) = true then
        tr_torrentSetHasPiece s.completion s.pieceIndex (decide (sha1 s.sha = pieceHash))
      else s.completion := rfl
  rw [hcompl]
  rcases Nat.lt_trichotomy i s.pieceIndex with hlt | heq | hgt
  · rw [List.getElem?_append_left (by omega)] at hbs
    have hold := hbits i h bs hi hbs
    split
    · rw [isComplete_setHasPiece, if_neg (by omega)]
      exact hold
    · exact hold
  · subst heq
    rw [List.getElem?_append_right (by omega)] at hbs
    have hzero : s.pieceIndex - s.hashed.length = 0 := by omega
    rw [hzero] at hbs
    simp only [List.getElem?_cons_zero, Option.some.injEq] at hbs
    subst hbs
    have hh : pieceHash = h := Option.some.inj (hhash.symm.trans hi)
    subst hh
    split
    · rw [isComplete_setHasPiece, if_pos rfl]
      simp
    · rename_i hno
      simp only [Bool.or_eq_true, decide_eq_true_eq, not_or, Bool.not_eq_true] at hno
      rw [← hhad, hno.2]
      simp [hno.1]
  · rw [List.getElem?_eq_none (by simp; omega)] at hbs
    exact absurd hbs (by simp)

/-- The bytes that `tr_pread` delivers are at most as many as were asked
for. -/
theorem tr_pread_length (disk : VerifyDisk) (fd count offset : Nat) :
    (tr_pread disk fd count offset).length ≤ count := by
  unfold tr_pread
  cases disk.pread fd count offset with
  | none => simp
  | some bytes => simp [List.length_take]

/-- The bytes read in one pass are at most as many as were wanted. -/
theorem bytesRead_length (disk : VerifyDisk) (tor : tr_torrent) (file : tr_file)
    (s : VerifyState) :
    (bytesRead disk tor file s).length ≤ bytesWanted tor file s := by
  unfold bytesRead
  cases fdAfterOpen disk s with
  | none => simp
  | some fd => exact tr_pread_length disk fd _ _

/-- The numbers of one pass in a well-formed torrent: what is left in the
piece and in the file, and the bytes the pass moves on by, which are at most
what is left in either and are none only at the end of a file. -/
theorem verifyPass_numbers (sha1 : List Nat → List Nat) (disk : VerifyDisk) (tor : tr_torrent)
    (s : VerifyState) (file : tr_file) (hwf : VerifyWellFormed tor)
    (hinv : VerifyInvariant sha1 tor s) (hpi : s.pieceIndex < tor.info.pieces.length)
    (hfile : tor.info.files[s.fileIndex]? = some file) :
    leftInPiece tor s = tr_torPieceCountBytes tor s.pieceIndex - s.piecePos ∧
    leftInFile file s = file.length - s.filePos ∧
    bytesThisPass disk tor file s ≤ tr_torPieceCountBytes tor s.pieceIndex - s.piecePos ∧
    bytesThisPass disk tor file s ≤ file.length - s.filePos ∧
    (bytesThisPass disk tor file s = 0 → file.length - s.filePos = 0) ∧
    (bytesRead disk tor file s).length ≤ bytesThisPass disk tor file s := by
  obtain ⟨hsz0, hsz⟩ := pieceBytes_range tor hwf s.pieceIndex
  have hpp := hinv.piecePos_lt hpi
  have hfp := hinv.filePos_le file hfile
  have hflen : file.length < 2 ^ 63 := by
    obtain ⟨_, _, _, _, hall, _⟩ := hwf
    exact hall file (List.mem_iff_getElem?.mpr ⟨s.fileIndex, hfile⟩)
  have hlp : leftInPiece tor s = tr_torPieceCountBytes tor s.pieceIndex - s.piecePos :=
    subU32_of_le _ _ hsz (by omega)
  have hlf : leftInFile file s = file.length - s.filePos :=
    subU64_of_le _ _ (by norm_num at hflen ⊢; omega) hfp
  have hbuf : buflen = 131072 := rfl
  have hw : bytesWanted tor file s =
      min (min (file.length - s.filePos)
        (tr_torPieceCountBytes tor s.pieceIndex - s.piecePos)) 131072 := by
    unfold bytesWanted
    rw [hlp, hlf, hbuf]
    have h1 : min (file.length - s.filePos)
        (tr_torPieceCountBytes tor s.pieceIndex - s.piecePos) < 2 ^ 32 := by
      have := Nat.min_le_right (file.length - s.filePos)
        (tr_torPieceCountBytes tor s.pieceIndex - s.piecePos)
      omega
    rw [u32_of_lt _ h1]
    apply u32_of_lt
    have := Nat.min_le_right (min (file.length - s.filePos)
      (tr_torPieceCountBytes tor s.pieceIndex - s.piecePos)) 131072
    norm_num
  have hr := bytesRead_length disk tor file s
  have hwle1 : bytesWanted tor file s ≤ tr_torPieceCountBytes tor s.pieceIndex - s.piecePos := by
    rw [hw]; omega
  have hwle2 : bytesWanted tor file s ≤ file.length - s.filePos := by
    rw [hw]; omega
  have hw0 : bytesWanted tor file s = 0 → file.length - s.filePos = 0 := by
    rw [hw]; omega
  have hn : bytesThisPass disk tor file s =
      if (bytesRead disk tor file s).length > 0 then (bytesRead disk tor file s).length
      else bytesWanted tor file s := by
    unfold bytesThisPass
    split
    · apply u32_of_lt
      norm_num at hsz ⊢
      omega
    · rfl
  refine ⟨hlp, hlf, ?_, ?_, ?_, ?_⟩
  · rw [hn]; split <;> omega
  · rw [hn]; split <;> omega
  · rw [hn]; split
    · omega
    · exact hw0
  · rw [hn]; split <;> omega

/-- While pieces remain, the position in the files of a well-formed torrent
is inside a file. -/
theorem verify_file_in_range (sha1 : List Nat → List Nat) (tor : tr_torrent) (s : VerifyState)
    (hwf : VerifyWellFormed tor) (hinv : VerifyInvariant sha1 tor s)
    (hpi : s.pieceIndex < tor.info.pieces.length) :
    s.fileIndex < tor.info.files.length := by
  by_contra hnot
  have hfi : s.fileIndex = tor.info.files.length := by
    have := hinv.fileIndex_le
    omega
  have h1 := hinv.same_byte
  rw [hfi, fileStart_all] at h1
  have h2 := hinv.piecePos_lt hpi
  have h3 := pieceStart_succ tor s.pieceIndex
  have h4 := pieceStart_mono tor (s.pieceIndex + 1) tor.info.pieces.length (by omega)
  rw [pieceStart_all tor hwf] at h4
  omega

/-- One pass of the loop on a well-formed torrent, while pieces remain: the
pass stays inside the arrays, keeps the invariant, and finishes a piece or a
file or moves on by at least one byte. -/
theorem verifyPass_step (sha1 : List Nat → List Nat) (disk : VerifyDisk) (tor : tr_torrent)
    (s : VerifyState) (hwf : VerifyWellFormed tor) (hinv : VerifyInvariant sha1 tor s)
    (hpi : s.pieceIndex < tor.info.pieces.length) :
    ∃ s1, verifyPass sha1 disk tor s = some s1 ∧ VerifyInvariant sha1 tor s1 ∧
      fileStart tor s.fileIndex + s.filePos + s.fileIndex + s.pieceIndex + 1 ≤
        fileStart tor s1.fileIndex + s1.filePos + s1.fileIndex + s1.pieceIndex := by
  have hfi := verify_file_in_range sha1 tor s hwf hinv hpi
  obtain ⟨file, hfile⟩ : ∃ file, tor.info.files[s.fileIndex]? = some file :=
    ⟨_, List.getElem?_eq_getElem hfi⟩
  obtain ⟨pieceHash, hpiece⟩ : ∃ h, tor.info.pieces[s.pieceIndex]? = some h :=
    ⟨_, List.getElem?_eq_getElem hpi⟩
  obtain ⟨hlp, hlf, hn1, hn2, hn0, hrd⟩ :=
    verifyPass_numbers sha1 disk tor s file hwf hinv hpi hfile
  obtain ⟨hsz0, hsz⟩ := pieceBytes_range tor hwf s.pieceIndex
  have hpp := hinv.piecePos_lt hpi
  have hfp := hinv.filePos_le file hfile
  have hflen : file.length < 2 ^ 63 := by
    obtain ⟨_, _, _, _, hall, _⟩ := hwf
    exact hall file (List.mem_iff_getElem?.mpr ⟨s.fileIndex, hfile⟩)
  have hsame := hinv.same_byte
  have hwithin := hinv.within
  have hfs := fileStart_succ tor s.fileIndex file hfile
  have hps := pieceStart_succ tor s.pieceIndex
  have hft := fileStart_le_total tor (s.fileIndex + 1)
  have hhl := hinv.hashed_length
  have hsl := hinv.sha_length
  generalize hn : bytesThisPass disk tor file s = n at hn1 hn2 hn0 hrd
  have hsubP : subU32 (leftInPiece tor s) n = tr_torPieceCountBytes tor s.pieceIndex -
      s.piecePos - n := by
    rw [hlp]; exact subU32_of_le _ _ (by omega) hn1
  have hsubF : subU64 (leftInFile file s) n = file.length - s.filePos - n := by
    rw [hlf]; exact subU64_of_le _ _ (by norm_num at hflen ⊢; omega) hn2
  have hpos : u32 (s.piecePos + n) = s.piecePos + n := u32_of_lt _ (by omega)
  -- the state after the read, before the blocks that finish a piece or a file
  have hhad : (if s.piecePos = 0 then tr_cpPieceIsComplete s.completion s.pieceIndex
      else s.hadPiece) = tr_cpPieceIsComplete s.completion s.pieceIndex := by
    split
    · rfl
    · rename_i hne
      exact hinv.hadPiece_eq hne
  unfold verifyPass
  simp only [hfile, hpiece, hn, hsubP, hsubF, hpos, hhad]
  refine ⟨_, rfl, ?_, ?_⟩
  · by_cases hP : tr_torPieceCountBytes tor s.pieceIndex - s.piecePos - n = 0
    · have hbits := finishPiece_bits sha1 tor
        { s with
          hadPiece := tr_cpPieceIsComplete s.completion s.pieceIndex
          fd := fdAfterOpen disk s
          prevFileIndex :=
            if s.filePos = 0 ∧ s.fd = none ∧ s.fileIndex ≠ s.prevFileIndex then s.fileIndex
            else s.prevFileIndex
          sha := s.sha ++ bytesRead disk tor file s
          piecePos := s.piecePos + n
          filePos := s.filePos + n } pieceHash hhl hpiece rfl hinv.bits
      have hnext := pieceBytes_range tor hwf (s.pieceIndex + 1)
      have hbound : ∀ i bs, (s.hashed ++ [s.sha ++ bytesRead disk tor file s])[i]? = some bs →
          bs.length ≤ tr_torPieceCountBytes tor i := by
        intro i bs hbs
        rcases Nat.lt_or_ge i s.hashed.length with hlt | hge
        · rw [List.getElem?_append_left hlt] at hbs
          exact hinv.hashed_bound i bs hbs
        · rcases Nat.eq_or_lt_of_le hge with heq | hgt
          · rw [List.getElem?_append_right hge, ← heq] at hbs
            simp only [Nat.sub_self, List.getElem?_cons_zero, Option.some.injEq] at hbs
            subst hbs
            rw [← heq, hhl, List.length_append]
            omega
          · rw [List.getElem?_eq_none (by simp; omega)] at hbs
            exact absurd hbs (by simp)
      by_cases hF : file.length - s.filePos - n = 0
      · simp only [hP, hF, if_true]
        exact
          { pieceIndex_le := by show s.pieceIndex + 1 ≤ _; omega
            fileIndex_le := by show s.fileIndex + 1 ≤ _; omega
            same_byte := by
              show fileStart tor (s.fileIndex + 1) + 0 = pieceStart tor (s.pieceIndex + 1) + 0
              omega
            piecePos_lt := fun _ => hnext.1
            filePos_le := fun _ _ => Nat.zero_le _
            within := by show fileStart tor (s.fileIndex + 1) + 0 ≤ _; omega
            hadPiece_eq := fun h => absurd rfl h
            hashed_length := by
              show (s.hashed ++ [s.sha ++ bytesRead disk tor file s]).length = s.pieceIndex + 1
              simp [hhl]
            sha_length := Nat.zero_le _
            hashed_bound := hbound
            bits := hbits }
      · simp only [hP, hF, if_true, if_false]
        exact
          { pieceIndex_le := by show s.pieceIndex + 1 ≤ _; omega
            fileIndex_le := hinv.fileIndex_le
            same_byte := by
              show fileStart tor s.fileIndex + (s.filePos + n) =
                pieceStart tor (s.pieceIndex + 1) + 0
              omega
            piecePos_lt := fun _ => hnext.1
            filePos_le := by
              intro f hf
              have : f = file := Option.some.inj (hf.symm.trans hfile)
              subst this
              show s.filePos + n ≤ f.length
              omega
            within := by show fileStart tor s.fileIndex + (s.filePos + n) ≤ _; omega
            hadPiece_eq := fun h => absurd rfl h
            hashed_length := by
              show (s.hashed ++ [s.sha ++ bytesRead disk tor file s]).length = s.pieceIndex + 1
              simp [hhl]
            sha_length := Nat.zero_le _
            hashed_bound := hbound
            bits := hbits }
    · by_cases hF : file.length - s.filePos - n = 0
      · simp only [hP, hF, if_true, if_false]
        exact
          { pieceIndex_le := hinv.pieceIndex_le
            fileIndex_le := by show s.fileIndex + 1 ≤ _; omega
            same_byte := by
              show fileStart tor (s.fileIndex + 1) + 0 =
                pieceStart tor s.pieceIndex + (s.piecePos + n)
              omega
            piecePos_lt := by
              intro _
              show s.piecePos + n < tr_torPieceCountBytes tor s.pieceIndex
              omega
            filePos_le := fun _ _ => Nat.zero_le _
            within := by show fileStart tor (s.fileIndex + 1) + 0 ≤ _; omega
            hadPiece_eq := fun _ => rfl
            hashed_length := hhl
            sha_length := by
              show (s.sha ++ bytesRead disk tor file s).length ≤ s.piecePos + n
              rw [List.length_append]
              omega
            hashed_bound := hinv.hashed_bound
            bits := hinv.bits }
      · simp only [hP, hF, if_false]
        exact
          { pieceIndex_le := hinv.pieceIndex_le
            fileIndex_le := hinv.fileIndex_le
            same_byte := by
              show fileStart tor s.fileIndex + (s.filePos + n) =
                pieceStart tor s.pieceIndex + (s.piecePos + n)
              omega
            piecePos_lt := by
              intro _
              show s.piecePos + n < tr_torPieceCountBytes tor s.pieceIndex
              omega
            filePos_le := by
              intro f hf
              have : f = file := Option.some.inj (hf.symm.trans hfile)
              subst this
              show s.filePos + n ≤ f.length
              omega
            within := by show fileStart tor s.fileIndex + (s.filePos + n) ≤ _; omega
            hadPiece_eq := fun _ => rfl
            hashed_length := hhl
            sha_length := by
              show (s.sha ++ bytesRead disk tor file s).length ≤ s.piecePos + n
              rw [List.length_append]
              omega
            hashed_bound := hinv.hashed_bound
            bits := hinv.bits }
  · by_cases hP : tr_torPieceCountBytes tor s.pieceIndex - s.piecePos - n = 0
    · by_cases hF : file.length - s.filePos - n = 0
      · simp only [hP, hF, if_true]
        show _ ≤ fileStart tor (s.fileIndex + 1) + 0 + (s.fileIndex + 1) + (s.pieceIndex + 1)
        omega
      · simp only [hP, hF, if_true, if_false]
        show _ ≤ fileStart tor s.fileIndex + (s.filePos + n) + s.fileIndex + (s.pieceIndex + 1)
        omega
    · by_cases hF : file.length - s.filePos - n = 0
      · simp only [hP, hF, if_true, if_false]
        show _ ≤ fileStart tor (s.fileIndex + 1) + 0 + (s.fileIndex + 1) + s.pieceIndex
        omega
      · simp only [hP, hF, if_false]
        show _ ≤ fileStart tor s.fileIndex + (s.filePos + n) + s.fileIndex + s.pieceIndex
        have : n ≠ 0 := fun h0 => hF (by have := hn0 h0; omega)
        omega

/-- One test of the condition of the loop. -/
theorem verifyLoop_succ (sha1 : List Nat → List Nat) (disk : VerifyDisk)
    (stopFlag : Nat → Bool) (tor : tr_torrent) (fuel k : Nat) (s : VerifyState) :
    verifyLoop sha1 disk stopFlag tor (fuel + 1) k s =
      if stopFlag k = false ∧ s.pieceIndex < tor.info.pieces.length then
        match verifyPass sha1 disk tor s with
        | some s1 => verifyLoop sha1 disk stopFlag tor fuel (k + 1) s1
        | none => Outcome.fault
      else Outcome.returned s := rfl

/-- With the stop flag never set, the loop over a well-formed torrent ends
within the passes that the remaining bytes, files and pieces allow, with
every piece finished and the invariant in force. -/
theorem verifyLoop_returns (sha1 : List Nat → List Nat) (disk : VerifyDisk) (tor : tr_torrent)
    (hwf : VerifyWellFormed tor) :
    ∀ (fuel k : Nat) (s : VerifyState), VerifyInvariant sha1 tor s →
      totalLength tor.info.files + tor.info.files.length + tor.info.pieces.length <
        fuel + (fileStart tor s.fileIndex + s.filePos + s.fileIndex + s.pieceIndex) →
      ∃ s1, verifyLoop sha1 disk (fun _ => false) tor fuel k s = Outcome.returned s1 ∧
        VerifyInvariant sha1 tor s1 ∧ s1.pieceIndex = tor.info.pieces.length := by
  intro fuel
  induction fuel with
  | zero =>
    intro k s hinv hfuel
    have h1 := hinv.within
    have h2 := hinv.fileIndex_le
    have h3 := hinv.pieceIndex_le
    omega
  | succ fuel ih =>
    intro k s hinv hfuel
    rw [verifyLoop_succ]
    by_cases hpi : s.pieceIndex < tor.info.pieces.length
    · obtain ⟨s1, hpass, hinv1, hmove⟩ := verifyPass_step sha1 disk tor s hwf hinv hpi
      rw [if_pos ⟨rfl, hpi⟩, hpass]
      exact ih (k + 1) s1 hinv1 (by omega)
    · rw [if_neg (fun h => hpi h.2)]
      have := hinv.pieceIndex_le
      exact ⟨s, rfl, hinv, by omega⟩

/-- The invariant holds when `verifyTorrent` enters its loop. -/
theorem verify_initial_invariant (sha1 : List Nat → List Nat) (tor : tr_torrent)
    (hwf : VerifyWellFormed tor) :
    VerifyInvariant sha1 tor { completion := tor.completion } :=
  { pieceIndex_le := Nat.zero_le _
    fileIndex_le := Nat.zero_le _
    same_byte := by simp [fileStart, pieceStart, totalLength]
    piecePos_lt := fun _ => (pieceBytes_range tor hwf 0).1
    filePos_le := fun _ _ => Nat.zero_le _
    within := by simp [fileStart, totalLength]
    hadPiece_eq := fun h => absurd rfl h
    hashed_length := rfl
    sha_length := Nat.le_refl _
    hashed_bound := fun i bs h => absurd h (by simp)
    bits := fun i h bs _ hbs => absurd hbs (by simp) }

/-- What a run of `verifyTorrent` to the end does, for any state of the disk:
it returns, every piece has been finished, no more bytes were hashed for a
piece than it has, and each piece has its bit set exactly when the SHA-1 of
the bytes hashed for it is its hash. -/
theorem verifyTorrent_spec (sha1 : List Nat → List Nat) (disk : VerifyDisk) (tor : tr_torrent)
    (hwf : VerifyWellFormed tor) :
    ∃ changed completion hashed,
      verifyTorrent sha1 disk (fun _ => false) tor =
          Outcome.returned (changed, { tor with completion := completion }, hashed) ∧
        hashed.length = tor.info.pieces.length ∧
        (∀ i bs, hashed[i]? = some bs → bs.length ≤ tr_torPieceCountBytes tor i) ∧
        ∀ i h bs, tor.info.pieces[i]? = some h → hashed[i]? = some bs →
          (tr_cpPieceIsComplete completion i = true ↔ sha1 bs = h) := by
  obtain ⟨s1, hrun, hinv, hend⟩ := verifyLoop_returns sha1 disk tor hwf
    (totalLength tor.info.files + tor.info.files.length + tor.info.pieces.length + 1) 0
    { completion := tor.completion } (verify_initial_invariant sha1 tor hwf) (by omega)
  refine ⟨s1.changed, s1.completion, s1.hashed, ?_, ?_, hinv.hashed_bound, hinv.bits⟩
  · unfold verifyTorrent
    rw [hrun]
  · rw [hinv.hashed_length, hend]

/-- C17: after `verifyTorrent` has run to the end with the stop flag never
set, on a torrent whose metainfo is well formed and for any state of the
files on disk, every piece `i` has an entry of bytes read for it, and its
completion bit is set if and only if the SHA-1 of those bytes equals the
hash of piece `i` in the metainfo.  The run changes nothing else in the
torrent. -/
theorem C17_bit_set_iff_piece_hash_matches (sha1 : List Nat → List Nat) (disk : VerifyDisk)
    (tor : tr_torrent) (hwf : VerifyWellFormed tor) :
    ∃ changed completion hashed,
      verifyTorrent sha1 disk (fun _ => false) tor =
          Outcome.returned (changed, { tor with completion := completion }, hashed) ∧
        hashed.length = tor.info.pieces.length ∧
        ∀ i, i < tor.info.pieces.length →
          ∃ h bs, tor.info.pieces[i]? = some h ∧ hashed[i]? = some bs ∧
            (tr_cpPieceIsComplete completion i = true ↔ sha1 bs = h) := by
  obtain ⟨changed, completion, hashed, hrun, hlen, _, hbits⟩ :=
    verifyTorrent_spec sha1 disk tor hwf
  refine ⟨changed, completion, hashed, hrun, hlen, ?_⟩
  intro i hi
  have h1 : tor.info.pieces[i]? = some tor.info.pieces[i] := List.getElem?_eq_getElem hi
  have h2 : hashed[i]? = some (hashed[i]) := List.getElem?_eq_getElem (by omega)
  exact ⟨_, _, h1, h2, hbits i _ _ h1 h2⟩

/-- Witness for C17: two files of 3 and 2 bytes, pieces of 2, 2 and 1 bytes.
The stand-in for SHA-1 returns its input.  Pieces 0 and 1 match and get
their bits set; piece 2, complete before, does not match the byte read and
has its bit cleared. -/
theorem C17_bit_set_iff_piece_hash_matches_witness :
    ∃ changed completion hashed,
      verifyTorrent (fun bs => bs)
          ⟨fun _ => true,
            fun i _ o => some ((([[1, 2, 3], [4, 5]] : List (List Nat)).getD i []).drop o)⟩
          (fun _ => false)
          { info := { files := [⟨3⟩, ⟨2⟩], pieces := [[1, 2], [3, 4], [9]], pieceSize := 2 },
            lastPieceSize := 1, completion := [false, false, true] } =
        Outcome.returned (changed,
          { info := { files := [⟨3⟩, ⟨2⟩], pieces := [[1, 2], [3, 4], [9]], pieceSize := 2 },
            lastPieceSize := 1, completion := completion }, hashed) ∧
        hashed.length = 3 ∧
        ∀ i, i < 3 →
          ∃ h bs, ([[1, 2], [3, 4], [9]] : List (List Nat))[i]? = some h ∧
            hashed[i]? = some bs ∧
            (tr_cpPieceIsComplete completion i = true ↔ (fun bs => bs) bs = h) :=
  C17_bit_set_iff_piece_hash_matches (fun bs => bs)
    ⟨fun _ => true,
      fun i _ o => some ((([[1, 2, 3], [4, 5]] : List (List Nat)).getD i []).drop o)⟩
    { info := { files := [⟨3⟩, ⟨2⟩], pieces := [[1, 2], [3, 4], [9]], pieceSize := 2 },
      lastPieceSize := 1, completion := [false, false, true] } (by decide)

/-- The run of the witness of C17, evaluated. -/
theorem verifyTorrent_example :
    verifyTorrent (fun bs => bs)
        ⟨fun _ => true,
          fun i _ o => some ((([[1, 2, 3], [4, 5]] : List (List Nat)).getD i []).drop o)⟩
        (fun _ => false)
        { info := { files := [⟨3⟩, ⟨2⟩], pieces := [[1, 2], [3, 4], [9]], pieceSize := 2 },
          lastPieceSize := 1, completion := [false, false, true] } =
      Outcome.returned (true,
        { info := { files := [⟨3⟩, ⟨2⟩], pieces := [[1, 2], [3, 4], [9]], pieceSize := 2 },
          lastPieceSize := 1, completion := [true, true, false] },
        [[1, 2], [3, 4], [5]]) := by
  decide

/-- C18 as stated fails: the one file of the torrent cannot be opened, so no
byte of its one piece is read; the hash of the piece in the metainfo is the
SHA-1 of no bytes at all, which is what `SHA1_Final` yields, and the piece
ends the run marked complete. -/
theorem C18_unread_piece_marked_complete_counterexample :
    verifyTorrent (fun bs => List.replicate 20 bs.length) ⟨fun _ => false, fun _ _ _ => none⟩
        (fun _ => false)
        { info := { files := [⟨1⟩], pieces := [List.replicate 20 0], pieceSize := 1 },
          lastPieceSize := 1, completion := [false] } =
      Outcome.returned (true,
        { info := { files := [⟨1⟩], pieces := [List.replicate 20 0], pieceSize := 1 },
          lastPieceSize := 1, completion := [true] },
        [[]]) ∧
    tr_cpPieceIsComplete [true] 0 = true := by
  decide

/-- The run of the witness of C18, evaluated. -/
theorem verifyTorrent_unreadable_example :
    verifyTorrent (fun bs => bs)
        ⟨fun i => decide (i = 1),
          fun i _ o => some ((([[1, 2, 3], [4, 5]] : List (List Nat)).getD i []).drop o)⟩
        (fun _ => false)
        { info := { files := [⟨3⟩, ⟨2⟩], pieces := [[1, 2], [3, 4], [5]], pieceSize := 2 },
          lastPieceSize := 1, completion := [true, true, false] } =
      Outcome.returned (true,
        { info := { files := [⟨3⟩, ⟨2⟩], pieces := [[1, 2], [3, 4], [5]], pieceSize := 2 },
          lastPieceSize := 1, completion := [false, false, true] },
        [[], [4], [5]]) := by
  decide

/-! ## tr_realMakeMetaInfo and makeInfoDict -/

/-- Every builder has its own fields. -/
theorem sameButHashFields_refl (b : tr_metainfo_builder) : SameButHashFields b b :=
  ⟨rfl, rfl, rfl, rfl, rfl, rfl, rfl, rfl, rfl, rfl, rfl, rfl, rfl⟩

/-- The fields that `getHashInfo` leaves alone stay over two steps. -/
theorem sameButHashFields_trans (a b c : tr_metainfo_builder)
    (h1 : SameButHashFields a b) (h2 : SameButHashFields b c) : SameButHashFields a c := by
  obtain ⟨a1, a2, a3, a4, a5, a6, a7, a8, a9, a10, a11, a12, a13⟩ := h1
  obtain ⟨b1, b2, b3, b4, b5, b6, b7, b8, b9, b10, b11, b12, b13⟩ := h2
  exact ⟨b1.trans a1, b2.trans a2, b3.trans a3, b4.trans a4, b5.trans a5, b6.trans a6,
    b7.trans a7, b8.trans a8, b9.trans a9, b10.trans a10, b11.trans a11, b12.trans a12,
    b13.trans a13⟩

/-- The number of pieces of `t` bytes is one more than that of the bytes
behind the first piece. -/
theorem ceil_step (t p : Nat) (ht : 0 < t) (hp : 0 < p) :
    (t + p - 1) / p = 1 + (t - min p t + p - 1) / p := by
  rcases Nat.lt_or_ge p t with h | h
  · have hmin : min p t = p := Nat.min_eq_left (by omega)
    rw [hmin]
    have : t + p - 1 = (t - p + p - 1) + p := by omega
    rw [this, Nat.add_div_right _ hp]
    omega
  · have hmin : min p t = t := Nat.min_eq_right h
    rw [hmin]
    have h1 : (t + p - 1) / p = 1 := by
      apply Nat.div_eq_of_lt_le <;> omega
    have h2 : (t - t + p - 1) / p = 0 := by
      apply Nat.div_eq_of_lt
      omega
    rw [h1, h2]

/-- What the loop over the pieces leaves behind when it returns: the builder
differs from the one it started with only in the fields of `getHashInfo`; a
`return NULL` comes with the result `TR_MAKEMETA_IO_READ`; otherwise the
result is as before or `TR_MAKEMETA_CANCELLED`, the digests fit the buffer,
each digest written is a SHA-1, and without an abort every piece was
hashed. -/
theorem hashPieces_frame (ndebug : Bool) (sha1 : List Nat → List Nat)
    (disk : CString → Option (List Nat)) (errno : Int) (slots : Nat) :
    ∀ (fuel : Nat) (b : tr_metainfo_builder) (fileIndex off : Nat) (fd : Option (List Nat))
      (totalRemain : Nat) (walk : List (List Nat)) (exit : HashLoopExit),
      hashPieces ndebug sha1 disk errno slots fuel b fileIndex off fd totalRemain walk =
        Outcome.returned exit →
      (∀ b1, exit = HashLoopExit.returnedNull b1 →
        SameButHashFields b b1 ∧ b1.result = tr_metainfo_builder_err.TR_MAKEMETA_IO_READ) ∧
      (∀ b1 r walk1, exit = HashLoopExit.left b1 r walk1 →
        SameButHashFields b b1 ∧
        (b1.result = b.result ∨ b1.result = tr_metainfo_builder_err.TR_MAKEMETA_CANCELLED) ∧
        (walk.length ≤ slots → walk1.length ≤ slots) ∧
        (∀ s ∈ walk1, s ∈ walk ∨ ∃ buf, s = sha1 buf) ∧
        (b.abortFlag = false → 0 < b.pieceSize → b.pieceSize < 2 ^ 32 →
          r = 0 ∧ walk1.length = walk.length + (totalRemain + b.pieceSize - 1) / b.pieceSize)) := by
  intro fuel
  induction fuel with
  | zero =>
    intro b fileIndex off fd totalRemain walk exit h
    rw [hashPieces_zero] at h
    split at h
    · rename_i h0
      have he := (Outcome.returned.inj h).symm
      subst he
      refine ⟨fun b1 hb => (by cases hb), ?_⟩
      intro b1 r walk1 hb
      cases hb
      refine ⟨sameButHashFields_refl _, Or.inl rfl, fun hw => hw, fun s hs => Or.inl hs, ?_⟩
      intro _ hp _
      subst h0
      refine ⟨rfl, ?_⟩
      have : (0 + b.pieceSize - 1) / b.pieceSize = 0 := Nat.div_eq_of_lt (by omega)
      omega
    · exact absurd h (by simp)
  | succ fuel ih =>
    intro b fileIndex off fd totalRemain walk exit h
    rw [hashPieces_succ] at h
    split at h
    · rename_i h0
      have he := (Outcome.returned.inj h).symm
      subst he
      refine ⟨fun b1 hb => (by cases hb), ?_⟩
      intro b1 r walk1 hb
      cases hb
      refine ⟨sameButHashFields_refl _, Or.inl rfl, fun hw => hw, fun s hs => Or.inl hs, ?_⟩
      intro _ hp _
      subst h0
      refine ⟨rfl, ?_⟩
      have : (0 + b.pieceSize - 1) / b.pieceSize = 0 := Nat.div_eq_of_lt (by omega)
      omega
    · rename_i hrem
      split at h
      · exact absurd h (by simp)
      · split at h
        · exact absurd h (by simp)
        · exact absurd h (by simp)
        · exact absurd h (by simp)
        · have he := (Outcome.returned.inj h).symm
          subst he
          refine ⟨?_, fun b1 r walk1 hb => by cases hb⟩
          intro b1 hb
          cases hb
          exact ⟨⟨rfl, rfl, rfl, rfl, rfl, rfl, rfl, rfl, rfl, rfl, rfl, rfl, rfl⟩, rfl⟩
        · split at h
          · exact absurd h (by simp)
          · split at h
            · exact absurd h (by simp)
            · rename_i hslots
              split at h
              · rename_i habort
                have he := (Outcome.returned.inj h).symm
                subst he
                refine ⟨fun b1 hb => (by cases hb), ?_⟩
                intro b1 r walk1 hb
                cases hb
                refine ⟨⟨rfl, rfl, rfl, rfl, rfl, rfl, rfl, rfl, rfl, rfl, rfl, rfl, rfl⟩,
                  Or.inr rfl, ?_, ?_, ?_⟩
                · intro _
                  rw [List.length_append]
                  simp only [List.length_singleton]
                  omega
                · intro s hs
                  rcases List.mem_append.mp hs with hs | hs
                  · exact Or.inl hs
                  · exact Or.inr ⟨_, List.mem_singleton.mp hs⟩
                · intro hna
                  rw [hna] at habort
                  exact absurd habort (by simp)
              · obtain ⟨ihnull, ihleft⟩ := ih _ _ _ _ _ _ exit h
                constructor
                · intro b1 hb
                  obtain ⟨hf, hr⟩ := ihnull b1 hb
                  exact ⟨sameButHashFields_trans b _ b1
                    ⟨rfl, rfl, rfl, rfl, rfl, rfl, rfl, rfl, rfl, rfl, rfl, rfl, rfl⟩ hf, hr⟩
                · intro b1 r walk1 hb
                  obtain ⟨hf, hr, hw, hs, hc⟩ := ihleft b1 r walk1 hb
                  refine ⟨sameButHashFields_trans b _ b1
                    ⟨rfl, rfl, rfl, rfl, rfl, rfl, rfl, rfl, rfl, rfl, rfl, rfl, rfl⟩ hf, hr, ?_, ?_, ?_⟩
                  · intro _
                    apply hw
                    rw [List.length_append]
                    simp only [List.length_singleton]
                    omega
                  · intro s hs1
                    rcases hs s hs1 with hs2 | hs2
                    · rcases List.mem_append.mp hs2 with hs3 | hs3
                      · exact Or.inl hs3
                      · exact Or.inr ⟨_, List.mem_singleton.mp hs3⟩
                    · exact Or.inr hs2
                  · intro hna hp0 hp1
                    obtain ⟨hr0, hlen⟩ := hc hna hp0 hp1
                    refine ⟨hr0, ?_⟩
                    rw [hlen, List.length_append]
                    simp only [List.length_singleton]
                    have hmin : u32 (min b.pieceSize totalRemain) = min b.pieceSize totalRemain := by
                      unfold u32
                      apply Nat.mod_eq_of_lt
                      have := Nat.min_le_left b.pieceSize totalRemain
                      omega
                    rw [hmin]
                    have := ceil_step totalRemain b.pieceSize (by omega) hp0
                    show walk.length + 1 + (totalRemain - min b.pieceSize totalRemain +
                      b.pieceSize - 1) / b.pieceSize = _
                    omega

/-- What `getHashInfo` leaves behind when it returns: the builder differs from
the one given only in the fields of `getHashInfo`; the result is as before,
or `TR_MAKEMETA_IO_READ`, or `TR_MAKEMETA_CANCELLED`; `NULL` comes with
`TR_MAKEMETA_IO_READ`; a buffer has as many slots as
`SHA_DIGEST_LENGTH * pieceCount` bytes hold, each slot is zero-filled or a
SHA-1, and without an abort the pieces of the input fit the buffer. -/
theorem getHashInfo_frame (ndebug : Bool) (sha1 : List Nat → List Nat)
    (disk : CString → Option (List Nat)) (errno : Int) (b : tr_metainfo_builder)
    (hi : HashInfo) (h : getHashInfo ndebug sha1 disk errno b = Outcome.returned hi) :
    SameButHashFields b hi.b ∧
    (hi.b.result = b.result ∨ hi.b.result = tr_metainfo_builder_err.TR_MAKEMETA_IO_READ ∨
      hi.b.result = tr_metainfo_builder_err.TR_MAKEMETA_CANCELLED) ∧
    (hi.ret = none → hi.b.result = tr_metainfo_builder_err.TR_MAKEMETA_IO_READ) ∧
    (∀ pch, hi.ret = some pch →
      pch.length = u32 (SHA_DIGEST_LENGTH * b.pieceCount) / SHA_DIGEST_LENGTH ∧
      (∀ s ∈ pch, s = List.replicate SHA_DIGEST_LENGTH 0 ∨ ∃ buf, s = sha1 buf) ∧
      (b.totalSize ≠ 0 → b.abortFlag = false → 0 < b.pieceSize → b.pieceSize < 2 ^ 32 →
        (b.totalSize + b.pieceSize - 1) / b.pieceSize ≤
          u32 (SHA_DIGEST_LENGTH * b.pieceCount) / SHA_DIGEST_LENGTH)) := by
  unfold getHashInfo at h
  simp only at h
  split at h
  · rename_i h0
    have he := (Outcome.returned.inj h).symm
    subst he
    refine ⟨sameButHashFields_refl _, Or.inl rfl, fun hn => absurd hn (by simp), ?_⟩
    intro pch hp
    have hp2 : pch = List.replicate (u32 (SHA_DIGEST_LENGTH * b.pieceCount) / SHA_DIGEST_LENGTH)
        (List.replicate SHA_DIGEST_LENGTH 0) := (Option.some.inj hp).symm
    subst hp2
    refine ⟨by simp, ?_, fun hne => absurd h0 hne⟩
    intro s hs
    exact Or.inl (List.eq_of_mem_replicate hs)
  · split at h
    · exact absurd h (by simp)
    · split at h
      · have he := (Outcome.returned.inj h).symm
        subst he
        exact ⟨⟨rfl, rfl, rfl, rfl, rfl, rfl, rfl, rfl, rfl, rfl, rfl, rfl, rfl⟩,
          Or.inr (Or.inl rfl), fun _ => rfl, fun pch hp => absurd hp (by simp)⟩
      · split at h
        · exact absurd h (by simp)
        · exact absurd h (by simp)
        · exact absurd h (by simp)
        · rename_i b1 hrun
          have he := (Outcome.returned.inj h).symm
          subst he
          obtain ⟨hnull, _⟩ := hashPieces_frame ndebug sha1 disk errno _ _ _ _ _ _ _ _ _ hrun
          obtain ⟨hf, hr⟩ := hnull b1 rfl
          exact ⟨sameButHashFields_trans b _ b1
              ⟨rfl, rfl, rfl, rfl, rfl, rfl, rfl, rfl, rfl, rfl, rfl, rfl, rfl⟩ hf,
            Or.inr (Or.inl hr), fun _ => hr, fun pch hp => absurd hp (by simp)⟩
        · rename_i b1 totalRemain walk hrun
          obtain ⟨_, hleft⟩ := hashPieces_frame ndebug sha1 disk errno _ _ _ _ _ _ _ _ _ hrun
          obtain ⟨hf, hr, hw, hs, hc⟩ := hleft b1 totalRemain walk rfl
          have hwl := hw (Nat.zero_le _)
          split at h
          · exact absurd h (by simp)
          · split at h
            · exact absurd h (by simp)
            · have he := (Outcome.returned.inj h).symm
              subst he
              refine ⟨sameButHashFields_trans b _ b1
                  ⟨rfl, rfl, rfl, rfl, rfl, rfl, rfl, rfl, rfl, rfl, rfl, rfl, rfl⟩ hf, ?_,
                fun hn => absurd hn (by simp), ?_⟩
              · rcases hr with hr | hr
                · exact Or.inl hr
                · exact Or.inr (Or.inr hr)
              · intro pch hp
                have hp2 := (Option.some.inj hp).symm
                subst hp2
                refine ⟨?_, ?_, ?_⟩
                · rw [List.length_append, List.length_replicate]
                  omega
                · intro s hmem
                  rcases List.mem_append.mp hmem with hmem | hmem
                  · rcases hs s hmem with h1 | h1
                    · exact absurd h1 (by simp)
                    · exact Or.inr h1
                  · exact Or.inl (List.eq_of_mem_replicate hmem)
                · intro _ hna hp0 hp1
                  obtain ⟨_, hlen⟩ := hc hna hp0 hp1
                  simp only [List.length_nil, Nat.zero_add] at hlen
                  rw [← hlen]
                  exact hwl

/-- Once a result is set, the loop over the trackers does nothing more. -/
theorem checkTrackers_done (b : tr_metainfo_builder) (l : List tr_tracker_info)
    (h : b.result ≠ tr_metainfo_builder_err.TR_MAKEMETA_OK) : checkTrackers b l = b := by
  cases l with
  | nil => rfl
  | cons t rest => simp [checkTrackers, h]

/-- The loop over the trackers stops at the first URL that is not valid and
records it. -/
theorem checkTrackers_first_invalid (l : List tr_tracker_info) :
    ∀ (b : tr_metainfo_builder) (url : CString),
      b.result = tr_metainfo_builder_err.TR_MAKEMETA_OK →
      firstInvalidTracker l = some url →
      checkTrackers b l =
        { b with
          errfile := tr_strlcpy b.errfile url b.errfileSize
          result := tr_metainfo_builder_err.TR_MAKEMETA_URL } := by
  induction l with
  | nil => intro b url _ h; simp [firstInvalidTracker] at h
  | cons t rest ih =>
    intro b url hok h
    unfold firstInvalidTracker at h
    unfold checkTrackers
    rw [if_neg (by rw [hok]; simp)]
    split at h
    · rename_i hbad
      have hu : t.announce = url := Option.some.inj h
      rw [if_pos hbad, hu]
      exact checkTrackers_done _ rest (by simp)
    · rename_i hgood
      rw [if_neg hgood]
      exact ih b url hok h

/-- Over valid URLs the loop over the trackers changes nothing. -/
theorem checkTrackers_all_valid (l : List tr_tracker_info) :
    ∀ (b : tr_metainfo_builder), firstInvalidTracker l = none → checkTrackers b l = b := by
  induction l with
  | nil => intro b _; rfl
  | cons t rest ih =>
    intro b h
    unfold firstInvalidTracker at h
    split at h
    · exact absurd h (by simp)
    · rename_i hgood
      unfold checkTrackers
      rw [if_neg hgood]
      split
      · rfl
      · exact ih b h

/-- What `makeInfoDict` returns: the entries for the files, the name and the
piece length, the pieces when `getHashInfo` returned a buffer, and the
private flag, with the builder as `getHashInfo` left it. -/
theorem makeInfoDict_returned (env : MakeMetaEnv) (b b3 : tr_metainfo_builder)
    (info : tr_variant) (h : makeInfoDict env b = Outcome.returned (info, b3)) :
    ∃ hi part1,
      getHashInfo env.ndebug env.sha1 env.disk env.errno b = Outcome.returned hi ∧
      b3 = hi.b ∧
      (if b.isSingleFile then
          b.files[0]?.map
            (fun f => [(tr_quark.TR_KEY_length, tr_variant.int (f.size : Int))])
        else
          some [(tr_quark.TR_KEY_files,
            tr_variant.list (b.files.map (fun f =>
              tr_variant.dict
                [(tr_quark.TR_KEY_length, (getFileInfo b.top f).1),
                 (tr_quark.TR_KEY_path, (getFileInfo b.top f).2)])))]) = some part1 ∧
      info = tr_variant.dict
        (part1 ++
          [(tr_quark.TR_KEY_name, tr_variant.str (env.basename b.top)),
           (tr_quark.TR_KEY_piece_length, tr_variant.int (b.pieceSize : Int))] ++
          (match hi.ret with
           | some pch =>
             [(tr_quark.TR_KEY_pieces,
               tr_variant.raw
                 (pch.flatten.take (u32 (SHA_DIGEST_LENGTH * hi.b.pieceCount))))]
           | none => []) ++
          [(tr_quark.TR_KEY_private, tr_variant.int (if hi.b.isPrivate then 1 else 0))]) := by
  unfold makeInfoDict at h
  simp only at h
  split at h
  · exact absurd h (by simp)
  · rename_i part1 hpart
    split at h
    · exact absurd h (by simp)
    · exact absurd h (by simp)
    · exact absurd h (by simp)
    · rename_i hi hget
      have he := Outcome.returned.inj h
      exact ⟨hi, part1, hget, (Prod.mk.inj he).2.symm, hpart, (Prod.mk.inj he).1.symm⟩

/-- With a tracker URL that is not valid, the run ends with the result
`TR_MAKEMETA_URL`, the URL copied to `errfile`, and no file written. -/
theorem realMakeMetaInfo_invalid_url (env : MakeMetaEnv) (b0 : tr_metainfo_builder)
    (url : CString)
    (hok : b0.result = tr_metainfo_builder_err.TR_MAKEMETA_OK)
    (habort : b0.abortFlag = false)
    (hfiles : b0.files.length ≠ 0) (htotal : b0.totalSize ≠ 0) (hps : b0.pieceSize ≠ 0)
    (hpc : b0.pieceCount ≠ 0)
    (hbad : firstInvalidTracker b0.trackers = some url) :
    tr_realMakeMetaInfo env b0 =
      Outcome.returned
        ({ b0 with
           errfile := tr_strlcpy b0.errfile url b0.errfileSize
           result := tr_metainfo_builder_err.TR_MAKEMETA_URL
           isDone := true }, none) := by
  have hcheck := checkTrackers_first_invalid b0.trackers b0 url hok hbad
  obtain ⟨first, others, htr⟩ : ∃ first others, b0.trackers = first :: others := by
    cases hl : b0.trackers with
    | nil => rw [hl] at hbad; simp [firstInvalidTracker] at hbad
    | cons f o => exact ⟨f, o, rfl⟩
  unfold tr_realMakeMetaInfo
  simp only [hcheck]
  rw [if_neg (by simp only [not_or]; exact ⟨hfiles, htotal, hps, hpc⟩)]
  simp only [htr, reduceCtorEq, if_false, false_and, habort]

/-- The result of a run is the one the loop over the trackers left, unless
it is `TR_MAKEMETA_IO_READ`, `TR_MAKEMETA_CANCELLED` or
`TR_MAKEMETA_IO_WRITE`. -/
theorem realMakeMetaInfo_result (env : MakeMetaEnv) (b0 bf : tr_metainfo_builder)
    (written : Option (tr_variant × CString))
    (hrun : tr_realMakeMetaInfo env b0 = Outcome.returned (bf, written)) :
    bf.result = (checkTrackers b0 b0.trackers).result ∨
    bf.result = tr_metainfo_builder_err.TR_MAKEMETA_IO_READ ∨
    bf.result = tr_metainfo_builder_err.TR_MAKEMETA_CANCELLED ∨
    bf.result = tr_metainfo_builder_err.TR_MAKEMETA_IO_WRITE := by
  unfold tr_realMakeMetaInfo at hrun
  simp only at hrun
  generalize hb2 : (if (checkTrackers b0 b0.trackers).files.length = 0 ∨
      (checkTrackers b0 b0.trackers).totalSize = 0 ∨
      (checkTrackers b0 b0.trackers).pieceSize = 0 ∨
      (checkTrackers b0 b0.trackers).pieceCount = 0 then
      ({ checkTrackers b0 b0.trackers with
        errfile := []
        my_errno := 2
        result := tr_metainfo_builder_err.TR_MAKEMETA_IO_READ
        isDone := true } : tr_metainfo_builder)
    else checkTrackers b0 b0.trackers) = b2 at hrun
  have h2 : b2.result = (checkTrackers b0 b0.trackers).result ∨
      b2.result = tr_metainfo_builder_err.TR_MAKEMETA_IO_READ := by
    rw [← hb2]
    split
    · exact Or.inr rfl
    · exact Or.inl rfl
  have hfin : ∀ (b : tr_metainfo_builder) (w : Option (tr_variant × CString)),
      Outcome.returned
        (({ b with
           result :=
             if b.abortFlag then tr_metainfo_builder_err.TR_MAKEMETA_CANCELLED else b.result
           isDone := true } : tr_metainfo_builder), w) = Outcome.returned (bf, written) →
      bf.result = b.result ∨ bf.result = tr_metainfo_builder_err.TR_MAKEMETA_CANCELLED := by
    intro b w h
    have he := (Prod.mk.inj (Outcome.returned.inj h)).1
    rw [← he]
    show (if b.abortFlag then tr_metainfo_builder_err.TR_MAKEMETA_CANCELLED else b.result) = _ ∨ _
    split
    · exact Or.inr rfl
    · exact Or.inl rfl
  split at hrun
  · exact absurd hrun (by simp)
  · split at hrun
    · split at hrun
      · exact absurd hrun (by simp)
      · exact absurd hrun (by simp)
      · exact absurd hrun (by simp)
      · rename_i info b3 hmk
        obtain ⟨hi, part1, hget, hb3, _, _⟩ := makeInfoDict_returned env b2 b3 info hmk
        obtain ⟨_, hres, _, _⟩ := getHashInfo_frame env.ndebug env.sha1 env.disk env.errno b2 hi hget
        rw [← hb3] at hres
        have h3 : b3.result = (checkTrackers b0 b0.trackers).result ∨
            b3.result = tr_metainfo_builder_err.TR_MAKEMETA_IO_READ ∨
            b3.result = tr_metainfo_builder_err.TR_MAKEMETA_CANCELLED := by
          rcases hres with h | h | h
          · rcases h2 with h4 | h4
            · exact Or.inl (h.trans h4)
            · exact Or.inr (Or.inl (h.trans h4))
          · exact Or.inr (Or.inl h)
          · exact Or.inr (Or.inr h)
        split at hrun
        · split at hrun
          · exact absurd hrun (by simp)
          · split at hrun
            · have he := (Prod.mk.inj (Outcome.returned.inj hrun)).1
              rw [← he]
              show (if b3.abortFlag = true then tr_metainfo_builder_err.TR_MAKEMETA_CANCELLED
                else tr_metainfo_builder_err.TR_MAKEMETA_IO_WRITE) = _ ∨ _
              split
              · exact Or.inr (Or.inr (Or.inl rfl))
              · exact Or.inr (Or.inr (Or.inr rfl))
            · rcases hfin _ _ hrun with h | h
              · rw [h]
                rcases h3 with h5 | h5 | h5
                · exact Or.inl h5
                · exact Or.inr (Or.inl h5)
                · exact Or.inr (Or.inr (Or.inl h5))
              · exact Or.inr (Or.inr (Or.inl h))
        · rcases hfin _ _ hrun with h | h
          · rw [h]
            rcases h3 with h5 | h5 | h5
            · exact Or.inl h5
            · exact Or.inr (Or.inl h5)
            · exact Or.inr (Or.inr (Or.inl h5))
          · exact Or.inr (Or.inr (Or.inl h))
    · rcases hfin _ _ hrun with h | h
      · rw [h]
        rcases h2 with h5 | h5
        · exact Or.inl h5
        · exact Or.inr (Or.inl h5)
      · exact Or.inr (Or.inr (Or.inl h))

/-- A URL that starts with a space is not a valid tracker URL. -/
theorem url_with_space_invalid (rest : CString) : tr_urlIsValidTracker (32 :: rest) = false := by
  have h : ¬ (32 : Int) ∈ rfc2396_valid_chars := by decide
  simp [tr_urlIsValidTracker, isValidURLChars, h]

/-- What `tr_strlcpy` leaves in a buffer that is one character short for the
string and its terminator: the string without its last character. -/
theorem tr_strlcpy_one_short (dst : CString) (n : Nat) :
    tr_strlcpy dst (32 :: List.replicate (n + 1) 120) (n + 2) = 32 :: List.replicate n 120 := by
  unfold tr_strlcpy
  rw [if_neg (by omega)]
  simp [List.take_replicate]

/-- What `tr_strlcpy` leaves in a buffer that has room for the string and its
terminator: the string. -/
theorem tr_strlcpy_fits (dst src : CString) (siz : Nat) (h : src.length < siz) :
    tr_strlcpy dst src siz = src := by
  unfold tr_strlcpy
  rw [if_neg (by omega)]
  exact List.take_of_length_le (by omega)

/-- C11, counterexample.  A tracker URL of 2048 characters that starts with a
space is not valid; the run ends with `TR_MAKEMETA_URL` and nothing written,
but `errfile`, an array of 2048 characters, holds only the first 2047
characters of the URL. -/
theorem C11_long_url_cut_in_errfile_counterexample :
    firstInvalidTracker [⟨0, 32 :: List.replicate 2047 120⟩] =
      some (32 :: List.replicate 2047 120) ∧
    exampleBuilder.files.length ≠ 0 ∧ exampleBuilder.totalSize ≠ 0 ∧
    exampleBuilder.pieceSize ≠ 0 ∧ exampleBuilder.pieceCount ≠ 0 ∧
    exampleBuilder.errfileSize = 2048 ∧
    ∃ bf, tr_realMakeMetaInfo exampleEnv
        (tr_makeMetaInfo exampleBuilder none [⟨0, 32 :: List.replicate 2047 120⟩] none false) =
        Outcome.returned (bf, none) ∧
      bf.result = tr_metainfo_builder_err.TR_MAKEMETA_URL ∧ bf.isDone = true ∧
      bf.errfile = 32 :: List.replicate 2046 120 ∧
      bf.errfile ≠ 32 :: List.replicate 2047 120 := by
  have hbad : firstInvalidTracker [⟨0, 32 :: List.replicate 2047 120⟩] =
      some (32 :: List.replicate 2047 120) := by
    unfold firstInvalidTracker
    rw [url_with_space_invalid]
    rfl
  refine ⟨hbad, by decide, by decide, by decide, by decide, rfl, ?_⟩
  have hrun := realMakeMetaInfo_invalid_url exampleEnv
    (tr_makeMetaInfo exampleBuilder none [⟨0, 32 :: List.replicate 2047 120⟩] none false)
    (32 :: List.replicate 2047 120) rfl rfl (by decide) (by decide) (by decide) (by decide) hbad
  refine ⟨_, hrun, rfl, rfl, ?_, ?_⟩
  · exact tr_strlcpy_one_short exampleBuilder.errfile 2046
  · show tr_strlcpy exampleBuilder.errfile (32 :: List.replicate (2046 + 1) 120) (2046 + 2) ≠ _
    rw [tr_strlcpy_one_short exampleBuilder.errfile 2046]
    intro h
    have hl := congrArg List.length h
    rw [List.length_cons, List.length_cons, List.length_replicate, List.length_replicate] at hl
    omega

/-- C11.  `tr_realMakeMetaInfo` allows an empty tracker set but verifies
listed URLs.  For a builder with non-empty input that `tr_makeMetaInfo`
queued, so the abort flag is clear: if some tracker announce URL fails
`tr_urlIsValidTracker`, the run ends with the result `TR_MAKEMETA_URL`,
`isDone` set, no output file written, and `errfile` holding what `tr_strlcpy`
copies of the first such URL into the `sizeof (errfile)` characters, which is
the whole URL when it is shorter than that.  With zero trackers the URL check
leaves the result `TR_MAKEMETA_OK` and no run ends with
`TR_MAKEMETA_URL`. -/
theorem C11_invalid_tracker_url_ends_run (env : MakeMetaEnv) (b : tr_metainfo_builder)
    (outputFile comment : Option CString) (trackers : List tr_tracker_info)
    (isPrivate : Bool)
    (hfiles : b.files.length ≠ 0) (htotal : b.totalSize ≠ 0) (hps : b.pieceSize ≠ 0)
    (hpc : b.pieceCount ≠ 0) :
    (∀ url, firstInvalidTracker trackers = some url →
      ∃ bf, tr_realMakeMetaInfo env (tr_makeMetaInfo b outputFile trackers comment isPrivate) =
          Outcome.returned (bf, none) ∧
        bf.result = tr_metainfo_builder_err.TR_MAKEMETA_URL ∧
        bf.isDone = true ∧
        bf.errfile = tr_strlcpy b.errfile url b.errfileSize ∧
        (url.length < b.errfileSize → bf.errfile = url)) ∧
    (checkTrackers (tr_makeMetaInfo b outputFile [] comment isPrivate) []).result =
      tr_metainfo_builder_err.TR_MAKEMETA_OK ∧
    (∀ bf written,
      tr_realMakeMetaInfo env (tr_makeMetaInfo b outputFile [] comment isPrivate) =
        Outcome.returned (bf, written) →
      bf.result ≠ tr_metainfo_builder_err.TR_MAKEMETA_URL) := by
  refine ⟨?_, rfl, ?_⟩
  · intro url hbad
    have hrun := realMakeMetaInfo_invalid_url env
      (tr_makeMetaInfo b outputFile trackers comment isPrivate) url rfl rfl hfiles htotal hps hpc
      hbad
    refine ⟨_, hrun, rfl, rfl, rfl, ?_⟩
    intro hlen
    exact tr_strlcpy_fits b.errfile url b.errfileSize hlen
  · intro bf written hrun
    have h := realMakeMetaInfo_result env _ bf written hrun
    have hc : (checkTrackers (tr_makeMetaInfo b outputFile [] comment isPrivate)
        (tr_makeMetaInfo b outputFile [] comment isPrivate).trackers).result =
        tr_metainfo_builder_err.TR_MAKEMETA_OK := rfl
    rw [hc] at h
    rcases h with h | h | h | h <;> rw [h] <;> simp

/-- C11 at the builder over the files "a", "b" and "c" with the tracker
" x", which is not a valid URL: the run ends with `TR_MAKEMETA_URL` and
`errfile` holds " x". -/
theorem C11_invalid_tracker_url_ends_run_witness :
    (∀ url, firstInvalidTracker [⟨0, [32, 120]⟩] = some url →
      ∃ bf, tr_realMakeMetaInfo exampleEnv
          (tr_makeMetaInfo exampleBuilder none [⟨0, [32, 120]⟩] none false) =
          Outcome.returned (bf, none) ∧
        bf.result = tr_metainfo_builder_err.TR_MAKEMETA_URL ∧
        bf.isDone = true ∧
        bf.errfile = tr_strlcpy exampleBuilder.errfile url exampleBuilder.errfileSize ∧
        (url.length < exampleBuilder.errfileSize → bf.errfile = url)) ∧
    (checkTrackers (tr_makeMetaInfo exampleBuilder none [] none false) []).result =
      tr_metainfo_builder_err.TR_MAKEMETA_OK ∧
    (∀ bf written,
      tr_realMakeMetaInfo exampleEnv (tr_makeMetaInfo exampleBuilder none [] none false) =
        Outcome.returned (bf, written) →
      bf.result ≠ tr_metainfo_builder_err.TR_MAKEMETA_URL) :=
  C11_invalid_tracker_url_ends_run exampleEnv exampleBuilder none none [⟨0, [32, 120]⟩] false
    (by decide) (by decide) (by decide) (by decide)

/-- A run that ends with `TR_MAKEMETA_OK`: every tracker URL is valid, the
input is not empty, nothing was aborted, `makeInfoDict` returned with the
result `TR_MAKEMETA_OK`, and `tr_variantToFile` was called, with success, on
the dictionary that holds the entries for the trackers, the comment, the
three fixed entries and the info dictionary, in this order. -/
theorem realMakeMetaInfo_success (env : MakeMetaEnv) (b0 bf : tr_metainfo_builder)
    (written : Option (tr_variant × CString))
    (hok0 : b0.result = tr_metainfo_builder_err.TR_MAKEMETA_OK)
    (hrun : tr_realMakeMetaInfo env b0 = Outcome.returned (bf, written))
    (hok : bf.result = tr_metainfo_builder_err.TR_MAKEMETA_OK) :
    firstInvalidTracker b0.trackers = none ∧
    (b0.files.length ≠ 0 ∧ b0.totalSize ≠ 0 ∧ b0.pieceSize ≠ 0 ∧ b0.pieceCount ≠ 0) ∧
    b0.abortFlag = false ∧
    ∃ top1 info b3 path,
      (match b0.trackers with
       | [] => some []
       | first :: others =>
         (if others.length > 0 then
           (announceTiers b0.trackers (-1) []).map (fun tiers =>
             [(tr_quark.TR_KEY_announce_list, tr_variant.list (tiers.map tr_variant.list))])
          else some []).map
           (fun l => l ++ [(tr_quark.TR_KEY_announce, tr_variant.str first.announce)])) =
        some top1 ∧
      makeInfoDict env b0 = Outcome.returned (info, b3) ∧
      b3.result = tr_metainfo_builder_err.TR_MAKEMETA_OK ∧
      b3.outputFile = some path ∧
      written = some
        (tr_variant.dict
          (top1 ++
            (match b0.comment with
             | some (c :: cs) => [(tr_quark.TR_KEY_comment, tr_variant.str (c :: cs))]
             | _ => []) ++
            [(tr_quark.TR_KEY_created_by, tr_variant.str env.createdBy),
             (tr_quark.TR_KEY_creation_date, tr_variant.int env.now),
             (tr_quark.TR_KEY_encoding, tr_variant.str (cstr "UTF-8"))] ++
            [(tr_quark.TR_KEY_info, info)]), path) := by
  have hvalid : firstInvalidTracker b0.trackers = none := by
    cases hfi : firstInvalidTracker b0.trackers with
    | none => rfl
    | some url =>
      have hc := checkTrackers_first_invalid b0.trackers b0 url hok0 hfi
      have h := realMakeMetaInfo_result env b0 bf written hrun
      rw [hc, hok] at h
      simp at h
  have hcheck := checkTrackers_all_valid b0.trackers b0 hvalid
  unfold tr_realMakeMetaInfo at hrun
  simp only [hcheck] at hrun
  by_cases hin : b0.files.length = 0 ∨ b0.totalSize = 0 ∨ b0.pieceSize = 0 ∨ b0.pieceCount = 0
  · rw [if_pos hin] at hrun
    simp only [reduceCtorEq, if_false, false_and] at hrun
    exfalso
    split at hrun
    · exact absurd hrun (by simp)
    · have he := (Prod.mk.inj (Outcome.returned.inj hrun)).1
      rw [← he] at hok
      revert hok
      show (if b0.abortFlag = true then tr_metainfo_builder_err.TR_MAKEMETA_CANCELLED
        else tr_metainfo_builder_err.TR_MAKEMETA_IO_READ) ≠ _
      split <;> simp
  · rw [if_neg hin] at hrun
    simp only [not_or] at hin
    simp only [hok0, if_true, true_and] at hrun
    split at hrun
    · exact absurd hrun (by simp)
    · rename_i top1 htop
      have hres : ∀ (b : tr_metainfo_builder) (r : tr_metainfo_builder_err)
          (w : Option (tr_variant × CString)) (bq : tr_metainfo_builder),
          bq.result = (if b.abortFlag = true then tr_metainfo_builder_err.TR_MAKEMETA_CANCELLED
            else r) →
          Outcome.returned (bq, w) = Outcome.returned (bf, written) →
          b.abortFlag = false ∧ r = tr_metainfo_builder_err.TR_MAKEMETA_OK ∧ w = written := by
        intro b r w bq hq h
        have he := Prod.mk.inj (Outcome.returned.inj h)
        rw [← he.1, hq] at hok
        split at hok
        · exact absurd hok (by simp)
        · rename_i hab
          exact ⟨by simpa using hab, hok, he.2⟩
      split at hrun
      · rename_i habort
        split at hrun
        · exact absurd hrun (by simp)
        · exact absurd hrun (by simp)
        · exact absurd hrun (by simp)
        · rename_i info b3 hmk
          split at hrun
          · rename_i hb3
            split at hrun
            · exact absurd hrun (by simp)
            · rename_i path hpath
              split at hrun
              · have h := hres b3 tr_metainfo_builder_err.TR_MAKEMETA_IO_WRITE _ _ rfl hrun
                exact absurd h.2.1 (by simp)
              · have h := hres b3 b3.result _ _ rfl hrun
                exact ⟨hvalid, hin, habort, top1, info, b3, path, htop, hmk, hb3.1, hpath,
                  h.2.2.symm⟩
          · have h := hres b3 b3.result _ _ rfl hrun
            rename_i hb3
            exact absurd ⟨h.2.1, h.1⟩ hb3
      · have h := hres b0 tr_metainfo_builder_err.TR_MAKEMETA_OK _ _ rfl hrun
        rename_i habort
        exact absurd h.1 habort

/-- Slots of 20 bytes, laid end to end, take 20 bytes each. -/
theorem flatten_length_slots (pch : List (List Nat))
    (h : ∀ s ∈ pch, s.length = SHA_DIGEST_LENGTH) :
    pch.flatten.length = SHA_DIGEST_LENGTH * pch.length := by
  induction pch with
  | nil => rfl
  | cons s rest ih =>
    rw [List.flatten_cons, List.length_append, List.length_cons,
      h s (List.mem_cons_self _ _), ih (fun x hx => h x (List.mem_cons_of_mem _ hx))]
    ring

/-- The info dictionary of a run of `makeInfoDict` that ends with
`TR_MAKEMETA_OK` and nothing aborted: the entries for the files, the name,
the piece length, `pieces` with `SHA_DIGEST_LENGTH * pieceCount` bytes, and
the private flag. -/
theorem makeInfoDict_success (env : MakeMetaEnv) (b b3 : tr_metainfo_builder)
    (info : tr_variant)
    (hsha : ∀ buf, (env.sha1 buf).length = SHA_DIGEST_LENGTH)
    (hsize : b.pieceSize < 2 ^ 32)
    (hcount : b.pieceCount = (b.totalSize + b.pieceSize - 1) / b.pieceSize)
    (htotal : b.totalSize ≠ 0) (hps : b.pieceSize ≠ 0) (habort : b.abortFlag = false)
    (h : makeInfoDict env b = Outcome.returned (info, b3))
    (hok : b3.result = tr_metainfo_builder_err.TR_MAKEMETA_OK) :
    ∃ part1 pieces,
      (if b.isSingleFile then
          b.files[0]?.map
            (fun f => [(tr_quark.TR_KEY_length, tr_variant.int (f.size : Int))])
        else
          some [(tr_quark.TR_KEY_files,
            tr_variant.list (b.files.map (fun f =>
              tr_variant.dict
                [(tr_quark.TR_KEY_length, (getFileInfo b.top f).1),
                 (tr_quark.TR_KEY_path, (getFileInfo b.top f).2)])))]) = some part1 ∧
      pieces.length = SHA_DIGEST_LENGTH * b.pieceCount ∧
      info = tr_variant.dict
        (part1 ++
          [(tr_quark.TR_KEY_name, tr_variant.str (env.basename b.top)),
           (tr_quark.TR_KEY_piece_length, tr_variant.int (b.pieceSize : Int))] ++
          [(tr_quark.TR_KEY_pieces, tr_variant.raw pieces)] ++
          [(tr_quark.TR_KEY_private, tr_variant.int (if b.isPrivate then 1 else 0))]) := by
  obtain ⟨hi, part1, hget, hb3, hpart, hinfo⟩ := makeInfoDict_returned env b b3 info h
  obtain ⟨hframe, _, hnull, hbuf⟩ :=
    getHashInfo_frame env.ndebug env.sha1 env.disk env.errno b hi hget
  obtain ⟨_, _, _, _, hpc, _, _, _, _, hpriv, _, _, _⟩ := hframe
  cases hret : hi.ret with
  | none =>
    have := hnull hret
    rw [← hb3, hok] at this
    exact absurd this (by simp)
  | some pch =>
    obtain ⟨hlen, hslots, hfit⟩ := hbuf pch hret
    have hfit2 := hfit htotal habort (Nat.pos_of_ne_zero hps) hsize
    rw [← hcount] at hfit2
    have hle : u32 (SHA_DIGEST_LENGTH * b.pieceCount) ≤ SHA_DIGEST_LENGTH * b.pieceCount :=
      Nat.mod_le _ _
    have h20 : SHA_DIGEST_LENGTH = 20 := rfl
    have heq : u32 (SHA_DIGEST_LENGTH * b.pieceCount) = SHA_DIGEST_LENGTH * b.pieceCount := by
      rw [h20] at hfit2 hle ⊢
      omega
    have hflat : pch.flatten.length = SHA_DIGEST_LENGTH * pch.length := by
      apply flatten_length_slots
      intro s hs
      rcases hslots s hs with h1 | ⟨buf, h1⟩
      · rw [h1, List.length_replicate]
      · rw [h1]; exact hsha buf
    refine ⟨part1, pch.flatten.take (u32 (SHA_DIGEST_LENGTH * hi.b.pieceCount)), hpart, ?_, ?_⟩
    · rw [hpc, heq, List.length_take, hflat, hlen, heq]
      rw [h20]
      omega
    · rw [hinfo, hret, hpriv]

/-- C12.  For every run of the torrent creator that ends with
`TR_MAKEMETA_OK`, on a builder whose `pieceCount` is the number of pieces of
its input: `tr_variantToFile` was given a top dictionary that holds
`created-by`, `creation-date`, `encoding` = "UTF-8" and `info`, `announce`
equal to the first tracker when at least one tracker is given,
`announce-list` exactly when more than one tracker is given, and `comment`
exactly when the comment is non-empty; the info dictionary, the one built by
`makeInfoDict`, holds `name`, `piece length`, `pieces` of exactly
`20 * pieceCount` bytes and `private`, plus `length`, the single file's
size, exactly when the input is a single file, and otherwise `files` with
one dictionary of `length` and `path` per builder file, in builder order. -/
theorem C12_metainfo_dictionaries (env : MakeMetaEnv) (b : tr_metainfo_builder)
    (outputFile comment : Option CString) (trackers : List tr_tracker_info)
    (isPrivate : Bool) (bf : tr_metainfo_builder) (written : Option (tr_variant × CString))
    (hsha : ∀ buf, (env.sha1 buf).length = SHA_DIGEST_LENGTH)
    (hsize : b.pieceSize < 2 ^ 32)
    (hcount : b.pieceCount = (b.totalSize + b.pieceSize - 1) / b.pieceSize)
    (hrun : tr_realMakeMetaInfo env (tr_makeMetaInfo b outputFile trackers comment isPrivate) =
      Outcome.returned (bf, written))
    (hok : bf.result = tr_metainfo_builder_err.TR_MAKEMETA_OK) :
    ∃ top info path pieces b3,
      written = some (top, path) ∧
      makeInfoDict env (tr_makeMetaInfo b outputFile trackers comment isPrivate) =
        Outcome.returned (info, b3) ∧
      -- the info dictionary
      tr_variantDictFind info tr_quark.TR_KEY_name = some (tr_variant.str (env.basename b.top)) ∧
      tr_variantDictFind info tr_quark.TR_KEY_piece_length =
        some (tr_variant.int (b.pieceSize : Int)) ∧
      tr_variantDictFind info tr_quark.TR_KEY_pieces = some (tr_variant.raw pieces) ∧
      pieces.length = 20 * b.pieceCount ∧
      tr_variantDictFind info tr_quark.TR_KEY_private =
        some (tr_variant.int (if isPrivate then 1 else 0)) ∧
      (b.isSingleFile = true →
        (∃ f, b.files[0]? = some f ∧
          tr_variantDictFind info tr_quark.TR_KEY_length = some (tr_variant.int (f.size : Int))) ∧
        tr_variantDictFind info tr_quark.TR_KEY_files = none) ∧
      (b.isSingleFile = false →
        tr_variantDictFind info tr_quark.TR_KEY_length = none ∧
        tr_variantDictFind info tr_quark.TR_KEY_files =
          some (tr_variant.list (b.files.map (fun f =>
            tr_variant.dict
              [(tr_quark.TR_KEY_length, tr_variant.int (f.size : Int)),
               (tr_quark.TR_KEY_path, (getFileInfo b.top f).2)])))) ∧
      -- the top dictionary
      tr_variantDictFind top tr_quark.TR_KEY_created_by = some (tr_variant.str env.createdBy) ∧
      tr_variantDictFind top tr_quark.TR_KEY_creation_date = some (tr_variant.int env.now) ∧
      tr_variantDictFind top tr_quark.TR_KEY_encoding = some (tr_variant.str (cstr "UTF-8")) ∧
      tr_variantDictFind top tr_quark.TR_KEY_info = some info ∧
      (∀ first others, trackers = first :: others →
        tr_variantDictFind top tr_quark.TR_KEY_announce =
          some (tr_variant.str first.announce)) ∧
      (trackers = [] → tr_variantDictFind top tr_quark.TR_KEY_announce = none) ∧
      (1 < trackers.length →
        ∃ tiers, announceTiers trackers (-1) [] = some tiers ∧
          tr_variantDictFind top tr_quark.TR_KEY_announce_list =
            some (tr_variant.list (tiers.map tr_variant.list))) ∧
      (trackers.length ≤ 1 → tr_variantDictFind top tr_quark.TR_KEY_announce_list = none) ∧
      (∀ c, comment = some c → c ≠ [] →
        tr_variantDictFind top tr_quark.TR_KEY_comment = some (tr_variant.str c)) ∧
      ((comment = none ∨ comment = some []) →
        tr_variantDictFind top tr_quark.TR_KEY_comment = none) := by
  obtain ⟨_, ⟨_, htotal, hps, _⟩, habort, top1, info, b3, path, htop, hmk, hok3, _, hw⟩ :=
    realMakeMetaInfo_success env (tr_makeMetaInfo b outputFile trackers comment isPrivate)
      bf written rfl hrun hok
  obtain ⟨part1, pieces, hpart, hlen, hinfo⟩ :=
    makeInfoDict_success env (tr_makeMetaInfo b outputFile trackers comment isPrivate) b3 info
      hsha hsize hcount htotal hps habort hmk hok3
  refine ⟨_, info, path, pieces, b3, hw, hmk, ?_⟩
  have htr : (tr_makeMetaInfo b outputFile trackers comment isPrivate).trackers = trackers := rfl
  have hcm : (tr_makeMetaInfo b outputFile trackers comment isPrivate).comment = comment := rfl
  have hsf : (tr_makeMetaInfo b outputFile trackers comment isPrivate).isSingleFile =
      b.isSingleFile := rfl
  have hfl : (tr_makeMetaInfo b outputFile trackers comment isPrivate).files = b.files := rfl
  have htp : (tr_makeMetaInfo b outputFile trackers comment isPrivate).top = b.top := rfl
  have hpz : (tr_makeMetaInfo b outputFile trackers comment isPrivate).pieceSize =
      b.pieceSize := rfl
  have hpc : (tr_makeMetaInfo b outputFile trackers comment isPrivate).pieceCount =
      b.pieceCount := rfl
  have hpr : (tr_makeMetaInfo b outputFile trackers comment isPrivate).isPrivate =
      isPrivate := rfl
  rw [htr] at htop
  rw [hsf, hfl, htp] at hpart
  rw [hpc] at hlen
  rw [htp, hpz, hpr] at hinfo
  rw [hcm]
  have h20 : SHA_DIGEST_LENGTH = 20 := rfl
  rw [h20] at hlen
  have hinfoPart :
      tr_variantDictFind info tr_quark.TR_KEY_name = some (tr_variant.str (env.basename b.top)) ∧
      tr_variantDictFind info tr_quark.TR_KEY_piece_length =
        some (tr_variant.int (b.pieceSize : Int)) ∧
      tr_variantDictFind info tr_quark.TR_KEY_pieces = some (tr_variant.raw pieces) ∧
      tr_variantDictFind info tr_quark.TR_KEY_private =
        some (tr_variant.int (if isPrivate then 1 else 0)) ∧
      (b.isSingleFile = true →
        (∃ f, b.files[0]? = some f ∧
          tr_variantDictFind info tr_quark.TR_KEY_length = some (tr_variant.int (f.size : Int))) ∧
        tr_variantDictFind info tr_quark.TR_KEY_files = none) ∧
      (b.isSingleFile = false →
        tr_variantDictFind info tr_quark.TR_KEY_length = none ∧
        tr_variantDictFind info tr_quark.TR_KEY_files =
          some (tr_variant.list (b.files.map (fun f =>
            tr_variant.dict
              [(tr_quark.TR_KEY_length, tr_variant.int (f.size : Int)),
               (tr_quark.TR_KEY_path, (getFileInfo b.top f).2)])))) := by
    cases hs : b.isSingleFile with
    | true =>
      rw [hs, if_pos rfl] at hpart
      cases hf : b.files[0]? with
      | none => rw [hf] at hpart; exact absurd hpart (by simp)
      | some f =>
        rw [hf] at hpart
        have hp1 := (Option.some.inj hpart).symm
        subst hp1
        subst hinfo
        simp [tr_variantDictFind]
    | false =>
      rw [hs, if_neg (by simp)] at hpart
      have hp1 := (Option.some.inj hpart).symm
      subst hp1
      subst hinfo
      simp [tr_variantDictFind]
      intro f _
      rfl
  obtain ⟨i1, i2, i3, i4, i5, i6⟩ := hinfoPart
  refine ⟨i1, i2, i3, hlen, i4, i5, i6, ?_⟩
  clear i1 i2 i3 i4 i5 i6 hinfo hpart hmk hrun
  rcases trackers with _ | ⟨first, _ | ⟨second, rest⟩⟩
  · have ht := (Option.some.inj htop).symm
    subst ht
    rcases comment with _ | _ | ⟨c, cs⟩ <;> simp [tr_variantDictFind]
  · have ht := (Option.some.inj htop).symm
    subst ht
    rcases comment with _ | _ | ⟨c, cs⟩ <;> simp [tr_variantDictFind]
  · simp only [List.length_cons, gt_iff_lt, Nat.zero_lt_succ, if_true] at htop
    cases hat : announceTiers (first :: second :: rest) (-1) [] with
    | none => rw [hat] at htop; exact absurd htop (by simp)
    | some tiers =>
      rw [hat] at htop
      have ht := (Option.some.inj htop).symm
      subst ht
      rcases comment with _ | _ | ⟨c, cs⟩ <;> simp [tr_variantDictFind]

/-- C12 at the builder over the files "a", "b" and "c" with two trackers and
the comment "c": the run ends with `TR_MAKEMETA_OK` and writes
`exampleTop`. -/
theorem C12_metainfo_dictionaries_witness :
    (∀ buf, (exampleEnv.sha1 buf).length = SHA_DIGEST_LENGTH) ∧
    exampleBuilder.pieceSize < 2 ^ 32 ∧
    exampleBuilder.pieceCount =
      (exampleBuilder.totalSize + exampleBuilder.pieceSize - 1) / exampleBuilder.pieceSize ∧
    tr_realMakeMetaInfo exampleEnv
        (tr_makeMetaInfo exampleBuilder none exampleTrackers (some [99]) false) =
      Outcome.returned
        ({ tr_makeMetaInfo exampleBuilder none exampleTrackers (some [99]) false with
            pieceIndex := 3, isDone := true },
          some (exampleTop, cstr ".torrent")) ∧
    ({ tr_makeMetaInfo exampleBuilder none exampleTrackers (some [99]) false with
        pieceIndex := 3, isDone := true } : tr_metainfo_builder).result =
      tr_metainfo_builder_err.TR_MAKEMETA_OK ∧
    ∃ top info path pieces b3,
      some (exampleTop, cstr ".torrent") = some (top, path) ∧
      makeInfoDict exampleEnv
          (tr_makeMetaInfo exampleBuilder none exampleTrackers (some [99]) false) =
        Outcome.returned (info, b3) ∧
      -- the info dictionary
      tr_variantDictFind info tr_quark.TR_KEY_name = some (tr_variant.str (exampleEnv.basename exampleBuilder.top)) ∧
      tr_variantDictFind info tr_quark.TR_KEY_piece_length =
        some (tr_variant.int (exampleBuilder.pieceSize : Int)) ∧
      tr_variantDictFind info tr_quark.TR_KEY_pieces = some (tr_variant.raw pieces) ∧
      pieces.length = 20 * exampleBuilder.pieceCount ∧
      tr_variantDictFind info tr_quark.TR_KEY_private =
        some (tr_variant.int (if false then 1 else 0)) ∧
      (exampleBuilder.isSingleFile = true →
        (∃ f, exampleBuilder.files[0]? = some f ∧
          tr_variantDictFind info tr_quark.TR_KEY_length = some (tr_variant.int (f.size : Int))) ∧
        tr_variantDictFind info tr_quark.TR_KEY_files = none) ∧
      (exampleBuilder.isSingleFile = false →
        tr_variantDictFind info tr_quark.TR_KEY_length = none ∧
        tr_variantDictFind info tr_quark.TR_KEY_files =
          some (tr_variant.list (exampleBuilder.files.map (fun f =>
            tr_variant.dict
              [(tr_quark.TR_KEY_length, tr_variant.int (f.size : Int)),
               (tr_quark.TR_KEY_path, (getFileInfo exampleBuilder.top f).2)])))) ∧
      -- the top dictionary
      tr_variantDictFind top tr_quark.TR_KEY_created_by = some (tr_variant.str exampleEnv.createdBy) ∧
      tr_variantDictFind top tr_quark.TR_KEY_creation_date = some (tr_variant.int exampleEnv.now) ∧
      tr_variantDictFind top tr_quark.TR_KEY_encoding = some (tr_variant.str (cstr "UTF-8")) ∧
      tr_variantDictFind top tr_quark.TR_KEY_info = some info ∧
      (∀ first others, exampleTrackers = first :: others →
        tr_variantDictFind top tr_quark.TR_KEY_announce =
          some (tr_variant.str first.announce)) ∧
      (exampleTrackers = [] → tr_variantDictFind top tr_quark.TR_KEY_announce = none) ∧
      (1 < exampleTrackers.length →
        ∃ tiers, announceTiers exampleTrackers (-1) [] = some tiers ∧
          tr_variantDictFind top tr_quark.TR_KEY_announce_list =
            some (tr_variant.list (tiers.map tr_variant.list))) ∧
      (exampleTrackers.length ≤ 1 → tr_variantDictFind top tr_quark.TR_KEY_announce_list = none) ∧
      (∀ c, some [99] = some c → c ≠ [] →
        tr_variantDictFind top tr_quark.TR_KEY_comment = some (tr_variant.str c)) ∧
      (((some [99] : Option CString) = none ∨ (some [99] : Option CString) = some []) →
        tr_variantDictFind top tr_quark.TR_KEY_comment = none) :=
  ⟨fun buf => List.length_replicate _ _, by decide, by decide, rfl, rfl,
    C12_metainfo_dictionaries exampleEnv exampleBuilder none (some [99]) exampleTrackers false
      { tr_makeMetaInfo exampleBuilder none exampleTrackers (some [99]) false with
        pieceIndex := 3, isDone := true }
      (some (exampleTop, cstr ".torrent"))
      (fun buf => List.length_replicate _ _) (by decide) (by decide) rfl rfl⟩

/-! ## tr_address_compare -/

/-- C22.  `tr_address_compare` does not order IPv6 addresses as greater than
IPv4 addresses under its documented sign convention: for every IPv4 address
`a` and every IPv6 address `b` it returns 1 for `(a, b)`, which stands for
`a > b`, and -1 for `(b, a)`, which stands for `b < a`. -/
theorem C22_ipv4_compares_greater_than_ipv6 (a b : tr_address)
    (ha : a.type = tr_address_type.TR_AF_INET) (hb : b.type = tr_address_type.TR_AF_INET6) :
    tr_address_compare a b = 1 ∧ tr_address_compare b a = -1 := by
  unfold tr_address_compare
  rw [ha, hb]
  exact ⟨rfl, rfl⟩

/-- C22 at the addresses 1.2.3.4 and ::1. -/
theorem C22_ipv4_compares_greater_than_ipv6_witness :
    tr_address_compare ⟨tr_address_type.TR_AF_INET, [1, 2, 3, 4, 0, 0, 0, 0, 0, 0, 0, 0, 0, 0, 0, 0]⟩
        ⟨tr_address_type.TR_AF_INET6, [0, 0, 0, 0, 0, 0, 0, 0, 0, 0, 0, 0, 0, 0, 0, 1]⟩ = 1 ∧
    tr_address_compare
        ⟨tr_address_type.TR_AF_INET6, [0, 0, 0, 0, 0, 0, 0, 0, 0, 0, 0, 0, 0, 0, 0, 1]⟩
        ⟨tr_address_type.TR_AF_INET, [1, 2, 3, 4, 0, 0, 0, 0, 0, 0, 0, 0, 0, 0, 0, 0]⟩ = -1 :=
  C22_ipv4_compares_greater_than_ipv6 _ _ rfl rfl

/-- Within one address family `tr_address_compare` follows its sign
convention on the bytes of the address: an address compares equal to
itself. -/
theorem tr_address_compare_self (a : tr_address) : tr_address_compare a a = 0 := by
  unfold tr_address_compare
  rw [if_neg (by simp)]
  generalize sizes a.type = n
  induction a.addr generalizing n with
  | nil => cases n <;> rfl
  | cons x t ih =>
    cases n with
    | zero => rfl
    | succ n => simp [memcmp, ih]

/-! ## The fallback of tr_strlcpy -/

/-- Reading a string in memory at an offset inside the string. -/
theorem cstring_read_inside (str tail : List Int) (j : Nat) (hj : j < str.length) :
    (str ++ 0 :: tail)[j]? = some (str.get ⟨j, hj⟩) := by
  rw [List.getElem?_append_left hj, List.getElem?_eq_getElem hj]
  rfl

/-- Reading a string in memory at its end gives the NUL. -/
theorem cstring_read_end (str tail : List Int) :
    (str ++ 0 :: tail)[str.length]? = some 0 := by
  rw [List.getElem?_append_right (Nat.le_refl _)]
  simp

/-- Writing the next character after a copied prefix extends the prefix. -/
theorem set_after_copied (pre dst0 : List Int) (c : Int) (h : pre.length < dst0.length) :
    (pre ++ dst0.drop pre.length).set pre.length c =
      pre ++ c :: dst0.drop (pre.length + 1) := by
  rw [List.set_append, if_neg (Nat.lt_irrefl _), Nat.sub_self,
    List.drop_eq_getElem_cons h]
  rfl

/-- The loop `while (*s++) ;` started inside the string stops one past the
NUL. -/
theorem strlcpySkip_spec (str tail : List Int) (hstr : ∀ c ∈ str, c ≠ 0) :
    ∀ (fuel s : Nat), s ≤ str.length → str.length - s < fuel →
      strlcpySkip (str ++ 0 :: tail) fuel s = Outcome.returned (str.length + 1) := by
  intro fuel
  induction fuel with
  | zero => intro s _ h; omega
  | succ fuel ih =>
    intro s hs hf
    unfold strlcpySkip
    rcases Nat.lt_or_ge s str.length with hlt | hge
    · rw [cstring_read_inside str tail s hlt]
      simp only
      rw [if_pos (hstr _ (List.get_mem _ _ _))]
      exact ih (s + 1) hlt (by omega)
    · have he : s = str.length := Nat.le_antisymm hs hge
      subst he
      rw [cstring_read_end]
      simp

/-- One pass of the copying loop of `tr_strlcpy`. -/
theorem strlcpyCopy_succ (src : List Int) (fuel n d s : Nat) (dst : List Int) :
    strlcpyCopy src (fuel + 1) n d s dst =
      if subU64 n 1 ≠ 0 then
        match src[s]? with
        | none => Outcome.fault
        | some c =>
          if d < dst.length then
            if c = 0 then Outcome.returned (subU64 n 1, d + 1, s + 1, dst.set d c)
            else strlcpyCopy src fuel (subU64 n 1) (d + 1) (s + 1) (dst.set d c)
          else Outcome.fault
      else Outcome.returned (subU64 n 1, d, s, dst) := rfl

/-- The copying loop of `tr_strlcpy`, entered with `j` characters copied and
room for `n - 1` more: it stops behind the NUL when the rest of the string
fits, and with `n = 0` after `n - 1` more characters otherwise. -/
theorem strlcpyCopy_spec (str tail dst0 : List Int) (hstr : ∀ c ∈ str, c ≠ 0) :
    ∀ (fuel n j : Nat), j ≤ str.length → 1 ≤ n → n < 2 ^ 64 → n ≤ fuel →
      j + n ≤ dst0.length + 1 →
      strlcpyCopy (str ++ 0 :: tail) fuel n j j (str.take j ++ dst0.drop j) =
        if str.length - j < n - 1 then
          Outcome.returned (n - 1 - (str.length - j), str.length + 1, str.length + 1,
            str ++ 0 :: dst0.drop (str.length + 1))
        else
          Outcome.returned (0, j + (n - 1), j + (n - 1),
            str.take (j + (n - 1)) ++ dst0.drop (j + (n - 1))) := by
  intro fuel
  induction fuel with
  | zero => intro n j _ h1 _ h2; omega
  | succ fuel ih =>
    intro n j hj hn h64 hf hroom
    have hsub : subU64 n 1 = n - 1 := subU64_of_le n 1 h64 hn
    rw [strlcpyCopy_succ, hsub]
    by_cases h1 : n - 1 = 0
    · rw [if_neg (by simpa using h1), if_neg (by omega)]
      simp [h1]
    · rw [if_pos h1]
      have hlenj : (str.take j).length = j := by
        rw [List.length_take]; omega
      have hdlen : (str.take j ++ dst0.drop j).length = dst0.length := by
        rw [List.length_append, hlenj, List.length_drop]; omega
      have hset : ∀ c, (str.take j ++ dst0.drop j).set j c =
          str.take j ++ c :: dst0.drop (j + 1) := by
        intro c
        have := set_after_copied (str.take j) dst0 c (by rw [hlenj]; omega)
        rw [hlenj] at this
        exact this
      rcases Nat.lt_or_ge j str.length with hlt | hge
      · rw [cstring_read_inside str tail j hlt]
        simp only
        rw [if_pos (by rw [hdlen]; omega), if_neg (hstr _ (List.get_mem _ _ _)), hset]
        have htake : str.take j ++ str.get ⟨j, hlt⟩ :: dst0.drop (j + 1) =
            str.take (j + 1) ++ dst0.drop (j + 1) := by
          rw [List.take_succ, List.getElem?_eq_getElem hlt, Option.toList, List.append_assoc]
          rfl
        rw [htake, ih (n - 1) (j + 1) hlt (by omega) (by omega) (by omega) (by omega)]
        by_cases hc : str.length - j < n - 1
        · rw [if_pos hc, if_pos (by omega)]
          have : n - 1 - 1 - (str.length - (j + 1)) = n - 1 - (str.length - j) := by omega
          rw [this]
        · rw [if_neg hc, if_neg (by omega)]
          have : j + 1 + (n - 1 - 1) = j + (n - 1) := by omega
          rw [this]
      · have he : j = str.length := Nat.le_antisymm hj hge
        subst he
        rw [cstring_read_end]
        simp only
        rw [if_pos (by rw [hdlen]; omega), if_pos trivial, hset, if_pos (by omega),
          List.take_length, Nat.sub_self, Nat.sub_zero]

/-- The C string in a block that holds characters other than NUL followed by
a NUL. -/
theorem cstringAt_before_nul (pre rest : List Int) (h : ∀ c ∈ pre, c ≠ 0) :
    cstringAt (pre ++ 0 :: rest) = pre := by
  unfold cstringAt
  induction pre with
  | nil => simp
  | cons c t ih =>
    have hc : c ≠ 0 := h c (List.mem_cons_self _ _)
    simp only [List.cons_append, List.takeWhile_cons, hc, ne_eq, not_false_eq_true,
      decide_True, if_true]
    rw [ih (fun x hx => h x (List.mem_cons_of_mem _ hx))]

/-- What the fallback of `tr_strlcpy` returns and leaves in the destination,
for a string `str` in memory and a destination of at least `siz` bytes. -/
theorem tr_strlcpy_fallback_spec (dst str tail : List Int) (siz : Nat)
    (hstr : ∀ c ∈ str, c ≠ 0) (hroom : siz ≤ dst.length) (h64 : siz < 2 ^ 64) :
    tr_strlcpy_fallback dst (str ++ 0 :: tail) siz =
      Outcome.returned (str.length,
        if siz = 0 then dst
        else str.take (min str.length (siz - 1)) ++
          0 :: dst.drop (min str.length (siz - 1) + 1)) := by
  have hskip : ∀ s, s ≤ str.length →
      strlcpySkip (str ++ 0 :: tail) ((str ++ 0 :: tail).length + 1) s =
        Outcome.returned (str.length + 1) := by
    intro s hs
    apply strlcpySkip_spec str tail hstr _ s hs
    rw [List.length_append]
    omega
  unfold tr_strlcpy_fallback
  by_cases h0 : siz = 0
  · rw [if_neg (by simpa using h0), if_pos h0]
    unfold strlcpyFinish
    rw [if_pos h0, if_neg (by simp [h0]), if_neg (by simp [h0]), hskip 0 (Nat.zero_le _)]
    rfl
  · rw [if_pos h0, if_neg h0]
    have hcopy := strlcpyCopy_spec str tail dst hstr siz siz 0 (Nat.zero_le _) (by omega) h64
      (Nat.le_refl _) (by omega)
    simp only [List.take_zero, List.drop_zero, List.nil_append, Nat.sub_zero, Nat.zero_add]
      at hcopy
    rw [hcopy]
    by_cases hfit : str.length < siz - 1
    · rw [if_pos hfit]
      simp only
      unfold strlcpyFinish
      rw [if_neg (by omega), Nat.min_eq_left (by omega), List.take_length]
      rfl
    · rw [if_neg hfit]
      simp only
      unfold strlcpyFinish
      have hlen : (str.take (siz - 1)).length = siz - 1 := by
        rw [List.length_take]; omega
      have hdlen : (str.take (siz - 1) ++ dst.drop (siz - 1)).length = dst.length := by
        rw [List.length_append, hlen, List.length_drop]; omega
      have hset := set_after_copied (str.take (siz - 1)) dst 0 (by rw [hlen]; omega)
      rw [hlen] at hset
      rw [if_pos rfl, if_neg (by rw [hdlen]; omega), if_pos h0, hset,
        hskip (siz - 1) (by omega), Nat.min_eq_right (by omega)]
      rfl

/-- C21.  For every NUL-terminated `src` (the string `str`, its NUL and
whatever follows in memory) and every size `siz` of the destination, the
fallback of `tr_strlcpy` returns `strlen (src)`; for `siz > 0` it leaves in
`dst` the first `min (strlen (src), siz - 1)` bytes of `src` followed by a
NUL, the bytes behind them as they were, so that `dst` holds the string of
the first `siz - 1` characters of `src`; for `siz = 0` it writes nothing; and
the value returned is at least `siz` exactly when truncation occurred, that
is when nothing was written or `dst` does not hold the whole string. -/
theorem C21_strlcpy_fallback (dst str tail : List Int) (siz : Nat)
    (hstr : ∀ c ∈ str, c ≠ 0) (hroom : siz ≤ dst.length) (h64 : siz < 2 ^ 64) :
    ∃ ret dst1,
      tr_strlcpy_fallback dst (str ++ 0 :: tail) siz = Outcome.returned (ret, dst1) ∧
      ret = str.length ∧
      (siz > 0 →
        dst1 = str.take (min str.length (siz - 1)) ++
          0 :: dst.drop (min str.length (siz - 1) + 1) ∧
        cstringAt dst1 = str.take (siz - 1) ∧
        (cstringAt dst1).length ≤ siz - 1) ∧
      (siz = 0 → dst1 = dst) ∧
      (siz ≤ ret ↔ (siz = 0 ∨ cstringAt dst1 ≠ str)) := by
  refine ⟨_, _, tr_strlcpy_fallback_spec dst str tail siz hstr hroom h64, rfl, ?_, ?_, ?_⟩
  · intro hpos
    have h0 : siz ≠ 0 := by omega
    rw [if_neg h0]
    have hc : cstringAt (str.take (min str.length (siz - 1)) ++
        0 :: dst.drop (min str.length (siz - 1) + 1)) = str.take (siz - 1) := by
      rw [cstringAt_before_nul _ _ (fun c hc => hstr c (List.mem_of_mem_take hc))]
      rcases Nat.le_total str.length (siz - 1) with h | h
      · rw [Nat.min_eq_left h, List.take_of_length_le (Nat.le_refl _),
          List.take_of_length_le h]
      · rw [Nat.min_eq_right h]
    refine ⟨rfl, hc, ?_⟩
    rw [hc, List.length_take]
    exact Nat.min_le_left _ _
  · intro h0
    rw [if_pos h0]
  · by_cases h0 : siz = 0
    · simp [h0]
    · rw [if_neg h0, cstringAt_before_nul _ _ (fun c hc => hstr c (List.mem_of_mem_take hc))]
      constructor
      · intro hle
        right
        intro he
        have := congrArg List.length he
        rw [List.length_take] at this
        omega
      · intro h
        rcases h with h | h
        · exact absurd h h0
        · by_contra hlt
          apply h
          rw [Nat.min_eq_left (by omega)]
          exact List.take_of_length_le (Nat.le_refl _)

/-- C21 at the string "abc" copied into five bytes with sizes 5, 3 and 0. -/
theorem C21_strlcpy_fallback_witness :
    (∀ c ∈ ([97, 98, 99] : List Int), c ≠ 0) ∧ 3 ≤ ([7, 7, 7, 7, 7] : List Int).length ∧
    (3 : Nat) < 2 ^ 64 ∧
    ∃ ret dst1,
      tr_strlcpy_fallback [7, 7, 7, 7, 7] ([97, 98, 99] ++ 0 :: [55]) 3 =
        Outcome.returned (ret, dst1) ∧
      ret = ([97, 98, 99] : List Int).length ∧
      (3 > 0 →
        dst1 = ([97, 98, 99] : List Int).take (min ([97, 98, 99] : List Int).length (3 - 1)) ++
          0 :: ([7, 7, 7, 7, 7] : List Int).drop
            (min ([97, 98, 99] : List Int).length (3 - 1) + 1) ∧
        cstringAt dst1 = ([97, 98, 99] : List Int).take (3 - 1) ∧
        (cstringAt dst1).length ≤ 3 - 1) ∧
      (3 = 0 → dst1 = [7, 7, 7, 7, 7]) ∧
      (3 ≤ ret ↔ (3 = 0 ∨ cstringAt dst1 ≠ [97, 98, 99])) :=
  ⟨by decide, by decide, by decide,
    C21_strlcpy_fallback [7, 7, 7, 7, 7] [97, 98, 99] [55] 3 (by decide) (by decide)
      (by decide)⟩

/-- The runs of the witness of C21 and two more, evaluated: "abc" into five
bytes with the sizes 3, 5 and 0. -/
theorem tr_strlcpy_fallback_examples :
    tr_strlcpy_fallback [7, 7, 7, 7, 7] [97, 98, 99, 0, 55] 3 =
      Outcome.returned (3, [97, 98, 0, 7, 7]) ∧
    tr_strlcpy_fallback [7, 7, 7, 7, 7] [97, 98, 99, 0, 55] 5 =
      Outcome.returned (3, [97, 98, 99, 0, 7]) ∧
    tr_strlcpy_fallback [7, 7, 7, 7, 7] [97, 98, 99, 0, 55] 0 =
      Outcome.returned (3, [7, 7, 7, 7, 7]) := by
  decide

/-- The string that the fallback of `tr_strlcpy` leaves in `dst` is the one
that the model `tr_strlcpy` of the torrent creator gives. -/
theorem tr_strlcpy_fallback_content (dst str tail : List Int) (siz : Nat)
    (hstr : ∀ c ∈ str, c ≠ 0) (hroom : siz ≤ dst.length) (h64 : siz < 2 ^ 64) :
    ∃ ret dst1,
      tr_strlcpy_fallback dst (str ++ 0 :: tail) siz = Outcome.returned (ret, dst1) ∧
      cstringAt dst1 = tr_strlcpy (cstringAt dst) str siz := by
  refine ⟨_, _, tr_strlcpy_fallback_spec dst str tail siz hstr hroom h64, ?_⟩
  unfold tr_strlcpy
  by_cases h0 : siz = 0
  · rw [if_pos h0, if_pos h0]
  · rw [if_neg h0, if_neg h0,
      cstringAt_before_nul _ _ (fun c hc => hstr c (List.mem_of_mem_take hc))]
    rcases Nat.le_total str.length (siz - 1) with h | h
    · rw [Nat.min_eq_left h, List.take_of_length_le (Nat.le_refl _),
        List.take_of_length_le h]
    · rw [Nat.min_eq_right h]

/-! ## tr_urlIsValidTracker -/

/-- A C string starts with the characters of `p` exactly when it is `p`
followed by something. -/
theorem startsWith_iff (s p : CString) : startsWith s p = true ↔ ∃ rest, s = p ++ rest := by
  induction p generalizing s with
  | nil => cases s <;> simp [startsWith]
  | cons d p ih =>
    cases s with
    | nil => simp [startsWith]
    | cons c s =>
      simp only [startsWith, Bool.and_eq_true, decide_eq_true_eq, ih, List.cons_append,
        List.cons.injEq]
      constructor
      · rintro ⟨h, rest, hr⟩
        exact ⟨rest, h, hr⟩
      · rintro ⟨rest, h, hr⟩
        exact ⟨h, rest, hr⟩

/-- A C string in which `p`, not empty, does not occur: `strstr` returns
NULL. -/
theorem strstr_none (p : CString) (hp : p ≠ []) (s : CString)
    (h : ∀ a b, s ≠ a ++ p ++ b) : strstr s p = none := by
  induction s with
  | nil => simp [strstr, hp]
  | cons c hay ih =>
    unfold strstr
    split
    · rename_i hsw
      obtain ⟨rest, hr⟩ := (startsWith_iff _ _).mp hsw
      exact absurd (by simpa using hr) (h [] rest)
    · rw [ih (fun a b hab => h (c :: a) b (by rw [hab]; rfl))]
      rfl

/-- Where `strstr` finds `p`, it occurs. -/
theorem strstr_some (p s : CString) (k : Nat) (h : strstr s p = some k) :
    ∃ rest, s.drop k = p ++ rest := by
  induction s generalizing k with
  | nil =>
    unfold strstr at h
    split at h
    · rename_i hp
      have hk : k = 0 := by simpa using h.symm
      subst hk
      exact ⟨[], by simp [hp]⟩
    · exact absurd h (by simp)
  | cons c hay ih =>
    unfold strstr at h
    split at h
    · rename_i hsw
      have hk : k = 0 := by simpa using h.symm
      subst hk
      exact (startsWith_iff _ _).mp hsw
    · cases hr : strstr hay p with
      | none => rw [hr] at h; exact absurd h (by simp)
      | some j =>
        rw [hr] at h
        have hk : k = j + 1 := by simpa using h.symm
        subst hk
        exact ih j hr

/-- C23.  `tr_urlIsValidTracker` returns true only for http, https or udp
URLs: a true result implies that the URL is not NULL, begins with "http://",
"https://" or "udp://", consists only of characters of the RFC 2396 set that
`isValidURLChars` accepts, and parses under `tr_urlParse`, with "://" in it
and behind the first "://" a host of at least one character.  It returns
false for NULL, for a string without "://", and for every string that begins
with none of the three, such as one that begins with "ftp://". -/
theorem C23_valid_tracker_url_is_http_https_udp (url : Option CString) :
    (tr_urlIsValidTracker_ptr url = true →
      ∃ u, url = some u ∧
        ((∃ rest, u = cstr "http://" ++ rest) ∨ (∃ rest, u = cstr "https://" ++ rest) ∨
          (∃ rest, u = cstr "udp://" ++ rest)) ∧
        (∀ c ∈ u, c ∈ rfc2396_valid_chars) ∧
        isValidURLChars u = true ∧
        tr_urlParse u = false ∧
        ∃ pch rest host, strstr u (cstr "://") = some pch ∧
          u.drop pch = cstr "://" ++ rest ∧
          host = rest.take (strcspn rest (cstr ":/")) ∧ host ≠ []) ∧
    tr_urlIsValidTracker_ptr none = false ∧
    (∀ u : CString, (∀ a b, u ≠ a ++ cstr "://" ++ b) →
      tr_urlIsValidTracker_ptr (some u) = false) ∧
    (∀ u : CString, (∀ rest, u ≠ cstr "http://" ++ rest) →
      (∀ rest, u ≠ cstr "https://" ++ rest) → (∀ rest, u ≠ cstr "udp://" ++ rest) →
      tr_urlIsValidTracker_ptr (some u) = false) ∧
    (∀ rest : CString, tr_urlIsValidTracker_ptr (some (cstr "ftp://" ++ rest)) = false) := by
  have hother : ∀ u : CString, (∀ rest, u ≠ cstr "http://" ++ rest) →
      (∀ rest, u ≠ cstr "https://" ++ rest) → (∀ rest, u ≠ cstr "udp://" ++ rest) →
      tr_urlIsValidTracker_ptr (some u) = false := by
    intro u h1 h2 h3
    have e1 : startsWith u (cstr "http://") = false := by
      rw [Bool.eq_false_iff]
      intro h
      obtain ⟨rest, hr⟩ := (startsWith_iff _ _).mp h
      exact h1 rest hr
    have e2 : startsWith u (cstr "https://") = false := by
      rw [Bool.eq_false_iff]
      intro h
      obtain ⟨rest, hr⟩ := (startsWith_iff _ _).mp h
      exact h2 rest hr
    have e3 : startsWith u (cstr "udp://") = false := by
      rw [Bool.eq_false_iff]
      intro h
      obtain ⟨rest, hr⟩ := (startsWith_iff _ _).mp h
      exact h3 rest hr
    show tr_urlIsValidTracker u = false
    unfold tr_urlIsValidTracker
    rw [e1, e2, e3]
    simp
  refine ⟨?_, rfl, ?_, hother, ?_⟩
  · intro h
    cases url with
    | none => exact absurd h (by simp [tr_urlIsValidTracker_ptr])
    | some u =>
      have hv : tr_urlIsValidTracker u = true := h
      unfold tr_urlIsValidTracker at hv
      simp only [Bool.and_eq_true, Bool.or_eq_true, Bool.not_eq_true'] at hv
      obtain ⟨⟨hchars, hparse⟩, hscheme⟩ := hv
      refine ⟨u, rfl, ?_, ?_, hchars, hparse, ?_⟩
      · rcases hscheme with (h1 | h2) | h3
        · exact Or.inl ((startsWith_iff _ _).mp h1)
        · exact Or.inr (Or.inl ((startsWith_iff _ _).mp h2))
        · exact Or.inr (Or.inr ((startsWith_iff _ _).mp h3))
      · intro c hc
        unfold isValidURLChars at hchars
        rw [List.all_eq_true] at hchars
        have := hchars c hc
        simpa using this
      · unfold tr_urlParse at hparse
        cases hs : strstr u (cstr "://") with
        | none => rw [hs] at hparse; exact absurd hparse (by simp)
        | some pch =>
          rw [hs] at hparse
          simp only [decide_eq_false_iff_not] at hparse
          obtain ⟨rest, hrest⟩ := strstr_some _ _ _ hs
          have hdrop : u.drop (pch + 3) = rest := by
            rw [← List.drop_drop, hrest]
            rfl
          rw [hdrop] at hparse
          refine ⟨pch, rest, _, rfl, hrest, rfl, ?_⟩
          intro he
          apply hparse
          have hl := congrArg List.length he
          rw [List.length_take, List.length_nil] at hl
          have hle : strcspn rest (cstr ":/") ≤ rest.length := by
            unfold strcspn
            exact (List.takeWhile_sublist _).length_le
          omega
  · intro u hno
    show tr_urlIsValidTracker u = false
    unfold tr_urlIsValidTracker tr_urlParse
    rw [strstr_none (cstr "://") (by decide) u hno]
    simp
  · intro rest
    have hf : cstr "ftp://" = [102, 116, 112, 58, 47, 47] := by decide
    have h1 : cstr "http://" = [104, 116, 116, 112, 58, 47, 47] := by decide
    have h2 : cstr "https://" = [104, 116, 116, 112, 115, 58, 47, 47] := by decide
    have h3 : cstr "udp://" = [117, 100, 112, 58, 47, 47] := by decide
    apply hother
    · intro r h
      rw [hf, h1] at h
      exact absurd (List.cons.inj h).1 (by decide)
    · intro r h
      rw [hf, h2] at h
      exact absurd (List.cons.inj h).1 (by decide)
    · intro r h
      rw [hf, h3] at h
      exact absurd (List.cons.inj h).1 (by decide)

/-- C23 at "http://a", which is a valid tracker URL. -/
theorem C23_valid_tracker_url_is_http_https_udp_witness :
    tr_urlIsValidTracker_ptr (some (cstr "http://a")) = true ∧
    ∃ u, some (cstr "http://a") = some u ∧
      ((∃ rest, u = cstr "http://" ++ rest) ∨ (∃ rest, u = cstr "https://" ++ rest) ∨
        (∃ rest, u = cstr "udp://" ++ rest)) ∧
      (∀ c ∈ u, c ∈ rfc2396_valid_chars) ∧
      isValidURLChars u = true ∧
      tr_urlParse u = false ∧
      ∃ pch rest host, strstr u (cstr "://") = some pch ∧
        u.drop pch = cstr "://" ++ rest ∧
        host = rest.take (strcspn rest (cstr ":/")) ∧ host ≠ [] :=
  ⟨by decide, (C23_valid_tracker_url_is_http_https_udp (some (cstr "http://a"))).1 (by decide)⟩

/-- What `tr_urlIsValidTracker` gives for some strings: true for an http, an
https and a udp URL with a host, false for NULL, for a string without "://",
for an ftp URL, for a URL without a host and for a URL with a space. -/
theorem tr_urlIsValidTracker_examples :
    tr_urlIsValidTracker_ptr (some (cstr "http://a")) = true ∧
    tr_urlIsValidTracker_ptr (some (cstr "https://a.b:80/c")) = true ∧
    tr_urlIsValidTracker_ptr (some (cstr "udp://a:1")) = true ∧
    tr_urlIsValidTracker_ptr none = false ∧
    tr_urlIsValidTracker_ptr (some (cstr "http:/a")) = false ∧
    tr_urlIsValidTracker_ptr (some (cstr "ftp://a")) = false ∧
    tr_urlIsValidTracker_ptr (some (cstr "http:///a")) = false ∧
    tr_urlIsValidTracker_ptr (some (cstr "http://a b")) = false := by
  decide

/-! ## tr_lowerBound -/

/-- One pass of the loop of `tr_lowerBound`. -/
theorem lowerBoundLoop_succ {κ α : Type} (compar : κ → α → Int) (key : κ)
    (base : Nat → Option α) (fuel first nmemb : Nat) (exact : Bool) :
    lowerBoundLoop compar key base (fuel + 1) first nmemb exact =
      if nmemb ≠ 0 then
        match base (first + nmemb / 2) with
        | none => Outcome.fault
        | some x =>
          if compar key x ≤ 0 then
            lowerBoundLoop compar key base fuel first (nmemb / 2)
              (if compar key x = 0 then true else exact)
          else
            lowerBoundLoop compar key base fuel (first + nmemb / 2 + 1)
              (nmemb - nmemb / 2 - 1) exact
      else Outcome.returned (first, exact) := rfl

/-- The loop of `tr_lowerBound` on an array whose elements below `p` compare
less than the key and whose elements from `p` on do not: entered with `p`
inside the range that is left, it ends with `first = p`; `exact` is set only
at an element that compares equal, stays set, and is set when the element at
`p` compares equal and is still inside the range. -/
theorem lowerBoundLoop_spec {κ α : Type} (compar : κ → α → Int) (key : κ)
    (base : Nat → Option α) (total p : Nat)
    (hlow : ∀ i, i < p → ∃ x, base i = some x ∧ 0 < compar key x)
    (hhigh : ∀ i, p ≤ i → i < total → ∃ x, base i = some x ∧ compar key x ≤ 0) :
    ∀ (fuel first nmemb : Nat) (exact : Bool), nmemb < fuel → first ≤ p → p ≤ first + nmemb →
      first + nmemb ≤ total →
      ∃ exact1, lowerBoundLoop compar key base fuel first nmemb exact =
          Outcome.returned (p, exact1) ∧
        (exact = true → exact1 = true) ∧
        (exact1 = true → exact = true ∨
          ∃ i x, i < total ∧ base i = some x ∧ compar key x = 0) ∧
        (∀ y, p < first + nmemb → base p = some y → compar key y = 0 → exact1 = true) := by
  intro fuel
  induction fuel with
  | zero => intro first nmemb exact h; omega
  | succ fuel ih =>
    intro first nmemb exact hf h1 h2 h3
    rw [lowerBoundLoop_succ]
    by_cases hn : nmemb = 0
    · rw [if_neg (by simpa using hn)]
      have hp : first = p := by omega
      subst hp
      exact ⟨exact, rfl, fun h => h, fun h => Or.inl h, fun y hlt => by omega⟩
    · rw [if_pos hn]
      have hhalf : nmemb / 2 < nmemb := Nat.div_lt_self (Nat.pos_of_ne_zero hn) (by decide)
      by_cases hmid : first + nmemb / 2 < p
      · obtain ⟨x, hx, hc⟩ := hlow _ hmid
        rw [hx]
        simp only
        rw [if_neg (by omega)]
        obtain ⟨e1, hrun, ha, hb, hd⟩ := ih (first + nmemb / 2 + 1) (nmemb - nmemb / 2 - 1) exact
          (by omega) (by omega) (by omega) (by omega)
        refine ⟨e1, hrun, ha, hb, ?_⟩
        intro y hlt
        exact hd y (by omega)
      · obtain ⟨x, hx, hc⟩ := hhigh (first + nmemb / 2) (by omega) (by omega)
        rw [hx]
        simp only
        rw [if_pos hc]
        obtain ⟨e1, hrun, ha, hb, hd⟩ := ih first (nmemb / 2)
          (if compar key x = 0 then true else exact) (by omega) h1 (by omega) (by omega)
        refine ⟨e1, hrun, ?_, ?_, ?_⟩
        · intro he
          apply ha
          rw [he]
          split <;> rfl
        · intro he
          rcases hb he with h | h
          · by_cases hz : compar key x = 0
            · exact Or.inr ⟨first + nmemb / 2, x, by omega, hx, hz⟩
            · rw [if_neg hz] at h
              exact Or.inl h
          · exact Or.inr h
        · intro y hlt hy hz
          by_cases hpm : p < first + nmemb / 2
          · exact hd y hpm hy hz
          · have hpe : first + nmemb / 2 = p := by omega
            rw [hpe, hy] at hx
            have hxy : y = x := Option.some.inj hx
            subst hxy
            apply ha
            rw [if_pos hz]

/-- C26, counterexample.  In the array 7, 9, 5 no element compares less than
the key 5, so the boundary is 0 and `tr_lowerBound` returns 0; the element at
index 2 compares equal to the key, but `*exact_match` is false.  In an array
of 2147483649 elements that all compare less than the key the boundary is
2147483649, and `tr_lowerBound`, which returns an `int`, returns
-2147483647. -/
theorem C26_lower_bound_counterexample :
    ((∀ i, i < 3 → ∃ x, arrayOf [(7 : Int), 9, 5] i = some x ∧ (5 : Int) - x ≤ 0) ∧
      tr_lowerBound (fun (k x : Int) => k - x) 5 (arrayOf [(7 : Int), 9, 5]) 3 =
        Outcome.returned (0, false) ∧
      arrayOf [(7 : Int), 9, 5] 2 = some 5 ∧ (5 : Int) - 5 = 0) ∧
    ((∀ i, i < 2147483649 →
        ∃ x, (fun (i : Nat) => if i < 2147483649 then some (0 : Int) else none) i = some x ∧
          0 < (1 : Int) - x) ∧
      tr_lowerBound (fun (k x : Int) => k - x) 1
          (fun (i : Nat) => if i < 2147483649 then some (0 : Int) else none) 2147483649 =
        Outcome.returned (-2147483647, false)) := by
  refine ⟨⟨by decide, by decide, by decide, by decide⟩, ?_, ?_⟩
  · intro i hi
    exact ⟨0, by simp [hi], by decide⟩
  · decide

/-- C26.  For every array of `nmemb` elements, `nmemb` not above `INT_MAX`,
and every key such that `compar (key, base[i]) > 0` for all `i` below a
boundary `p` and `<= 0` for all `i` from `p` on, `tr_lowerBound` terminates
and returns `p`, the index of the first element not less than the key
(`nmemb` if there is none).  It sets `*exact_match` to true if the element at
`p` compares equal to the key, and only if some element compares equal to the
key; where an element that compares equal exists only together with one at
`p`, as in a sorted array, `*exact_match` is true if and only if some element
compares equal, and if and only if `p < nmemb` and
`compar (key, base[p]) == 0`. -/
theorem C26_lower_bound {κ α : Type} (compar : κ → α → Int) (key : κ)
    (base : Nat → Option α) (nmemb p : Nat)
    (hp : p ≤ nmemb) (hint : (nmemb : Int) ≤ INT_MAX)
    (hlow : ∀ i, i < p → ∃ x, base i = some x ∧ 0 < compar key x)
    (hhigh : ∀ i, p ≤ i → i < nmemb → ∃ x, base i = some x ∧ compar key x ≤ 0) :
    ∃ exact, tr_lowerBound compar key base nmemb = Outcome.returned ((p : Int), exact) ∧
      ((p < nmemb ∧ ∃ y, base p = some y ∧ compar key y = 0) → exact = true) ∧
      (exact = true → ∃ i x, i < nmemb ∧ base i = some x ∧ compar key x = 0) ∧
      ((∀ i x, i < nmemb → base i = some x → compar key x = 0 →
          ∃ y, base p = some y ∧ compar key y = 0) →
        (exact = true ↔ ∃ i x, i < nmemb ∧ base i = some x ∧ compar key x = 0) ∧
        (exact = true ↔ p < nmemb ∧ ∃ y, base p = some y ∧ compar key y = 0)) := by
  obtain ⟨exact, hrun, _, hb, hd⟩ := lowerBoundLoop_spec compar key base nmemb p hlow hhigh
    (nmemb + 1) 0 nmemb false (by omega) (Nat.zero_le _) (by omega) (by omega)
  have hconv : toInt32 (p : Int) = (p : Int) := by
    unfold INT_MAX at hint
    unfold toInt32
    omega
  have h1 : (p < nmemb ∧ ∃ y, base p = some y ∧ compar key y = 0) → exact = true := by
    rintro ⟨hlt, y, hy, hz⟩
    exact hd y (by omega) hy hz
  have h2 : exact = true → ∃ i x, i < nmemb ∧ base i = some x ∧ compar key x = 0 := by
    intro he
    rcases hb he with h | h
    · exact absurd h (by simp)
    · exact h
  refine ⟨exact, ?_, h1, h2, ?_⟩
  · unfold tr_lowerBound
    rw [hrun]
    simp only
    rw [hconv]
  · intro hfirst
    have h3 : (∃ i x, i < nmemb ∧ base i = some x ∧ compar key x = 0) →
        p < nmemb ∧ ∃ y, base p = some y ∧ compar key y = 0 := by
      rintro ⟨i, x, hi, hx, hz⟩
      obtain ⟨y, hy, hyz⟩ := hfirst i x hi hx hz
      refine ⟨?_, y, hy, hyz⟩
      rcases Nat.lt_or_ge i p with hlt | hge
      · obtain ⟨x1, hx1, hpos⟩ := hlow i hlt
        rw [hx] at hx1
        rw [← Option.some.inj hx1, hz] at hpos
        exact absurd hpos (by decide)
      · exact Nat.lt_of_le_of_lt hge hi
    exact ⟨⟨h2, fun h => h1 (h3 h)⟩, ⟨fun h => h3 (h2 h), h1⟩⟩

/-- C26 at the sorted array 1, 3, 5, 5, 9 and the key 5, with the boundary
2. -/
theorem C26_lower_bound_witness :
    2 ≤ 5 ∧ ((5 : Nat) : Int) ≤ INT_MAX ∧
    (∀ i, i < 2 → ∃ x, arrayOf [(1 : Int), 3, 5, 5, 9] i = some x ∧ 0 < (5 : Int) - x) ∧
    (∀ i, 2 ≤ i → i < 5 → ∃ x, arrayOf [(1 : Int), 3, 5, 5, 9] i = some x ∧ (5 : Int) - x ≤ 0) ∧
    ∃ exact, tr_lowerBound (fun (k x : Int) => k - x) 5 (arrayOf [(1 : Int), 3, 5, 5, 9]) 5 =
        Outcome.returned (((2 : Nat) : Int), exact) ∧
      ((2 < 5 ∧ ∃ y, arrayOf [(1 : Int), 3, 5, 5, 9] 2 = some y ∧ (5 : Int) - y = 0) →
        exact = true) ∧
      (exact = true →
        ∃ i x, i < 5 ∧ arrayOf [(1 : Int), 3, 5, 5, 9] i = some x ∧ (5 : Int) - x = 0) ∧
      ((∀ i x, i < 5 → arrayOf [(1 : Int), 3, 5, 5, 9] i = some x → (5 : Int) - x = 0 →
          ∃ y, arrayOf [(1 : Int), 3, 5, 5, 9] 2 = some y ∧ (5 : Int) - y = 0) →
        (exact = true ↔
          ∃ i x, i < 5 ∧ arrayOf [(1 : Int), 3, 5, 5, 9] i = some x ∧ (5 : Int) - x = 0) ∧
        (exact = true ↔
          2 < 5 ∧ ∃ y, arrayOf [(1 : Int), 3, 5, 5, 9] 2 = some y ∧ (5 : Int) - y = 0)) :=
  ⟨by decide, by decide, by decide, by decide,
    C26_lower_bound (fun (k x : Int) => k - x) 5 (arrayOf [(1 : Int), 3, 5, 5, 9]) 5 2
      (by decide) (by decide) (by decide) (by decide)⟩

/-- The run of the witness of C26, evaluated, and runs with a key that is not
in the array, below all elements, and above all elements. -/
theorem tr_lowerBound_examples :
    tr_lowerBound (fun (k x : Int) => k - x) 5 (arrayOf [(1 : Int), 3, 5, 5, 9]) 5 =
      Outcome.returned (2, true) ∧
    tr_lowerBound (fun (k x : Int) => k - x) 4 (arrayOf [(1 : Int), 3, 5, 5, 9]) 5 =
      Outcome.returned (2, false) ∧
    tr_lowerBound (fun (k x : Int) => k - x) 0 (arrayOf [(1 : Int), 3, 5, 5, 9]) 5 =
      Outcome.returned (0, false) ∧
    tr_lowerBound (fun (k x : Int) => k - x) 10 (arrayOf [(1 : Int), 3, 5, 5, 9]) 5 =
      Outcome.returned (5, false) ∧
    tr_lowerBound (fun (k x : Int) => k - x) 10 (arrayOf ([] : List Int)) 0 =
      Outcome.returned (0, false) := by
  decide

/-! ## The order of the needed pieces -/

/-- Entries that were never requested are sorted. -/
theorem allPiecesNeeded_sorted (n : Int) (t : Int) (ht : 0 ≤ t) :
    (allPiecesNeeded n).Pairwise (fun a b => a.requestedAt ≤ b.requestedAt) ∧
      ∀ nd ∈ allPiecesNeeded n, nd.requestedAt ≤ t := by
  have hz : ∀ nd ∈ allPiecesNeeded n, nd.requestedAt = 0 := by
    intro nd hnd
    unfold allPiecesNeeded at hnd
    obtain ⟨i, _, hi⟩ := List.mem_map.mp hnd
    rw [← hi]
  constructor
  · apply List.pairwise_of_forall_mem_list
    intro a ha b hb
    rw [hz a ha, hz b hb]
  · intro nd hnd
    rw [hz nd hnd]
    exact ht

/-- The order holds up to every later time. -/
theorem neededSortedUntil_mono (t t1 : Int) (tor : tr_torrent) (h : t ≤ t1)
    (hs : NeededSortedUntil t tor) : NeededSortedUntil t1 tor := by
  intro m hm
  obtain ⟨h1, h2⟩ := hs m hm
  exact ⟨h1, fun nd hnd => Int.le_trans (h2 nd hnd) h⟩

/-- A size hint keeps the needed pieces sorted. -/
theorem sizeHint_sorted (uninit : Nat → Nat) (tor tor1 : tr_torrent) (size t : Int)
    (ht : 0 ≤ t) (hs : NeededSortedUntil t tor)
    (h : tr_torrentSetMetadataSizeHint uninit tor size = Outcome.returned tor1) :
    NeededSortedUntil t tor1 := by
  unfold tr_torrentSetMetadataSizeHint at h
  split at h
  · cases hm : tor.incompleteMetadata with
    | none =>
      simp only [hm] at h
      split at h
      · exact absurd h (by simp)
      · have h1 := (Outcome.returned.inj h).symm
        subst h1
        intro m1 hm1
        have := Option.some.inj hm1
        subst this
        exact allPiecesNeeded_sorted _ t ht
    | some m =>
      simp only [hm] at h
      rw [← Outcome.returned.inj h]; exact hs
  · rw [← Outcome.returned.inj h]; exact hs

/-- A request at a time not before the last one keeps the needed pieces
sorted: the piece requested goes to the end with the time of the request. -/
theorem nextRequest_sorted (tor tor1 : tr_torrent) (t now : Int) (p : Option Int)
    (hnow : t ≤ now) (hs : NeededSortedUntil t tor)
    (h : tr_torrentGetNextMetadataRequest tor now = Outcome.returned (tor1, p)) :
    NeededSortedUntil now tor1 := by
  rcases nextRequest_cases tor tor1 now p h with ⟨h1, _⟩ | ⟨m, node, rest, hm, hl, _, _, h1⟩
  · rw [h1]
    exact neededSortedUntil_mono t now tor hnow hs
  · obtain ⟨hp, hb⟩ := hs m hm
    rw [hl] at hp hb
    intro m1 hm1
    rw [h1] at hm1
    have := Option.some.inj hm1
    subst this
    simp only
    constructor
    · rw [List.pairwise_append]
      refine ⟨(List.pairwise_cons.mp hp).2, List.pairwise_singleton _ _, ?_⟩
      intro a ha b hb1
      rw [List.mem_singleton.mp hb1]
      exact Int.le_trans (hb a (List.mem_cons_of_mem _ ha)) hnow
    · intro nd hnd
      rcases List.mem_append.mp hnd with h2 | h2
      · exact Int.le_trans (hb nd (List.mem_cons_of_mem _ h2)) hnow
      · rw [List.mem_singleton.mp h2]

/-- The delivery of a piece keeps the needed pieces sorted: the entry of the
piece is taken out, or every piece is needed again and none requested. -/
theorem setPiece_sorted (sha1 : List Nat → List Nat)
    (parse : tr_torrent → List Nat → Option (tr_info × Int))
    (tor tor1 : tr_torrent) (piece : Int) (data : List Nat) (t : Int) (ht : 0 ≤ t)
    (hs : NeededSortedUntil t tor)
    (h : tr_torrentSetMetadataPiece sha1 parse tor piece data = Outcome.returned tor1) :
    NeededSortedUntil t tor1 := by
  rcases setMetadataPiece_detail sha1 parse tor tor1 piece data h with
    h1 | ⟨m, i, buf, hm, _, _, h1⟩ | ⟨m, i, buf, hm, _, _, _, _, h1 | h1⟩
  · rw [h1]; exact hs
  · obtain ⟨hp, hb⟩ := hs m hm
    intro m1 hm1
    rw [h1] at hm1
    have := Option.some.inj hm1
    subst this
    simp only
    exact ⟨hp.sublist (List.eraseIdx_sublist _ _),
      fun nd hnd => hb nd ((List.eraseIdx_sublist _ _).subset hnd)⟩
  · intro m1 hm1
    rw [h1] at hm1
    exact absurd hm1 (by simp)
  · intro m1 hm1
    rw [h1] at hm1
    have := Option.some.inj hm1
    subst this
    exact allPiecesNeeded_sorted _ t ht

/-- Over a sequence of calls with a clock that does not run backwards the
needed pieces stay sorted. -/
theorem magnetRun_sorted (uninit : Nat → Nat) (sha1 : List Nat → List Nat)
    (parse : tr_torrent → List Nat → Option (tr_info × Int)) :
    ∀ (calls : List MagnetCall) (tor tor2 : tr_torrent) (log : List MagnetEvent) (t : Int),
      0 ≤ t → (t :: clockOf calls).Pairwise (fun a b => a ≤ b) →
      NeededSortedUntil t tor →
      magnetRun uninit sha1 parse tor calls = Outcome.returned (tor2, log) →
      ∃ t2, NeededSortedUntil t2 tor2 := by
  intro calls
  induction calls with
  | nil =>
    intro tor tor2 log t _ _ hs h
    simp only [magnetRun] at h
    rw [← (Prod.mk.inj (Outcome.returned.inj h)).1]
    exact ⟨t, hs⟩
  | cons c rest ih =>
    intro tor tor2 log t ht hclock hs h
    cases c with
    | sizeHint size =>
      obtain ⟨tor1, log1, hstep, hrest, _⟩ := magnetRun_sizeHint uninit sha1 parse _ _ _ _ _ h
      exact ih tor1 tor2 log1 t ht hclock (sizeHint_sorted uninit tor tor1 size t ht hs hstep)
        hrest
    | nextRequest now =>
      obtain ⟨tor1, p, log1, hstep, hrest, _⟩ :=
        magnetRun_nextRequest uninit sha1 parse _ _ _ _ _ h
      have hc : (t :: now :: clockOf rest).Pairwise (fun a b => a ≤ b) := hclock
      have hnow : t ≤ now := (List.pairwise_cons.mp hc).1 now (List.mem_cons_self _ _)
      exact ih tor1 tor2 log1 now (Int.le_trans ht hnow) (List.pairwise_cons.mp hc).2
        (nextRequest_sorted tor tor1 t now p hnow hs hstep) hrest
    | setPiece piece data =>
      obtain ⟨tor1, log1, hstep, hrest, _⟩ :=
        magnetRun_setPiece uninit sha1 parse _ _ _ _ _ _ h
      exact ih tor1 tor2 log1 t ht hclock
        (setPiece_sorted sha1 parse tor tor1 piece data t ht hs hstep) hrest

/-- C25.  In every state reached from a torrent without incomplete metadata
through calls of `tr_torrentSetMetadataSizeHint`,
`tr_torrentGetNextMetadataRequest` and `tr_torrentSetMetadataPiece`, the
values of `now` being non-negative and non-decreasing, the entries
`piecesNeeded[0 .. piecesNeededCount)` are sorted by `requestedAt` in
non-decreasing order, so that the entry at index 0 is a least recently
requested needed piece. -/
theorem C25_needed_pieces_sorted_by_request_time (uninit : Nat → Nat)
    (sha1 : List Nat → List Nat) (parse : tr_torrent → List Nat → Option (tr_info × Int))
    (tor0 tor : tr_torrent) (calls : List MagnetCall) (log : List MagnetEvent)
    (h0 : tor0.incompleteMetadata = none)
    (hnonneg : ∀ now ∈ clockOf calls, 0 ≤ now)
    (hmono : (clockOf calls).Pairwise (fun a b => a ≤ b))
    (hrun : magnetRun uninit sha1 parse tor0 calls = Outcome.returned (tor, log)) :
    ∀ m, tor.incompleteMetadata = some m →
      m.piecesNeeded.length = m.piecesNeededCount.toNat ∧
      m.piecesNeeded.Pairwise (fun a b => a.requestedAt ≤ b.requestedAt) ∧
      ∀ first rest, m.piecesNeeded = first :: rest →
        ∀ nd ∈ m.piecesNeeded, first.requestedAt ≤ nd.requestedAt := by
  intro m hm
  have hwf0 : NeededWellFormed tor0 := by
    intro m0 hm0
    rw [h0] at hm0
    exact absurd hm0 (by simp)
  have hwf := magnetRun_wellFormed uninit sha1 parse calls tor0 tor log hwf0 hrun
  have hs0 : NeededSortedUntil 0 tor0 := by
    intro m0 hm0
    rw [h0] at hm0
    exact absurd hm0 (by simp)
  obtain ⟨t2, hs⟩ := magnetRun_sorted uninit sha1 parse calls tor0 tor log 0 (Int.le_refl _)
    (List.pairwise_cons.mpr ⟨hnonneg, hmono⟩) hs0 hrun
  obtain ⟨hp, _⟩ := hs m hm
  refine ⟨(hwf m hm).2, hp, ?_⟩
  intro first rest hl nd hnd
  rw [hl] at hp hnd
  rcases List.mem_cons.mp hnd with h | h
  · rw [h]
  · exact (List.pairwise_cons.mp hp).1 nd h

/-- A size hint of 16385 bytes on a torrent without metadata asks for two
pieces. -/
theorem sizeHint_two_pieces :
    tr_torrentSetMetadataSizeHint (fun _ => 0) { info := { hash := [1] } } 16385 =
      Outcome.returned
        { info := { hash := [1] },
          incompleteMetadata := some
            ⟨(List.range 16385).map (fun _ => 0), 16385, 2, [⟨0, 0⟩, ⟨0, 1⟩], 2⟩ } := by
  have h1 : tr_torrentHasMetadata { info := { hash := [1] } } = false := by decide
  have h2 : intResult (16385 + (METADATA_PIECE_SIZE - 1)) = some 32768 := by decide
  have h3 : Int.tdiv 32768 METADATA_PIECE_SIZE = 2 := by decide
  have h4 : allPiecesNeeded 2 = [⟨0, 0⟩, ⟨0, 1⟩] := by decide
  have h5 : (16385 : Int).toNat = 16385 := by decide
  unfold tr_torrentSetMetadataSizeHint
  rw [h1]
  simp only [h2, h3, h4, h5, Bool.not_false, if_true]

/-- A request when the first needed piece was last requested more than
`MIN_REPEAT_INTERVAL_SECS` ago: the piece goes to the end of the array with
the time of the request. -/
theorem nextRequest_step (info : tr_info) (md : List Nat) (sz pc cnt : Int)
    (node : metadata_node) (rest : List metadata_node) (now : Int) (hc : cnt > 0)
    (h : node.requestedAt + MIN_REPEAT_INTERVAL_SECS < now) :
    tr_torrentGetNextMetadataRequest
        { info := info, incompleteMetadata := some ⟨md, sz, pc, node :: rest, cnt⟩ } now =
      Outcome.returned
        ({ info := info,
           incompleteMetadata := some ⟨md, sz, pc, rest ++ [⟨now, node.piece⟩], cnt⟩ },
          some node.piece) := by
  unfold tr_torrentGetNextMetadataRequest
  simp only [hc, h, if_true]

/-- A run that starts with a size hint. -/
theorem magnetRun_cons_sizeHint (uninit : Nat → Nat) (sha1 : List Nat → List Nat)
    (parse : tr_torrent → List Nat → Option (tr_info × Int))
    (tor tor1 tor2 : tr_torrent) (size : Int) (rest : List MagnetCall) (log : List MagnetEvent)
    (h1 : tr_torrentSetMetadataSizeHint uninit tor size = Outcome.returned tor1)
    (h2 : magnetRun uninit sha1 parse tor1 rest = Outcome.returned (tor2, log)) :
    magnetRun uninit sha1 parse tor (MagnetCall.sizeHint size :: rest) =
      Outcome.returned (tor2, MagnetEvent.hinted :: log) := by
  simp only [magnetRun, h1, h2]

/-- A run that starts with a request. -/
theorem magnetRun_cons_nextRequest (uninit : Nat → Nat) (sha1 : List Nat → List Nat)
    (parse : tr_torrent → List Nat → Option (tr_info × Int))
    (tor tor1 tor2 : tr_torrent) (now : Int) (piece : Option Int) (rest : List MagnetCall)
    (log : List MagnetEvent)
    (h1 : tr_torrentGetNextMetadataRequest tor now = Outcome.returned (tor1, piece))
    (h2 : magnetRun uninit sha1 parse tor1 rest = Outcome.returned (tor2, log)) :
    magnetRun uninit sha1 parse tor (MagnetCall.nextRequest now :: rest) =
      Outcome.returned (tor2, MagnetEvent.requested now piece :: log) := by
  simp only [magnetRun, h1, h2]

/-- A run in which two pieces are needed: a size hint of 16385 bytes and two
requests, which ask for piece 0 and piece 1. -/
theorem magnetRun_two_pieces :
    magnetRun (fun _ => 0) (fun _ => [0]) (fun _ _ => none)
      { info := { hash := [1] } }
      [MagnetCall.sizeHint 16385, MagnetCall.nextRequest 10, MagnetCall.nextRequest 11] =
    Outcome.returned
      ({ info := { hash := [1] },
         incompleteMetadata := some
           ⟨(List.range 16385).map (fun _ => 0), 16385, 2, [⟨10, 0⟩, ⟨11, 1⟩], 2⟩ },
       [MagnetEvent.hinted, MagnetEvent.requested 10 (some 0),
         MagnetEvent.requested 11 (some 1)]) :=
  magnetRun_cons_sizeHint _ _ _ _ _ _ _ _ _ sizeHint_two_pieces
    (magnetRun_cons_nextRequest _ _ _ _ _ _ _ _ _ _
      (nextRequest_step { hash := [1] } _ 16385 2 2 ⟨0, 0⟩ [⟨0, 1⟩] 10 (by decide) (by decide))
      (magnetRun_cons_nextRequest _ _ _ _ _ _ _ _ _ _
        (nextRequest_step { hash := [1] } _ 16385 2 2 ⟨0, 1⟩ [⟨10, 0⟩] 11 (by decide)
          (by decide))
        rfl))

/-- C25 at a run with a size hint for two pieces and two requests: piece 0,
requested at time 10, stands before piece 1, requested at time 11. -/
theorem C25_needed_pieces_sorted_by_request_time_witness :
    (∀ now ∈ clockOf [MagnetCall.sizeHint 16385, MagnetCall.nextRequest 10,
        MagnetCall.nextRequest 11], 0 ≤ now) ∧
    (clockOf [MagnetCall.sizeHint 16385, MagnetCall.nextRequest 10,
        MagnetCall.nextRequest 11]).Pairwise (fun a b => a ≤ b) ∧
    ∀ m,
      ({ info := { hash := [1] },
         incompleteMetadata := some
           ⟨(List.range 16385).map (fun _ => 0), 16385, 2, [⟨10, 0⟩, ⟨11, 1⟩], 2⟩ } :
        tr_torrent).incompleteMetadata = some m →
      m.piecesNeeded.length = m.piecesNeededCount.toNat ∧
      m.piecesNeeded.Pairwise (fun a b => a.requestedAt ≤ b.requestedAt) ∧
      ∀ first rest, m.piecesNeeded = first :: rest →
        ∀ nd ∈ m.piecesNeeded, first.requestedAt ≤ nd.requestedAt :=
  ⟨by decide, by decide,
    C25_needed_pieces_sorted_by_request_time (fun _ => 0) (fun _ => [0]) (fun _ _ => none)
      { info := { hash := [1] } }
      { info := { hash := [1] },
        incompleteMetadata := some
          ⟨(List.range 16385).map (fun _ => 0), 16385, 2, [⟨10, 0⟩, ⟨11, 1⟩], 2⟩ }
      [MagnetCall.sizeHint 16385, MagnetCall.nextRequest 10, MagnetCall.nextRequest 11]
      [MagnetEvent.hinted, MagnetEvent.requested 10 (some 0), MagnetEvent.requested 11 (some 1)]
      rfl (by decide) (by decide) magnetRun_two_pieces⟩

/-- A run with one needed piece, evaluated: the piece is requested at time
10, not again at time 11, and again at time 20. -/
theorem magnetRun_one_piece_example :
    magnetRun (fun _ => 0) (fun _ => [0]) (fun _ _ => none) { info := { hash := [1] } }
      [MagnetCall.sizeHint 2, MagnetCall.nextRequest 10, MagnetCall.nextRequest 11,
        MagnetCall.nextRequest 20] =
    Outcome.returned
      ({ info := { hash := [1] },
         incompleteMetadata := some ⟨[0, 0], 2, 1, [⟨20, 0⟩], 1⟩ },
       [MagnetEvent.hinted, MagnetEvent.requested 10 (some 0), MagnetEvent.requested 11 none,
         MagnetEvent.requested 20 (some 0)]) := by
  decide

/-! ## The pieces that verifyTorrent marks as checked -/

/-- One pass of the loop of `verifyTorrent` marks the piece it finishes, if
any, as checked: where the pieces before `pieceIndex` were marked in
increasing order, they are again after the pass. -/
theorem verifyPass_checked (sha1 : List Nat → List Nat) (disk : VerifyDisk) (tor : tr_torrent)
    (s s1 : VerifyState) (h : verifyPass sha1 disk tor s = some s1)
    (hc : s.checked = List.range s.pieceIndex) :
    s1.checked = List.range s1.pieceIndex ∧
      (s1.pieceIndex = s.pieceIndex ∨ s1.pieceIndex = s.pieceIndex + 1) := by
  unfold verifyPass at h
  split at h
  · rename_i file pieceHash _ _
    simp only at h
    have h1 := (Option.some.inj h).symm
    subst h1
    by_cases hp : subU32 (leftInPiece tor s) (bytesThisPass disk tor file s) = 0
    · rw [if_pos hp]
      by_cases hf : subU64 (leftInFile file s) (bytesThisPass disk tor file s) = 0
      · rw [if_pos hf]
        simp only [finishFile, finishPiece, hc, List.range_succ]
        exact ⟨trivial, Or.inr trivial⟩
      · rw [if_neg hf]
        simp only [finishPiece, hc, List.range_succ]
        exact ⟨trivial, Or.inr trivial⟩
    · rw [if_neg hp]
      by_cases hf : subU64 (leftInFile file s) (bytesThisPass disk tor file s) = 0
      · rw [if_pos hf]
        simp only [finishFile, hc]
        exact ⟨trivial, Or.inl trivial⟩
      · rw [if_neg hf]
        simp only [hc]
        exact ⟨trivial, Or.inl trivial⟩
  · exact absurd h (by simp)

/-- The loop of `verifyTorrent` marks the pieces as checked in increasing
order, each once, whatever the stop flag does. -/
theorem verifyLoop_checked (sha1 : List Nat → List Nat) (disk : VerifyDisk)
    (stopFlag : Nat → Bool) (tor : tr_torrent) :
    ∀ (fuel k : Nat) (s s1 : VerifyState),
      verifyLoop sha1 disk stopFlag tor fuel k s = Outcome.returned s1 →
      s.checked = List.range s.pieceIndex →
      s1.checked = List.range s1.pieceIndex := by
  intro fuel
  induction fuel with
  | zero =>
    intro k s s1 h
    exact absurd h (by simp [verifyLoop])
  | succ fuel ih =>
    intro k s s1 h hc
    rw [verifyLoop_succ] at h
    split at h
    · split at h
      · rename_i s2 hpass
        exact ih (k + 1) s2 s1 h (verifyPass_checked sha1 disk tor s s2 hpass hc).1
      · exact absurd h (by simp)
    · rw [← Outcome.returned.inj h]
      exact hc

/-- C24.  For every torrent whose file lengths sum to the total size and
whose piece sizes are positive and sum to the total size (files of length
zero allowed), with the stop flag never set and for every pattern of open
failures, short reads and failed reads, `verifyTorrent` returns, having
marked each piece index `0 .. pieceCount - 1` as checked exactly once, in
increasing order: the loop terminates and never reads `files[]` or `pieces[]`
outside the array. -/
theorem C24_each_piece_checked_once_in_order (sha1 : List Nat → List Nat) (disk : VerifyDisk)
    (tor : tr_torrent) (hwf : VerifyWellFormed tor) :
    (∃ changed completion hashed,
      verifyTorrent sha1 disk (fun _ => false) tor =
        Outcome.returned (changed, { tor with completion := completion }, hashed)) ∧
    verifyTorrentChecked sha1 disk (fun _ => false) tor =
      Outcome.returned (List.range tor.info.pieces.length) := by
  obtain ⟨s1, hrun, _, hend⟩ := verifyLoop_returns sha1 disk tor hwf
    (totalLength tor.info.files + tor.info.files.length + tor.info.pieces.length + 1) 0
    { completion := tor.completion } (verify_initial_invariant sha1 tor hwf) (by omega)
  have hc := verifyLoop_checked sha1 disk (fun _ => false) tor _ 0 _ s1 hrun rfl
  constructor
  · refine ⟨s1.changed, s1.completion, s1.hashed, ?_⟩
    unfold verifyTorrent
    rw [hrun]
  · unfold verifyTorrentChecked
    rw [hrun]
    simp only
    rw [hc, hend]

/-- C24 at a torrent of three pieces over the files of 3, 0 and 2 bytes, the
last of which cannot be opened. -/
theorem C24_each_piece_checked_once_in_order_witness :
    VerifyWellFormed
      { info := { files := [⟨3⟩, ⟨0⟩, ⟨2⟩], pieces := [[1, 2], [3, 4], [9]], pieceSize := 2 },
        lastPieceSize := 1, completion := [false, false, true] } ∧
    (∃ changed completion hashed,
      verifyTorrent (fun bs => bs)
          ⟨fun i => decide (i < 2),
            fun i _ o => some ((([[1, 2, 3], [], [4, 5]] : List (List Nat)).getD i []).drop o)⟩
          (fun _ => false)
          { info := { files := [⟨3⟩, ⟨0⟩, ⟨2⟩], pieces := [[1, 2], [3, 4], [9]],
                      pieceSize := 2 },
            lastPieceSize := 1, completion := [false, false, true] } =
        Outcome.returned (changed,
          { info := { files := [⟨3⟩, ⟨0⟩, ⟨2⟩], pieces := [[1, 2], [3, 4], [9]],
                      pieceSize := 2 },
            lastPieceSize := 1, completion := completion }, hashed)) ∧
    verifyTorrentChecked (fun bs => bs)
        ⟨fun i => decide (i < 2),
          fun i _ o => some ((([[1, 2, 3], [], [4, 5]] : List (List Nat)).getD i []).drop o)⟩
        (fun _ => false)
        { info := { files := [⟨3⟩, ⟨0⟩, ⟨2⟩], pieces := [[1, 2], [3, 4], [9]], pieceSize := 2 },
          lastPieceSize := 1, completion := [false, false, true] } =
      Outcome.returned (List.range 3) :=
  ⟨by decide,
    C24_each_piece_checked_once_in_order (fun bs => bs)
      ⟨fun i => decide (i < 2),
        fun i _ o => some ((([[1, 2, 3], [], [4, 5]] : List (List Nat)).getD i []).drop o)⟩
      { info := { files := [⟨3⟩, ⟨0⟩, ⟨2⟩], pieces := [[1, 2], [3, 4], [9]], pieceSize := 2 },
        lastPieceSize := 1, completion := [false, false, true] } (by decide)⟩

/-- The run of the witness of C24, evaluated: the pieces 0, 1 and 2 are
marked as checked, and nothing could be hashed for the last one. -/
theorem verifyTorrentChecked_example :
    verifyTorrentChecked (fun bs => bs)
        ⟨fun i => decide (i < 2),
          fun i _ o => some ((([[1, 2, 3], [], [4, 5]] : List (List Nat)).getD i []).drop o)⟩
        (fun _ => false)
        { info := { files := [⟨3⟩, ⟨0⟩, ⟨2⟩], pieces := [[1, 2], [3, 4], [9]], pieceSize := 2 },
          lastPieceSize := 1, completion := [false, false, true] } =
      Outcome.returned [0, 1, 2] ∧
    verifyTorrent (fun bs => bs)
        ⟨fun i => decide (i < 2),
          fun i _ o => some ((([[1, 2, 3], [], [4, 5]] : List (List Nat)).getD i []).drop o)⟩
        (fun _ => false)
        { info := { files := [⟨3⟩, ⟨0⟩, ⟨2⟩], pieces := [[1, 2], [3, 4], [9]], pieceSize := 2 },
          lastPieceSize := 1, completion := [false, false, true] } =
      Outcome.returned (true,
        { info := { files := [⟨3⟩, ⟨0⟩, ⟨2⟩], pieces := [[1, 2], [3, 4], [9]], pieceSize := 2 },
          lastPieceSize := 1, completion := [true, false, false] },
        [[1, 2], [3], []]) := by
  constructor <;> rfl

/-- With the stop flag never set, `verifyTorrent` on a well-formed torrent
marks every piece as checked, in increasing order, whatever the disk
does. -/
theorem verifyTorrentChecked_all (sha1 : List Nat → List Nat) (disk : VerifyDisk)
    (tor : tr_torrent) (hwf : VerifyWellFormed tor) :
    verifyTorrentChecked sha1 disk (fun _ => false) tor =
      Outcome.returned (List.range tor.info.pieces.length) := by
  obtain ⟨s1, hrun, _, hend⟩ := verifyLoop_returns sha1 disk tor hwf
    (totalLength tor.info.files + tor.info.files.length + tor.info.pieces.length + 1) 0
    { completion := tor.completion } (verify_initial_invariant sha1 tor hwf) (by omega)
  have hc := verifyLoop_checked sha1 disk (fun _ => false) tor _ 0 _ s1 hrun rfl
  unfold verifyTorrentChecked
  rw [hrun]
  simp only
  rw [hc, hend]

/-- C18 amended: a read error during `verifyTorrent` is not fatal.  For every
well-formed torrent and every pattern of files that cannot be opened and
reads that fail or fall short, the run returns and marks every piece as
checked, so verification continues behind bytes that could not be read.
Every piece, also one that follows such bytes, is compared with its hash: no
more bytes are hashed for it than it has, and it ends the run marked complete
exactly when the SHA-1 of the bytes that were read for it equals its hash in
the metainfo.  So every piece whose hash differs ends marked incomplete, be
it read in full or not, and a piece with bytes that could not be read (fewer
bytes hashed than the piece has) ends marked incomplete unless the SHA-1 of
the bytes that were read for it equals its hash. -/
theorem C18_read_errors_not_fatal (sha1 : List Nat → List Nat) (disk : VerifyDisk)
    (tor : tr_torrent) (hwf : VerifyWellFormed tor) :
    verifyTorrentChecked sha1 disk (fun _ => false) tor =
      Outcome.returned (List.range tor.info.pieces.length) ∧
    ∃ changed completion hashed,
      verifyTorrent sha1 disk (fun _ => false) tor =
          Outcome.returned (changed, { tor with completion := completion }, hashed) ∧
        hashed.length = tor.info.pieces.length ∧
        ∀ i, i < tor.info.pieces.length →
          ∃ h bs, tor.info.pieces[i]? = some h ∧ hashed[i]? = some bs ∧
            bs.length ≤ tr_torPieceCountBytes tor i ∧
            (tr_cpPieceIsComplete completion i = true ↔ sha1 bs = h) ∧
            (sha1 bs ≠ h → tr_cpPieceIsComplete completion i = false) ∧
            (bs.length < tr_torPieceCountBytes tor i → sha1 bs ≠ h →
              tr_cpPieceIsComplete completion i = false) ∧
            (sha1 bs = h → tr_cpPieceIsComplete completion i = true) := by
  obtain ⟨changed, completion, hashed, hrun, hlen, hbound, hbits⟩ :=
    verifyTorrent_spec sha1 disk tor hwf
  refine ⟨verifyTorrentChecked_all sha1 disk tor hwf, changed, completion, hashed, hrun, hlen,
    ?_⟩
  intro i hi
  have h1 : tor.info.pieces[i]? = some tor.info.pieces[i] := List.getElem?_eq_getElem hi
  have h2 : hashed[i]? = some (hashed[i]) := List.getElem?_eq_getElem (by omega)
  have hb := hbits i _ _ h1 h2
  have hne : sha1 hashed[i] ≠ tor.info.pieces[i] →
      tr_cpPieceIsComplete completion i = false := by
    intro hne
    cases hc : tr_cpPieceIsComplete completion i with
    | false => rfl
    | true => exact absurd (hb.mp hc) hne
  exact ⟨_, _, h1, h2, hbound i _ h2, hb, hne, fun _ => hne, hb.mpr⟩

/-- Witness for C18: file 0 of two files cannot be opened.  Piece 0 lies in
file 0: nothing is read for it and it ends incomplete.  Piece 1 has one byte
in file 0 and one in file 1: one byte is read and it ends incomplete.
Piece 2 lies in file 1: it is read and matches. -/
theorem C18_read_errors_not_fatal_witness :
    VerifyWellFormed
      { info := { files := [⟨3⟩, ⟨2⟩], pieces := [[1, 2], [3, 4], [5]], pieceSize := 2 },
        lastPieceSize := 1, completion := [true, true, false] } ∧
    verifyTorrentChecked (fun bs => bs)
        ⟨fun i => decide (i = 1),
          fun i _ o => some ((([[1, 2, 3], [4, 5]] : List (List Nat)).getD i []).drop o)⟩
        (fun _ => false)
        { info := { files := [⟨3⟩, ⟨2⟩], pieces := [[1, 2], [3, 4], [5]], pieceSize := 2 },
          lastPieceSize := 1, completion := [true, true, false] } =
      Outcome.returned (List.range 3) ∧
    ∃ changed completion hashed,
      verifyTorrent (fun bs => bs)
          ⟨fun i => decide (i = 1),
            fun i _ o => some ((([[1, 2, 3], [4, 5]] : List (List Nat)).getD i []).drop o)⟩
          (fun _ => false)
          { info := { files := [⟨3⟩, ⟨2⟩], pieces := [[1, 2], [3, 4], [5]], pieceSize := 2 },
            lastPieceSize := 1, completion := [true, true, false] } =
        Outcome.returned (changed,
          { info := { files := [⟨3⟩, ⟨2⟩], pieces := [[1, 2], [3, 4], [5]], pieceSize := 2 },
            lastPieceSize := 1, completion := completion }, hashed) ∧
        hashed.length = 3 ∧
        ∀ i, i < 3 →
          ∃ h bs, ([[1, 2], [3, 4], [5]] : List (List Nat))[i]? = some h ∧
            hashed[i]? = some bs ∧
            bs.length ≤ tr_torPieceCountBytes
              { info := { files := [⟨3⟩, ⟨2⟩], pieces := [[1, 2], [3, 4], [5]], pieceSize := 2 },
                lastPieceSize := 1, completion := [true, true, false] } i ∧
            (tr_cpPieceIsComplete completion i = true ↔ (fun bs => bs) bs = h) ∧
            ((fun bs => bs) bs ≠ h → tr_cpPieceIsComplete completion i = false) ∧
            (bs.length < tr_torPieceCountBytes
              { info := { files := [⟨3⟩, ⟨2⟩], pieces := [[1, 2], [3, 4], [5]], pieceSize := 2 },
                lastPieceSize := 1, completion := [true, true, false] } i →
              (fun bs => bs) bs ≠ h → tr_cpPieceIsComplete completion i = false) ∧
            ((fun bs => bs) bs = h → tr_cpPieceIsComplete completion i = true) :=
  ⟨by decide,
    C18_read_errors_not_fatal (fun bs => bs)
      ⟨fun i => decide (i = 1),
        fun i _ o => some ((([[1, 2, 3], [4, 5]] : List (List Nat)).getD i []).drop o)⟩
      { info := { files := [⟨3⟩, ⟨2⟩], pieces := [[1, 2], [3, 4], [5]], pieceSize := 2 },
        lastPieceSize := 1, completion := [true, true, false] } (by decide)⟩

/-- A run in which a piece that is read in full follows bytes that could not
be read, evaluated: file 0 cannot be opened, so piece 0 ends incomplete; the
pieces 1 and 2 lie in file 1 and are read in full; piece 1 matches its hash
and ends complete, piece 2 does not and ends incomplete, though it was marked
complete before. -/
theorem verifyTorrent_later_pieces_example :
    verifyTorrent (fun bs => bs)
        ⟨fun i => decide (i = 1),
          fun i _ o => some ((([[1, 2], [3, 4, 5, 6]] : List (List Nat)).getD i []).drop o)⟩
        (fun _ => false)
        { info := { files := [⟨2⟩, ⟨4⟩], pieces := [[1, 2], [3, 4], [9, 9]], pieceSize := 2 },
          lastPieceSize := 2, completion := [true, false, true] } =
      Outcome.returned (true,
        { info := { files := [⟨2⟩, ⟨4⟩], pieces := [[1, 2], [3, 4], [9, 9]], pieceSize := 2 },
          lastPieceSize := 2, completion := [false, true, false] },
        [[], [3, 4], [5, 6]]) ∧
    verifyTorrentChecked (fun bs => bs)
        ⟨fun i => decide (i = 1),
          fun i _ o => some ((([[1, 2], [3, 4, 5, 6]] : List (List Nat)).getD i []).drop o)⟩
        (fun _ => false)
        { info := { files := [⟨2⟩, ⟨4⟩], pieces := [[1, 2], [3, 4], [9, 9]], pieceSize := 2 },
          lastPieceSize := 2, completion := [true, false, true] } =
      Outcome.returned [0, 1, 2] := by
  decide

/-! ## tr_quickfindFirstK -/

/-- Putting `x` where `y` was and `y` in front gives the same elements as
`x` in front. -/
theorem perm_cons_set {α : Type} (x y : α) :
    ∀ (t : List α) (k : Nat), t[k]? = some y → (y :: t.set k x).Perm (x :: t) := by
  intro t
  induction t with
  | nil => intro k h; simp at h
  | cons z t ih =>
    intro k h
    cases k with
    | zero =>
      have hz : z = y := by simpa using h
      subst hz
      exact List.Perm.swap _ _ _
    | succ k =>
      have hk : t[k]? = some y := by simpa using h
      have h1 := ih k hk
      show (y :: z :: t.set k x).Perm (x :: z :: t)
      exact ((List.Perm.swap z y _).trans (List.Perm.cons z h1)).trans (List.Perm.swap x z _)

/-- Exchanging two elements of a list gives a permutation of the list. -/
theorem perm_set_set {α : Type} :
    ∀ (l : List α) (a b : Nat) (x y : α), l[a]? = some x → l[b]? = some y →
      ((l.set a y).set b x).Perm l := by
  intro l
  induction l with
  | nil => intro a b x y h; simp at h
  | cons z t ih =>
    intro a b x y ha hb
    cases a with
    | zero =>
      have hx : z = x := by simpa using ha
      subst hx
      cases b with
      | zero =>
        show (z :: t).Perm (z :: t)
        exact List.Perm.refl _
      | succ j =>
        have hj : t[j]? = some y := by simpa using hb
        show (y :: t.set j z).Perm (z :: t)
        exact perm_cons_set z y t j hj
    | succ k =>
      have hk : t[k]? = some x := by simpa using ha
      cases b with
      | zero =>
        have hy : z = y := by simpa using hb
        subst hy
        show (x :: t.set k z).Perm (z :: t)
        exact perm_cons_set z x t k hk
      | succ j =>
        have hj : t[j]? = some y := by simpa using hb
        show (z :: (t.set k y).set j x).Perm (z :: t)
        exact List.Perm.cons z (ih k j x y hk hj)

/-- What `SWAP` does to two elements inside the array: it returns, the array
is a permutation of the one before, the two elements have changed places and
the others are where they were. -/
theorem SWAP_spec {α : Type} (base : List α) (a b : Nat) (ha : a < base.length)
    (hb : b < base.length) :
    ∃ base1, SWAP base a b = Outcome.returned base1 ∧ base1.Perm base ∧
      base1[a]? = base[b]? ∧ base1[b]? = base[a]? ∧
      ∀ i, i ≠ a → i ≠ b → base1[i]? = base[i]? := by
  have hxa : base[a]? = some (base.get ⟨a, ha⟩) := List.getElem?_eq_getElem ha
  have hyb : base[b]? = some (base.get ⟨b, hb⟩) := List.getElem?_eq_getElem hb
  have hrun : SWAP base a b =
      if a ≠ b then Outcome.returned ((base.set a (base.get ⟨b, hb⟩)).set b (base.get ⟨a, ha⟩))
      else Outcome.returned base := by
    unfold SWAP
    rw [hxa, hyb]
  by_cases hab : a = b
  · rw [if_neg (by simpa using hab)] at hrun
    refine ⟨base, hrun, List.Perm.refl _, ?_, ?_, fun _ _ _ => rfl⟩
    · rw [hab]
    · rw [hab]
  · rw [if_pos hab] at hrun
    refine ⟨_, hrun, perm_set_set base a b _ _ hxa hyb, ?_, ?_, ?_⟩
    · rw [hyb]
      rw [List.getElem?_set_ne (Ne.symm hab), List.getElem?_set, if_pos rfl, if_pos ha]
    · rw [hxa, List.getElem?_set, if_pos rfl, if_pos (by rw [List.length_set]; exact hb)]
    · intro i hia hib
      rw [List.getElem?_set_ne (Ne.symm hib), List.getElem?_set_ne (Ne.symm hia)]

/-- An array is a rearrangement of itself. -/
theorem rearranged_refl {α : Type} (l r : Nat) (base : List α) : Rearranged l r base base :=
  ⟨List.Perm.refl _, fun _ _ => rfl, fun i h1 h2 => ⟨i, h1, h2, rfl⟩⟩

/-- Two rearrangements of the same range, one after the other, are a
rearrangement of the range. -/
theorem rearranged_trans {α : Type} (l r : Nat) (b0 b1 b2 : List α)
    (h1 : Rearranged l r b0 b1) (h2 : Rearranged l r b1 b2) : Rearranged l r b0 b2 := by
  obtain ⟨p1, o1, m1⟩ := h1
  obtain ⟨p2, o2, m2⟩ := h2
  refine ⟨p2.trans p1, fun i hi => (o2 i hi).trans (o1 i hi), ?_⟩
  intro i hl hr
  obtain ⟨j, hjl, hjr, hj⟩ := m2 i hl hr
  obtain ⟨j1, hj1l, hj1r, hj1⟩ := m1 j hjl hjr
  exact ⟨j1, hj1l, hj1r, hj.trans hj1⟩

/-- A rearrangement of a range is a rearrangement of every range around
it. -/
theorem rearranged_mono {α : Type} (l r l1 r1 : Nat) (b0 b1 : List α)
    (h : Rearranged l1 r1 b0 b1) (hl : l ≤ l1) (hr : r1 ≤ r) : Rearranged l r b0 b1 := by
  obtain ⟨p, o, m⟩ := h
  refine ⟨p, fun i hi => o i (by omega), ?_⟩
  intro i hil hir
  by_cases hin : l1 ≤ i ∧ i ≤ r1
  · obtain ⟨j, hjl, hjr, hj⟩ := m i hin.1 hin.2
    exact ⟨j, by omega, by omega, hj⟩
  · exact ⟨i, hil, hir, o i (by omega)⟩

/-- The exchange of two elements of a range is a rearrangement of the
range. -/
theorem rearranged_swap {α : Type} (l r : Nat) (base base1 : List α) (a b : Nat)
    (hal : l ≤ a) (har : a ≤ r) (hbl : l ≤ b) (hbr : b ≤ r)
    (hp : base1.Perm base) (hab : base1[a]? = base[b]?) (hba : base1[b]? = base[a]?)
    (ho : ∀ i, i ≠ a → i ≠ b → base1[i]? = base[i]?) : Rearranged l r base base1 := by
  refine ⟨hp, fun i hi => ho i (by omega) (by omega), ?_⟩
  intro i hil hir
  by_cases hia : i = a
  · exact ⟨b, hbl, hbr, by rw [hia]; exact hab⟩
  · by_cases hib : i = b
    · exact ⟨a, hal, har, by rw [hib]; exact hba⟩
    · exact ⟨i, hil, hir, ho i hia hib⟩

/-- A loop of `assert`s whose tests all hold, on elements inside the array,
runs to its end. -/
theorem assertLoop_passes {α : Type} (compar : α → α → Int) (base : List α) (line : Nat)
    (cond : Int → Bool) :
    ∀ (pairs : List (Nat × Nat)),
      (∀ pr ∈ pairs, ∃ x y, base[pr.1]? = some x ∧ base[pr.2]? = some y ∧
        cond (compar x y) = true) →
      assertLoop compar base line cond pairs = Outcome.returned () := by
  intro pairs
  induction pairs with
  | nil => intro _; rfl
  | cons pr rest ih =>
    intro h
    obtain ⟨x, y, hx, hy, hc⟩ := h pr (List.mem_cons_self _ _)
    obtain ⟨i, j⟩ := pr
    unfold assertLoop
    simp only at hx hy
    rw [hx, hy]
    simp only
    rw [if_pos hc]
    exact ih (fun q hq => h q (List.mem_cons_of_mem _ hq))

/-- One pass of the loop of `quickfindPartition`. -/
theorem partitionLoop_succ {α : Type} (compar : α → α → Int) (right n i storeIndex : Nat)
    (base : List α) :
    partitionLoop compar right (n + 1) i storeIndex base =
      match base[i]?, base[right]? with
      | some x, some pivot =>
        if compar x pivot ≤ 0 then
          match SWAP base storeIndex i with
          | Outcome.returned base1 =>
            partitionLoop compar right n (i + 1) (storeIndex + 1) base1
          | Outcome.assertFailed line => Outcome.assertFailed line
          | Outcome.fault => Outcome.fault
          | Outcome.hang => Outcome.hang
        else partitionLoop compar right n (i + 1) storeIndex base
      | _, _ => Outcome.fault := rfl

/-- The loop of `quickfindPartition`, entered with the elements from `left`
to `storeIndex - 1` not above the pivot and those from `storeIndex` to `i - 1`
above it: it runs to `i = right` and leaves the elements before `right`
divided in this way, the pivot at `right`. -/
theorem partitionLoop_spec {α : Type} (compar : α → α → Int) (left right : Nat) (pv : α) :
    ∀ (n i store : Nat) (b : List α), i + n = right → left ≤ store → store ≤ i →
      right < b.length → b[right]? = some pv →
      (∀ j x, left ≤ j → j < store → b[j]? = some x → compar x pv ≤ 0) →
      (∀ j x, store ≤ j → j < i → b[j]? = some x → ¬ compar x pv ≤ 0) →
      ∃ s b1, partitionLoop compar right n i store b = Outcome.returned (s, b1) ∧
        left ≤ s ∧ s ≤ right ∧ Rearranged left right b b1 ∧ b1[right]? = some pv ∧
        (∀ j x, left ≤ j → j < s → b1[j]? = some x → compar x pv ≤ 0) ∧
        (∀ j x, s ≤ j → j < right → b1[j]? = some x → ¬ compar x pv ≤ 0) := by
  intro n
  induction n with
  | zero =>
    intro i store b hin hls hsi hlen hpv hlow hhigh
    have hi : i = right := by omega
    subst hi
    exact ⟨store, b, rfl, hls, hsi, rearranged_refl _ _ _, hpv, hlow, hhigh⟩
  | succ n ih =>
    intro i store b hin hls hsi hlen hpv hlow hhigh
    have hilen : i < b.length := by omega
    have hxi : b[i]? = some (b.get ⟨i, hilen⟩) := List.getElem?_eq_getElem hilen
    rw [partitionLoop_succ, hxi, hpv]
    simp only
    by_cases hc : compar (b.get ⟨i, hilen⟩) pv ≤ 0
    · rw [if_pos hc]
      obtain ⟨b1, hsw, hperm, hab, hba, ho⟩ := SWAP_spec b store i (by omega) hilen
      rw [hsw]
      simp only
      have hlen1 : right < b1.length := by rw [hperm.length_eq]; exact hlen
      obtain ⟨s, b2, hrun, h1, h2, hre, hpv2, hlow2, hhigh2⟩ :=
        ih (i + 1) (store + 1) b1 (by omega) (by omega) (by omega) hlen1
          (by rw [ho right (by omega) (by omega)]; exact hpv)
          (by
            intro j x hjl hjs hj
            by_cases hjst : j = store
            · rw [hjst, hab, hxi] at hj
              rw [← Option.some.inj hj]
              exact hc
            · rw [ho j hjst (by omega)] at hj
              exact hlow j x hjl (by omega) hj)
          (by
            intro j x hjs hji hj
            by_cases hjeq : j = i
            · rw [hjeq, hba] at hj
              exact hhigh store x (Nat.le_refl _) (by omega) hj
            · rw [ho j (by omega) hjeq] at hj
              exact hhigh j x (by omega) (by omega) hj)
      exact ⟨s, b2, hrun, by omega, h2,
        rearranged_trans _ _ _ _ _
          (rearranged_swap left right b b1 store i hls (by omega) (by omega) (by omega)
            hperm hab hba ho) hre,
        hpv2, hlow2, hhigh2⟩
    · rw [if_neg hc]
      exact ih (i + 1) store b (by omega) hls (by omega) hlen hpv hlow
        (by
          intro j x hjs hji hj
          by_cases hjeq : j = i
          · rw [hjeq, hxi] at hj
            rw [← Option.some.inj hj]
            exact hc
          · exact hhigh j x hjs (by omega) hj)

/-- What `quickfindPartition` does on a range `left .. right` inside the
array, with or without the checks: it returns the index `p` of the pivot,
the range is rearranged, the elements before `p` are not above the pivot and
the ones behind `p` are above it. -/
theorem quickfindPartition_spec {α : Type} (ndebug : Bool) (compar : α → α → Int)
    (base : List α) (left right pivotIndex : Nat) (hlr : left < right)
    (hpl : left ≤ pivotIndex) (hpr : pivotIndex ≤ right) (hlen : right < base.length)
    (h64 : right < 2 ^ 64) :
    ∃ p b3 pv, quickfindPartition ndebug compar base left right pivotIndex =
        Outcome.returned (p, b3) ∧
      left ≤ p ∧ p ≤ right ∧ Rearranged left right base b3 ∧ b3[p]? = some pv ∧
      (∀ j x, left ≤ j → j < p → b3[j]? = some x → compar x pv ≤ 0) ∧
      (∀ j x, p < j → j ≤ right → b3[j]? = some x → ¬ compar x pv ≤ 0) := by
  obtain ⟨b1, hsw1, hperm1, hab1, hba1, ho1⟩ := SWAP_spec base pivotIndex right (by omega) hlen
  have hlen1 : right < b1.length := by rw [hperm1.length_eq]; exact hlen
  have hpvi : base[pivotIndex]? = some (base.get ⟨pivotIndex, by omega⟩) :=
    List.getElem?_eq_getElem (by omega)
  generalize hpvdef : base.get ⟨pivotIndex, by omega⟩ = pv at hpvi
  have hpv1 : b1[right]? = some pv := by rw [hba1, hpvi]
  have hcount : subU64 right 1 + 1 - left = right - left := by
    rw [subU64_of_le right 1 h64 (by omega)]
    omega
  obtain ⟨s, b2, hloop, hls, hsr, hre2, hpv2, hlow2, hhigh2⟩ :=
    partitionLoop_spec compar left right pv (right - left) left left b1 (by omega)
      (Nat.le_refl _) (Nat.le_refl _) hlen1 hpv1 (fun j x h1 h2 => by omega)
      (fun j x h1 h2 => by omega)
  have hlen2 : b2.length = b1.length := hre2.1.length_eq
  obtain ⟨b3, hsw2, hperm3, hab3, hba3, ho3⟩ := SWAP_spec b2 right s (by omega) (by omega)
  have hlen3 : b3.length = base.length := by
    rw [hperm3.length_eq, hlen2, hperm1.length_eq]
  have hpv3 : b3[s]? = some pv := by rw [hba3, hpv2]
  have hlow3 : ∀ j x, left ≤ j → j < s → b3[j]? = some x → compar x pv ≤ 0 := by
    intro j x hjl hjs hj
    rw [ho3 j (by omega) (by omega)] at hj
    exact hlow2 j x hjl hjs hj
  have hhigh3 : ∀ j x, s < j → j ≤ right → b3[j]? = some x → ¬ compar x pv ≤ 0 := by
    intro j x hsj hjr hj
    by_cases hjeq : j = right
    · rw [hjeq, hab3] at hj
      exact hhigh2 s x (Nat.le_refl _) (by omega) hj
    · rw [ho3 j hjeq (by omega)] at hj
      exact hhigh2 j x (by omega) (by omega) hj
  have hre : Rearranged left right base b3 :=
    rearranged_trans _ _ _ _ _
      (rearranged_trans _ _ _ _ _
        (rearranged_swap left right base b1 pivotIndex right hpl hpr (by omega) (Nat.le_refl _)
          hperm1 hab1 hba1 ho1) hre2)
      (rearranged_swap left right b2 b3 right s (by omega) (Nat.le_refl _) hls hsr
        hperm3 hab3 hba3 ho3)
  refine ⟨s, b3, pv, ?_, hls, hsr, hre, hpv3, hlow3, hhigh3⟩
  unfold quickfindPartition
  rw [hsw1]
  simp only
  rw [hcount, hloop]
  simp only
  rw [hsw2]
  simp only
  cases ndebug with
  | true => rfl
  | false =>
    rw [if_neg (by simp), if_neg (by simpa using hls), if_neg (by simpa using hsr)]
    have hget : ∀ j, j ≤ right → ∃ x, b3[j]? = some x := by
      intro j hj
      exact ⟨b3.get ⟨j, by omega⟩, List.getElem?_eq_getElem (by omega)⟩
    have ha1 : assertLoop compar b3 1103 (fun c => decide (c ≤ 0))
        ((List.range' left (s - left)).map (fun i => (i, s))) = Outcome.returned () := by
      apply assertLoop_passes
      intro pr hpr
      obtain ⟨i, hi, hpi⟩ := List.mem_map.mp hpr
      rw [List.mem_range'_1] at hi
      obtain ⟨x, hx⟩ := hget i (by omega)
      subst hpi
      exact ⟨x, pv, hx, hpv3, by simpa using hlow3 i x hi.1 (by omega) hx⟩
    have ha2 : assertLoop compar b3 1105 (fun c => decide (c ≥ 0))
        ((List.range' (s + 1) (right - s)).map (fun i => (i, s))) = Outcome.returned () := by
      apply assertLoop_passes
      intro pr hpr
      obtain ⟨i, hi, hpi⟩ := List.mem_map.mp hpr
      rw [List.mem_range'_1] at hi
      obtain ⟨x, hx⟩ := hget i (by omega)
      subst hpi
      have := hhigh3 i x (by omega) (by omega) hx
      exact ⟨x, pv, hx, hpv3, by simp only [ge_iff_le, decide_eq_true_eq]; omega⟩
    rw [ha1]
    simp only
    rw [ha2]

/-- One call of `quickfindFirstK`. -/
theorem quickfindFirstK_succ {α : Type} (ndebug : Bool) (compar : α → α → Int) (fuel : Nat)
    (base : List α) (left right k : Nat) :
    quickfindFirstK ndebug compar (fuel + 1) base left right k =
      if right > left then
        match quickfindPartition ndebug compar base left right (left + (right - left) / 2) with
        | Outcome.returned (pivotNewIndex, base1) =>
          if pivotNewIndex > left + k then
            quickfindFirstK ndebug compar fuel base1 left (pivotNewIndex - 1) k
          else if pivotNewIndex < left + k then
            quickfindFirstK ndebug compar fuel base1 (pivotNewIndex + 1) right
              (k + left - pivotNewIndex - 1)
          else Outcome.returned base1
        | Outcome.assertFailed line => Outcome.assertFailed line
        | Outcome.fault => Outcome.fault
        | Outcome.hang => Outcome.hang
      else Outcome.returned base := rfl

/-- Of two elements one is not above the other. -/
theorem compar_total {α : Type} (compar : α → α → Int) (hc : ComparTotalPreorder compar)
    (x y : α) (h : ¬ compar x y ≤ 0) : compar y x ≤ 0 :=
  (hc.2 x y).mp (by omega)

/-- No element is above itself. -/
theorem compar_refl {α : Type} (compar : α → α → Int) (hc : ComparTotalPreorder compar)
    (x : α) : compar x x ≤ 0 := by
  by_contra h
  exact h (compar_total compar hc x x h)

/-- What `quickfindFirstK` does on a range `left .. right` inside the array
for `k` not above `right - left`: it returns, the range is rearranged, its
first `k` elements are not above the others, and the element at `left + k` is
not above any element behind it. -/
theorem quickfindFirstK_spec {α : Type} (ndebug : Bool) (compar : α → α → Int)
    (hc : ComparTotalPreorder compar) :
    ∀ (fuel : Nat) (base : List α) (left right k : Nat), right - left < fuel → left ≤ right →
      right < base.length → right < 2 ^ 64 → k ≤ right - left →
      ∃ b1, quickfindFirstK ndebug compar fuel base left right k = Outcome.returned b1 ∧
        Rearranged left right base b1 ∧
        (∀ i j x y, left ≤ i → i < left + k → left + k ≤ j → j ≤ right →
          b1[i]? = some x → b1[j]? = some y → compar x y ≤ 0) ∧
        (∀ j x y, left + k ≤ j → j ≤ right →
          b1[left + k]? = some x → b1[j]? = some y → compar x y ≤ 0) := by
  intro fuel
  induction fuel with
  | zero => intro base left right k h; omega
  | succ fuel ih =>
    intro base left right k hf hlr hlen h64 hk
    rw [quickfindFirstK_succ]
    by_cases hgt : right > left
    · rw [if_pos hgt]
      obtain ⟨p, b1, pv, hpart, hlp, hpr, hre1, hpv, hlow, hhigh⟩ :=
        quickfindPartition_spec ndebug compar base left right (left + (right - left) / 2) hgt
          (by omega) (by omega) hlen h64
      rw [hpart]
      simp only
      have hlen1 : b1.length = base.length := hre1.1.length_eq
      -- the elements from `p` on are not below the pivot
      have hge : ∀ j y, p ≤ j → j ≤ right → b1[j]? = some y → compar pv y ≤ 0 := by
        intro j y hpj hjr hj
        by_cases hjp : j = p
        · rw [hjp, hpv] at hj
          rw [← Option.some.inj hj]
          exact compar_refl compar hc pv
        · exact compar_total compar hc y pv (hhigh j y (by omega) hjr hj)
      -- the elements up to `p` are not above the pivot
      have hle : ∀ j x, left ≤ j → j ≤ p → b1[j]? = some x → compar x pv ≤ 0 := by
        intro j x hlj hjp hj
        by_cases hjeq : j = p
        · rw [hjeq, hpv] at hj
          rw [← Option.some.inj hj]
          exact compar_refl compar hc pv
        · exact hlow j x hlj (by omega) hj
      by_cases h1 : p > left + k
      · rw [if_pos h1]
        obtain ⟨b2, hrun, hre2, hP1, hP2⟩ := ih b1 left (p - 1) k (by omega) (by omega)
          (by omega) (by omega) (by omega)
        have hout : ∀ j, p ≤ j → b2[j]? = b1[j]? := fun j hj => hre2.2.1 j (by omega)
        have hin : ∀ i x, left ≤ i → i ≤ p - 1 → b2[i]? = some x → compar x pv ≤ 0 := by
          intro i x hli hip hi
          obtain ⟨i1, hi1l, hi1r, hi1⟩ := hre2.2.2 i hli hip
          rw [hi1] at hi
          exact hle i1 x hi1l (by omega) hi
        refine ⟨b2, hrun,
          rearranged_trans _ _ _ _ _ hre1
            (rearranged_mono left right left (p - 1) b1 b2 hre2 (Nat.le_refl _) (by omega)),
          ?_, ?_⟩
        · intro i j x y hli hik hkj hjr hi hj
          by_cases hjp : j ≤ p - 1
          · exact hP1 i j x y hli hik hkj hjp hi hj
          · rw [hout j (by omega)] at hj
            exact hc.1 x pv y (hin i x hli (by omega) hi) (hge j y (by omega) hjr hj)
        · intro j x y hkj hjr hx hj
          by_cases hjp : j ≤ p - 1
          · exact hP2 j x y hkj hjp hx hj
          · rw [hout j (by omega)] at hj
            exact hc.1 x pv y (hin (left + k) x (by omega) (by omega) hx)
              (hge j y (by omega) hjr hj)
      · rw [if_neg h1]
        by_cases h2 : p < left + k
        · rw [if_pos h2]
          have hk1 : p + 1 + (k + left - p - 1) = left + k := by omega
          obtain ⟨b2, hrun, hre2, hP1, hP2⟩ := ih b1 (p + 1) right (k + left - p - 1)
            (by omega) (by omega) (by omega) h64 (by omega)
          rw [hk1] at hP1 hP2
          have hout : ∀ i, i ≤ p → b2[i]? = b1[i]? := fun i hi => hre2.2.1 i (by omega)
          have hin : ∀ j y, p + 1 ≤ j → j ≤ right → b2[j]? = some y → compar pv y ≤ 0 := by
            intro j y hpj hjr hj
            obtain ⟨j1, hj1l, hj1r, hj1⟩ := hre2.2.2 j hpj hjr
            rw [hj1] at hj
            exact hge j1 y (by omega) hj1r hj
          refine ⟨b2, hrun,
            rearranged_trans _ _ _ _ _ hre1
              (rearranged_mono left right (p + 1) right b1 b2 hre2 (by omega) (Nat.le_refl _)),
            ?_, hP2⟩
          intro i j x y hli hik hkj hjr hi hj
          by_cases hip : p + 1 ≤ i
          · exact hP1 i j x y hip hik hkj hjr hi hj
          · rw [hout i (by omega)] at hi
            exact hc.1 x pv y (hle i x hli (by omega) hi) (hin j y (by omega) hjr hj)
        · rw [if_neg h2]
          have hpk : p = left + k := by omega
          refine ⟨b1, rfl, hre1, ?_, ?_⟩
          · intro i j x y hli hik hkj hjr hi hj
            exact hc.1 x pv y (hle i x hli (by omega) hi) (hge j y (by omega) hjr hj)
          · intro j x y hkj hjr hx hj
            rw [← hpk, hpv] at hx
            rw [← Option.some.inj hx]
            exact hge j y (by omega) hjr hj
    · rw [if_neg hgt]
      refine ⟨base, rfl, rearranged_refl _ _ _, ?_, ?_⟩
      · intro i j x y hli hik
        omega
      · intro j x y hkj hjr hx hj
        have hj0 : j = left + k := by omega
        rw [hj0, hx] at hj
        rw [← Option.some.inj hj]
        exact compar_refl compar hc x

/-- One pass of the loop that looks for the worst of the first elements. -/
theorem worstFirstLoop_cons {α : Type} (compar : α → α → Int) (b : List α) (i : Nat)
    (rest : List Nat) (w : Nat) :
    worstFirstLoop compar b (i :: rest) w =
      match b[w]?, b[i]? with
      | some x, some y =>
        if compar x y < 0 then worstFirstLoop compar b rest i
        else worstFirstLoop compar b rest w
      | _, _ => Outcome.fault := rfl

/-- The loop that looks for the worst of the first elements: entered with an
element that is not below any element before `s`, it ends with one that is
not below any element before `s + n`. -/
theorem worstFirstLoop_spec {α : Type} (compar : α → α → Int)
    (hc : ComparTotalPreorder compar) (b : List α) :
    ∀ (n s w : Nat), s + n ≤ b.length → w < s →
      (∀ j x y, j < s → b[j]? = some x → b[w]? = some y → compar x y ≤ 0) →
      ∃ w1, worstFirstLoop compar b (List.range' s n) w = Outcome.returned w1 ∧ w1 < s + n ∧
        ∀ j x y, j < s + n → b[j]? = some x → b[w1]? = some y → compar x y ≤ 0 := by
  intro n
  induction n with
  | zero =>
    intro s w _ hw h
    exact ⟨w, rfl, hw, h⟩
  | succ n ih =>
    intro s w hlen hw h
    have hxw : b[w]? = some (b.get ⟨w, by omega⟩) := List.getElem?_eq_getElem (by omega)
    have hxs : b[s]? = some (b.get ⟨s, by omega⟩) := List.getElem?_eq_getElem (by omega)
    generalize b.get ⟨w, by omega⟩ = xw at hxw
    generalize b.get ⟨s, by omega⟩ = xs at hxs
    have hstep : worstFirstLoop compar b (List.range' s (n + 1)) w =
        if compar xw xs < 0 then worstFirstLoop compar b (List.range' (s + 1) n) s
        else worstFirstLoop compar b (List.range' (s + 1) n) w := by
      rw [List.range'_succ, worstFirstLoop_cons, hxw, hxs]
    rw [hstep]
    by_cases hlt : compar xw xs < 0
    · rw [if_pos hlt]
      obtain ⟨w1, hrun, hw1, hmax⟩ := ih (s + 1) s (by omega) (by omega)
        (by
          intro j x y hj hx hy
          rw [hxs] at hy
          rw [← Option.some.inj hy]
          by_cases hjs : j = s
          · rw [hjs, hxs] at hx
            rw [← Option.some.inj hx]
            exact compar_refl compar hc xs
          · exact hc.1 x xw xs (h j x xw (by omega) hx hxw) (by omega))
      exact ⟨w1, hrun, by omega, fun j x y hj => hmax j x y (by omega)⟩
    · rw [if_neg hlt]
      obtain ⟨w1, hrun, hw1, hmax⟩ := ih (s + 1) w (by omega) (by omega)
        (by
          intro j x y hj hx hy
          by_cases hjs : j = s
          · rw [hjs, hxs] at hx
            rw [hxw] at hy
            rw [← Option.some.inj hx, ← Option.some.inj hy]
            exact (hc.2 xw xs).mp (by omega)
          · exact h j x y (by omega) hx hy)
      exact ⟨w1, hrun, by omega, fun j x y hj => hmax j x y (by omega)⟩

/-- The check `checkBestScoresComeFirst` passes on an array whose first `k`
elements are not above the others and whose element at `k` is not above any
element behind it. -/
theorem checkBestScoresComeFirst_passes {α : Type} (compar : α → α → Int)
    (hc : ComparTotalPreorder compar) (b : List α) (k : Nat) (hk : k < b.length)
    (hP1 : ∀ i j x y, i < k → k ≤ j → b[i]? = some x → b[j]? = some y → compar x y ≤ 0)
    (hP2 : ∀ j x y, k ≤ j → b[k]? = some x → b[j]? = some y → compar x y ≤ 0) :
    checkBestScoresComeFirst compar b b.length k = Outcome.returned () := by
  have hget : ∀ j, j < b.length → ∃ x, b[j]? = some x :=
    fun j hj => ⟨b.get ⟨j, hj⟩, List.getElem?_eq_getElem hj⟩
  obtain ⟨w, hrun, hw, hmax⟩ : ∃ w, worstFirstLoop compar b (List.range' 1 (k - 1)) 0 =
      Outcome.returned w ∧ (w < k ∨ (k = 0 ∧ w = 0)) ∧
      ∀ j x y, j < k → b[j]? = some x → b[w]? = some y → compar x y ≤ 0 := by
    by_cases hk0 : k = 0
    · subst hk0
      exact ⟨0, rfl, Or.inr ⟨rfl, rfl⟩, fun j x y hj => by omega⟩
    · obtain ⟨w1, hrun, hw1, hmax⟩ := worstFirstLoop_spec compar hc b (k - 1) 1 0 (by omega)
        (by omega)
        (by
          intro j x y hj hx hy
          have hj0 : j = 0 := by omega
          rw [hj0] at hx
          rw [hx] at hy
          rw [← Option.some.inj hy]
          exact compar_refl compar hc x)
      exact ⟨w1, hrun, Or.inl (by omega), fun j x y hj => hmax j x y (by omega)⟩
  have hwlen : w < b.length := by omega
  obtain ⟨xw, hxw⟩ := hget w hwlen
  unfold checkBestScoresComeFirst
  rw [hrun]
  simp only
  have ha1 : assertLoop compar b 1141 (fun c => decide (c ≤ 0))
      ((List.range' 0 k).map (fun i => (i, w))) = Outcome.returned () := by
    apply assertLoop_passes
    intro pr hpr
    obtain ⟨i, hi, hpi⟩ := List.mem_map.mp hpr
    rw [List.mem_range'_1] at hi
    obtain ⟨x, hx⟩ := hget i (by omega)
    subst hpi
    exact ⟨x, xw, hx, hxw, by simpa using hmax i x xw (by omega) hx hxw⟩
  have ha2 : assertLoop compar b 1143 (fun c => decide (c ≥ 0))
      ((List.range' k (b.length - k)).map (fun i => (i, w))) = Outcome.returned () := by
    apply assertLoop_passes
    intro pr hpr
    obtain ⟨i, hi, hpi⟩ := List.mem_map.mp hpr
    rw [List.mem_range'_1] at hi
    obtain ⟨x, hx⟩ := hget i (by omega)
    subst hpi
    have hle : compar xw x ≤ 0 := by
      rcases hw with hw | ⟨hk0, hw0⟩
      · exact hP1 w i xw x hw hi.1 hxw hx
      · subst hk0
        subst hw0
        exact hP2 i xw x hi.1 hxw hx
    exact ⟨x, xw, hx, hxw, by simpa using (hc.2 x xw).mpr hle⟩
  rw [ha1]
  simp only
  rw [ha2]

/-- C27.  For every array of `nmemb` elements, every comparator of a total
preorder and every `k < nmemb`, `tr_quickfindFirstK` returns, with the checks
of `quickfindPartition` and `checkBestScoresComeFirst` compiled in or not, so
that none of their assertions fails; the array it leaves is a permutation of
its input, and every element at an index below `k` compares `<= 0` with every
element at an index from `k` on.  For `k >= nmemb` the array is left
unchanged. -/
theorem C27_quickfind_first_k {α : Type} (ndebug : Bool) (compar : α → α → Int)
    (hc : ComparTotalPreorder compar) (base : List α) (k : Nat)
    (h64 : base.length < 2 ^ 64) :
    (k < base.length →
      ∃ base1, tr_quickfindFirstK ndebug compar base base.length k = Outcome.returned base1 ∧
        base1.Perm base ∧
        ∀ i j x y, i < k → k ≤ j → base1[i]? = some x → base1[j]? = some y →
          compar x y ≤ 0) ∧
    (base.length ≤ k →
      tr_quickfindFirstK ndebug compar base base.length k = Outcome.returned base) := by
  constructor
  · intro hk
    obtain ⟨b1, hrun, hre, hP1, hP2⟩ := quickfindFirstK_spec ndebug compar hc base.length base
      0 (base.length - 1) k (by omega) (Nat.zero_le _) (by omega) (by omega) (by omega)
    have hlen : b1.length = base.length := hre.1.length_eq
    have hQ1 : ∀ i j x y, i < k → k ≤ j → b1[i]? = some x → b1[j]? = some y →
        compar x y ≤ 0 := by
      intro i j x y hi hj hx hy
      have hjlen : j < b1.length := by
        by_contra hn
        rw [List.getElem?_eq_none (by omega)] at hy
        exact absurd hy (by simp)
      exact hP1 i j x y (Nat.zero_le _) (by omega) (by omega) (by omega) hx hy
    have hQ2 : ∀ j x y, k ≤ j → b1[k]? = some x → b1[j]? = some y → compar x y ≤ 0 := by
      intro j x y hj hx hy
      have hjlen : j < b1.length := by
        by_contra hn
        rw [List.getElem?_eq_none (by omega)] at hy
        exact absurd hy (by simp)
      exact hP2 j x y (by omega) (by omega) (by rw [Nat.zero_add]; exact hx) hy
    refine ⟨b1, ?_, hre.1, hQ1⟩
    unfold tr_quickfindFirstK
    rw [if_pos hk, hrun]
    simp only
    cases ndebug with
    | true => rfl
    | false =>
      rw [if_neg (by simp)]
      have hcheck := checkBestScoresComeFirst_passes compar hc b1 k (by omega) hQ1 hQ2
      rw [hlen] at hcheck
      rw [hcheck]
  · intro hk
    unfold tr_quickfindFirstK
    rw [if_neg (by omega)]

/-- The difference of two integers is the comparator of their order. -/
theorem comparDifference_totalPreorder :
    ComparTotalPreorder (fun (a b : Int) => a - b) :=
  ⟨fun a b c h1 h2 => by simp only at h1 h2 ⊢; omega,
    fun a b => by simp only; omega⟩

/-- C27 at the array 5, 3, 9, 1, 7 and `k = 2`, with the checks compiled
in. -/
theorem C27_quickfind_first_k_witness :
    ComparTotalPreorder (fun (a b : Int) => a - b) ∧
    ([5, 3, 9, 1, 7] : List Int).length < 2 ^ 64 ∧
    (2 < ([5, 3, 9, 1, 7] : List Int).length →
      ∃ base1, tr_quickfindFirstK false (fun (a b : Int) => a - b) [5, 3, 9, 1, 7]
          ([5, 3, 9, 1, 7] : List Int).length 2 = Outcome.returned base1 ∧
        base1.Perm [5, 3, 9, 1, 7] ∧
        ∀ i j x y, i < 2 → 2 ≤ j → base1[i]? = some x → base1[j]? = some y → x - y ≤ 0) ∧
    (([5, 3, 9, 1, 7] : List Int).length ≤ 2 →
      tr_quickfindFirstK false (fun (a b : Int) => a - b) [5, 3, 9, 1, 7]
        ([5, 3, 9, 1, 7] : List Int).length 2 = Outcome.returned [5, 3, 9, 1, 7]) :=
  ⟨comparDifference_totalPreorder, by decide,
    C27_quickfind_first_k false (fun (a b : Int) => a - b) comparDifference_totalPreorder
      [5, 3, 9, 1, 7] 2 (by decide)⟩

/-- Runs of `tr_quickfindFirstK` with the checks compiled in, evaluated: the
witness of C27, `k = 0`, which brings the least element to the front, and
`k = nmemb`, which changes nothing. -/
theorem tr_quickfindFirstK_examples :
    tr_quickfindFirstK false (fun (a b : Int) => a - b) [5, 3, 9, 1, 7] 5 2 =
      Outcome.returned [1, 3, 5, 7, 9] ∧
    tr_quickfindFirstK false (fun (a b : Int) => a - b) [5, 3, 9, 1, 7] 5 0 =
      Outcome.returned [1, 3, 7, 5, 9] ∧
    tr_quickfindFirstK false (fun (a b : Int) => a - b) [5, 3, 9, 1, 7] 5 5 =
      Outcome.returned [5, 3, 9, 1, 7] := by
  decide
